import Mathlib

/-!
Helium: task scheduler and binary archive

A shallow embedding of `Framework/TaskScheduler.cpp` and
`Foundation/Reflect/ArchiveBinary.cpp`, with the properties the specification
states about them.

Conventions of the embedding

* A pointer to a `TaskDefinition` is the natural number `m_Addr` of the
  definition it points to; comparing two pointers is comparing two numbers.
  A dependency tag (`const TaskDefinition *` used as a map key) is a number
  as well.
* `TaskFunc` is `Option Nat`: `none` is the null function pointer.
* The intrusive list `s_FirstTaskDefinition, m_Next, ...` is a Lean list in
  traversal order.
* A result `none` stands for a run that does not return normally: a failed
  `HELIUM_ASSERT`, a dereferenced dangling pointer, or exhausted fuel of the
  recursive insertion.  The theorems show when this cannot happen.
-/

namespace Helium

/-! ## Data model of the scheduler -/

/-- The two kinds of order requirement (`OrderRequirementTypes`). -/
inductive OrderRequirementType where
  | Before
  | After
deriving DecidableEq, Repr

/-- An order requirement: a dependency tag and the side on which the declaring
task must run relative to every contributor of the tag. -/
structure OrderRequirement where
  m_Dependency : Nat
  m_Type : OrderRequirementType
deriving DecidableEq, Repr

/-- The contract a task declares: tick type, contributed tags, order
requirements. -/
structure TaskContract where
  m_TickType : Nat
  m_ContributedDependencies : List Nat
  m_OrderRequirements : List OrderRequirement
deriving DecidableEq, Repr

/-- A task definition.  `m_Addr` is the address of the definition,
`m_DependencyReverseLookup` the address of its reverse-lookup tag. -/
structure TaskDefinition where
  m_Addr : Nat
  m_Func : Option Nat
  m_DependencyReverseLookup : Nat
  m_Contract : TaskContract
  m_RequiredTasks : List Nat
deriving DecidableEq, Repr

/-- The static state of `TaskScheduler` together with the task list. -/
structure TaskScheduler where
  tasks : List TaskDefinition
  m_ScheduleInfo : List Nat
  m_ScheduleFunc : List (Option Nat)
deriving DecidableEq, Repr

/-- The three arrays `InsertToTaskList` works on. -/
structure TaskLists where
  rTaskInfoList : List Nat
  rTaskFuncList : List (Option Nat)
  rTaskStack : List Nat
deriving DecidableEq, Repr

/-- Dereference a task pointer in the task list. -/
def findTask (ts : List TaskDefinition) (p : Nat) : Option TaskDefinition :=
  ts.find? (fun t => decide (t.m_Addr = p))

/-! ## Pass 1: contract definition and phase mask (lines 21-40) -/

/-- Body of the first loop: define the contract, then null the function of a
task whose tick type misses the requested one.  `DoDefineContract` is declared
in `TaskScheduler.h`; it is a parameter giving the contract a task holds after
the call. -/
def definePass (DoDefineContract : TaskDefinition → TaskContract) (tickType : Nat)
    (task : TaskDefinition) : TaskDefinition :=
  let c := DoDefineContract task
  { task with
    m_Contract := c
    m_Func := if c.m_TickType &&& tickType = 0 then none else task.m_Func }

/-! ## Pass 2: the contribution map (lines 42-65) -/

/-- The lookup `Find` on the dependency map. -/
def mapFind (dep : Nat) : List (Nat × List Nat) → Option (List Nat)
  | [] => none
  | (k, v) :: rest => if k = dep then some v else mapFind dep rest

/-- Lines 51-61: add `task` to the entry of `dep`, creating the entry when the
key is absent. -/
def mapAdd (dep task : Nat) : List (Nat × List Nat) → List (Nat × List Nat)
  | [] => [(dep, [task])]
  | (k, v) :: rest =>
    if k = dep then (k, v ++ [task]) :: rest else (k, v) :: mapAdd dep task rest

/-- The loop over the contributed dependencies of one task. -/
def contributeTask (m : List (Nat × List Nat)) (task : TaskDefinition) :
    List (Nat × List Nat) :=
  task.m_Contract.m_ContributedDependencies.foldl (fun m dep => mapAdd dep task.m_Addr m) m

/-- The second loop over all tasks. -/
def buildContributionMap (ts : List TaskDefinition) : List (Nat × List Nat) :=
  ts.foldl contributeTask []

/-! ## Pass 3: edge materialization (lines 67-105) -/

/-- The statement `target->m_RequiredTasks.Add(value)`. -/
def addRequired (target value : Nat) (ts : List TaskDefinition) : List TaskDefinition :=
  ts.map fun t =>
    if t.m_Addr = target then { t with m_RequiredTasks := t.m_RequiredTasks ++ [value] } else t

/-- Lines 90-99: one before/after pair. -/
def applyPair (ty : OrderRequirementType) (outer inner : Nat) (ts : List TaskDefinition) :
    List TaskDefinition :=
  match ty with
  | .Before => addRequired inner outer ts
  | .After => addRequired outer inner ts

/-- The loop over `inner_task_iter`. -/
def applyInner (ty : OrderRequirementType) (outer : Nat) (inners : List Nat)
    (ts : List TaskDefinition) : List TaskDefinition :=
  inners.foldl (fun ts inner => applyPair ty outer inner ts) ts

/-- The loop over `outer_task_iter`. -/
def applyOuter (ty : OrderRequirementType) (outers inners : List Nat)
    (ts : List TaskDefinition) : List TaskDefinition :=
  outers.foldl (fun ts outer => applyInner ty outer inners ts) ts

/-- The loop over the order requirements of one task; the assertion of line 81
fails when the tag of a requirement has no entry in the map. -/
def applyRequirements (m : List (Nat × List Nat)) (outers : List Nat) :
    List OrderRequirement → List TaskDefinition → Option (List TaskDefinition)
  | [], ts => some ts
  | r :: rs, ts =>
    match mapFind r.m_Dependency m with
    | none => none
    | some inners => applyRequirements m outers rs (applyOuter r.m_Type outers inners ts)

/-- The third loop over all tasks; the assertion of line 73 fails when the
reverse-lookup tag of a task has no entry in the map.  The first list is the
part of the chain still to visit, the second the task list being updated. -/
def materializeEdges (m : List (Nat × List Nat)) :
    List TaskDefinition → List TaskDefinition → Option (List TaskDefinition)
  | [], ts => some ts
  | task :: rest, ts =>
    match mapFind task.m_DependencyReverseLookup m with
    | none => none
    | some outers =>
      match applyRequirements m outers task.m_Contract.m_OrderRequirements ts with
      | none => none
      | some ts' => materializeEdges m rest ts'

/-- The task list after the first three passes: contracts defined, functions
masked, `m_RequiredTasks` holding the resolved prerequisite edges. -/
def resolveEdges (DoDefineContract : TaskDefinition → TaskContract) (tickType : Nat)
    (tasks : List TaskDefinition) : Option (List TaskDefinition) :=
  let ts1 := tasks.map (definePass DoDefineContract tickType)
  materializeEdges (buildContributionMap ts1) ts1 ts1

/-! ## Pass 4: depth-first emission (lines 107-120, 228-292) -/

/-- The loop of lines 278-286 over the required tasks, stopping at the first
failing insertion.  `insert` is the recursive call. -/
def insertPrior (insert : TaskLists → Nat → Option (Bool × TaskLists)) :
    List Nat → TaskLists → Option (Bool × TaskLists)
  | [], l => some (true, l)
  | r :: rs, l =>
    match insert l r with
    | none => none
    | some (false, l') => some (false, l')
    | some (true, l') => insertPrior insert rs l'

/-- The function `InsertToTaskList`.  The first `Nat` is the fuel of the recursion.
`HELIUM_TOOLS` selects the branch of lines 234-251: with it the task is pushed
before the cycle is traced, and in both cases the stack is popped once. -/
def InsertToTaskList (HELIUM_TOOLS : Bool) (ts : List TaskDefinition) :
    Nat → TaskLists → Nat → Option (Bool × TaskLists)
  | 0, _, _ => none
  | fuel + 1, l, pTask =>
    if pTask ∈ l.rTaskStack then
      let stack := if HELIUM_TOOLS then l.rTaskStack ++ [pTask] else l.rTaskStack
      some (false, { l with rTaskStack := stack.dropLast })
    else if pTask ∈ l.rTaskInfoList then
      some (true, l)
    else
      match findTask ts pTask with
      | none => none
      | some task =>
        match insertPrior (InsertToTaskList HELIUM_TOOLS ts fuel) task.m_RequiredTasks
            { l with rTaskStack := l.rTaskStack ++ [pTask] } with
        | none => none
        | some (false, l') => some (false, { l' with rTaskStack := l'.rTaskStack.dropLast })
        | some (true, l') =>
          some (true,
            { rTaskInfoList := l'.rTaskInfoList ++ [pTask]
              rTaskFuncList := l'.rTaskFuncList ++ [task.m_Func]
              rTaskStack := l'.rTaskStack.dropLast })

/-- The loop of lines 109-120 over the task chain (the pointers of the tasks
in traversal order). -/
def insertAll (HELIUM_TOOLS : Bool) (ts : List TaskDefinition) (fuel : Nat) :
    List Nat → TaskLists → Option (Bool × TaskLists) :=
  insertPrior (InsertToTaskList HELIUM_TOOLS ts fuel)

/-! ## Clean-up and compaction (lines 181-215) -/

/-- Lines 185-187. -/
def clearTask (t : TaskDefinition) : TaskDefinition :=
  { t with
    m_RequiredTasks := []
    m_Contract :=
      { t.m_Contract with m_ContributedDependencies := [], m_OrderRequirements := [] } }

/-- The copy loop of lines 196-212.  The first argument counts the iterations
left (`taskCount - i_copy_from`); an index outside an array is `none`. -/
def compactLoop : Nat → Nat → Nat → List (Option Nat) → List Nat →
    Option (Nat × List (Option Nat) × List Nat)
  | 0, _, i_copy_to, funcs, infos => some (i_copy_to, funcs, infos)
  | n + 1, i_copy_from, i_copy_to, funcs, infos =>
    match funcs[i_copy_from]? with
    | none => none
    | some none => compactLoop n (i_copy_from + 1) i_copy_to funcs infos
    | some (some f) =>
      if i_copy_from ≠ i_copy_to then
        match infos[i_copy_from]? with
        | none => none
        | some t =>
          compactLoop n (i_copy_from + 1) (i_copy_to + 1)
            (funcs.set i_copy_to (some f)) (infos.set i_copy_to t)
      else compactLoop n (i_copy_from + 1) (i_copy_to + 1) funcs infos

/-- Lines 191-215: compaction followed by the two `Resize(i_copy_to)`; a
`Resize` that would grow an array is outside the model. -/
def compactSchedule (funcs : List (Option Nat)) (infos : List Nat) :
    Option (List (Option Nat) × List Nat) :=
  match compactLoop funcs.length 0 0 funcs infos with
  | none => none
  | some (n, funcs', infos') =>
    if n ≤ infos'.length then some (funcs'.take n, infos'.take n) else none

/-! ## `TaskScheduler::CalculateSchedule` -/

/-- The method `CalculateSchedule(tickType)`: the result and the state it leaves. -/
def CalculateSchedule (HELIUM_TOOLS : Bool) (DoDefineContract : TaskDefinition → TaskContract)
    (tickType : Nat) (s : TaskScheduler) : Option (Bool × TaskScheduler) :=
  match resolveEdges DoDefineContract tickType s.tasks with
  | none => none
  | some ts =>
    match insertAll HELIUM_TOOLS ts (ts.length + 1) (ts.map (·.m_Addr))
        { rTaskInfoList := s.m_ScheduleInfo, rTaskFuncList := s.m_ScheduleFunc,
          rTaskStack := [] } with
    | none => none
    | some (false, _) =>
      some (false, { tasks := ts, m_ScheduleInfo := [], m_ScheduleFunc := [] })
    | some (true, l) =>
      match compactSchedule l.rTaskFuncList l.rTaskInfoList with
      | none => none
      | some (funcs, infos) =>
        some (true, { tasks := ts.map clearTask, m_ScheduleInfo := infos, m_ScheduleFunc := funcs })

/-! ## Notions used to state the properties of the scheduler -/

/-- The prerequisite edge `a → b` of a task list: the task at `a` holds `b` in
its `m_RequiredTasks`. -/
def Requires (ts : List TaskDefinition) (a b : Nat) : Prop :=
  ∃ t, findTask ts a = some t ∧ b ∈ t.m_RequiredTasks

/-- The function `pTask->m_Func` of the task at `p`. -/
def funcOf (ts : List TaskDefinition) (p : Nat) : Option Nat :=
  (findTask ts p).bind (·.m_Func)

/-- The entries `added` appended to an info list `base` are emitted in
dependency order: each one is a task of the list, is new, and finds all the
tasks it requires earlier in the list. -/
def Emitted (ts : List TaskDefinition) : List Nat → List Nat → Prop
  | _, [] => True
  | base, x :: rest =>
    x ∉ base ∧ (∃ t, findTask ts x = some t) ∧ (∀ r, Requires ts x r → r ∈ base) ∧
      Emitted ts (base ++ [x]) rest

/-- What a successful insertion does to the three arrays: the stack is
restored, and the two schedule arrays grow by entries emitted in dependency
order, none of which was on the stack. -/
def Extends (ts : List TaskDefinition) (l l' : TaskLists) : Prop :=
  l'.rTaskStack = l.rTaskStack ∧
    ∃ added, l'.rTaskInfoList = l.rTaskInfoList ++ added ∧
      l'.rTaskFuncList = l.rTaskFuncList ++ added.map (funcOf ts) ∧
      Emitted ts l.rTaskInfoList added ∧ ∀ x ∈ added, x ∉ l.rTaskStack

/-- Every task pointer stored in an `m_RequiredTasks` array points into the
task list. -/
def RequiredValid (ts : List TaskDefinition) : Prop :=
  ∀ t ∈ ts, ∀ r ∈ t.m_RequiredTasks, r ∈ ts.map (·.m_Addr)

/-- The entries of `m_ScheduleFunc` that survive compaction. -/
def keptFuncs (funcs : List (Option Nat)) : List (Option Nat) :=
  funcs.filter (·.isSome)

/-- The entries of `m_ScheduleInfo` that survive compaction: those standing
beside a non-null function. -/
def keptInfos : List (Option Nat) → List Nat → List Nat
  | some _ :: fs, t :: is => t :: keptInfos fs is
  | none :: fs, _ :: is => keptInfos fs is
  | _, _ => []

/-- The task `t'` is the task `t` with further pointers, all satisfying `P`,
appended to `m_RequiredTasks`. -/
def Grows (P : Nat → Prop) (t t' : TaskDefinition) : Prop :=
  t'.m_Addr = t.m_Addr ∧ t'.m_Func = t.m_Func ∧
    t'.m_DependencyReverseLookup = t.m_DependencyReverseLookup ∧
    t'.m_Contract = t.m_Contract ∧
    ∃ extra, t'.m_RequiredTasks = t.m_RequiredTasks ++ extra ∧ ∀ x ∈ extra, P x

/-- The task list `ts'` is `ts` with some `m_RequiredTasks` arrays grown. -/
def Grown (P : Nat → Prop) (ts ts' : List TaskDefinition) : Prop :=
  ∃ g : TaskDefinition → TaskDefinition, ts' = ts.map g ∧ ∀ t, Grows P t (g t)

/-- The edge one before/after pair asks for: with `Before` every inner task
requires the outer one, with `After` the outer task requires the inner one. -/
def pairEdge (ts : List TaskDefinition) (ty : OrderRequirementType) (outer inner : Nat) : Prop :=
  match ty with
  | .Before => Requires ts inner outer
  | .After => Requires ts outer inner

/-- The task at `x` is recorded in the dependency map as a contributor of
`tag`. -/
def Contributor (m : List (Nat × List Nat)) (tag x : Nat) : Prop :=
  ∃ l, mapFind tag m = some l ∧ x ∈ l

/-- A prerequisite edge between two tasks that are both absent from the
cached schedule. -/
def RequiresOutside (ts : List TaskDefinition) (cache : List Nat) (a b : Nat) : Prop :=
  Requires ts a b ∧ a ∉ cache ∧ b ∉ cache

/-- The task list after the first loop of `CalculateSchedule`. -/
def definedTasks (DoDefineContract : TaskDefinition → TaskContract) (tickType : Nat)
    (tasks : List TaskDefinition) : List TaskDefinition :=
  tasks.map (definePass DoDefineContract tickType)

/-- Some task of the list contributes to the tag. -/
def TagHasContributor (DoDefineContract : TaskDefinition → TaskContract)
    (tasks : List TaskDefinition) (tag : Nat) : Prop :=
  ∃ c ∈ tasks, tag ∈ (DoDefineContract c).m_ContributedDependencies

/-- The task at `a` is declared to run before the task at `b`: `a` holds the
requirement `Before` on the reverse-lookup tag of `b`, or `b` holds the
requirement `After` on the reverse-lookup tag of `a`. -/
def DeclaredBefore (DoDefineContract : TaskDefinition → TaskContract)
    (tasks : List TaskDefinition) (a b : Nat) : Prop :=
  ∃ ta ∈ tasks, ∃ tb ∈ tasks, ta.m_Addr = a ∧ tb.m_Addr = b ∧
    ((⟨tb.m_DependencyReverseLookup, .Before⟩ : OrderRequirement) ∈
        (DoDefineContract ta).m_OrderRequirements ∨
      (⟨ta.m_DependencyReverseLookup, .After⟩ : OrderRequirement) ∈
        (DoDefineContract tb).m_OrderRequirements)

/-- Deciding `Requires` by following the pointer. -/
instance Requires.decidable (ts : List TaskDefinition) (a b : Nat) :
    Decidable (Requires ts a b) :=
  match h : findTask ts a with
  | none => isFalse (by rintro ⟨t, ht, _⟩; rw [h] at ht; cases ht)
  | some t =>
    if hb : b ∈ t.m_RequiredTasks then isTrue ⟨t, h, hb⟩
    else isFalse (by rintro ⟨t', ht', hb'⟩; rw [h] at ht'; cases ht'; exact hb hb')

/-! ## Scenarios of the specification -/

/-- A task definition at address `addr` whose reverse-lookup tag is at
`100 + addr`, with an empty contract and no required task yet. -/
def scenarioTask (addr : Nat) (func : Option Nat) : TaskDefinition :=
  { m_Addr := addr, m_Func := func, m_DependencyReverseLookup := 100 + addr,
    m_Contract := { m_TickType := 0, m_ContributedDependencies := [], m_OrderRequirements := [] },
    m_RequiredTasks := [] }

/-- Scenario S4: the tasks A, B, C, D at the addresses 1, 2, 3, 4 and the
abstract task T, whose function is null, at the address 5. -/
def s4Tasks : List TaskDefinition :=
  [scenarioTask 1 (some 11), scenarioTask 2 (some 12), scenarioTask 3 (some 13),
    scenarioTask 4 (some 14), scenarioTask 5 none]

/-- The contracts of scenario S4 as `DoDefineContract` leaves them, all with
tick type 1: `A.Before(B)`, `A.After(T)`, `C.After(B)`, `D.Contributes(T)`,
and every task contributing to its own tag. -/
def s4Contract (t : TaskDefinition) : TaskContract :=
  match t.m_Addr with
  | 1 => { m_TickType := 1, m_ContributedDependencies := [101],
           m_OrderRequirements := [⟨102, .Before⟩, ⟨105, .After⟩] }
  | 2 => { m_TickType := 1, m_ContributedDependencies := [102], m_OrderRequirements := [] }
  | 3 => { m_TickType := 1, m_ContributedDependencies := [103],
           m_OrderRequirements := [⟨102, .After⟩] }
  | 4 => { m_TickType := 1, m_ContributedDependencies := [104, 105],
           m_OrderRequirements := [] }
  | _ => { m_TickType := 1, m_ContributedDependencies := [100 + t.m_Addr],
           m_OrderRequirements := [] }

/-- A rank that decreases along every prerequisite edge of scenario S4. -/
def s4Rank (a : Nat) : Nat :=
  match a with
  | 1 => 1
  | 2 => 2
  | 3 => 3
  | _ => 0

/-- A contract with tick type 1 and the contribution of a task to its own
tag. -/
def plainContract (t : TaskDefinition) : TaskContract :=
  { m_TickType := 1, m_ContributedDependencies := [t.m_DependencyReverseLookup],
    m_OrderRequirements := [] }

/-- The contracts of the propagation scenario: the tasks A, X, B at the
addresses 1, 2, 3, with `A.Before(X)` and `B.After(X)`; X has tick type 2,
the others tick type 1. -/
def chainContract (t : TaskDefinition) : TaskContract :=
  match t.m_Addr with
  | 1 => { m_TickType := 1, m_ContributedDependencies := [101],
           m_OrderRequirements := [⟨102, .Before⟩] }
  | 2 => { m_TickType := 2, m_ContributedDependencies := [102], m_OrderRequirements := [] }
  | _ => { m_TickType := 1, m_ContributedDependencies := [100 + t.m_Addr],
           m_OrderRequirements := [⟨102, .After⟩] }

/-- The task list of the propagation scenario, linked in the order B, X, A. -/
def chainTasks : List TaskDefinition :=
  [scenarioTask 3 (some 13), scenarioTask 2 (some 12), scenarioTask 1 (some 11)]

/-- The state `CalculateSchedule(1)` leaves in the propagation scenario: the
schedule A, B, without the task X. -/
def chainResult : TaskScheduler :=
  { tasks := chainTasks.map (fun t => clearTask (definePass chainContract 1 t)),
    m_ScheduleInfo := [1, 3], m_ScheduleFunc := [some 11, some 13] }

/-! ## Standard dependencies (lines 305-341) -/

/-- Modelled from the spec: `TaskContract::ExecuteBefore<T>()`, declared in
`TaskScheduler.h`, emits the order requirement `Before` on the tag of `T`. -/
def TaskContract.ExecuteBefore (rContract : TaskContract) (tag : Nat) : TaskContract :=
  { rContract with
    m_OrderRequirements := rContract.m_OrderRequirements ++ [⟨tag, .Before⟩] }

/-- Modelled from the spec: `TaskContract::ExecuteAfter<T>()`, declared in
`TaskScheduler.h`, emits the order requirement `After` on the tag of `T`. -/
def TaskContract.ExecuteAfter (rContract : TaskContract) (tag : Nat) : TaskContract :=
  { rContract with
    m_OrderRequirements := rContract.m_OrderRequirements ++ [⟨tag, .After⟩] }

/-- The addresses of the reverse-lookup tags of the six standard abstract
tasks. -/
structure StandardTags where
  ReceiveInput : Nat
  PrePhysicsGameplay : Nat
  ProcessPhysics : Nat
  PostPhysicsGameplay : Nat
  Render : Nat
  PostRender : Nat
deriving DecidableEq, Repr

/-- Lines 308-311. -/
def StandardDependencies.ReceiveInput.DefineContract (tags : StandardTags)
    (rContract : TaskContract) : TaskContract :=
  rContract.ExecuteBefore tags.PrePhysicsGameplay

/-- Lines 314-317. -/
def StandardDependencies.PrePhysicsGameplay.DefineContract (tags : StandardTags)
    (rContract : TaskContract) : TaskContract :=
  rContract.ExecuteBefore tags.ProcessPhysics

/-- Lines 320-323. -/
def StandardDependencies.ProcessPhysics.DefineContract (_tags : StandardTags)
    (rContract : TaskContract) : TaskContract :=
  rContract

/-- Lines 326-329. -/
def StandardDependencies.PostPhysicsGameplay.DefineContract (tags : StandardTags)
    (rContract : TaskContract) : TaskContract :=
  rContract.ExecuteAfter tags.ProcessPhysics

/-- Lines 332-335. -/
def StandardDependencies.Render.DefineContract (tags : StandardTags)
    (rContract : TaskContract) : TaskContract :=
  rContract.ExecuteAfter tags.PostPhysicsGameplay

/-- Lines 338-341. -/
def StandardDependencies.PostRender.DefineContract (tags : StandardTags)
    (rContract : TaskContract) : TaskContract :=
  rContract.ExecuteAfter tags.Render

/-- The tag at a position of the chain ReceiveInput, PrePhysicsGameplay,
ProcessPhysics, PostPhysicsGameplay, Render, PostRender. -/
def StandardTags.tagAt (tags : StandardTags) : Nat → Nat
  | 0 => tags.ReceiveInput
  | 1 => tags.PrePhysicsGameplay
  | 2 => tags.ProcessPhysics
  | 3 => tags.PostPhysicsGameplay
  | 4 => tags.Render
  | _ => tags.PostRender

/-- The `DefineContract` of the standard abstract task at a position of the
chain. -/
def StandardDependencies.DefineContract (tags : StandardTags) :
    Nat → TaskContract → TaskContract
  | 0 => StandardDependencies.ReceiveInput.DefineContract tags
  | 1 => StandardDependencies.PrePhysicsGameplay.DefineContract tags
  | 2 => StandardDependencies.ProcessPhysics.DefineContract tags
  | 3 => StandardDependencies.PostPhysicsGameplay.DefineContract tags
  | 4 => StandardDependencies.Render.DefineContract tags
  | _ => StandardDependencies.PostRender.DefineContract tags

/-- The six standard abstract tasks are in the task list, and the contract each
holds after `DoDefineContract` is the one its `DefineContract` builds from a
contract that contributes to the task's own tag. -/
def StandardBackbone (DoDefineContract : TaskDefinition → TaskContract)
    (tasks : List TaskDefinition) (tags : StandardTags) : Prop :=
  ∀ k, k < 6 → ∃ t ∈ tasks, t.m_DependencyReverseLookup = tags.tagAt k ∧
    ∃ c : TaskContract, tags.tagAt k ∈ c.m_ContributedDependencies ∧
      DoDefineContract t = StandardDependencies.DefineContract tags k c

/-- The tags of the backbone scenario: 200, ..., 205. -/
def backboneTags : StandardTags :=
  { ReceiveInput := 200, PrePhysicsGameplay := 201, ProcessPhysics := 202,
    PostPhysicsGameplay := 203, Render := 204, PostRender := 205 }

/-- The backbone scenario: the six standard abstract tasks at the addresses
100, ..., 105 with the tags 200, ..., 205, the task Q at the address 2
contributing to PostRender, and the task P at the address 1 contributing to
ReceiveInput. -/
def backboneTasks : List TaskDefinition :=
  [scenarioTask 2 (some 12), scenarioTask 1 (some 11),
    scenarioTask 100 none, scenarioTask 101 none, scenarioTask 102 none,
    scenarioTask 103 none, scenarioTask 104 none, scenarioTask 105 none]

/-- The contracts of the backbone scenario after `DoDefineContract`. -/
def backboneContract (t : TaskDefinition) : TaskContract :=
  match t.m_Addr with
  | 1 => { m_TickType := 1, m_ContributedDependencies := [101, 200],
           m_OrderRequirements := [] }
  | 2 => { m_TickType := 1, m_ContributedDependencies := [102, 205],
           m_OrderRequirements := [] }
  | a => StandardDependencies.DefineContract backboneTags (a - 100)
           { m_TickType := 1, m_ContributedDependencies := [100 + a],
             m_OrderRequirements := [] }

/-- The state `CalculateSchedule(1)` leaves in the backbone scenario. -/
def backboneResult : TaskScheduler :=
  { tasks := backboneTasks.map (fun t => clearTask (definePass backboneContract 1 t)),
    m_ScheduleInfo := [1, 2], m_ScheduleFunc := [some 11, some 12] }

/-! # The binary archive (`Foundation/Reflect/ArchiveBinary.cpp`)

Conventions of the embedding

* A byte is a natural number below 256, a stream a list of bytes with a read
  and a write position.  Machine integers are natural numbers; a value stored
  in `uint32_t` is reduced modulo `2 ^ 32`.
* A thrown exception is `Except.error`; a failed `HELIUM_ASSERT` or a
  dereferenced null pointer is the error `Crash`.
* The classes `Stream`, `Element`, `Data`, `Class`, `Field` and the CRC
  functions are declared outside the files at hand; what the archive needs of
  them is modelled from the specification and marked as such.
* Status events have no listener, so `m_Abort` is never set by one, and the
  visitor hooks `PreSerialize`, `PostSerialize`, `PreDeserialize` do nothing.
-/

/-! ## Bytes and integers -/

/-- The byte order of a stream. -/
inductive ByteOrder where
  | LittleEndian
  | BigEndian
deriving DecidableEq, Repr

/-- The `size` low bytes of `v`, least significant first. -/
def leBytes : Nat → Nat → List Nat
  | 0, _ => []
  | size + 1, v => v % 256 :: leBytes size (v / 256)

/-- The value of a list of bytes, least significant first. -/
def leValue : List Nat → Nat
  | [] => 0
  | b :: bs => b + 256 * leValue bs

/-- The `size` bytes a stream of byte order `order` holds for the integer
`v`. -/
def toBytes (order : ByteOrder) (size v : Nat) : List Nat :=
  match order with
  | .LittleEndian => leBytes size v
  | .BigEndian => (leBytes size v).reverse

/-- The integer a stream of byte order `order` reads from the bytes `bs`. -/
def ofBytes (order : ByteOrder) (bs : List Nat) : Nat :=
  match order with
  | .LittleEndian => leValue bs
  | .BigEndian => leValue bs.reverse

/-- The modulus of `uint32_t`. -/
def UINT32 : Nat := 4294967296

/-! ## CRC-32 -/

/-- Modelled from the spec: CRC-32 with the IEEE polynomial (`CRC32.h` is not
under src/); one bit of the reflected shift register. -/
def crcBit (c : Nat) : Nat :=
  if c % 2 = 1 then (c / 2) ^^^ 0xEDB88320 else c / 2

/-- Modelled from the spec: the CRC-32 register after one more byte. -/
def crcByte (c b : Nat) : Nat :=
  crcBit (crcBit (crcBit (crcBit (crcBit (crcBit (crcBit (crcBit
    ((c ^^^ (b % 256)) % 4294967296))))))))

/-- Modelled from the spec: the shift register of the CRC-32 after the bytes
of a buffer. -/
def crcRegister (c : Nat) (block : List Nat) : Nat :=
  block.foldl crcByte c

/-- Modelled from the spec: `Helium::BeginCrc32`, the CRC-32 of no data. -/
def BeginCrc32 : Nat := 0

/-- Modelled from the spec: `Helium::UpdateCrc32`, the CRC-32 of the data seen
so far extended by a buffer.  The running value is the complement of the
shift register, as in ZIP: the value of a stream read block by block is the
CRC-32 of the whole stream, and the CRC-32 of "123456789" is 0xCBF43926. -/
def UpdateCrc32 (crc : Nat) (block : List Nat) : Nat :=
  crcRegister (crc ^^^ 0xFFFFFFFF) block ^^^ 0xFFFFFFFF

/-- Modelled from the spec: `Helium::Crc32` of a name, the stable 32-bit hash
that is the wire identity of a type or a field. -/
def Crc32 (name : String) : Nat :=
  UpdateCrc32 BeginCrc32 (name.toList.map Char.toNat)

/-- Line 19. -/
def CURRENT_VERSION : Nat := 7

/-- Line 22. -/
def CRC_DEFAULT : Nat := 0x10101010

/-- Line 23. -/
def CRC_INVALID : Nat := 0xffffffff

/-- Line 28. -/
def CRC_BLOCK_SIZE : Nat := 4096

/-! ## Streams -/

/-- What `ArchiveBinary` can throw, and the ways it can stop abnormally. -/
inductive ArchiveException where
  | StreamEmpty
  | UnknownByteOrder
  | UnknownEncoding
  | VersionTooHigh
  | ChecksumIncomplete
  | ChecksumMismatch
  | UnterminatedElementArray
  | UnterminatedFieldArray
  | UnknownFieldData
  | InvalidFieldType
  | StreamFailure
  | Crash
deriving DecidableEq, Repr

/-- Modelled from the spec: `Reflect::Stream<char>` (`Stream.h` is not under
src/), a byte stream with a byte order, a read position, a write position and
the end-of-file flag that `Done` reports. -/
structure CharStream where
  m_ByteOrder : ByteOrder
  data : List Nat
  readPos : Nat
  writePos : Nat
  eof : Bool
deriving DecidableEq, Repr

/-- A stream just opened for writing. -/
def CharStream.opened (order : ByteOrder) : CharStream :=
  { m_ByteOrder := order, data := [], readPos := 0, writePos := 0, eof := false }

/-- A stream just opened for reading the bytes `data`. -/
def CharStream.ofData (order : ByteOrder) (data : List Nat) : CharStream :=
  { m_ByteOrder := order, data := data, readPos := 0, writePos := 0, eof := false }

/-- Modelled from the spec: `WriteBuffer`, the bytes overwrite the stream at
the write position and extend it at its end. -/
def CharStream.WriteBuffer (s : CharStream) (bs : List Nat) : CharStream :=
  { s with
    data := s.data.take s.writePos ++ bs ++ s.data.drop (s.writePos + bs.length)
    writePos := s.writePos + bs.length }

/-- Modelled from the spec: `Write(&v)` for an integer of `size` bytes, in the
byte order of the stream. -/
def CharStream.Write (s : CharStream) (size v : Nat) : CharStream :=
  s.WriteBuffer (toBytes s.m_ByteOrder size v)

/-- Modelled from the spec: `SeekWrite(offset, beg)`. -/
def CharStream.SeekWrite (s : CharStream) (offset : Nat) : CharStream :=
  { s with writePos := offset }

/-- Modelled from the spec: `SeekWrite(0, end)`. -/
def CharStream.SeekWriteEnd (s : CharStream) : CharStream :=
  { s with writePos := s.data.length }

/-- Modelled from the spec: `SeekRead(offset, beg)`. -/
def CharStream.SeekRead (s : CharStream) (offset : Nat) : CharStream :=
  { s with readPos := offset }

/-- Modelled from the spec: `ReadBuffer` followed by `ElementsRead`: up to
`count` bytes are read; reading less than asked sets the end-of-file flag. -/
def CharStream.ReadBuffer (s : CharStream) (count : Nat) : List Nat × CharStream :=
  let got := (s.data.drop s.readPos).take count
  (got, { s with readPos := s.readPos + got.length, eof := s.eof || decide (got.length < count) })

/-- Modelled from the spec: `Read(&v)` for an integer of `size` bytes, in the
byte order of the stream; a read past the end is a stream failure. -/
def CharStream.Read (s : CharStream) (size : Nat) : Except ArchiveException (Nat × CharStream) :=
  if s.readPos + size ≤ s.data.length then
    .ok (ofBytes s.m_ByteOrder ((s.data.drop s.readPos).take size),
      { s with readPos := s.readPos + size })
  else .error .StreamFailure

/-- Modelled from the spec: `SeekRead(offset, cur)` with a signed offset; a
seek outside the stream is a stream failure. -/
def CharStream.SeekReadCur (s : CharStream) (offset : Int) :
    Except ArchiveException CharStream :=
  if 0 ≤ (s.readPos : Int) + offset ∧ (s.readPos : Int) + offset ≤ s.data.length then
    .ok { s with readPos := ((s.readPos : Int) + offset).toNat }
  else .error .StreamFailure

/-- The loops of lines 182-196 and 305-319: blocks of `CRC_BLOCK_SIZE` bytes go
through the CRC until the stream is `Done`.  The first argument bounds the
number of rounds. -/
def crcLoop : Nat → Nat → CharStream → Nat × CharStream
  | 0, crc, s => (crc, s)
  | rounds + 1, crc, s =>
    if s.eof then (crc, s)
    else
      let (block, s') := s.ReadBuffer CRC_BLOCK_SIZE
      crcLoop rounds (UpdateCrc32 crc block) s'

/-! ## Reflection data -/

/-- The data classes of the model: a scalar stored in `size` raw bytes, and a
sequence of such scalars. -/
inductive DataKind where
  | simple (size : Nat)
  | stlVector (size : Nat)
deriving DecidableEq, Repr

/-- The value a data object or a field holds. -/
inductive Value where
  | scalar (v : Nat)
  | sequence (items : List Nat)
deriving DecidableEq, Repr

/-- Modelled from the spec: a class derived from `Data`, registered under its
name; `m_Kind` stands for its virtual `Serialize` and `Deserialize`. -/
structure DataClass where
  m_Name : String
  m_Kind : DataKind
deriving DecidableEq, Repr

/-- Modelled from the spec: `Reflect::Field`. -/
structure Field where
  m_Name : String
  m_Flags : Nat
  m_Offset : Nat
  m_DataClass : DataClass
  m_Default : Option Value
deriving DecidableEq, Repr

/-- The flag `FieldFlags::Discard`. -/
def FieldFlags.Discard : Nat := 1

/-- The flag `FieldFlags::Force`. -/
def FieldFlags.Force : Nat := 2

/-- The flag `FieldFlags::Hide`. -/
def FieldFlags.Hide : Nat := 4

/-- Modelled from the spec: `Reflect::Composite`, a name, the fields declared
at this level, and the base (`m_Base` is null for `root`). -/
inductive Composite where
  | root (m_Name : String) (m_Fields : List Field)
  | derived (m_Name : String) (m_Fields : List Field) (m_Base : Composite)
deriving DecidableEq, Repr

/-- The name of a composite. -/
def Composite.m_Name : Composite → String
  | .root n _ => n
  | .derived n _ _ => n

/-- The fields declared at the level of a composite. -/
def Composite.m_Fields : Composite → List Field
  | .root _ f => f
  | .derived _ f _ => f

/-- The base pointer of a composite. -/
def Composite.m_Base : Composite → Option Composite
  | .root _ _ => none
  | .derived _ _ b => some b

/-- Lines 468-472 and 474-477: the levels in the order the stack pops them,
the root first. -/
def Composite.bases : Composite → List Composite
  | .root n f => [.root n f]
  | .derived n f b => b.bases ++ [.derived n f b]

/-- Modelled from the spec: a class that is not derived from `Data`; the
creator thunk, when there is one, yields a record with the given slots. -/
structure ObjectClass where
  m_Composite : Composite
  m_Creator : Option (List (Nat × Value))
deriving DecidableEq, Repr

/-- Modelled from the spec: `Reflect::Class`. -/
inductive Class where
  | data (c : DataClass)
  | object (c : ObjectClass)
deriving DecidableEq, Repr

/-- The name of a class. -/
def Class.m_Name : Class → String
  | .data c => c.m_Name
  | .object c => c.m_Composite.m_Name

/-- Modelled from the spec: an instance.  A `data` instance holds the value of
a data object; an `object` instance holds its field slots by offset. -/
inductive Element where
  | data (c : DataClass) (m_Data : Value)
  | object (c : ObjectClass) (slots : List (Nat × Value))
deriving DecidableEq, Repr

/-- The method `GetClass`. -/
def Element.GetClass : Element → Class
  | .data c _ => .data c
  | .object c _ => .object c

/-- The slot at an offset; an absent slot reads as zero. -/
def slotGet (slots : List (Nat × Value)) (offset : Nat) : Value :=
  match slots with
  | [] => .scalar 0
  | (k, v) :: rest => if k = offset then v else slotGet rest offset

/-- Store a value in the slot at an offset. -/
def slotSet (slots : List (Nat × Value)) (offset : Nat) (value : Value) : List (Nat × Value) :=
  match slots with
  | [] => [(offset, value)]
  | (k, v) :: rest =>
    if k = offset then (k, value) :: rest else (k, v) :: slotSet rest offset value

/-- The value of a freshly created data object. -/
def DataKind.initial : DataKind → Value
  | .simple _ => .scalar 0
  | .stlVector _ => .sequence []

/-- Modelled from the spec: `Registry::CreateInstance(const Class*)` as the
archive cache uses it: the creator thunk of the class, null when the class is
null or has no creator. -/
def CreateInstance (type : Option Class) : Option Element :=
  match type with
  | none => none
  | some (.data c) => some (.data c c.m_Kind.initial)
  | some (.object c) => c.m_Creator.map (Element.object c)

/-- A registered type: a class or an enumeration. -/
inductive ReflectType where
  | class_ (c : Class)
  | enumeration (m_Name : String)
deriving DecidableEq, Repr

/-- The registry: the map `m_TypesByHash`. -/
structure Registry where
  m_TypesByHash : List (Nat × ReflectType)
deriving DecidableEq, Repr

/-- The method `Registry::GetType` (Registry.cpp, lines 327-337). -/
def Registry.GetType (r : Registry) (crc : Nat) : Option ReflectType :=
  match r.m_TypesByHash.find? (fun kv => decide (kv.1 = crc)) with
  | some kv => some kv.2
  | none => none

/-- The method `Registry::GetClass` (Registry.cpp, lines 339-342). -/
def Registry.GetClass (r : Registry) (crc : Nat) : Option Class :=
  match r.GetType crc with
  | some (.class_ c) => some c
  | _ => none

/-- Modelled from the spec: `Composite::FindFieldByName`, the field of the
class or of one of its bases whose name has the given hash. -/
def Composite.FindFieldByName : Composite → Nat → Option Field
  | .root _ f, crc => f.find? (fun x => decide (Crc32 x.m_Name = crc))
  | .derived _ f b, crc =>
    match f.find? (fun x => decide (Crc32 x.m_Name = crc)) with
    | some x => some x
    | none => b.FindFieldByName crc

/-- Modelled from the spec: `HasType`, the class or one of its bases is the
given one. -/
def Class.HasType (c : Class) (type : Option Class) : Bool :=
  match type, c with
  | none, _ => false
  | some t, .data d => decide (t = .data d)
  | some t, .object o => o.m_Composite.bases.any (fun b => decide (t.m_Name = b.m_Name))

/-! ## Data objects -/

/-- Modelled from the spec: `Data::Serialize`: a scalar emits its raw bytes in
the byte order of the archive, a sequence emits its count and its items. -/
def dataPayload (order : ByteOrder) : DataKind → Value → List Nat
  | .simple size, .scalar v => toBytes order size v
  | .simple size, .sequence _ => toBytes order size 0
  | .stlVector size, .sequence items =>
    toBytes order 4 items.length ++ (items.map (toBytes order size)).flatten
  | .stlVector _, .scalar _ => toBytes order 4 0

/-- Read `count` integers of `size` bytes. -/
def readItems (size : Nat) : Nat → CharStream → Except ArchiveException (List Nat × CharStream)
  | 0, s => .ok ([], s)
  | count + 1, s =>
    match s.Read size with
    | .error e => .error e
    | .ok (v, s1) =>
      match readItems size count s1 with
      | .error e => .error e
      | .ok (vs, s2) => .ok (v :: vs, s2)

/-- Modelled from the spec: `Data::Deserialize`, the converse of
`Data::Serialize`. -/
def dataDeserialize (kind : DataKind) (s : CharStream) :
    Except ArchiveException (Value × CharStream) :=
  match kind with
  | .simple size =>
    match s.Read size with
    | .error e => .error e
    | .ok (v, s1) => .ok (.scalar v, s1)
  | .stlVector size =>
    match s.Read 4 with
    | .error e => .error e
    | .ok (count, s1) =>
      match readItems size count s1 with
      | .error e => .error e
      | .ok (items, s2) => .ok (.sequence items, s2)

/-- Modelled from the spec: `ContainerData::GetSize`. -/
def containerSize : Value → Nat
  | .scalar _ => 0
  | .sequence items => items.length

/-- Modelled from the spec: `HasType(ContainerData)` for a data class. -/
def DataKind.isContainer : DataKind → Bool
  | .simple _ => false
  | .stlVector _ => true

/-! ## The archive -/

/-- An entry of `m_FieldStack`. -/
structure WriteFields where
  m_Count : Nat
  m_CountOffset : Nat
deriving DecidableEq, Repr

/-- The members of `ArchiveBinary` (with those of its base `Archive`).  An
entry `none` of the spool is a null `ElementPtr`. -/
structure ArchiveBinary where
  m_Stream : CharStream
  m_Spool : List (Option Element)
  m_Version : Nat
  m_Size : Nat
  m_Skip : Bool
  m_SearchClass : Option Class
  m_Abort : Bool
  m_FieldStack : List WriteFields
deriving DecidableEq, Repr

/-- The constructors (lines 44-58) followed by `OpenStream`. -/
def ArchiveBinary.opened (stream : CharStream) : ArchiveBinary :=
  { m_Stream := stream, m_Spool := [], m_Version := CURRENT_VERSION, m_Size := 0,
    m_Skip := false, m_SearchClass := none, m_Abort := false, m_FieldStack := [] }

/-- The virtual callbacks of `Element` whose answer the archive branches on.
They are user code; the model takes them as parameters. -/
structure ElementCallbacks where
  PostDeserialize : Element → Bool
  ProcessComponent : Element → Element → String → Bool

/-- The flag `ArchiveFlags::Status`. -/
def ArchiveFlags.Status : Nat := 1

/-- The flag `ArchiveFlags::Sparse`. -/
def ArchiveFlags.Sparse : Nat := 2

/-- The terminator `-1` as the four bytes `Write` emits for it. -/
def TERMINATOR : Nat := 0xFFFFFFFF

/-! ### Writing -/

/-- Lines 351-357: the class hash and the placeholder of the length. -/
def ArchiveBinary.beginElement (a : ArchiveBinary) (type : Class) : ArchiveBinary × Nat :=
  let s1 := a.m_Stream.Write 4 (Crc32 type.m_Name)
  let start_offset := s1.writePos % UINT32
  ({ a with m_Stream := s1.Write 4 start_offset }, start_offset)

/-- Lines 404-417: the length is written over its placeholder. -/
def ArchiveBinary.endElement (a : ArchiveBinary) (start_offset : Nat) : ArchiveBinary :=
  let end_offset := a.m_Stream.writePos % UINT32
  let s1 := a.m_Stream.SeekWrite start_offset
  let length := (end_offset + UINT32 - start_offset) % UINT32
  { a with m_Stream := (s1.Write 4 length).SeekWriteEnd }

/-- The method `Serialize(element)` for an instance of a class derived from
`Data` (lines 349-374 and 402-422). -/
def ArchiveBinary.SerializeData (a : ArchiveBinary) (c : DataClass) (value : Value) :
    ArchiveBinary :=
  let r := a.beginElement (.data c)
  let a1 := r.1
  let a2 := { a1 with
    m_Stream := a1.m_Stream.WriteBuffer (dataPayload a1.m_Stream.m_ByteOrder c.m_Kind value) }
  a2.endElement r.2

/-- Lines 509-531: whether a field that is not `Discard` is written, given the
value `data` of the data object connected to it. -/
def shouldSerialize (field : Field) (data : Value) : Bool :=
  let serialize1 :=
    match field.m_Default with
    | some d =>
      let force := decide (field.m_Flags &&& FieldFlags.Force ≠ 0)
      if !force && decide (d = data) then false else true
    | none => true
  if serialize1 && field.m_DataClass.m_Kind.isContainer then
    if containerSize data = 0 then false else serialize1
  else serialize1

/-- The loop of lines 481-561 over the fields of one level.  The flag of the
result tells that the `return` of line 488 was executed. -/
def ArchiveBinary.serializeLevel (slots : List (Nat × Value)) :
    List Field → ArchiveBinary → Except ArchiveException (Bool × ArchiveBinary)
  | [], a => .ok (false, a)
  | field :: rest, a =>
    if field.m_Flags &&& FieldFlags.Discard ≠ 0 then .ok (true, a)
    else
      let data := slotGet slots field.m_Offset
      if shouldSerialize field data then
        let a1 := { a with m_Stream := a.m_Stream.Write 4 (Crc32 field.m_Name) }
        let a2 := a1.SerializeData field.m_DataClass data
        match a2.m_FieldStack with
        | [] => .error .Crash
        | top :: stack =>
          ArchiveBinary.serializeLevel slots rest
            { a2 with m_FieldStack := { top with m_Count := top.m_Count + 1 } :: stack }
      else ArchiveBinary.serializeLevel slots rest a

/-- The loop of lines 474-562 over the levels, the root first. -/
def ArchiveBinary.serializeLevels (slots : List (Nat × Value)) :
    List Composite → ArchiveBinary → Except ArchiveException ArchiveBinary
  | [], a => .ok a
  | current :: bases, a =>
    match ArchiveBinary.serializeLevel slots current.m_Fields a with
    | .error e => .error e
    | .ok (true, a1) => .ok a1
    | .ok (false, a1) => ArchiveBinary.serializeLevels slots bases a1

/-- The method `SerializeFields` (lines 464-563). -/
def ArchiveBinary.SerializeFields (a : ArchiveBinary) (c : ObjectClass)
    (slots : List (Nat × Value)) : Except ArchiveException ArchiveBinary :=
  ArchiveBinary.serializeLevels slots c.m_Composite.bases a

/-- The method `Serialize(element)` (lines 349-422). -/
def ArchiveBinary.Serialize (a : ArchiveBinary) (element : Option Element) :
    Except ArchiveException ArchiveBinary :=
  match element with
  | none => .error .Crash
  | some (.data c value) => .ok (a.SerializeData c value)
  | some (.object c slots) =>
    let r := a.beginElement (.object c)
    let a1 := r.1
    let data : WriteFields := { m_Count := 0, m_CountOffset := a1.m_Stream.writePos }
    let a2 := { a1 with m_FieldStack := data :: a1.m_FieldStack }
    let a3 := { a2 with m_Stream := a2.m_Stream.Write 4 data.m_Count }
    match a3.SerializeFields c slots with
    | .error e => .error e
    | .ok a4 =>
      let a5 := { a4 with m_Stream := a4.m_Stream.Write 4 TERMINATOR }
      match a5.m_FieldStack with
      | [] => .error .Crash
      | top :: stack =>
        let s := (a5.m_Stream.SeekWrite top.m_CountOffset).Write 4 top.m_Count
        let a6 := { a5 with m_Stream := s.SeekWriteEnd, m_FieldStack := stack }
        .ok (a6.endElement r.2)

/-- The loop of lines 435-447. -/
def ArchiveBinary.serializeEach :
    List (Option Element) → ArchiveBinary → Except ArchiveException ArchiveBinary
  | [], a => .ok a
  | element :: rest, a =>
    match a.Serialize element with
    | .error e => .error e
    | .ok a1 => ArchiveBinary.serializeEach rest a1

/-- The method `Serialize(elements, flags)` (lines 424-462). -/
def ArchiveBinary.SerializeVector (a : ArchiveBinary) (elements : List (Option Element)) :
    Except ArchiveException ArchiveBinary :=
  let a1 := { a with m_Stream := a.m_Stream.Write 4 elements.length }
  match ArchiveBinary.serializeEach elements a1 with
  | .error e => .error e
  | .ok a2 => .ok { a2 with m_Stream := a2.m_Stream.Write 4 TERMINATOR }

/-- The method `Write` (lines 243-347).  `UNICODE` is the build option of
lines 259-265. -/
def ArchiveBinary.Write (UNICODE : Bool) (a : ArchiveBinary) :
    Except ArchiveException ArchiveBinary :=
  let s1 := a.m_Stream.Write 2 0xfeff
  let encodingByte := if UNICODE then 1 else 0
  let s2 := s1.Write 1 encodingByte
  if a.m_Version ≠ CURRENT_VERSION then .error .Crash
  else
    let s3 := s2.Write 4 a.m_Version
    let crc_offset := s3.writePos % UINT32
    let s4 := s3.Write 4 CRC_INVALID
    match ({ a with m_Stream := s4 } : ArchiveBinary).SerializeVector a.m_Spool with
    | .error e => .error e
    | .ok a5 =>
      let s6 := a5.m_Stream.SeekRead (crc_offset + 4)
      let r := crcLoop (s6.data.length + 1) BeginCrc32 s6
      let s7 := { r.2 with eof := false }
      let crc := if r.1 = CRC_INVALID then CRC_DEFAULT else r.1
      let s8 := (s7.SeekWrite crc_offset).Write 4 crc
      .ok { a5 with m_Stream := s8.SeekWriteEnd }

/-! ### Reading -/

/-- The method `Allocate` (lines 565-603). -/
def ArchiveBinary.Allocate (registry : Registry) (a : ArchiveBinary) :
    Except ArchiveException (Option Element × ArchiveBinary) :=
  match a.m_Stream.Read 4 with
  | .error e => .error e
  | .ok (typeCrc, s1) =>
    let type := registry.GetClass typeCrc
    match s1.Read 4 with
    | .error e => .error e
    | .ok (length, s2) =>
      if a.m_Skip then
        match s2.SeekReadCur ((length : Int) - 4) with
        | .error e => .error e
        | .ok s3 => .ok (none, { a with m_Stream := s3 })
      else
        match CreateInstance type with
        | some element => .ok (some element, { a with m_Stream := s2 })
        | none =>
          match s2.SeekReadCur ((length : Int) - 4) with
          | .error e => .error e
          | .ok s3 =>
            match type with
            | none => .error .Crash
            | some _ => .ok (none, { a with m_Stream := s3 })

/-- Modelled from the spec: `Data::CastValue` with `DataFlags::Shallow`, which
succeeds between data objects of the same kind. -/
def castValueShallow (source destination : DataClass) (value : Value) : Option Value :=
  if source.m_Kind = destination.m_Kind then some value else none

/-- The body of the loop of lines 730-837 for one field. -/
def ArchiveBinary.deserializeField (callbacks : ElementCallbacks) (registry : Registry)
    (c : ObjectClass) (slots : List (Nat × Value)) (a : ArchiveBinary) :
    Except ArchiveException (List (Nat × Value) × ArchiveBinary) :=
  match a.m_Stream.Read 4 with
  | .error e => .error e
  | .ok (fieldNameCrc, s1) =>
    match c.m_Composite.FindFieldByName fieldNameCrc with
    | none => .error .Crash
    | some field =>
      match ArchiveBinary.Allocate registry { a with m_Stream := s1 } with
      | .error e => .error e
      | .ok (some (.data latent _), a1) =>
        match dataDeserialize latent.m_Kind a1.m_Stream with
        | .error e => .error e
        | .ok (value, s2) =>
          if ¬ callbacks.PostDeserialize (.data latent value) then .error .Crash
          else if field.m_DataClass = field.m_DataClass then
            .ok (slotSet slots field.m_Offset value, { a1 with m_Stream := s2 })
          else
            match castValueShallow latent field.m_DataClass value with
            | some cast => .ok (slotSet slots field.m_Offset cast, { a1 with m_Stream := s2 })
            | none =>
              let _processed :=
                callbacks.ProcessComponent (.object c slots) (.data latent value) field.m_Name
              .ok (slots, { a1 with m_Stream := s2 })
      | .ok (_, _) => .error .UnknownFieldData

/-- The loop of lines 730-837. -/
def ArchiveBinary.deserializeFieldLoop (callbacks : ElementCallbacks) (registry : Registry)
    (c : ObjectClass) :
    Nat → List (Nat × Value) → ArchiveBinary →
      Except ArchiveException (List (Nat × Value) × ArchiveBinary)
  | 0, slots, a => .ok (slots, a)
  | count + 1, slots, a =>
    match ArchiveBinary.deserializeField callbacks registry c slots a with
    | .error e => .error e
    | .ok (slots1, a1) =>
      ArchiveBinary.deserializeFieldLoop callbacks registry c count slots1 a1

/-- The value of an `int32_t` read as four bytes, as the count of a loop
`for (i = 0; i < n; i++)`: a negative number gives no round. -/
def loopCount (n : Nat) : Nat :=
  if n < 2147483648 then n else 0

/-- The method `DeserializeFields` (lines 725-845). -/
def ArchiveBinary.DeserializeFields (callbacks : ElementCallbacks) (registry : Registry)
    (a : ArchiveBinary) (c : ObjectClass) (slots : List (Nat × Value)) :
    Except ArchiveException (List (Nat × Value) × ArchiveBinary) :=
  match a.m_Stream.Read 4 with
  | .error e => .error e
  | .ok (fieldCount, s1) =>
    match ArchiveBinary.deserializeFieldLoop callbacks registry c (loopCount fieldCount) slots
        { a with m_Stream := s1 } with
    | .error e => .error e
    | .ok (slots1, a1) =>
      match a1.m_Stream.Read 4 with
      | .error e => .error e
      | .ok (terminator, s2) =>
        if terminator ≠ TERMINATOR then .error .UnterminatedFieldArray
        else .ok (slots1, { a1 with m_Stream := s2 })

/-- The method `Deserialize(element)` for a null `element` (lines 605-655). -/
def ArchiveBinary.Deserialize (callbacks : ElementCallbacks) (registry : Registry)
    (a : ArchiveBinary) : Except ArchiveException (Option Element × ArchiveBinary) :=
  match ArchiveBinary.Allocate registry a with
  | .error e => .error e
  | .ok (none, a1) => .ok (none, a1)
  | .ok (some (.data c _), a1) =>
    match dataDeserialize c.m_Kind a1.m_Stream with
    | .error e => .error e
    | .ok (value, s2) =>
      let element := Element.data c value
      .ok (if callbacks.PostDeserialize element then some element else none,
        { a1 with m_Stream := s2 })
  | .ok (some (.object c slots), a1) =>
    match ArchiveBinary.DeserializeFields callbacks registry a1 c slots with
    | .error e => .error e
    | .ok (slots1, a2) =>
      let element := Element.object c slots1
      .ok (if callbacks.PostDeserialize element then some element else none, a2)

/-- The loop of lines 672-700. -/
def ArchiveBinary.deserializeEach (callbacks : ElementCallbacks) (registry : Registry)
    (flags : Nat) :
    Nat → List (Option Element) → ArchiveBinary →
      Except ArchiveException (List (Option Element) × ArchiveBinary)
  | 0, elements, a => .ok (elements, a)
  | count + 1, elements, a =>
    if a.m_Abort then .ok (elements, a)
    else
      match ArchiveBinary.Deserialize callbacks registry a with
      | .error e => .error e
      | .ok (element, a1) =>
        let a2 :=
          match element with
          | some e => if e.GetClass.HasType a1.m_SearchClass then { a1 with m_Skip := true } else a1
          | none => a1
        let elements1 :=
          if element.isSome || decide (flags &&& ArchiveFlags.Sparse ≠ 0) then
            elements ++ [element]
          else elements
        ArchiveBinary.deserializeEach callbacks registry flags count elements1 a2

/-- The method `Deserialize(elements, flags)` (lines 657-723). -/
def ArchiveBinary.DeserializeVector (callbacks : ElementCallbacks) (registry : Registry)
    (a : ArchiveBinary) (elements : List (Option Element)) (flags : Nat) :
    Except ArchiveException (List (Option Element) × ArchiveBinary) :=
  match a.m_Stream.Read 4 with
  | .error e => .error e
  | .ok (element_count, s1) =>
    match ArchiveBinary.deserializeEach callbacks registry flags (loopCount element_count)
        elements { a with m_Stream := s1 } with
    | .error e => .error e
    | .ok (elements1, a1) =>
      if a1.m_Abort then .ok (elements1, a1)
      else
        match a1.m_Stream.Read 4 with
        | .error e => .error e
        | .ok (terminator, s2) =>
          if terminator ≠ TERMINATOR then .error .UnterminatedElementArray
          else .ok (elements1, { a1 with m_Stream := s2 })

/-- The method `Read` (lines 93-241).  `g_OverrideCRC` is the global of line
36. -/
def ArchiveBinary.Read (g_OverrideCRC : Bool) (callbacks : ElementCallbacks)
    (registry : Registry) (a : ArchiveBinary) : Except ArchiveException ArchiveBinary :=
  let a0 := { a with m_Abort := false, m_Size := a.m_Stream.data.length,
                     m_Stream := a.m_Stream.SeekRead 0 }
  if a0.m_Size = 0 then .error .StreamEmpty
  else
    match a0.m_Stream.Read 2 with
    | .error e => .error e
    | .ok (byteOrderMarker, s1) =>
      if byteOrderMarker ≠ 0xfeff ∧ byteOrderMarker ≠ 0xfffe then .error .UnknownByteOrder
      else
        match s1.Read 1 with
        | .error e => .error e
        | .ok (encodingByte, s2) =>
          if encodingByte ≠ 0 ∧ encodingByte ≠ 1 then .error .UnknownEncoding
          else
            match s2.Read 4 with
            | .error e => .error e
            | .ok (version, s3) =>
              if version > CURRENT_VERSION then .error .VersionTooHigh
              else
                match s3.Read 4 with
                | .error e => .error e
                | .ok (crc, s4) =>
                  let start := s4.readPos % UINT32
                  let checked : Except ArchiveException CharStream :=
                    if crc ≠ CRC_DEFAULT then
                      let r := crcLoop (s4.data.length + 1) BeginCrc32 s4
                      if r.1 ≠ crc ∧ ¬ g_OverrideCRC then
                        if crc = CRC_INVALID then .error .ChecksumIncomplete
                        else .error .ChecksumMismatch
                      else .ok ({ r.2 with eof := false }.SeekRead start)
                    else .ok s4
                  match checked with
                  | .error e => .error e
                  | .ok s5 =>
                    let a1 := { a0 with m_Version := version, m_Stream := s5,
                                        m_Size := a0.m_Size - start }
                    match ArchiveBinary.DeserializeVector callbacks registry a1 a1.m_Spool
                        ArchiveFlags.Status with
                    | .error e => .error e
                    | .ok (spool, a2) =>
                      .ok { a2 with
                        m_Spool := spool
                        m_Skip := if a2.m_SearchClass.isSome then false else a2.m_Skip }

/-! ## Scenario S1 -/

/-- The data class `I32`. -/
def I32Data : DataClass := { m_Name := "I32", m_Kind := .simple 4 }

/-- The class `Pt { i32 x; i32 y; }` with default `{0, 0}`. -/
def PtClass : ObjectClass :=
  { m_Composite := .root "Pt"
      [{ m_Name := "x", m_Flags := 0, m_Offset := 0, m_DataClass := I32Data,
         m_Default := some (.scalar 0) },
       { m_Name := "y", m_Flags := 0, m_Offset := 4, m_DataClass := I32Data,
         m_Default := some (.scalar 0) }],
    m_Creator := some [(0, .scalar 0), (4, .scalar 0)] }

/-- The record `Pt{x, y}`. -/
def Pt (x y : Nat) : Element := .object PtClass [(0, .scalar x), (4, .scalar y)]

/-- A registry holding `I32` and `Pt` under the hashes of their names. -/
def s1Registry : Registry :=
  { m_TypesByHash := [(Crc32 "I32", .class_ (.data I32Data)),
      (Crc32 "Pt", .class_ (.object PtClass))] }

/-- Callbacks that accept every record and refuse every component. -/
def defaultCallbacks : ElementCallbacks :=
  { PostDeserialize := fun _ => true, ProcessComponent := fun _ _ _ => false }

/-! ## The wire layout of section 4.3 -/

/-- The fields of one level that `SerializeFields` writes, and whether it
returned at a `Discard` field. -/
def levelWritten (slots : List (Nat × Value)) : List Field → List Field × Bool
  | [] => ([], false)
  | field :: rest =>
    if field.m_Flags &&& FieldFlags.Discard ≠ 0 then ([], true)
    else
      let r := levelWritten slots rest
      (if shouldSerialize field (slotGet slots field.m_Offset) then field :: r.1 else r.1, r.2)

/-- The fields of a chain of levels that `SerializeFields` writes. -/
def levelsWritten (slots : List (Nat × Value)) : List Composite → List Field
  | [] => []
  | current :: bases =>
    let r := levelWritten slots current.m_Fields
    if r.2 then r.1 else r.1 ++ levelsWritten slots bases

/-- The fields of a record that `SerializeFields` writes, in stream order. -/
def writtenFields (c : ObjectClass) (slots : List (Nat × Value)) : List Field :=
  levelsWritten slots c.m_Composite.bases

/-- Layout of a data element: class-name hash, record length counted from the
first byte of the length, data payload. -/
def dataElementBytes (order : ByteOrder) (c : DataClass) (value : Value) : List Nat :=
  toBytes order 4 (Crc32 c.m_Name) ++
    toBytes order 4 (4 + (dataPayload order c.m_Kind value).length) ++
    dataPayload order c.m_Kind value

/-- Layout of one field entry: field-name hash, then the data element. -/
def fieldEntryBytes (order : ByteOrder) (slots : List (Nat × Value)) (field : Field) :
    List Nat :=
  toBytes order 4 (Crc32 field.m_Name) ++
    dataElementBytes order field.m_DataClass (slotGet slots field.m_Offset)

/-- Layout of the field entries of a list of fields. -/
def fieldEntriesBytes (order : ByteOrder) (slots : List (Nat × Value)) (fields : List Field) :
    List Nat :=
  (fields.map (fieldEntryBytes order slots)).flatten

/-- Layout of a record: class-name hash, record length, and for a class that is
not a data class the field count, the field entries and the terminator. -/
def elementBytes (order : ByteOrder) : Element → List Nat
  | .data c value => dataElementBytes order c value
  | .object c slots =>
    toBytes order 4 (Crc32 c.m_Composite.m_Name) ++
      toBytes order 4 (12 + (fieldEntriesBytes order slots (writtenFields c slots)).length) ++
      toBytes order 4 (writtenFields c slots).length ++
      fieldEntriesBytes order slots (writtenFields c slots) ++
      toBytes order 4 TERMINATOR

/-- Layout of the element-array block: count, records, terminator. -/
def elementArrayBytes (order : ByteOrder) (elements : List Element) : List Nat :=
  toBytes order 4 elements.length ++ (elements.map (elementBytes order)).flatten ++
    toBytes order 4 TERMINATOR

/-- The archive a fresh `ArchiveBinary` writes for a spool of records. -/
def writeSpool (UNICODE : Bool) (order : ByteOrder) (spool : List Element) :
    Except ArchiveException ArchiveBinary :=
  ArchiveBinary.Write UNICODE
    { ArchiveBinary.opened (CharStream.opened order) with m_Spool := spool.map some }

/-- The spool a fresh `ArchiveBinary` reads from a stream of bytes. -/
def readSpool (g_OverrideCRC : Bool) (callbacks : ElementCallbacks) (registry : Registry)
    (order : ByteOrder) (data : List Nat) : Except ArchiveException (List (Option Element)) :=
  match ArchiveBinary.Read g_OverrideCRC callbacks registry
      (ArchiveBinary.opened (CharStream.ofData order data)) with
  | .error e => .error e
  | .ok a => .ok a.m_Spool

/-- The stream is positioned for appending. -/
def CharStream.AtEnd (s : CharStream) : Prop :=
  s.writePos = s.data.length

/-- The stream with bytes appended at its end. -/
def CharStream.append (s : CharStream) (bs : List Nat) : CharStream :=
  { s with data := s.data ++ bs, writePos := s.data.length + bs.length }

/-- The archive with bytes appended to its stream. -/
def ArchiveBinary.emit (a : ArchiveBinary) (bs : List Nat) : ArchiveBinary :=
  { a with m_Stream := a.m_Stream.append bs }

/-- A value fits the data kind that holds it. -/
def Value.Fits : DataKind → Value → Prop
  | .simple size, .scalar v => v < 256 ^ size
  | .stlVector size, .sequence items => items.length < 2147483648 ∧ ∀ x ∈ items, x < 256 ^ size
  | _, _ => False

instance Value.Fits.decidable : (kind : DataKind) → (value : Value) → Decidable (value.Fits kind)
  | .simple size, .scalar v => inferInstanceAs (Decidable (v < 256 ^ size))
  | .stlVector size, .sequence items =>
    inferInstanceAs (Decidable (items.length < 2147483648 ∧ ∀ x ∈ items, x < 256 ^ size))
  | .simple _, .sequence _ => isFalse (fun h => h)
  | .stlVector _, .scalar _ => isFalse (fun h => h)

/-- Two records are equal field by field: same class, same value in every
slot. -/
def Element.FieldwiseEq : Element → Element → Prop
  | .data c v, .data c' v' => c = c' ∧ v = v'
  | .object c slots, .object c' slots' => c = c' ∧ ∀ offset, slotGet slots offset = slotGet slots' offset
  | _, _ => False

/-- All fields of a class, the root's first. -/
def ObjectClass.allFields (c : ObjectClass) : List Field :=
  (c.m_Composite.bases.map Composite.m_Fields).flatten

/-- The field stack after `n` more fields were counted on its top entry. -/
def bumpTop (n : Nat) : List WriteFields → List WriteFields
  | [] => []
  | top :: stack => { top with m_Count := top.m_Count + n } :: stack

/-- The archive after field entries were appended to its stream and counted. -/
def ArchiveBinary.wrote (a : ArchiveBinary) (bs : List Nat) (n : Nat) : ArchiveBinary :=
  { a with m_Stream := a.m_Stream.append bs, m_FieldStack := bumpTop n a.m_FieldStack }

/-- Layout of the archive header: byte-order mark, encoding, version and
checksum. -/
def headerBytes (UNICODE : Bool) (order : ByteOrder) (crc : Nat) : List Nat :=
  toBytes order 2 0xfeff ++ toBytes order 1 (if UNICODE then 1 else 0) ++
    toBytes order 4 CURRENT_VERSION ++ toBytes order 4 crc

/-- The checksum the writer stores for the bytes that follow the checksum. -/
def storedCrc (payload : List Nat) : Nat :=
  if UpdateCrc32 BeginCrc32 payload = CRC_INVALID then CRC_DEFAULT
  else UpdateCrc32 BeginCrc32 payload

/-- Layout of an archive: header, then the element-array block. -/
def archiveBytes (UNICODE : Bool) (order : ByteOrder) (spool : List Element) : List Nat :=
  headerBytes UNICODE order (storedCrc (elementArrayBytes order spool)) ++
    elementArrayBytes order spool

/-- The stream holds `pre ++ post` and its read position is between the
two. -/
def CharStream.At (s : CharStream) (pre post : List Nat) : Prop :=
  s.data = pre ++ post ∧ s.readPos = pre.length

/-- The stream after `n` more bytes were read. -/
def CharStream.advance (s : CharStream) (n : Nat) : CharStream :=
  { s with readPos := s.readPos + n }

/-- The archive after `n` more bytes of its stream were read. -/
def ArchiveBinary.skip (a : ArchiveBinary) (n : Nat) : ArchiveBinary :=
  { a with m_Stream := a.m_Stream.advance n }

/-- The slots of a record after the reader stored the fields `fields` of the
written record `written` in it. -/
def slotsRead (written : List (Nat × Value)) (fields : List Field)
    (slots : List (Nat × Value)) : List (Nat × Value) :=
  fields.foldl (fun sl f => slotSet sl f.m_Offset (slotGet written f.m_Offset)) slots

/-- What reading a field back takes: the class finds the field under the hash
of its name, the registry finds the data class of the field under the hash of
its name, and the value of the field fits that data class. -/
def Field.Readable (registry : Registry) (c : ObjectClass) (slots : List (Nat × Value))
    (f : Field) : Prop :=
  c.m_Composite.FindFieldByName (Crc32 f.m_Name) = some f ∧
    registry.GetClass (Crc32 f.m_DataClass.m_Name) = some (.data f.m_DataClass) ∧
    (slotGet slots f.m_Offset).Fits f.m_DataClass.m_Kind

instance Field.Readable.decidable (registry : Registry) (c : ObjectClass)
    (slots : List (Nat × Value)) (f : Field) : Decidable (f.Readable registry c slots) := by
  unfold Field.Readable
  exact inferInstance

/-- What reading a record back takes: a data value fits its class, and every
field that is written is readable. -/
def Element.Readable (registry : Registry) : Element → Prop
  | .data c value => value.Fits c.m_Kind
  | .object c slots => ∀ f ∈ writtenFields c slots, f.Readable registry c slots

/-- The record the reader builds from the bytes of the record `written`,
starting from the instance `created` that the creator of its class yields. -/
def readBack : Element → Element → Element
  | .object c slots, .object _ created =>
    .object c (slotsRead slots (writtenFields c slots) created)
  | written, _ => written

/-- What writing keeps of a stream: its byte order and its end-of-file flag,
and no byte is removed. -/
def CharStream.Keeps (s s' : CharStream) : Prop :=
  s'.m_ByteOrder = s.m_ByteOrder ∧ s'.eof = s.eof ∧ s.data.length ≤ s'.data.length

/-- What writing keeps of an archive: what it keeps of the stream, and the
depth of the field stack. -/
def ArchiveBinary.Keeps (a a' : ArchiveBinary) : Prop :=
  a.m_Stream.Keeps a'.m_Stream ∧ a'.m_FieldStack.length = a.m_FieldStack.length

/-! ## The header and the checksum test of `Read` -/

/-- The integer of `size` bytes a stream of byte order `order` holds at
`offset`, when the stream is long enough. -/
def fieldAt (order : ByteOrder) (data : List Nat) (offset size : Nat) : Option Nat :=
  if offset + size ≤ data.length then some (ofBytes order ((data.drop offset).take size))
  else none

/-- Lines 100-156: the start of `Read`, up to the test of the version.  The
result is the version and the stream positioned after it. -/
def ArchiveBinary.ReadHeader (a : ArchiveBinary) : Except ArchiveException (Nat × CharStream) :=
  let a0 := { a with m_Abort := false, m_Size := a.m_Stream.data.length,
                     m_Stream := a.m_Stream.SeekRead 0 }
  if a0.m_Size = 0 then .error .StreamEmpty
  else
    match a0.m_Stream.Read 2 with
    | .error e => .error e
    | .ok (byteOrderMarker, s1) =>
      if byteOrderMarker ≠ 0xfeff ∧ byteOrderMarker ≠ 0xfffe then .error .UnknownByteOrder
      else
        match s1.Read 1 with
        | .error e => .error e
        | .ok (encodingByte, s2) =>
          if encodingByte ≠ 0 ∧ encodingByte ≠ 1 then .error .UnknownEncoding
          else
            match s2.Read 4 with
            | .error e => .error e
            | .ok (version, s3) =>
              if version > CURRENT_VERSION then .error .VersionTooHigh
              else .ok (version, s3)

/-- The header a fresh `ArchiveBinary` reads from a stream of bytes. -/
def readHeader (order : ByteOrder) (data : List Nat) : Except ArchiveException (Nat × CharStream) :=
  (ArchiveBinary.opened (CharStream.ofData order data)).ReadHeader

/-- The conditions on the header: the stream is not empty, the byte-order mark
reads as 0xFEFF or 0xFFFE, the encoding byte is 0 or 1, and the version is at
most 7. -/
def HeaderAccepted (order : ByteOrder) (data : List Nat) : Prop :=
  data ≠ [] ∧
    (fieldAt order data 0 2 = some 0xFEFF ∨ fieldAt order data 0 2 = some 0xFFFE) ∧
    (fieldAt order data 2 1 = some 0 ∨ fieldAt order data 2 1 = some 1) ∧
    ∃ version, fieldAt order data 3 4 = some version ∧ version ≤ 7

/-- A result of `Read` that is a checksum exception (lines 200-207). -/
def ChecksumFailure {α : Type} (r : Except ArchiveException α) : Prop :=
  r = .error .ChecksumIncomplete ∨ r = .error .ChecksumMismatch

/-- The exceptions of lines 200-207. -/
def ArchiveException.isChecksum : ArchiveException → Bool
  | .ChecksumIncomplete => true
  | .ChecksumMismatch => true
  | _ => false

/-- The spool a fresh `ArchiveBinary` with the search class `searchClass`
reads from a stream of bytes (`FromStream`, lines 861-867). -/
def readSpoolSearch (searchClass : Option Class) (g_OverrideCRC : Bool)
    (callbacks : ElementCallbacks) (registry : Registry) (order : ByteOrder)
    (data : List Nat) : Except ArchiveException (List (Option Element)) :=
  match ArchiveBinary.Read g_OverrideCRC callbacks registry
      { ArchiveBinary.opened (CharStream.ofData order data) with
        m_SearchClass := searchClass } with
  | .error e => .error e
  | .ok a => .ok a.m_Spool

/-- The archive when `Read` starts on the element array: the stream stands
after the eleven bytes of the header. -/
def afterHeader (searchClass : Option Class) (order : ByteOrder) (data : List Nat)
    (version : Nat) : ArchiveBinary :=
  { m_Stream := (CharStream.ofData order data).advance 11, m_Spool := [],
    m_Version := version, m_Size := data.length - 11, m_Skip := false,
    m_SearchClass := searchClass, m_Abort := false, m_FieldStack := [] }

instance exceptDecidableEq {α : Type} [DecidableEq α] :
    DecidableEq (Except ArchiveException α)
  | .error a, .error b =>
    if h : a = b then isTrue (by rw [h]) else isFalse (fun h' => h (by cases h'; rfl))
  | .ok a, .ok b =>
    if h : a = b then isTrue (by rw [h]) else isFalse (fun h' => h (by cases h'; rfl))
  | .error _, .ok _ => isFalse (fun h => by cases h)
  | .ok _, .error _ => isFalse (fun h => by cases h)

/-- The bytes `Write` leaves in the stream of a fresh archive for a spool of
records (no byte when it does not complete). -/
def writtenBytes (UNICODE : Bool) (order : ByteOrder) (spool : List Element) : List Nat :=
  match writeSpool UNICODE order spool with
  | .ok a => a.m_Stream.data
  | .error _ => []

/-- A registry that holds `I32` and does not know `Pt`. -/
def i32Registry : Registry :=
  { m_TypesByHash := [(Crc32 "I32", .class_ (.data I32Data))] }

/-- The record of the data class `I32` that holds `v`. -/
def I32 (v : Nat) : Element := .data I32Data (.scalar v)

/-! ## Scenarios S2 and S3, and a container field -/

/-- The class `Pt` with the field `x` marked `Force` (scenario S3). -/
def PtForceClass : ObjectClass :=
  { m_Composite := .root "Pt"
      [{ m_Name := "x", m_Flags := FieldFlags.Force, m_Offset := 0, m_DataClass := I32Data,
         m_Default := some (.scalar 0) },
       { m_Name := "y", m_Flags := 0, m_Offset := 4, m_DataClass := I32Data,
         m_Default := some (.scalar 0) }],
    m_Creator := some [(0, .scalar 0), (4, .scalar 0)] }

/-- The data class of a vector of `I32`. -/
def I32StlVectorData : DataClass := { m_Name := "I32StlVector", m_Kind := .stlVector 4 }

/-- A container field `points`, marked `Force`, without a default. -/
def pointsField : Field :=
  { m_Name := "points", m_Flags := FieldFlags.Force, m_Offset := 0,
    m_DataClass := I32StlVectorData, m_Default := none }

/-! ## Search mode -/

/-- The records of a list up to and including the first that satisfies `p`. -/
def untilFirst (p : Element → Bool) : List Element → List Element
  | [] => []
  | e :: rest => if p e then [e] else e :: untilFirst p rest

/-- The record that the reader builds from the bytes of a written record: the
instance the creator of its class yields, with the written fields stored in
it. -/
def decodedRecord (e : Element) : Element :=
  match CreateInstance (some e.GetClass) with
  | some created => readBack e created
  | none => e

/-- What decoding a record takes: the registry holds its class under the hash
of the name, the class has a creator, and the record is readable. -/
def Element.Known (registry : Registry) (e : Element) : Prop :=
  registry.GetClass (Crc32 e.GetClass.m_Name) = some e.GetClass ∧
    (CreateInstance (some e.GetClass)).isSome = true ∧ e.Readable registry

/-- The total number of bytes of the records of a list. -/
def recordsLength (order : ByteOrder) (records : List Element) : Nat :=
  ((records.map (elementBytes order)).flatten).length

/-! ## The registry (`Foundation/Reflect/Registry.cpp`) -/

/-- The name of a registered type. -/
def ReflectType.m_Name : ReflectType → String
  | .class_ c => c.m_Name
  | .enumeration n => n

/-- Modelled from the spec: `ReflectionCast<const Class>`, the type when it is
a class and null otherwise. -/
def ReflectType.asClass : ReflectType → Option Class
  | .class_ c => some c
  | .enumeration _ => none

/-- Modelled from the spec: the method `Insert` of the map `M_HashToType` (the
containers are not under src/).  A key that is present keeps its value and the
flag of the result is false; a new key is added and the flag is true. -/
def Registry.Insert (r : Registry) (crc : Nat) (type : ReflectType) : Bool × Registry :=
  match r.m_TypesByHash.find? (fun kv => decide (kv.1 = crc)) with
  | some _ => (false, r)
  | none => (true, { m_TypesByHash := r.m_TypesByHash ++ [(crc, type)] })

/-- The method `Registry::RegisterType` (lines 280-295): the result and the
registry it leaves.  The error log, `HELIUM_BREAK` and `Report` leave the
registry as it is. -/
def Registry.RegisterType (r : Registry) (type : ReflectType) : Bool × Registry :=
  let crc := Crc32 type.m_Name
  let result := r.Insert crc type
  if !result.1 then (false, result.2) else (true, result.2)

/-- The method `Registry::AliasType` (lines 307-313). -/
def Registry.AliasType (r : Registry) (type : ReflectType) (aliasName : String) : Registry :=
  let crc := Crc32 aliasName
  (r.Insert crc type).2

/-- Modelled from the spec: the member `m_Creator` of a class, given by the
instance the thunk yields; null for a class that cannot be instantiated. -/
def Class.m_Creator : Class → Option Element
  | .data c => some (.data c c.m_Kind.initial)
  | .object c => c.m_Creator.map (Element.object c)

/-- The method `Registry::CreateInstance( const Class* )` (lines 349-359). -/
def Registry.CreateInstance (_r : Registry) (type : Option Class) : Option Element :=
  match type with
  | none => none
  | some t =>
    match t.m_Creator with
    | some instance_ => some instance_
    | none => none

/-- The method `Registry::CreateInstance( uint32_t )` (lines 361-375). -/
def Registry.CreateInstanceByHash (r : Registry) (crc : Nat) : Option Element :=
  match r.m_TypesByHash.find? (fun kv => decide (kv.1 = crc)) with
  | some found =>
    match found.2.asClass with
    | some type => r.CreateInstance (some type)
    | none => none
  | none => none

/-! ### Initialization and clean-up (lines 73-88 and 229-251) -/

/-- The globals `g_InitCount` and `g_Registry` (lines 73-74). -/
structure ReflectGlobals where
  g_InitCount : Int
  g_Registry : Option Registry
deriving DecidableEq, Repr

/-- A value stored in an `int32_t`. -/
def int32 (n : Int) : Int :=
  (n + 2147483648) % 4294967296 - 2147483648

/-- The globals before the first call. -/
def ReflectGlobals.start : ReflectGlobals :=
  { g_InitCount := 0, g_Registry := none }

/-- The registry the first `Initialize` builds: a new registry in which the
types of lines 90-214 (created by `RegisterClassType`, declared outside src/)
are registered in their order. -/
def seededRegistry (types : List ReflectType) : Registry :=
  types.foldl (fun r t => (r.RegisterType t).2) { m_TypesByHash := [] }

/-- The function `Reflect::IsInitialized` (lines 78-81). -/
def Reflect.IsInitialized (g : ReflectGlobals) : Bool :=
  g.g_Registry.isSome

/-- The function `Reflect::Initialize` (lines 83-227). -/
def Reflect.Initialize (types : List ReflectType) (g : ReflectGlobals) : ReflectGlobals :=
  let count := int32 (g.g_InitCount + 1)
  if count = 1 then { g_InitCount := count, g_Registry := some (seededRegistry types) }
  else { g with g_InitCount := count }

/-- The function `Reflect::Cleanup` (lines 229-251). -/
def Reflect.Cleanup (g : ReflectGlobals) : ReflectGlobals :=
  let count := int32 (g.g_InitCount - 1)
  if count = 0 then { g_InitCount := count, g_Registry := none }
  else { g with g_InitCount := count }

/-- A call of `Reflect::Initialize` or of `Reflect::Cleanup`. -/
inductive ReflectCall where
  | Initialize
  | Cleanup
deriving DecidableEq, Repr

/-- One call on the globals. -/
def ReflectCall.apply (types : List ReflectType) (g : ReflectGlobals) :
    ReflectCall → ReflectGlobals
  | .Initialize => Reflect.Initialize types g
  | .Cleanup => Reflect.Cleanup g

/-- A sequence of calls on the globals. -/
def runCalls (types : List ReflectType) (calls : List ReflectCall) (g : ReflectGlobals) :
    ReflectGlobals :=
  calls.foldl (ReflectCall.apply types) g

/-- No prefix of the sequence holds more `Cleanup` than `Initialize` calls. -/
def Balanced (calls : List ReflectCall) : Prop :=
  ∀ n, n ≤ calls.length →
    (calls.take n).count .Cleanup ≤ (calls.take n).count .Initialize

instance Balanced.decidable (calls : List ReflectCall) : Decidable (Balanced calls) := by
  unfold Balanced
  exact inferInstance

/-! ## Fields that are discarded, removed or of another class -/

/-- The fields of a list that stand before its first `Discard` field. -/
def beforeDiscard : List Field → List Field
  | [] => []
  | field :: rest =>
    if field.m_Flags &&& FieldFlags.Discard ≠ 0 then [] else field :: beforeDiscard rest

/-- The class `Pt { i32 x; i32 y; }` with the field `x` marked `Discard`. -/
def PtDiscardClass : ObjectClass :=
  { m_Composite := .root "Pt"
      [{ m_Name := "x", m_Flags := FieldFlags.Discard, m_Offset := 0, m_DataClass := I32Data,
         m_Default := some (.scalar 0) },
       { m_Name := "y", m_Flags := 0, m_Offset := 4, m_DataClass := I32Data,
         m_Default := some (.scalar 0) }],
    m_Creator := some [(0, .scalar 0), (4, .scalar 0)] }

/-- Lines 813-832 for a null `field`, as they run when `HELIUM_ASSERT` is
compiled out: the element is decoded into `component`; the handler of
`LogisticException` and the call of `ProcessComponent` both evaluate
`field->m_Name`.  `isLogistic` tells which exceptions derive from
`LogisticException` (`Exceptions.h` is not under src/). -/
def ArchiveBinary.deserializeComponent (isLogistic : ArchiveException → Bool)
    (callbacks : ElementCallbacks) (registry : Registry) (slots : List (Nat × Value))
    (a : ArchiveBinary) : Except ArchiveException (List (Nat × Value) × ArchiveBinary) :=
  match ArchiveBinary.Deserialize callbacks registry a with
  | .error e => if isLogistic e then .error .Crash else .error e
  | .ok (some _component, _) => .error .Crash
  | .ok (none, a1) => .ok (slots, a1)

/-- A registry holding `I32`, `I32StlVector` and `Pt` under the hashes of their
names. -/
def vectorRegistry : Registry :=
  { m_TypesByHash := [(Crc32 "I32", .class_ (.data I32Data)),
      (Crc32 "I32StlVector", .class_ (.data I32StlVectorData)),
      (Crc32 "Pt", .class_ (.object PtClass))] }

/-! ## `TaskScheduler::ExecuteSchedule` (lines 294-302) -/

/-- The loop of `ExecuteSchedule` from index `i` on: the functions that are
called, in order.  A call through a null function, an index outside
`m_ScheduleInfo` and a failed `HELIUM_ASSERT` stop the run. -/
def executeLoop (tasks : List TaskDefinition) (infos : List Nat) :
    Nat → List (Option Nat) → Option (List Nat)
  | _, [] => some []
  | _, none :: _ => none
  | i, some func :: rest =>
    match infos[i]? with
    | none => none
    | some pTask =>
      if funcOf tasks pTask = some func then
        (executeLoop tasks infos (i + 1) rest).map (func :: ·)
      else none

/-- The method `ExecuteSchedule`: the functions it calls, in order. -/
def ExecuteSchedule (s : TaskScheduler) : Option (List Nat) :=
  executeLoop s.tasks s.m_ScheduleInfo 0 s.m_ScheduleFunc

/-! ## The states a run of calls reaches -/

/-- The states the task list and the two cached arrays can be in: the state
before the first call, with both arrays empty, and every state a call of
`CalculateSchedule` leaves, whatever its tick type and its result. -/
inductive Reachable (HELIUM_TOOLS : Bool) (DoDefineContract : TaskDefinition → TaskContract)
    (tasks : List TaskDefinition) : TaskScheduler → Prop
  | start : Reachable HELIUM_TOOLS DoDefineContract tasks
      { tasks := tasks, m_ScheduleInfo := [], m_ScheduleFunc := [] }
  | call {s s' : TaskScheduler} (tickType : Nat) (result : Bool) :
      Reachable HELIUM_TOOLS DoDefineContract tasks s →
      CalculateSchedule HELIUM_TOOLS DoDefineContract tickType s = some (result, s') →
      Reachable HELIUM_TOOLS DoDefineContract tasks s'

/-- The task `a` is the task `b` with some of its prerequisite edges: the same
address, and every pointer of its `m_RequiredTasks` in the array of `b`. -/
def Under (a b : TaskDefinition) : Prop :=
  a.m_Addr = b.m_Addr ∧ ∀ x ∈ a.m_RequiredTasks, x ∈ b.m_RequiredTasks

/-- The tasks `a` and `b` declare the same: the same address, the same
reverse-lookup tag and the same contract. -/
def Declared (a b : TaskDefinition) : Prop :=
  a.m_Addr = b.m_Addr ∧ a.m_DependencyReverseLookup = b.m_DependencyReverseLookup ∧
    a.m_Contract = b.m_Contract

/-- The task `a` is the task `b` at another moment of the run: the same
address and reverse-lookup tag, and prerequisite edges among those of `b`. -/
def Earlier (a b : TaskDefinition) : Prop :=
  a.m_DependencyReverseLookup = b.m_DependencyReverseLookup ∧ Under a b

/-- The state `CalculateSchedule(1)` leaves, from empty arrays, for the single
task A at the address 1 with tick type 1 and the function 11. -/
def staleFirst : TaskScheduler :=
  { tasks := [clearTask (definePass plainContract 1 (scenarioTask 1 (some 11)))],
    m_ScheduleInfo := [1], m_ScheduleFunc := [some 11] }

/-- The state `CalculateSchedule(2)` leaves after it: the first loop has nulled
the function of A, and the entry cached for A still holds the function 11. -/
def staleSecond : TaskScheduler :=
  { tasks := [{ m_Addr := 1, m_Func := none, m_DependencyReverseLookup := 101,
                m_Contract := { m_TickType := 1, m_ContributedDependencies := [],
                                m_OrderRequirements := [] },
                m_RequiredTasks := [] }],
    m_ScheduleInfo := [1], m_ScheduleFunc := [some 11] }

/-! ## Lemmas on the task list -/

theorem findTask_some {ts : List TaskDefinition} {p : Nat} {t : TaskDefinition}
    (h : findTask ts p = some t) : t ∈ ts ∧ t.m_Addr = p := by
  unfold findTask at h
  refine ⟨List.mem_of_find?_eq_some h, ?_⟩
  have := List.find?_some h
  simpa using this

theorem findTask_isSome_of_mem {ts : List TaskDefinition} {p : Nat}
    (h : p ∈ ts.map (·.m_Addr)) : ∃ t, findTask ts p = some t := by
  induction ts with
  | nil => simp at h
  | cons a rest ih =>
    by_cases ha : a.m_Addr = p
    · exact ⟨a, by simp [findTask, List.find?, ha]⟩
    · have h' : p ∈ rest.map (·.m_Addr) := by
        simp only [List.map_cons, List.mem_cons] at h
        rcases h with h | h
        · exact absurd h.symm ha
        · exact h
      obtain ⟨t, ht⟩ := ih h'
      refine ⟨t, ?_⟩
      simpa [findTask, List.find?, ha] using ht

theorem mem_addrs_of_findTask {ts : List TaskDefinition} {p : Nat} {t : TaskDefinition}
    (h : findTask ts p = some t) : p ∈ ts.map (·.m_Addr) := by
  obtain ⟨hm, ha⟩ := findTask_some h
  exact List.mem_map.mpr ⟨t, hm, ha⟩

/-! ## Lemmas on `Emitted` -/

theorem emitted_append (ts : List TaskDefinition) (a1 a2 : List Nat) :
    ∀ base, Emitted ts base (a1 ++ a2) ↔ Emitted ts base a1 ∧ Emitted ts (base ++ a1) a2 := by
  induction a1 with
  | nil => intro base; simp [Emitted]
  | cons x rest ih =>
    intro base
    have e1 : Emitted ts base (x :: rest ++ a2) ↔
        x ∉ base ∧ (∃ t, findTask ts x = some t) ∧ (∀ r, Requires ts x r → r ∈ base) ∧
          Emitted ts (base ++ [x]) (rest ++ a2) := Iff.rfl
    have e2 : Emitted ts base (x :: rest) ↔
        x ∉ base ∧ (∃ t, findTask ts x = some t) ∧ (∀ r, Requires ts x r → r ∈ base) ∧
          Emitted ts (base ++ [x]) rest := Iff.rfl
    have e3 : base ++ x :: rest = base ++ [x] ++ rest := by simp
    rw [e1, e2, ih, e3]
    tauto

theorem emitted_single (ts : List TaskDefinition) (base : List Nat) (x : Nat) :
    Emitted ts base [x] ↔
      x ∉ base ∧ (∃ t, findTask ts x = some t) ∧ ∀ r, Requires ts x r → r ∈ base := by
  simp [Emitted]

theorem emitted_split {ts : List TaskDefinition} {base pre post : List Nat} {x : Nat}
    (h : Emitted ts base (pre ++ x :: post)) :
    x ∉ base ++ pre ∧ (∃ t, findTask ts x = some t) ∧
      ∀ r, Requires ts x r → r ∈ base ++ pre := by
  rw [emitted_append] at h
  obtain ⟨_, h2⟩ := h
  simp only [Emitted] at h2
  exact ⟨h2.1, h2.2.1, h2.2.2.1⟩

theorem emitted_nodup {ts : List TaskDefinition} :
    ∀ (added base : List Nat), Emitted ts base added → base.Nodup → (base ++ added).Nodup := by
  intro added
  induction added with
  | nil => intro base _ hb; simpa using hb
  | cons x rest ih =>
    intro base h hb
    simp only [Emitted] at h
    have h1 : (base ++ [x]).Nodup := by
      rw [List.nodup_append]
      refine ⟨hb, List.nodup_singleton x, ?_⟩
      intro a ha hx
      simp only [List.mem_singleton] at hx
      subst hx
      exact h.1 ha
    have := ih (base ++ [x]) h.2.2.2 h1
    simpa [List.append_assoc] using this

theorem emitted_valid {ts : List TaskDefinition} :
    ∀ (added base : List Nat), Emitted ts base added →
      ∀ x ∈ added, ∃ t, findTask ts x = some t := by
  intro added
  induction added with
  | nil => intro base _ x hx; simp at hx
  | cons y rest ih =>
    intro base h x hx
    simp only [Emitted] at h
    rcases List.mem_cons.mp hx with rfl | hx
    · exact h.2.1
    · exact ih _ h.2.2.2 x hx

/-! ## Lemmas on `Extends` -/

theorem extends_refl (ts : List TaskDefinition) (l : TaskLists) : Extends ts l l :=
  ⟨rfl, [], by simp, by simp, trivial, by simp⟩

theorem extends_trans {ts : List TaskDefinition} {l1 l2 l3 : TaskLists}
    (h12 : Extends ts l1 l2) (h23 : Extends ts l2 l3) : Extends ts l1 l3 := by
  obtain ⟨hs1, a1, hi1, hf1, he1, hn1⟩ := h12
  obtain ⟨hs2, a2, hi2, hf2, he2, hn2⟩ := h23
  refine ⟨hs2.trans hs1, a1 ++ a2, ?_, ?_, ?_, ?_⟩
  · rw [hi2, hi1, List.append_assoc]
  · rw [hf2, hf1, List.map_append, List.append_assoc]
  · rw [emitted_append]
    exact ⟨he1, by rw [← hi1]; exact he2⟩
  · intro x hx
    rcases List.mem_append.mp hx with hx | hx
    · exact hn1 x hx
    · rw [← hs1]; exact hn2 x hx

theorem extends_mem {ts : List TaskDefinition} {l l' : TaskLists} (h : Extends ts l l')
    {x : Nat} (hx : x ∈ l.rTaskInfoList) : x ∈ l'.rTaskInfoList := by
  obtain ⟨_, a, hi, _⟩ := h
  rw [hi]
  exact List.mem_append_left _ hx

/-! ## The insertion loop -/

theorem insertPrior_true {ts : List TaskDefinition}
    {f : TaskLists → Nat → Option (Bool × TaskLists)}
    (hf : ∀ l r l', f l r = some (true, l') → Extends ts l l' ∧ r ∈ l'.rTaskInfoList) :
    ∀ (rs : List Nat) (l l' : TaskLists), insertPrior f rs l = some (true, l') →
      Extends ts l l' ∧ ∀ r ∈ rs, r ∈ l'.rTaskInfoList := by
  intro rs
  induction rs with
  | nil =>
    intro l l' h
    simp only [insertPrior, Option.some.injEq, Prod.mk.injEq, true_and] at h
    subst h
    exact ⟨extends_refl ts l, by simp⟩
  | cons r rs ih =>
    intro l l' h
    simp only [insertPrior] at h
    cases hfr : f l r with
    | none => simp [hfr] at h
    | some res =>
      obtain ⟨b, l1⟩ := res
      cases b with
      | false => simp [hfr] at h
      | true =>
        simp only [hfr] at h
        obtain ⟨e1, m1⟩ := hf l r l1 hfr
        obtain ⟨e2, m2⟩ := ih l1 l' h
        refine ⟨extends_trans e1 e2, ?_⟩
        intro x hx
        rcases List.mem_cons.mp hx with rfl | hx
        · exact extends_mem e2 m1
        · exact m2 x hx

theorem InsertToTaskList_true (tools : Bool) (ts : List TaskDefinition) :
    ∀ (fuel : Nat) (l : TaskLists) (p : Nat) (l' : TaskLists),
      InsertToTaskList tools ts fuel l p = some (true, l') →
        Extends ts l l' ∧ p ∈ l'.rTaskInfoList := by
  intro fuel
  induction fuel with
  | zero => intro l p l' h; simp [InsertToTaskList] at h
  | succ fuel ih =>
    intro l p l' h
    simp only [InsertToTaskList] at h
    by_cases hstack : p ∈ l.rTaskStack
    · simp [hstack] at h
    by_cases hinfo : p ∈ l.rTaskInfoList
    · simp only [hstack, hinfo, if_true, if_false, Option.some.injEq, Prod.mk.injEq,
        true_and] at h
      subst h
      exact ⟨extends_refl ts l, hinfo⟩
    · simp only [hstack, hinfo, if_false] at h
      cases hft : findTask ts p with
      | none => simp [hft] at h
      | some task =>
        simp only [hft] at h
        cases hloop : insertPrior (InsertToTaskList tools ts fuel) task.m_RequiredTasks
            { l with rTaskStack := l.rTaskStack ++ [p] } with
        | none => simp [hloop] at h
        | some res =>
          obtain ⟨b, l1⟩ := res
          cases b with
          | false => simp [hloop] at h
          | true =>
            simp only [hloop, Option.some.injEq, Prod.mk.injEq, true_and] at h
            obtain ⟨⟨hs, added, hi, hfn, hem, hns⟩, hreq⟩ :=
              @insertPrior_true ts _ ih task.m_RequiredTasks _ l1 hloop
            simp only at hs hi hfn hem hns
            subst h
            refine ⟨⟨?_, added ++ [p], ?_, ?_, ?_, ?_⟩, ?_⟩
            · simp [hs]
            · simp [hi]
            · simp [hfn, funcOf, hft]
            · rw [emitted_append, emitted_single]
              refine ⟨hem, ?_, ⟨task, hft⟩, ?_⟩
              · intro hmem
                rcases List.mem_append.mp hmem with hmem | hmem
                · exact hinfo hmem
                · exact hns p hmem (by simp)
              · intro r hr
                obtain ⟨t, ht, hrt⟩ := hr
                rw [hft] at ht
                cases ht
                rw [← hi]
                exact hreq r hrt
            · intro x hx
              rcases List.mem_append.mp hx with hx | hx
              · intro hxs
                exact hns x hx (List.mem_append_left _ hxs)
              · simp only [List.mem_singleton] at hx
                subst hx
                exact hstack
            · simp [hi]

theorem insertPrior_false
    {f : TaskLists → Nat → Option (Bool × TaskLists)}
    (hf : ∀ l r l', f l r = some (true, l') → l'.rTaskStack = l.rTaskStack) :
    ∀ (rs : List Nat) (l l' : TaskLists), insertPrior f rs l = some (false, l') →
      ∃ r ∈ rs, ∃ l1 l1', l1.rTaskStack = l.rTaskStack ∧ f l1 r = some (false, l1') := by
  intro rs
  induction rs with
  | nil => intro l l' h; simp [insertPrior] at h
  | cons r rs ih =>
    intro l l' h
    simp only [insertPrior] at h
    cases hfr : f l r with
    | none => simp [hfr] at h
    | some res =>
      obtain ⟨b, l1⟩ := res
      cases b with
      | false => exact ⟨r, by simp, l, l1, rfl, hfr⟩
      | true =>
        simp only [hfr] at h
        obtain ⟨r', hr', l2, l2', hs, hfail⟩ := ih l1 l' h
        exact ⟨r', List.mem_cons_of_mem _ hr', l2, l2', hs.trans (hf l r l1 hfr), hfail⟩

theorem transGen_of_chain {α : Type} {R : α → α → Prop} :
    ∀ (b : List α) (x y : α), List.Chain' R (x :: b ++ [y]) → Relation.TransGen R x y := by
  intro b
  induction b with
  | nil =>
    intro x y h
    simp only [List.cons_append, List.nil_append, List.chain'_cons, List.chain'_singleton,
      and_true] at h
    exact Relation.TransGen.single h
  | cons c b ih =>
    intro x y h
    simp only [List.cons_append, List.chain'_cons] at h
    exact Relation.TransGen.head h.1 (ih c y (by simpa using h.2))

theorem cycle_of_mem_stack {α : Type} {R : α → α → Prop} {stack : List α} {p : α}
    (hp : p ∈ stack) (hc : List.Chain' R (stack ++ [p])) : Relation.TransGen R p p := by
  obtain ⟨a, b, rfl⟩ := List.append_of_mem hp
  have h1 : (a ++ p :: b) ++ [p] = a ++ (p :: b ++ [p]) := by simp
  rw [h1] at hc
  exact transGen_of_chain b p p hc.right_of_append

theorem chain_snoc {α : Type} {R : α → α → Prop} {stack : List α} {p r : α}
    (hc : List.Chain' R (stack ++ [p])) (hr : R p r) :
    List.Chain' R ((stack ++ [p]) ++ [r]) := by
  rw [List.chain'_append]
  refine ⟨hc, List.chain'_singleton r, ?_⟩
  intro x hx y hy
  simp only [List.getLast?_append, List.getLast?_singleton, Option.or,
    Option.mem_def, Option.some.injEq] at hx
  simp only [List.head?_cons, Option.mem_def, Option.some.injEq] at hy
  subst hx hy
  exact hr

/-- A failing insertion exhibits a cycle of the prerequisite edges, provided
the stack is a path of prerequisite edges leading to the inserted task. -/
theorem InsertToTaskList_false (tools : Bool) (ts : List TaskDefinition) :
    ∀ (fuel : Nat) (l : TaskLists) (p : Nat) (l' : TaskLists),
      InsertToTaskList tools ts fuel l p = some (false, l') →
        List.Chain' (Requires ts) (l.rTaskStack ++ [p]) →
          ∃ x, Relation.TransGen (Requires ts) x x := by
  intro fuel
  induction fuel with
  | zero => intro l p l' h; simp [InsertToTaskList] at h
  | succ fuel ih =>
    intro l p l' h hc
    simp only [InsertToTaskList] at h
    by_cases hstack : p ∈ l.rTaskStack
    · exact ⟨p, cycle_of_mem_stack hstack hc⟩
    by_cases hinfo : p ∈ l.rTaskInfoList
    · simp [hstack, hinfo] at h
    · simp only [hstack, hinfo, if_false] at h
      cases hft : findTask ts p with
      | none => simp [hft] at h
      | some task =>
        simp only [hft] at h
        cases hloop : insertPrior (InsertToTaskList tools ts fuel) task.m_RequiredTasks
            { l with rTaskStack := l.rTaskStack ++ [p] } with
        | none => simp [hloop] at h
        | some res =>
          obtain ⟨b, l1⟩ := res
          cases b with
          | true => simp [hloop] at h
          | false =>
            obtain ⟨r, hr, l2, l2', hs, hfail⟩ :=
              insertPrior_false
                (fun l r l' hh => (InsertToTaskList_true tools ts fuel l r l' hh).1.1)
                task.m_RequiredTasks _ l1 hloop
            simp only at hs
            apply ih l2 r l2' hfail
            rw [hs]
            exact chain_snoc hc ⟨task, hft, hr⟩

theorem insertPrior_ne_none
    {f : TaskLists → Nat → Option (Bool × TaskLists)}
    (hf : ∀ l r l', f l r = some (true, l') → l'.rTaskStack = l.rTaskStack) :
    ∀ (rs : List Nat) (l : TaskLists),
      (∀ r ∈ rs, ∀ l1, l1.rTaskStack = l.rTaskStack → f l1 r ≠ none) →
        insertPrior f rs l ≠ none := by
  intro rs
  induction rs with
  | nil => intro l _; simp [insertPrior]
  | cons r rs ih =>
    intro l h
    simp only [insertPrior]
    cases hfr : f l r with
    | none => exact absurd hfr (h r (by simp) l rfl)
    | some res =>
      obtain ⟨b, l1⟩ := res
      cases b with
      | false => simp
      | true =>
        simp only
        apply ih l1
        intro r' hr' l2 hl2
        exact h r' (List.mem_cons_of_mem _ hr') l2 (hl2.trans (hf l r l1 hfr))

/-- With valid task pointers the recursion never runs out of fuel: a stack
without repetition cannot be longer than the task list. -/
theorem InsertToTaskList_ne_none (tools : Bool) (ts : List TaskDefinition)
    (hvalid : RequiredValid ts) :
    ∀ (fuel : Nat) (l : TaskLists) (p : Nat), p ∈ ts.map (·.m_Addr) →
      l.rTaskStack.Nodup → l.rTaskStack ⊆ ts.map (·.m_Addr) →
      ts.length + 1 ≤ fuel + l.rTaskStack.length →
        InsertToTaskList tools ts fuel l p ≠ none := by
  intro fuel
  induction fuel with
  | zero =>
    intro l p _ hnd hsub hlen
    have := (hnd.subperm hsub).length_le
    simp only [List.length_map] at this
    omega
  | succ fuel ih =>
    intro l p hp hnd hsub hlen
    simp only [InsertToTaskList]
    by_cases hstack : p ∈ l.rTaskStack
    · simp [hstack]
    by_cases hinfo : p ∈ l.rTaskInfoList
    · simp [hstack, hinfo]
    · simp only [hstack, hinfo, if_false]
      obtain ⟨task, hft⟩ := findTask_isSome_of_mem hp
      simp only [hft]
      have hnd' : (l.rTaskStack ++ [p]).Nodup := by
        rw [List.nodup_append]
        refine ⟨hnd, List.nodup_singleton p, ?_⟩
        intro a ha hx
        simp only [List.mem_singleton] at hx
        subst hx
        exact hstack ha
      have hsub' : l.rTaskStack ++ [p] ⊆ ts.map (·.m_Addr) := by
        intro x hx
        rcases List.mem_append.mp hx with hx | hx
        · exact hsub hx
        · simp only [List.mem_singleton] at hx
          subst hx
          exact hp
      have hloop : insertPrior (InsertToTaskList tools ts fuel) task.m_RequiredTasks
          { l with rTaskStack := l.rTaskStack ++ [p] } ≠ none := by
        apply insertPrior_ne_none
          (fun l r l' hh => (InsertToTaskList_true tools ts fuel l r l' hh).1.1)
        intro r hr l1 hl1
        simp only at hl1
        apply ih l1 r (hvalid task (findTask_some hft).1 r hr)
        · rw [hl1]; exact hnd'
        · rw [hl1]; exact hsub'
        · rw [hl1]
          simp only [List.length_append, List.length_singleton]
          omega
      cases hres : insertPrior (InsertToTaskList tools ts fuel) task.m_RequiredTasks
          { l with rTaskStack := l.rTaskStack ++ [p] } with
      | none => exact absurd hres hloop
      | some res =>
        obtain ⟨b, l1⟩ := res
        cases b <;> simp

/-! ## Compaction -/

theorem keptFuncs_cons_none (fs : List (Option Nat)) : keptFuncs (none :: fs) = keptFuncs fs := by
  simp [keptFuncs]

theorem keptFuncs_cons_some (f : Nat) (fs : List (Option Nat)) :
    keptFuncs (some f :: fs) = some f :: keptFuncs fs := by
  simp [keptFuncs]

theorem take_succ_set {α : Type} (a : α) :
    ∀ (l : List α) (n : Nat), n < l.length → (l.set n a).take (n + 1) = l.take n ++ [a] := by
  intro l
  induction l with
  | nil => intro n h; simp at h
  | cons x xs ih =>
    intro n h
    cases n with
    | zero => simp
    | succ n =>
      simp only [List.length_cons, Nat.add_lt_add_iff_right] at h
      simp [ih n h]

theorem compactLoop_spec :
    ∀ (n i_from i_to : Nat) (funcs : List (Option Nat)) (infos : List Nat),
      i_from + n = funcs.length → funcs.length = infos.length → i_to ≤ i_from →
      ∃ k funcs' infos', compactLoop n i_from i_to funcs infos = some (k, funcs', infos') ∧
        k ≤ funcs'.length ∧ funcs'.length = infos'.length ∧
        funcs'.take k = funcs.take i_to ++ keptFuncs (funcs.drop i_from) ∧
        infos'.take k = infos.take i_to ++ keptInfos (funcs.drop i_from) (infos.drop i_from) := by
  intro n
  induction n with
  | zero =>
    intro i_from i_to funcs infos h1 h2 h3
    refine ⟨i_to, funcs, infos, rfl, by omega, h2, ?_, ?_⟩
    · have : funcs.drop i_from = [] := List.drop_eq_nil_of_le (by omega)
      simp [this, keptFuncs]
    · have : funcs.drop i_from = [] := List.drop_eq_nil_of_le (by omega)
      simp [this, keptInfos]
  | succ n ih =>
    intro i_from i_to funcs infos h1 h2 h3
    have hlt : i_from < funcs.length := by omega
    have hlt' : i_from < infos.length := by omega
    have hdf : funcs.drop i_from = funcs[i_from] :: funcs.drop (i_from + 1) :=
      List.drop_eq_getElem_cons hlt
    have hdi : infos.drop i_from = infos[i_from] :: infos.drop (i_from + 1) :=
      List.drop_eq_getElem_cons hlt'
    have htf : funcs.take (i_from + 1) = funcs.take i_from ++ [funcs[i_from]] := by
      rw [List.take_succ, List.getElem?_eq_getElem hlt]; rfl
    have hti : infos.take (i_from + 1) = infos.take i_from ++ [infos[i_from]] := by
      rw [List.take_succ, List.getElem?_eq_getElem hlt']; rfl
    simp only [compactLoop, List.getElem?_eq_getElem hlt, List.getElem?_eq_getElem hlt']
    cases hx : funcs[i_from] with
    | none =>
      simp only
      obtain ⟨k, f', i', he, hk, hl, hf, hi⟩ :=
        ih (i_from + 1) i_to funcs infos (by omega) h2 (by omega)
      refine ⟨k, f', i', he, hk, hl, ?_, ?_⟩
      · rw [hf, hdf, hx, keptFuncs_cons_none]
      · rw [hi, hdf, hdi, hx]; simp [keptInfos]
    | some f =>
      simp only
      by_cases hne : i_from = i_to
      · subst hne
        simp only [ne_eq, not_true_eq_false, if_false]
        obtain ⟨k, f', i', he, hk, hl, hf, hi⟩ :=
          ih (i_from + 1) (i_from + 1) funcs infos (by omega) h2 (by omega)
        refine ⟨k, f', i', he, hk, hl, ?_, ?_⟩
        · rw [hf, htf, hdf, hx, keptFuncs_cons_some]
          simp
        · rw [hi, hti, hdf, hdi, hx]
          simp only [keptInfos, List.append_assoc, List.singleton_append]
      · simp only [ne_eq, hne, not_false_eq_true, if_true]
        have hto : i_to < i_from := by omega
        have hto1 : i_to < i_from + 1 := by omega
        have htl : i_to < funcs.length := by omega
        have htl' : i_to < infos.length := by omega
        obtain ⟨k, f', i', he, hk, hl, hf, hi⟩ :=
          ih (i_from + 1) (i_to + 1) (funcs.set i_to (some f)) (infos.set i_to infos[i_from])
            (by simp; omega) (by simp [h2]) (by omega)
        refine ⟨k, f', i', he, hk, hl, ?_, ?_⟩
        · rw [hf, List.drop_set_of_lt _ _ hto1, take_succ_set _ _ _ htl, hdf, hx,
            keptFuncs_cons_some]
          simp only [List.append_assoc, List.singleton_append]
        · rw [hi, List.drop_set_of_lt _ _ hto1, List.drop_set_of_lt _ _ hto1,
            take_succ_set _ _ _ htl', hdf, hdi, hx]
          simp only [keptInfos, List.append_assoc, List.singleton_append]

theorem compactSchedule_eq (funcs : List (Option Nat)) (infos : List Nat)
    (h : funcs.length = infos.length) :
    compactSchedule funcs infos = some (keptFuncs funcs, keptInfos funcs infos) := by
  obtain ⟨k, f', i', he, hk, hl, hf, hi⟩ :=
    compactLoop_spec funcs.length 0 0 funcs infos (by simp) h (by omega)
  simp only [compactSchedule, he]
  rw [if_pos (by omega)]
  simp only [List.take_zero, List.nil_append, List.drop_zero] at hf hi
  rw [hf, hi]

/-! ## Edge materialization -/

theorem grows_refl (P : Nat → Prop) (t : TaskDefinition) : Grows P t t :=
  ⟨rfl, rfl, rfl, rfl, [], by simp, by simp⟩

theorem grows_trans {P : Nat → Prop} {t1 t2 t3 : TaskDefinition}
    (h12 : Grows P t1 t2) (h23 : Grows P t2 t3) : Grows P t1 t3 := by
  obtain ⟨a1, f1, d1, c1, e1, r1, p1⟩ := h12
  obtain ⟨a2, f2, d2, c2, e2, r2, p2⟩ := h23
  refine ⟨a2.trans a1, f2.trans f1, d2.trans d1, c2.trans c1, e1 ++ e2, ?_, ?_⟩
  · rw [r2, r1, List.append_assoc]
  · intro x hx
    rcases List.mem_append.mp hx with hx | hx
    · exact p1 x hx
    · exact p2 x hx

theorem grown_refl (P : Nat → Prop) (ts : List TaskDefinition) : Grown P ts ts :=
  ⟨id, by simp, fun t => grows_refl P t⟩

theorem grown_trans {P : Nat → Prop} {ts1 ts2 ts3 : List TaskDefinition}
    (h12 : Grown P ts1 ts2) (h23 : Grown P ts2 ts3) : Grown P ts1 ts3 := by
  obtain ⟨g1, e1, p1⟩ := h12
  obtain ⟨g2, e2, p2⟩ := h23
  refine ⟨g2 ∘ g1, ?_, fun t => grows_trans (p1 t) (p2 (g1 t))⟩
  rw [e2, e1, List.map_map]

theorem grown_addrs {P : Nat → Prop} {ts ts' : List TaskDefinition} (h : Grown P ts ts') :
    ts'.map (·.m_Addr) = ts.map (·.m_Addr) := by
  obtain ⟨g, e, p⟩ := h
  rw [e, List.map_map]
  apply List.map_congr_left
  intro t _
  exact (p t).1

theorem grown_length {P : Nat → Prop} {ts ts' : List TaskDefinition} (h : Grown P ts ts') :
    ts'.length = ts.length := by
  obtain ⟨g, e, _⟩ := h
  rw [e, List.length_map]

theorem findTask_map {g : TaskDefinition → TaskDefinition}
    (hg : ∀ t, (g t).m_Addr = t.m_Addr) (ts : List TaskDefinition) (p : Nat) :
    findTask (ts.map g) p = (findTask ts p).map g := by
  induction ts with
  | nil => simp [findTask]
  | cons a rest ih =>
    unfold findTask at ih ⊢
    by_cases ha : a.m_Addr = p
    · simp [List.find?, hg, ha]
    · simp only [List.map_cons, List.find?, hg, ha, decide_False]
      exact ih

theorem grown_findTask {P : Nat → Prop} {ts ts' : List TaskDefinition} (h : Grown P ts ts')
    {p : Nat} {t : TaskDefinition} (ht : findTask ts p = some t) :
    ∃ t', findTask ts' p = some t' ∧ Grows P t t' := by
  obtain ⟨g, e, hg⟩ := h
  refine ⟨g t, ?_, hg t⟩
  rw [e, findTask_map (fun t => (hg t).1), ht]
  rfl

theorem grown_findTask_rev {P : Nat → Prop} {ts ts' : List TaskDefinition}
    (h : Grown P ts ts') {p : Nat} {t' : TaskDefinition} (ht : findTask ts' p = some t') :
    ∃ t, findTask ts p = some t ∧ Grows P t t' := by
  obtain ⟨g, e, hg⟩ := h
  rw [e, findTask_map (fun t => (hg t).1)] at ht
  cases hft : findTask ts p with
  | none => simp [hft] at ht
  | some t =>
    simp only [hft, Option.map_some', Option.some.injEq] at ht
    exact ⟨t, rfl, ht ▸ hg t⟩

theorem grown_requires {P : Nat → Prop} {ts ts' : List TaskDefinition} (h : Grown P ts ts')
    {a b : Nat} (hr : Requires ts a b) : Requires ts' a b := by
  obtain ⟨t, ht, hb⟩ := hr
  obtain ⟨t', ht', _, _, _, _, extra, he, _⟩ := grown_findTask h ht
  exact ⟨t', ht', by rw [he]; exact List.mem_append_left _ hb⟩

theorem grown_funcOf {P : Nat → Prop} {ts ts' : List TaskDefinition} (h : Grown P ts ts')
    (p : Nat) : funcOf ts' p = funcOf ts p := by
  obtain ⟨g, e, hg⟩ := h
  unfold funcOf
  rw [e, findTask_map (fun t => (hg t).1)]
  cases findTask ts p with
  | none => rfl
  | some t => simp [(hg t).2.1]

theorem grown_pairEdge {P : Nat → Prop} {ts ts' : List TaskDefinition} (h : Grown P ts ts')
    {ty : OrderRequirementType} {o i : Nat} (hr : pairEdge ts ty o i) : pairEdge ts' ty o i := by
  cases ty <;> exact grown_requires h hr

theorem grown_mono {P Q : Nat → Prop} (hPQ : ∀ x, P x → Q x) {ts ts' : List TaskDefinition}
    (h : Grown P ts ts') : Grown Q ts ts' := by
  obtain ⟨g, e, hg⟩ := h
  refine ⟨g, e, fun t => ?_⟩
  obtain ⟨a, f, d, c, extra, r, p⟩ := hg t
  exact ⟨a, f, d, c, extra, r, fun x hx => hPQ x (p x hx)⟩

theorem addRequired_grown (P : Nat → Prop) (target value : Nat) (hv : P value)
    (ts : List TaskDefinition) : Grown P ts (addRequired target value ts) := by
  refine ⟨fun t => if t.m_Addr = target then
      { t with m_RequiredTasks := t.m_RequiredTasks ++ [value] } else t, rfl, fun t => ?_⟩
  by_cases h : t.m_Addr = target
  · show Grows P t (if t.m_Addr = target then _ else _)
    rw [if_pos h]
    exact ⟨rfl, rfl, rfl, rfl, [value], rfl, by simpa using hv⟩
  · show Grows P t (if t.m_Addr = target then _ else _)
    rw [if_neg h]
    exact grows_refl P t

theorem addRequired_requires (target value : Nat) (ts : List TaskDefinition)
    (ht : target ∈ ts.map (·.m_Addr)) : Requires (addRequired target value ts) target value := by
  obtain ⟨t, hft⟩ := findTask_isSome_of_mem ht
  have ha := (findTask_some hft).2
  refine ⟨{ t with m_RequiredTasks := t.m_RequiredTasks ++ [value] }, ?_, by simp⟩
  unfold addRequired
  rw [findTask_map (by intro t; by_cases h : t.m_Addr = target <;> simp [h]), hft]
  simp [ha]

theorem applyPair_grown (P : Nat → Prop) (ty : OrderRequirementType) (o i : Nat)
    (ho : P o) (hi : P i) (ts : List TaskDefinition) : Grown P ts (applyPair ty o i ts) := by
  cases ty
  · exact addRequired_grown P i o ho ts
  · exact addRequired_grown P o i hi ts

theorem applyPair_edge (ty : OrderRequirementType) (o i : Nat) (ts : List TaskDefinition)
    (ho : o ∈ ts.map (·.m_Addr)) (hi : i ∈ ts.map (·.m_Addr)) :
    pairEdge (applyPair ty o i ts) ty o i := by
  cases ty
  · exact addRequired_requires i o ts hi
  · exact addRequired_requires o i ts ho

theorem applyInner_spec (P : Nat → Prop) (ty : OrderRequirementType) (o : Nat) (ho : P o) :
    ∀ (inners : List Nat) (ts : List TaskDefinition), (∀ i ∈ inners, P i) →
      Grown P ts (applyInner ty o inners ts) ∧
        (o ∈ ts.map (·.m_Addr) → ∀ i ∈ inners, i ∈ ts.map (·.m_Addr) →
          pairEdge (applyInner ty o inners ts) ty o i) := by
  intro inners
  induction inners with
  | nil => intro ts _; exact ⟨grown_refl P ts, by simp⟩
  | cons i rest ih =>
    intro ts hP
    have g1 := applyPair_grown P ty o i ho (hP i (by simp)) ts
    obtain ⟨g2, e2⟩ := ih (applyPair ty o i ts) (fun j hj => hP j (List.mem_cons_of_mem _ hj))
    have hfold : applyInner ty o (i :: rest) ts = applyInner ty o rest (applyPair ty o i ts) := rfl
    rw [hfold]
    refine ⟨grown_trans g1 g2, ?_⟩
    intro hoa j hj hja
    rcases List.mem_cons.mp hj with rfl | hj
    · exact grown_pairEdge g2 (applyPair_edge ty o j ts hoa hja)
    · exact e2 (by rw [grown_addrs g1]; exact hoa) j hj (by rw [grown_addrs g1]; exact hja)

theorem applyOuter_spec (P : Nat → Prop) (ty : OrderRequirementType) (inners : List Nat)
    (hi : ∀ i ∈ inners, P i) :
    ∀ (outers : List Nat) (ts : List TaskDefinition), (∀ o ∈ outers, P o) →
      Grown P ts (applyOuter ty outers inners ts) ∧
        (∀ o ∈ outers, o ∈ ts.map (·.m_Addr) → ∀ i ∈ inners, i ∈ ts.map (·.m_Addr) →
          pairEdge (applyOuter ty outers inners ts) ty o i) := by
  intro outers
  induction outers with
  | nil => intro ts _; exact ⟨grown_refl P ts, by simp⟩
  | cons o rest ih =>
    intro ts hP
    obtain ⟨g1, e1⟩ := applyInner_spec P ty o (hP o (by simp)) inners ts hi
    obtain ⟨g2, e2⟩ := ih (applyInner ty o inners ts) (fun j hj => hP j (List.mem_cons_of_mem _ hj))
    have hfold : applyOuter ty (o :: rest) inners ts =
        applyOuter ty rest inners (applyInner ty o inners ts) := rfl
    rw [hfold]
    refine ⟨grown_trans g1 g2, ?_⟩
    intro o' ho' hoa i hi' hia
    rcases List.mem_cons.mp ho' with rfl | ho'
    · exact grown_pairEdge g2 (e1 hoa i hi' hia)
    · exact e2 o' ho' (by rw [grown_addrs g1]; exact hoa) i hi'
        (by rw [grown_addrs g1]; exact hia)

theorem applyRequirements_spec (P : Nat → Prop) (m : List (Nat × List Nat))
    (hm : ∀ tag x, Contributor m tag x → P x) (outers : List Nat) (ho : ∀ o ∈ outers, P o) :
    ∀ (rs : List OrderRequirement) (ts ts' : List TaskDefinition),
      applyRequirements m outers rs ts = some ts' →
        Grown P ts ts' ∧
          ∀ r ∈ rs, ∀ o ∈ outers, o ∈ ts.map (·.m_Addr) →
            ∀ i, Contributor m r.m_Dependency i → i ∈ ts.map (·.m_Addr) →
              pairEdge ts' r.m_Type o i := by
  intro rs
  induction rs with
  | nil =>
    intro ts ts' h
    simp only [applyRequirements, Option.some.injEq] at h
    subst h
    exact ⟨grown_refl P ts, by simp⟩
  | cons r rest ih =>
    intro ts ts' h
    simp only [applyRequirements] at h
    cases hf : mapFind r.m_Dependency m with
    | none => simp [hf] at h
    | some inners =>
      simp only [hf] at h
      have hin : ∀ i ∈ inners, P i := fun i hi => hm r.m_Dependency i ⟨inners, hf, hi⟩
      obtain ⟨g1, e1⟩ := applyOuter_spec P r.m_Type inners hin outers ts ho
      obtain ⟨g2, e2⟩ := ih _ ts' h
      refine ⟨grown_trans g1 g2, ?_⟩
      intro r' hr' o ho' hoa i hi hia
      rcases List.mem_cons.mp hr' with rfl | hr'
      · obtain ⟨l, hl, hil⟩ := hi
        rw [hf] at hl
        cases hl
        exact grown_pairEdge g2 (e1 o ho' hoa i hil hia)
      · exact e2 r' hr' o ho' (by rw [grown_addrs g1]; exact hoa) i hi
          (by rw [grown_addrs g1]; exact hia)

theorem applyRequirements_isSome (m : List (Nat × List Nat)) (outers : List Nat) :
    ∀ (rs : List OrderRequirement) (ts : List TaskDefinition),
      (∀ r ∈ rs, ∃ l, mapFind r.m_Dependency m = some l) →
        ∃ ts', applyRequirements m outers rs ts = some ts' := by
  intro rs
  induction rs with
  | nil => intro ts _; exact ⟨ts, rfl⟩
  | cons r rest ih =>
    intro ts h
    obtain ⟨l, hl⟩ := h r (by simp)
    simp only [applyRequirements, hl]
    exact ih _ (fun r' hr' => h r' (List.mem_cons_of_mem _ hr'))

theorem materializeEdges_spec (P : Nat → Prop) (m : List (Nat × List Nat))
    (hm : ∀ tag x, Contributor m tag x → P x) :
    ∀ (todo ts ts' : List TaskDefinition), materializeEdges m todo ts = some ts' →
      Grown P ts ts' ∧
        ∀ task ∈ todo, ∀ r ∈ task.m_Contract.m_OrderRequirements,
          ∀ o, Contributor m task.m_DependencyReverseLookup o → o ∈ ts.map (·.m_Addr) →
            ∀ i, Contributor m r.m_Dependency i → i ∈ ts.map (·.m_Addr) →
              pairEdge ts' r.m_Type o i := by
  intro todo
  induction todo with
  | nil =>
    intro ts ts' h
    simp only [materializeEdges, Option.some.injEq] at h
    subst h
    exact ⟨grown_refl P ts, by simp⟩
  | cons task rest ih =>
    intro ts ts' h
    simp only [materializeEdges] at h
    cases hf : mapFind task.m_DependencyReverseLookup m with
    | none => simp [hf] at h
    | some outers =>
      simp only [hf] at h
      cases ha : applyRequirements m outers task.m_Contract.m_OrderRequirements ts with
      | none => simp [ha] at h
      | some ts1 =>
        simp only [ha] at h
        have hout : ∀ o ∈ outers, P o :=
          fun o ho => hm task.m_DependencyReverseLookup o ⟨outers, hf, ho⟩
        obtain ⟨g1, e1⟩ := applyRequirements_spec P m hm outers hout _ ts ts1 ha
        obtain ⟨g2, e2⟩ := ih ts1 ts' h
        refine ⟨grown_trans g1 g2, ?_⟩
        intro task' ht' r hr o ho hoa i hi hia
        rcases List.mem_cons.mp ht' with rfl | ht'
        · obtain ⟨l, hl, hol⟩ := ho
          rw [hf] at hl
          cases hl
          exact grown_pairEdge g2 (e1 r hr o hol hoa i hi hia)
        · exact e2 task' ht' r hr o ho (by rw [grown_addrs g1]; exact hoa) i hi
            (by rw [grown_addrs g1]; exact hia)

theorem materializeEdges_isSome (m : List (Nat × List Nat)) :
    ∀ (todo ts : List TaskDefinition),
      (∀ task ∈ todo, (∃ l, mapFind task.m_DependencyReverseLookup m = some l) ∧
        ∀ r ∈ task.m_Contract.m_OrderRequirements, ∃ l, mapFind r.m_Dependency m = some l) →
        ∃ ts', materializeEdges m todo ts = some ts' := by
  intro todo
  induction todo with
  | nil => intro ts _; exact ⟨ts, rfl⟩
  | cons task rest ih =>
    intro ts h
    obtain ⟨⟨l, hl⟩, hr⟩ := h task (by simp)
    obtain ⟨ts1, h1⟩ := applyRequirements_isSome m l _ ts hr
    simp only [materializeEdges, hl, h1]
    exact ih ts1 (fun t ht => h t (List.mem_cons_of_mem _ ht))

/-! ## The contribution map -/

theorem mapFind_mapAdd (dep task tag : Nat) :
    ∀ m : List (Nat × List Nat),
      mapFind tag (mapAdd dep task m) =
        if tag = dep then some ((mapFind dep m).getD [] ++ [task]) else mapFind tag m := by
  intro m
  induction m with
  | nil =>
    by_cases h : tag = dep
    · simp [mapAdd, mapFind, h]
    · simp [mapAdd, mapFind, h, Ne.symm h]
  | cons kv rest ih =>
    obtain ⟨k, v⟩ := kv
    by_cases hk : k = dep
    · by_cases h : tag = dep
      · simp [mapAdd, mapFind, hk, h]
      · simp [mapAdd, mapFind, hk, h, Ne.symm h]
    · by_cases h : tag = dep
      · subst h
        simp only [mapAdd, hk, if_false, mapFind, ih, if_true]
      · by_cases hkt : k = tag
        · simp [mapAdd, mapFind, hk, h, hkt]
        · simp only [mapAdd, hk, if_false, mapFind, hkt, ih, h]

theorem contributor_mapAdd_self (dep task : Nat) (m : List (Nat × List Nat)) :
    Contributor (mapAdd dep task m) dep task :=
  ⟨_, by rw [mapFind_mapAdd, if_pos rfl], by simp⟩

theorem contributor_mapAdd_mono {dep task tag x : Nat} {m : List (Nat × List Nat)}
    (h : Contributor m tag x) : Contributor (mapAdd dep task m) tag x := by
  obtain ⟨l, hl, hx⟩ := h
  by_cases ht : tag = dep
  · subst ht
    exact ⟨_, by rw [mapFind_mapAdd, if_pos rfl], by simp [hl, hx]⟩
  · exact ⟨l, by rw [mapFind_mapAdd, if_neg ht]; exact hl, hx⟩

theorem contributor_mapAdd_inv {dep task tag x : Nat} {m : List (Nat × List Nat)}
    (h : Contributor (mapAdd dep task m) tag x) :
    Contributor m tag x ∨ (tag = dep ∧ x = task) := by
  obtain ⟨l, hl, hx⟩ := h
  rw [mapFind_mapAdd] at hl
  by_cases ht : tag = dep
  · subst ht
    simp only [if_true, Option.some.injEq] at hl
    subst hl
    rcases List.mem_append.mp hx with hx | hx
    · left
      cases hf : mapFind tag m with
      | none => simp [hf] at hx
      | some l' => exact ⟨l', hf, by simpa [hf] using hx⟩
    · right
      exact ⟨rfl, by simpa using hx⟩
  · rw [if_neg ht] at hl
    exact Or.inl ⟨l, hl, hx⟩

theorem contributeTask_spec (task : TaskDefinition) :
    ∀ (deps : List Nat) (m : List (Nat × List Nat)) (tag x : Nat),
      Contributor (deps.foldl (fun m dep => mapAdd dep task.m_Addr m) m) tag x ↔
        Contributor m tag x ∨ (tag ∈ deps ∧ x = task.m_Addr) := by
  intro deps
  induction deps with
  | nil => intro m tag x; simp
  | cons d rest ih =>
    intro m tag x
    simp only [List.foldl_cons, ih, List.mem_cons]
    constructor
    · rintro (h | ⟨h1, h2⟩)
      · rcases contributor_mapAdd_inv h with h | ⟨h1, h2⟩
        · exact Or.inl h
        · exact Or.inr ⟨Or.inl h1, h2⟩
      · exact Or.inr ⟨Or.inr h1, h2⟩
    · rintro (h | ⟨h1 | h1, h2⟩)
      · exact Or.inl (contributor_mapAdd_mono h)
      · subst h1 h2
        exact Or.inl (contributor_mapAdd_self _ _ m)
      · exact Or.inr ⟨h1, h2⟩

theorem foldl_contributeTask_spec :
    ∀ (ts : List TaskDefinition) (m : List (Nat × List Nat)) (tag x : Nat),
      Contributor (ts.foldl contributeTask m) tag x ↔
        Contributor m tag x ∨
          ∃ t ∈ ts, t.m_Addr = x ∧ tag ∈ t.m_Contract.m_ContributedDependencies := by
  intro ts
  induction ts with
  | nil => intro m tag x; simp
  | cons t rest ih =>
    intro m tag x
    simp only [List.foldl_cons, ih, contributeTask, contributeTask_spec, List.mem_cons]
    constructor
    · rintro ((h | ⟨h1, h2⟩) | ⟨t', ht', h1, h2⟩)
      · exact Or.inl h
      · exact Or.inr ⟨t, Or.inl rfl, h2.symm, h1⟩
      · exact Or.inr ⟨t', Or.inr ht', h1, h2⟩
    · rintro (h | ⟨t', ht' | ht', h1, h2⟩)
      · exact Or.inl (Or.inl h)
      · subst ht'
        exact Or.inl (Or.inr ⟨h2, h1.symm⟩)
      · exact Or.inr ⟨t', ht', h1, h2⟩

/-- The dependency map records exactly the contributions the contracts
declare. -/
theorem buildContributionMap_spec (ts : List TaskDefinition) (tag x : Nat) :
    Contributor (buildContributionMap ts) tag x ↔
      ∃ t ∈ ts, t.m_Addr = x ∧ tag ∈ t.m_Contract.m_ContributedDependencies := by
  unfold buildContributionMap
  rw [foldl_contributeTask_spec]
  constructor
  · rintro (⟨l, hl, _⟩ | h)
    · simp [mapFind] at hl
    · exact h
  · exact Or.inr

/-! ## The first three passes together -/

theorem definePass_addr (D : TaskDefinition → TaskContract) (mask : Nat) (t : TaskDefinition) :
    (definePass D mask t).m_Addr = t.m_Addr := rfl

theorem definedTasks_addrs (D : TaskDefinition → TaskContract) (mask : Nat)
    (tasks : List TaskDefinition) :
    (definedTasks D mask tasks).map (·.m_Addr) = tasks.map (·.m_Addr) := by
  simp [definedTasks, List.map_map, Function.comp_def, definePass_addr]

theorem contributor_defined (D : TaskDefinition → TaskContract) (mask : Nat)
    (tasks : List TaskDefinition) (tag x : Nat) :
    Contributor (buildContributionMap (definedTasks D mask tasks)) tag x ↔
      ∃ t ∈ tasks, t.m_Addr = x ∧ tag ∈ (D t).m_ContributedDependencies := by
  rw [buildContributionMap_spec]
  constructor
  · rintro ⟨t', ht', h1, h2⟩
    obtain ⟨t, ht, rfl⟩ := List.mem_map.mp ht'
    exact ⟨t, ht, h1, h2⟩
  · rintro ⟨t, ht, h1, h2⟩
    exact ⟨definePass D mask t, List.mem_map.mpr ⟨t, ht, rfl⟩, h1, h2⟩

theorem resolveEdges_eq (D : TaskDefinition → TaskContract) (mask : Nat)
    (tasks : List TaskDefinition) :
    resolveEdges D mask tasks =
      materializeEdges (buildContributionMap (definedTasks D mask tasks))
        (definedTasks D mask tasks) (definedTasks D mask tasks) := rfl

/-- The resolved task list is the defined one with grown `m_RequiredTasks`
arrays, every added pointer pointing into the task list. -/
theorem resolveEdges_grown {D : TaskDefinition → TaskContract} {mask : Nat}
    {tasks ts : List TaskDefinition} (h : resolveEdges D mask tasks = some ts) :
    Grown (· ∈ tasks.map (·.m_Addr)) (definedTasks D mask tasks) ts := by
  rw [resolveEdges_eq] at h
  refine (materializeEdges_spec (· ∈ tasks.map (·.m_Addr)) _ ?_ _ _ _ h).1
  intro tag x hx
  obtain ⟨t, ht, h1, _⟩ := (contributor_defined D mask tasks tag x).mp hx
  exact List.mem_map.mpr ⟨t, ht, h1⟩

/-- Every declared pair is materialized as an edge. -/
theorem resolveEdges_edge {D : TaskDefinition → TaskContract} {mask : Nat}
    {tasks ts : List TaskDefinition} (h : resolveEdges D mask tasks = some ts)
    {task : TaskDefinition} (htask : task ∈ tasks) {r : OrderRequirement}
    (hr : r ∈ (D task).m_OrderRequirements)
    {tout tin : TaskDefinition} (hto : tout ∈ tasks) (hti : tin ∈ tasks)
    (ho : task.m_DependencyReverseLookup ∈ (D tout).m_ContributedDependencies)
    (hi : r.m_Dependency ∈ (D tin).m_ContributedDependencies) :
    pairEdge ts r.m_Type tout.m_Addr tin.m_Addr := by
  rw [resolveEdges_eq] at h
  have hm : ∀ tag x, Contributor (buildContributionMap (definedTasks D mask tasks)) tag x →
      x ∈ tasks.map (·.m_Addr) := by
    intro tag x hx
    obtain ⟨t, ht, h1, _⟩ := (contributor_defined D mask tasks tag x).mp hx
    exact List.mem_map.mpr ⟨t, ht, h1⟩
  have hspec := (materializeEdges_spec (· ∈ tasks.map (·.m_Addr)) _ hm _ _ _ h).2
  have hmem : definePass D mask task ∈ definedTasks D mask tasks :=
    List.mem_map.mpr ⟨task, htask, rfl⟩
  apply hspec (definePass D mask task) hmem r hr tout.m_Addr
  · exact (contributor_defined D mask tasks _ _).mpr ⟨tout, hto, rfl, ho⟩
  · rw [definedTasks_addrs]; exact List.mem_map.mpr ⟨tout, hto, rfl⟩
  · exact (contributor_defined D mask tasks _ _).mpr ⟨tin, hti, rfl, hi⟩
  · rw [definedTasks_addrs]; exact List.mem_map.mpr ⟨tin, hti, rfl⟩

/-- The assertions of lines 73 and 81 hold as soon as every tag that is looked
up has a contributor. -/
theorem resolveEdges_isSome (D : TaskDefinition → TaskContract) (mask : Nat)
    (tasks : List TaskDefinition)
    (hown : ∀ t ∈ tasks, TagHasContributor D tasks t.m_DependencyReverseLookup)
    (htags : ∀ t ∈ tasks, ∀ r ∈ (D t).m_OrderRequirements,
      TagHasContributor D tasks r.m_Dependency) :
    ∃ ts, resolveEdges D mask tasks = some ts := by
  rw [resolveEdges_eq]
  apply materializeEdges_isSome
  intro task' ht'
  obtain ⟨task, htask, rfl⟩ := List.mem_map.mp ht'
  have key : ∀ tag, TagHasContributor D tasks tag →
      ∃ l, mapFind tag (buildContributionMap (definedTasks D mask tasks)) = some l := by
    rintro tag ⟨c, hc, hcon⟩
    obtain ⟨l, hl, _⟩ := (contributor_defined D mask tasks tag c.m_Addr).mpr ⟨c, hc, rfl, hcon⟩
    exact ⟨l, hl⟩
  exact ⟨key _ (hown task htask), fun r hr => key _ (htags task htask r hr)⟩

theorem resolveEdges_addrs {D : TaskDefinition → TaskContract} {mask : Nat}
    {tasks ts : List TaskDefinition} (h : resolveEdges D mask tasks = some ts) :
    ts.map (·.m_Addr) = tasks.map (·.m_Addr) := by
  rw [grown_addrs (resolveEdges_grown h), definedTasks_addrs]

theorem resolveEdges_valid {D : TaskDefinition → TaskContract} {mask : Nat}
    {tasks ts : List TaskDefinition} (h : resolveEdges D mask tasks = some ts)
    (hv : RequiredValid tasks) : RequiredValid ts := by
  obtain ⟨g, e, hg⟩ := resolveEdges_grown h
  intro t' ht' r hr
  rw [resolveEdges_addrs h]
  rw [e] at ht'
  obtain ⟨t1, ht1, rfl⟩ := List.mem_map.mp ht'
  obtain ⟨t, ht, rfl⟩ := List.mem_map.mp ht1
  obtain ⟨_, _, _, _, extra, he, hp⟩ := hg (definePass D mask t)
  rw [he] at hr
  rcases List.mem_append.mp hr with hr | hr
  · exact hv t ht r hr
  · exact hp r hr

/-! ## The emission loop over the whole chain -/

theorem insertAll_true {tools : Bool} {ts : List TaskDefinition} {fuel : Nat}
    {ps : List Nat} {l l' : TaskLists} (h : insertAll tools ts fuel ps l = some (true, l')) :
    Extends ts l l' ∧ ∀ p ∈ ps, p ∈ l'.rTaskInfoList :=
  insertPrior_true (InsertToTaskList_true tools ts fuel) ps l l' h

theorem insertAll_false {tools : Bool} {ts : List TaskDefinition} {fuel : Nat}
    {ps : List Nat} {l l' : TaskLists} (hl : l.rTaskStack = [])
    (h : insertAll tools ts fuel ps l = some (false, l')) :
    ∃ x, Relation.TransGen (Requires ts) x x := by
  obtain ⟨r, _, l1, l1', hs, hfail⟩ :=
    insertPrior_false (fun l r l' hh => (InsertToTaskList_true tools ts fuel l r l' hh).1.1)
      ps l l' h
  apply InsertToTaskList_false tools ts fuel l1 r l1' hfail
  rw [hs, hl]
  simp

theorem insertAll_ne_none {tools : Bool} {ts : List TaskDefinition} (hv : RequiredValid ts)
    {l : TaskLists} (hl : l.rTaskStack = []) :
    insertAll tools ts (ts.length + 1) (ts.map (·.m_Addr)) l ≠ none := by
  apply insertPrior_ne_none
    (fun l r l' hh => (InsertToTaskList_true tools ts (ts.length + 1) l r l' hh).1.1)
  intro r hr l1 hl1
  apply InsertToTaskList_ne_none tools ts hv _ l1 r hr
  · rw [hl1, hl]; exact List.nodup_nil
  · rw [hl1, hl]; simp
  · omega

theorem emitted_transGen {ts : List TaskDefinition} {base added : List Nat}
    (he : Emitted ts base added) {x y : Nat}
    (h : Relation.TransGen (RequiresOutside ts base) x y) :
    ∀ pre post, added = pre ++ x :: post → y ∈ pre := by
  induction h using Relation.TransGen.head_induction_on with
  | base hxy =>
    intro pre post e
    subst e
    have := (emitted_split he).2.2 _ hxy.1
    rcases List.mem_append.mp this with h | h
    · exact absurd h hxy.2.2
    · exact h
  | @ih a c hxz _ ih =>
    intro pre post e
    subst e
    have := (emitted_split he).2.2 _ hxz.1
    rcases List.mem_append.mp this with h | h
    · exact absurd h hxz.2.2
    · obtain ⟨p1, p2, rfl⟩ := List.append_of_mem h
      have := ih p1 (p2 ++ a :: post) (by simp)
      exact List.mem_append_left _ this

/-! ## Lemmas on the compacted arrays -/

theorem keptInfos_append :
    ∀ (f1 : List (Option Nat)) (i1 : List Nat) (f2 : List (Option Nat)) (i2 : List Nat),
      f1.length = i1.length →
        keptInfos (f1 ++ f2) (i1 ++ i2) = keptInfos f1 i1 ++ keptInfos f2 i2 := by
  intro f1
  induction f1 with
  | nil =>
    intro i1 f2 i2 h
    cases i1 with
    | nil => cases f2 <;> simp [keptInfos]
    | cons a i1 => simp at h
  | cons x f1 ih =>
    intro i1 f2 i2 h
    cases i1 with
    | nil => simp at h
    | cons a i1 =>
      simp only [List.length_cons, Nat.add_right_cancel_iff] at h
      cases x with
      | none => exact ih i1 f2 i2 h
      | some v =>
        show a :: keptInfos (f1 ++ f2) (i1 ++ i2) = a :: (keptInfos f1 i1 ++ keptInfos f2 i2)
        rw [ih i1 f2 i2 h]

theorem keptFuncs_append (f1 f2 : List (Option Nat)) :
    keptFuncs (f1 ++ f2) = keptFuncs f1 ++ keptFuncs f2 := by
  simp [keptFuncs]

theorem keptInfos_map (g : Nat → Option Nat) :
    ∀ l : List Nat, keptInfos (l.map g) l = l.filter (fun x => (g x).isSome) := by
  intro l
  induction l with
  | nil => simp [keptInfos]
  | cons a l ih =>
    cases hg : g a with
    | none => simp [keptInfos, hg, ih]
    | some v => simp [keptInfos, hg, ih]

theorem keptFuncs_map (g : Nat → Option Nat) :
    ∀ l : List Nat, keptFuncs (l.map g) = (l.filter (fun x => (g x).isSome)).map g := by
  intro l
  induction l with
  | nil => simp [keptFuncs]
  | cons a l ih =>
    simp only [keptFuncs] at ih
    cases hg : g a with
    | none => simp [keptFuncs, hg, ih]
    | some v => simp [keptFuncs, hg, ih]

theorem keptInfos_sublist :
    ∀ (f : List (Option Nat)) (i : List Nat), (keptInfos f i).Sublist i := by
  intro f
  induction f with
  | nil => intro i; cases i <;> simp [keptInfos]
  | cons x f ih =>
    intro i
    cases i with
    | nil => cases x <;> simp [keptInfos]
    | cons a i =>
      cases x with
      | none => simp only [keptInfos]; exact (ih i).cons a
      | some v => simp only [keptInfos]; exact (ih i).cons₂ a

theorem keptInfos_length :
    ∀ (f : List (Option Nat)) (i : List Nat), f.length = i.length →
      (keptInfos f i).length = (keptFuncs f).length := by
  intro f
  induction f with
  | nil => intro i _; cases i <;> simp [keptInfos, keptFuncs]
  | cons x f ih =>
    intro i h
    cases i with
    | nil => simp at h
    | cons a i =>
      simp only [List.length_cons, Nat.add_right_cancel_iff] at h
      have := ih i h
      simp only [keptFuncs] at this
      cases x with
      | none => simpa [keptInfos, keptFuncs] using this
      | some v => simpa [keptInfos, keptFuncs] using this

theorem not_mem_keptFuncs_none (f : List (Option Nat)) : none ∉ keptFuncs f := by
  simp [keptFuncs]

/-! ## `CalculateSchedule` as a whole -/

/-- What a successful `CalculateSchedule` leaves, in terms of the entries
`added` emitted by the depth-first pass. -/
theorem CalculateSchedule_true {tools : Bool} {D : TaskDefinition → TaskContract}
    {mask : Nat} {s s' : TaskScheduler}
    (hpar : s.m_ScheduleFunc.length = s.m_ScheduleInfo.length)
    (h : CalculateSchedule tools D mask s = some (true, s')) :
    ∃ ts added, resolveEdges D mask s.tasks = some ts ∧
      Emitted ts s.m_ScheduleInfo added ∧
      (∀ p ∈ s.tasks.map (·.m_Addr), p ∈ s.m_ScheduleInfo ++ added) ∧
      s'.m_ScheduleInfo =
        keptInfos (s.m_ScheduleFunc ++ added.map (funcOf ts)) (s.m_ScheduleInfo ++ added) ∧
      s'.m_ScheduleFunc = keptFuncs (s.m_ScheduleFunc ++ added.map (funcOf ts)) ∧
      s'.tasks = ts.map clearTask := by
  unfold CalculateSchedule at h
  cases hres : resolveEdges D mask s.tasks with
  | none => simp [hres] at h
  | some ts =>
    simp only [hres] at h
    cases hins : insertAll tools ts (ts.length + 1) (ts.map (·.m_Addr))
        { rTaskInfoList := s.m_ScheduleInfo, rTaskFuncList := s.m_ScheduleFunc,
          rTaskStack := [] } with
    | none => simp [hins] at h
    | some res =>
      obtain ⟨b, l⟩ := res
      cases b with
      | false => simp [hins] at h
      | true =>
        simp only [hins] at h
        obtain ⟨⟨_, added, hi, hf, hem, _⟩, hall⟩ := insertAll_true hins
        simp only at hi hf hem
        have hlen : l.rTaskFuncList.length = l.rTaskInfoList.length := by
          rw [hi, hf]; simp [hpar]
        rw [compactSchedule_eq _ _ hlen] at h
        simp only [Option.some.injEq, Prod.mk.injEq, true_and] at h
        subst h
        refine ⟨ts, added, rfl, hem, ?_, ?_, ?_, rfl⟩
        · intro p hp
          rw [← hi]
          exact hall p (by rw [resolveEdges_addrs hres]; exact hp)
        · simp only [hi, hf]
        · simp only [hf]

/-- The call `CalculateSchedule` returns normally when the task pointers are valid and
the cached arrays are parallel: it answers `true`, or it answers `false`,
clears the cached schedule, and the resolved edges contain a cycle. -/
theorem CalculateSchedule_cases {tools : Bool} {D : TaskDefinition → TaskContract}
    {mask : Nat} {s : TaskScheduler} {ts : List TaskDefinition}
    (hres : resolveEdges D mask s.tasks = some ts) (hv : RequiredValid s.tasks)
    (hpar : s.m_ScheduleFunc.length = s.m_ScheduleInfo.length) :
    (∃ s', CalculateSchedule tools D mask s = some (true, s')) ∨
      (CalculateSchedule tools D mask s =
          some (false, { tasks := ts, m_ScheduleInfo := [], m_ScheduleFunc := [] }) ∧
        ∃ x, Relation.TransGen (Requires ts) x x) := by
  unfold CalculateSchedule
  simp only [hres]
  cases hins : insertAll tools ts (ts.length + 1) (ts.map (·.m_Addr))
      { rTaskInfoList := s.m_ScheduleInfo, rTaskFuncList := s.m_ScheduleFunc,
        rTaskStack := [] } with
  | none => exact absurd hins (insertAll_ne_none (resolveEdges_valid hres hv) rfl)
  | some res =>
    obtain ⟨b, l⟩ := res
    cases b with
    | false => exact Or.inr ⟨rfl, insertAll_false rfl hins⟩
    | true =>
      left
      obtain ⟨⟨_, added, hi, hf, _, _⟩, _⟩ := insertAll_true hins
      simp only at hi hf
      have hlen : l.rTaskFuncList.length = l.rTaskInfoList.length := by
        rw [hi, hf]; simp [hpar]
      simp only [compactSchedule_eq _ _ hlen]
      exact ⟨_, rfl⟩

/-- From an empty cache, the emitted schedule is the depth-first order with
the tasks of null function removed. -/
theorem CalculateSchedule_true_empty {tools : Bool} {D : TaskDefinition → TaskContract}
    {mask : Nat} {s s' : TaskScheduler}
    (hI : s.m_ScheduleInfo = []) (hF : s.m_ScheduleFunc = [])
    (h : CalculateSchedule tools D mask s = some (true, s')) :
    ∃ ts added, resolveEdges D mask s.tasks = some ts ∧
      Emitted ts [] added ∧
      (∀ p ∈ s.tasks.map (·.m_Addr), p ∈ added) ∧
      s'.m_ScheduleInfo = added.filter (fun x => (funcOf ts x).isSome) ∧
      s'.m_ScheduleFunc = (added.filter (fun x => (funcOf ts x).isSome)).map (funcOf ts) ∧
      s'.tasks = ts.map clearTask := by
  obtain ⟨ts, added, hres, hem, hall, hi, hf, ht⟩ :=
    CalculateSchedule_true (by simp [hI, hF]) h
  rw [hI] at hem hall
  rw [hI, hF] at hi
  rw [hF] at hf
  simp only [List.nil_append] at hi hf hall
  rw [keptInfos_map] at hi
  rw [keptFuncs_map] at hf
  exact ⟨ts, added, hres, hem, hall, hi, hf, ht⟩

theorem indexOf_lt_of_mem_pre {l pre post : List Nat} {a b : Nat} (hnd : l.Nodup)
    (hl : l = pre ++ b :: post) (ha : a ∈ pre) : l.indexOf a < l.indexOf b := by
  subst hl
  have hb : b ∉ pre := by
    intro hb
    have := List.nodup_append.mp hnd
    exact this.2.2 hb (List.mem_cons_self b post)
  rw [List.indexOf_append_of_mem ha, List.indexOf_append_of_not_mem hb,
    List.indexOf_cons_self]
  have := List.indexOf_lt_length.mpr ha
  omega

/-- In a schedule built from an empty cache, a task that is reached through
prerequisite edges from another one stands before it. -/
theorem schedule_order {tools : Bool} {D : TaskDefinition → TaskContract}
    {mask : Nat} {s s' : TaskScheduler} {ts : List TaskDefinition}
    (hI : s.m_ScheduleInfo = []) (hF : s.m_ScheduleFunc = [])
    (h : CalculateSchedule tools D mask s = some (true, s'))
    (hres : resolveEdges D mask s.tasks = some ts) {a b : Nat}
    (hba : Relation.TransGen (Requires ts) b a)
    (ha : a ∈ s'.m_ScheduleInfo) (hb : b ∈ s'.m_ScheduleInfo) :
    s'.m_ScheduleInfo.indexOf a < s'.m_ScheduleInfo.indexOf b := by
  obtain ⟨ts', added, hres', hem, _, hi, _, _⟩ := CalculateSchedule_true_empty hI hF h
  rw [hres] at hres'
  cases hres'
  have hnd : added.Nodup := by simpa using emitted_nodup added [] hem List.nodup_nil
  rw [hi] at ha hb ⊢
  obtain ⟨pre, post, e⟩ := List.append_of_mem (List.mem_filter.mp hb).1
  have hba' : Relation.TransGen (RequiresOutside ts []) b a :=
    hba.mono (fun x y hxy => ⟨hxy, by simp, by simp⟩)
  have hpre : a ∈ pre := emitted_transGen hem hba' pre post e
  apply @indexOf_lt_of_mem_pre _ (pre.filter (fun x => (funcOf ts x).isSome))
    (post.filter (fun x => (funcOf ts x).isSome)) a b (hnd.filter _)
  · rw [e, List.filter_append, List.filter_cons, if_pos (List.mem_filter.mp hb).2]
  · exact List.mem_filter.mpr ⟨hpre, (List.mem_filter.mp ha).2⟩

/-! ## Properties of the scheduler -/

theorem acyclic_of_rank (ts : List TaskDefinition) (rank : Nat → Nat)
    (h : ∀ t ∈ ts, ∀ r ∈ t.m_RequiredTasks, rank r < rank t.m_Addr) :
    ∀ x, ¬ Relation.TransGen (Requires ts) x x := by
  have key : ∀ a b, Relation.TransGen (Requires ts) a b → rank b < rank a := by
    intro a b hab
    induction hab with
    | single hr =>
      obtain ⟨t, ht, hb⟩ := hr
      obtain ⟨hm, ha⟩ := findTask_some ht
      rw [← ha]
      exact h t hm _ hb
    | tail _ hr ih =>
      obtain ⟨t, ht, hb⟩ := hr
      obtain ⟨hm, ha⟩ := findTask_some ht
      have := h t hm _ hb
      rw [ha] at this
      omega
  intro x hx
  exact Nat.lt_irrefl _ (key x x hx)

theorem requiredValid_of_empty {tasks : List TaskDefinition}
    (h : ∀ t ∈ tasks, t.m_RequiredTasks = []) : RequiredValid tasks := by
  intro t ht r hr
  rw [h t ht] at hr
  simp at hr

theorem findTask_of_nodup {ts : List TaskDefinition} (hnd : (ts.map (·.m_Addr)).Nodup)
    {t : TaskDefinition} (ht : t ∈ ts) : findTask ts t.m_Addr = some t := by
  induction ts with
  | nil => simp at ht
  | cons a rest ih =>
    simp only [List.map_cons, List.nodup_cons] at hnd
    rcases List.mem_cons.mp ht with rfl | ht
    · simp [findTask, List.find?]
    · have hne : a.m_Addr ≠ t.m_Addr := by
        intro e
        exact hnd.1 (e ▸ List.mem_map.mpr ⟨t, ht, rfl⟩)
      have := ih hnd.2 ht
      simpa [findTask, List.find?, hne] using this

/-- The function the resolved task list holds for a task of the original
list: the original one, or null when the tick type misses the mask. -/
theorem funcOf_resolved {D : TaskDefinition → TaskContract} {mask : Nat}
    {tasks ts : List TaskDefinition} (hres : resolveEdges D mask tasks = some ts)
    (hnd : (tasks.map (·.m_Addr)).Nodup) {t : TaskDefinition} (ht : t ∈ tasks) :
    funcOf ts t.m_Addr = if (D t).m_TickType &&& mask = 0 then none else t.m_Func := by
  rw [grown_funcOf (resolveEdges_grown hres)]
  have hnd' : ((definedTasks D mask tasks).map (·.m_Addr)).Nodup := by
    rw [definedTasks_addrs]; exact hnd
  have hmem : definePass D mask t ∈ definedTasks D mask tasks :=
    List.mem_map.mpr ⟨t, ht, rfl⟩
  have := findTask_of_nodup hnd' hmem
  rw [definePass_addr] at this
  simp [funcOf, this, definePass]

theorem funcOf_map_clearTask (ts : List TaskDefinition) (p : Nat) :
    funcOf (ts.map clearTask) p = funcOf ts p := by
  unfold funcOf
  rw [findTask_map (g := clearTask) (fun _ => rfl)]
  cases findTask ts p <;> rfl

theorem declared_requires {D : TaskDefinition → TaskContract} {mask : Nat}
    {tasks ts : List TaskDefinition} (hres : resolveEdges D mask tasks = some ts)
    (hown : ∀ t ∈ tasks, t.m_DependencyReverseLookup ∈ (D t).m_ContributedDependencies)
    {a b : Nat} (h : DeclaredBefore D tasks a b) : Requires ts b a := by
  obtain ⟨ta, hta, tb, htb, rfl, rfl, h | h⟩ := h
  · exact resolveEdges_edge hres hta h hta htb (hown ta hta) (hown tb htb)
  · exact resolveEdges_edge hres htb h htb hta (hown tb htb) (hown ta hta)

/-- C1. Topological correctness: when the resolved prerequisite edges contain
no cycle, every tag named in an order requirement has a contributor, every
task contributes to its own reverse-lookup tag, and the cached schedule and
all `m_RequiredTasks` arrays are empty on entry, `CalculateSchedule` returns
true, and for every declared `A.Before(B)` or `B.After(A)` with both tasks in
the emitted schedule the index of A is smaller than the index of B. -/
theorem C1_topological_order (tools : Bool) (D : TaskDefinition → TaskContract) (mask : Nat)
    (s : TaskScheduler)
    (hacyclic : ∀ ts, resolveEdges D mask s.tasks = some ts →
      ∀ x, ¬ Relation.TransGen (Requires ts) x x)
    (htags : ∀ t ∈ s.tasks, ∀ r ∈ (D t).m_OrderRequirements,
      TagHasContributor D s.tasks r.m_Dependency)
    (hown : ∀ t ∈ s.tasks, t.m_DependencyReverseLookup ∈ (D t).m_ContributedDependencies)
    (hI : s.m_ScheduleInfo = []) (hF : s.m_ScheduleFunc = [])
    (hreq : ∀ t ∈ s.tasks, t.m_RequiredTasks = []) :
    ∃ s', CalculateSchedule tools D mask s = some (true, s') ∧
      ∀ a b, DeclaredBefore D s.tasks a b →
        a ∈ s'.m_ScheduleInfo → b ∈ s'.m_ScheduleInfo →
          s'.m_ScheduleInfo.indexOf a < s'.m_ScheduleInfo.indexOf b := by
  obtain ⟨ts, hres⟩ := resolveEdges_isSome D mask s.tasks
    (fun t ht => ⟨t, ht, hown t ht⟩) htags
  rcases @CalculateSchedule_cases tools D mask s ts hres (requiredValid_of_empty hreq)
    (by simp [hI, hF]) with ⟨s', hs'⟩ | ⟨_, x, hx⟩
  · refine ⟨s', hs', ?_⟩
    intro a b hab ha hb
    exact schedule_order hI hF hs' hres
      (Relation.TransGen.single (declared_requires hres hown hab)) ha hb
  · exact absurd hx (hacyclic ts hres x)

/-- C4. Output set: starting from an empty cached schedule, after
`CalculateSchedule(mask)` returns true the emitted schedule holds no task
twice, and holds exactly the tasks that have a non-null function and whose
tick type intersects the mask. -/
theorem C4_output_set (tools : Bool) (D : TaskDefinition → TaskContract) (mask : Nat)
    (s s' : TaskScheduler) (hnd : (s.tasks.map (·.m_Addr)).Nodup)
    (hI : s.m_ScheduleInfo = []) (hF : s.m_ScheduleFunc = [])
    (h : CalculateSchedule tools D mask s = some (true, s')) :
    s'.m_ScheduleInfo.Nodup ∧
      (∀ t ∈ s.tasks, (t.m_Func ≠ none ∧ (D t).m_TickType &&& mask ≠ 0) →
        s'.m_ScheduleInfo.count t.m_Addr = 1) ∧
      ∀ p ∈ s'.m_ScheduleInfo, ∃ t ∈ s.tasks, t.m_Addr = p ∧ t.m_Func ≠ none ∧
        (D t).m_TickType &&& mask ≠ 0 := by
  obtain ⟨ts, added, hres, hem, hall, hi, _, _⟩ := CalculateSchedule_true_empty hI hF h
  have hnd' : s'.m_ScheduleInfo.Nodup := by
    rw [hi]
    exact (by simpa using emitted_nodup added [] hem List.nodup_nil : added.Nodup).filter _
  refine ⟨hnd', ?_, ?_⟩
  · intro t ht hkeep
    apply List.count_eq_one_of_mem hnd'
    rw [hi]
    refine List.mem_filter.mpr ⟨hall _ (List.mem_map.mpr ⟨t, ht, rfl⟩), ?_⟩
    rw [funcOf_resolved hres hnd ht, if_neg hkeep.2]
    cases hf : t.m_Func with
    | none => exact absurd hf hkeep.1
    | some f => rfl
  · intro p hp
    rw [hi] at hp
    obtain ⟨hmem, hsome⟩ := List.mem_filter.mp hp
    obtain ⟨t', ht'⟩ := emitted_valid added [] hem p hmem
    have hp' : p ∈ s.tasks.map (·.m_Addr) := by
      rw [← resolveEdges_addrs hres]; exact mem_addrs_of_findTask ht'
    obtain ⟨t, ht, rfl⟩ := List.mem_map.mp hp'
    refine ⟨t, ht, rfl, ?_⟩
    rw [funcOf_resolved hres hnd ht] at hsome
    by_cases hm : (D t).m_TickType &&& mask = 0
    · simp [hm] at hsome
    · rw [if_neg hm] at hsome
      refine ⟨?_, hm⟩
      intro hnone
      simp [hnone] at hsome

/-- C6. Constraint propagation through a stripped task: starting from an
empty cache, when `CalculateSchedule` returns true, the task X has a null
function after the mask is applied, and the declared requirements order A
before X and X before B, then X is absent from the emitted schedule and A
stands before B whenever both appear in it. -/
theorem C6_stripped_propagation (tools : Bool) (D : TaskDefinition → TaskContract)
    (mask : Nat) (s s' : TaskScheduler) (hnd : (s.tasks.map (·.m_Addr)).Nodup)
    (hown : ∀ t ∈ s.tasks, t.m_DependencyReverseLookup ∈ (D t).m_ContributedDependencies)
    (hI : s.m_ScheduleInfo = []) (hF : s.m_ScheduleFunc = [])
    (h : CalculateSchedule tools D mask s = some (true, s'))
    (X : TaskDefinition) (hX : X ∈ s.tasks)
    (hstripped : (D X).m_TickType &&& mask = 0 ∨ X.m_Func = none)
    (a b : Nat) (hax : DeclaredBefore D s.tasks a X.m_Addr)
    (hxb : DeclaredBefore D s.tasks X.m_Addr b)
    (ha : a ∈ s'.m_ScheduleInfo) (hb : b ∈ s'.m_ScheduleInfo) :
    X.m_Addr ∉ s'.m_ScheduleInfo ∧
      s'.m_ScheduleInfo.indexOf a < s'.m_ScheduleInfo.indexOf b := by
  obtain ⟨ts, added, hres, _, _, hi, _, _⟩ := CalculateSchedule_true_empty hI hF h
  refine ⟨?_, ?_⟩
  · rw [hi]
    intro hmem
    have hsome := (List.mem_filter.mp hmem).2
    rw [funcOf_resolved hres hnd hX] at hsome
    rcases hstripped with hm | hf
    · simp [hm] at hsome
    · by_cases hm : (D X).m_TickType &&& mask = 0
      · simp [hm] at hsome
      · simp [hm, hf] at hsome
  · exact schedule_order hI hF h hres
      (Relation.TransGen.head (declared_requires hres hown hxb)
        (Relation.TransGen.single (declared_requires hres hown hax))) ha hb

theorem C1_topological_order_witness :
    ∃ s', CalculateSchedule true s4Contract 1
        { tasks := s4Tasks, m_ScheduleInfo := [], m_ScheduleFunc := [] } = some (true, s') ∧
      ∀ a b, DeclaredBefore s4Contract s4Tasks a b →
        a ∈ s'.m_ScheduleInfo → b ∈ s'.m_ScheduleInfo →
          s'.m_ScheduleInfo.indexOf a < s'.m_ScheduleInfo.indexOf b :=
  C1_topological_order true s4Contract 1
    { tasks := s4Tasks, m_ScheduleInfo := [], m_ScheduleFunc := [] }
    (fun ts hts => acyclic_of_rank ts s4Rank
      ((by decide : ∀ ts' ∈ resolveEdges s4Contract 1 s4Tasks,
        ∀ t ∈ ts', ∀ r ∈ t.m_RequiredTasks, s4Rank r < s4Rank t.m_Addr) ts hts))
    (by unfold TagHasContributor; decide) (by decide) rfl rfl (by decide)

theorem C4_output_set_witness :
    [1, 3].Nodup ∧
      (∀ t ∈ chainTasks, (t.m_Func ≠ none ∧ (chainContract t).m_TickType &&& 1 ≠ 0) →
        [1, 3].count t.m_Addr = 1) ∧
      ∀ p ∈ [1, 3], ∃ t ∈ chainTasks, t.m_Addr = p ∧ t.m_Func ≠ none ∧
        (chainContract t).m_TickType &&& 1 ≠ 0 :=
  C4_output_set true chainContract 1
    { tasks := chainTasks, m_ScheduleInfo := [], m_ScheduleFunc := [] }
    chainResult
    (by decide) rfl rfl (by decide)

theorem C6_stripped_propagation_witness :
    (2 : Nat) ∉ [1, 3] ∧ [1, 3].indexOf 1 < [1, 3].indexOf 3 :=
  C6_stripped_propagation true chainContract 1
    { tasks := chainTasks, m_ScheduleInfo := [], m_ScheduleFunc := [] }
    chainResult
    (by decide) (by decide) rfl rfl (by decide) (scenarioTask 2 (some 12)) (by decide)
    (Or.inl (by decide)) 1 3
    ⟨scenarioTask 1 (some 11), by decide, scenarioTask 2 (some 12), by decide, rfl, rfl,
      Or.inl (by decide)⟩
    ⟨scenarioTask 2 (some 12), by decide, scenarioTask 3 (some 13), by decide, rfl, rfl,
      Or.inr (by decide)⟩
    (by decide) (by decide)

set_option maxRecDepth 100000 in
/-- C5. Scenario S4: with the contracts `A.Before(B)`, `C.After(B)`,
`D.Contributes(T)`, `A.After(T)`, all tasks in phase, for every order in which
the five definitions A, B, C, D, T are linked, `CalculateSchedule` from an
empty cache returns true and emits exactly D, A, B, C (the addresses 4, 1, 2,
3), with their functions beside them. -/
theorem C5_scenario_S4 (l : List TaskDefinition) (hl : l.Perm s4Tasks) (tools : Bool) :
    (CalculateSchedule tools s4Contract 1
        { tasks := l, m_ScheduleInfo := [], m_ScheduleFunc := [] }).map
      (fun r => (r.1, r.2.m_ScheduleInfo, r.2.m_ScheduleFunc)) =
        some (true, [4, 1, 2, 3], [some 14, some 11, some 12, some 13]) :=
  (by decide : ∀ l ∈ s4Tasks.permutations', ∀ tools : Bool,
    (CalculateSchedule tools s4Contract 1
        { tasks := l, m_ScheduleInfo := [], m_ScheduleFunc := [] }).map
      (fun r => (r.1, r.2.m_ScheduleInfo, r.2.m_ScheduleFunc)) =
        some (true, [4, 1, 2, 3], [some 14, some 11, some 12, some 13]))
    l (List.mem_permutations'.mpr hl) tools

theorem C5_scenario_S4_witness :
    (CalculateSchedule true s4Contract 1
        { tasks := s4Tasks.reverse, m_ScheduleInfo := [], m_ScheduleFunc := [] }).map
      (fun r => (r.1, r.2.m_ScheduleInfo, r.2.m_ScheduleFunc)) =
        some (true, [4, 1, 2, 3], [some 14, some 11, some 12, some 13]) :=
  C5_scenario_S4 s4Tasks.reverse (List.reverse_perm s4Tasks) true

theorem executeBefore_contributed (c : TaskContract) (tag : Nat) :
    (c.ExecuteBefore tag).m_ContributedDependencies = c.m_ContributedDependencies := rfl

theorem executeAfter_contributed (c : TaskContract) (tag : Nat) :
    (c.ExecuteAfter tag).m_ContributedDependencies = c.m_ContributedDependencies := rfl

theorem standard_contributed (tags : StandardTags) (k : Nat) (c : TaskContract) :
    (StandardDependencies.DefineContract tags k c).m_ContributedDependencies =
      c.m_ContributedDependencies := by
  unfold StandardDependencies.DefineContract
  split <;> rfl

/-- The standard contracts make every contributor of a tag of the chain a
prerequisite of every contributor of the next tag. -/
theorem backbone_adjacent {D : TaskDefinition → TaskContract} {mask : Nat}
    {tasks ts : List TaskDefinition} {tags : StandardTags}
    (hres : resolveEdges D mask tasks = some ts) (hback : StandardBackbone D tasks tags)
    (k : Nat) (hk : k < 5) {P Q : TaskDefinition} (hP : P ∈ tasks) (hQ : Q ∈ tasks)
    (hPc : tags.tagAt k ∈ (D P).m_ContributedDependencies)
    (hQc : tags.tagAt (k + 1) ∈ (D Q).m_ContributedDependencies) :
    Requires ts Q.m_Addr P.m_Addr := by
  have hlo : k = 0 ∨ k = 1 ∨ k = 2 ∨ k = 3 ∨ k = 4 := by omega
  rcases hlo with rfl | rfl | rfl | rfl | rfl
  · obtain ⟨t, ht, htag, c, _, hD⟩ := hback 0 (by omega)
    have hr : (⟨tags.tagAt 1, .Before⟩ : OrderRequirement) ∈ (D t).m_OrderRequirements := by
      rw [hD]
      simp [StandardDependencies.DefineContract,
        StandardDependencies.ReceiveInput.DefineContract, TaskContract.ExecuteBefore,
        StandardTags.tagAt]
    exact resolveEdges_edge hres ht hr hP hQ (by rw [htag]; exact hPc) hQc
  · obtain ⟨t, ht, htag, c, _, hD⟩ := hback 1 (by omega)
    have hr : (⟨tags.tagAt 2, .Before⟩ : OrderRequirement) ∈ (D t).m_OrderRequirements := by
      rw [hD]
      simp [StandardDependencies.DefineContract,
        StandardDependencies.PrePhysicsGameplay.DefineContract, TaskContract.ExecuteBefore,
        StandardTags.tagAt]
    exact resolveEdges_edge hres ht hr hP hQ (by rw [htag]; exact hPc) hQc
  · obtain ⟨t, ht, htag, c, _, hD⟩ := hback 3 (by omega)
    have hr : (⟨tags.tagAt 2, .After⟩ : OrderRequirement) ∈ (D t).m_OrderRequirements := by
      rw [hD]
      simp [StandardDependencies.DefineContract,
        StandardDependencies.PostPhysicsGameplay.DefineContract, TaskContract.ExecuteAfter,
        StandardTags.tagAt]
    exact resolveEdges_edge hres ht hr hQ hP (by rw [htag]; exact hQc) hPc
  · obtain ⟨t, ht, htag, c, _, hD⟩ := hback 4 (by omega)
    have hr : (⟨tags.tagAt 3, .After⟩ : OrderRequirement) ∈ (D t).m_OrderRequirements := by
      rw [hD]
      simp [StandardDependencies.DefineContract,
        StandardDependencies.Render.DefineContract, TaskContract.ExecuteAfter,
        StandardTags.tagAt]
    exact resolveEdges_edge hres ht hr hQ hP (by rw [htag]; exact hQc) hPc
  · obtain ⟨t, ht, htag, c, _, hD⟩ := hback 5 (by omega)
    have hr : (⟨tags.tagAt 4, .After⟩ : OrderRequirement) ∈ (D t).m_OrderRequirements := by
      rw [hD]
      simp [StandardDependencies.DefineContract,
        StandardDependencies.PostRender.DefineContract, TaskContract.ExecuteAfter,
        StandardTags.tagAt]
    exact resolveEdges_edge hres ht hr hQ hP (by rw [htag]; exact hQc) hPc

/-- Along the chain, a contributor of a later tag reaches every contributor of
an earlier tag through prerequisite edges, the abstract tasks in between
serving as relays. -/
theorem backbone_path {D : TaskDefinition → TaskContract} {mask : Nat}
    {tasks ts : List TaskDefinition} {tags : StandardTags}
    (hres : resolveEdges D mask tasks = some ts) (hback : StandardBackbone D tasks tags)
    {P : TaskDefinition} (hP : P ∈ tasks) (i : Nat)
    (hPc : tags.tagAt i ∈ (D P).m_ContributedDependencies) :
    ∀ d j, j = i + 1 + d → j < 6 → ∀ Q ∈ tasks,
      tags.tagAt j ∈ (D Q).m_ContributedDependencies →
        Relation.TransGen (Requires ts) Q.m_Addr P.m_Addr := by
  intro d
  induction d with
  | zero =>
    intro j hj hj6 Q hQ hQc
    subst hj
    exact Relation.TransGen.single
      (backbone_adjacent hres hback i (by omega) hP hQ hPc hQc)
  | succ d ih =>
    intro j hj hj6 Q hQ hQc
    subst hj
    obtain ⟨t, ht, _, c, hc, hD⟩ := hback (i + 1 + d) (by omega)
    have htc : tags.tagAt (i + 1 + d) ∈ (D t).m_ContributedDependencies := by
      rw [hD, standard_contributed]; exact hc
    exact Relation.TransGen.head
      (backbone_adjacent hres hback (i + 1 + d) (by omega) ht hQ htc hQc)
      (ih (i + 1 + d) rfl (by omega) t ht htc)


/-! # Properties of the binary archive -/

/-! ## Bytes -/

theorem leBytes_length : ∀ (size v : Nat), (leBytes size v).length = size := by
  intro size
  induction size with
  | zero => intro v; rfl
  | succ n ih => intro v; simp [leBytes, ih]

theorem toBytes_length (order : ByteOrder) (size v : Nat) :
    (toBytes order size v).length = size := by
  cases order <;> simp [toBytes, leBytes_length]

theorem leValue_leBytes : ∀ (size v : Nat), leValue (leBytes size v) = v % 256 ^ size := by
  intro size
  induction size with
  | zero => intro v; simp [leBytes, leValue, Nat.mod_one]
  | succ n ih =>
    intro v
    simp only [leBytes, leValue, ih]
    rw [pow_succ, Nat.mul_comm (256 ^ n) 256, Nat.mod_mul]

theorem ofBytes_toBytes (order : ByteOrder) (size v : Nat) :
    ofBytes order (toBytes order size v) = v % 256 ^ size := by
  cases order <;> simp [ofBytes, toBytes, leValue_leBytes]

theorem ofBytes_toBytes_of_lt (order : ByteOrder) (size v : Nat) (h : v < 256 ^ size) :
    ofBytes order (toBytes order size v) = v := by
  rw [ofBytes_toBytes, Nat.mod_eq_of_lt h]

/-! ## CRC -/

theorem crcBit_lt {c : Nat} (h : c < 4294967296) : crcBit c < 4294967296 := by
  unfold crcBit
  split
  · exact Nat.xor_lt_two_pow (n := 32) (by omega) (by norm_num)
  · omega

theorem crcByte_lt (c b : Nat) : crcByte c b < 4294967296 := by
  unfold crcByte
  have h0 : (c ^^^ (b % 256)) % 4294967296 < 4294967296 := Nat.mod_lt _ (by norm_num)
  exact crcBit_lt (crcBit_lt (crcBit_lt (crcBit_lt (crcBit_lt (crcBit_lt (crcBit_lt
    (crcBit_lt h0)))))))

theorem crcRegister_lt : ∀ (block : List Nat) (c : Nat), c < 4294967296 →
    crcRegister c block < 4294967296 := by
  intro block
  induction block with
  | nil => intro c h; simpa [crcRegister] using h
  | cons b rest ih =>
    intro c _
    simp only [crcRegister, List.foldl_cons]
    exact ih _ (crcByte_lt c b)

theorem xor_ones_lt {c : Nat} (h : c < 4294967296) : c ^^^ 0xFFFFFFFF < 4294967296 :=
  Nat.xor_lt_two_pow (n := 32) (by omega) (by norm_num)

theorem xor_ones_twice (c : Nat) : (c ^^^ 0xFFFFFFFF) ^^^ 0xFFFFFFFF = c := by
  rw [Nat.xor_assoc, Nat.xor_self, Nat.xor_zero]

theorem UpdateCrc32_lt : ∀ (block : List Nat) (crc : Nat), crc < 4294967296 →
    UpdateCrc32 crc block < 4294967296 := by
  intro block crc h
  unfold UpdateCrc32
  exact xor_ones_lt (crcRegister_lt _ _ (xor_ones_lt h))

theorem UpdateCrc32_append (crc : Nat) (b1 b2 : List Nat) :
    UpdateCrc32 crc (b1 ++ b2) = UpdateCrc32 (UpdateCrc32 crc b1) b2 := by
  unfold UpdateCrc32
  rw [xor_ones_twice]
  simp [crcRegister, List.foldl_append]

set_option maxRecDepth 100000 in
/-- The check value of the CRC-32 of ZIP. -/
theorem Crc32_check : Crc32 "123456789" = 0xCBF43926 := by decide

/-- The block loop computes the CRC of all the bytes from the read position to
the end of the stream, and leaves the bytes alone. -/
theorem crcLoop_spec : ∀ (rounds crc : Nat) (s : CharStream), s.eof = false →
    (s.data.length - s.readPos) < rounds * CRC_BLOCK_SIZE →
      (crcLoop rounds crc s).1 = UpdateCrc32 crc (s.data.drop s.readPos) ∧
        (crcLoop rounds crc s).2.data = s.data ∧
        (crcLoop rounds crc s).2.m_ByteOrder = s.m_ByteOrder ∧
        (crcLoop rounds crc s).2.writePos = s.writePos := by
  intro rounds
  induction rounds with
  | zero => intro crc s _ h; simp at h
  | succ n ih =>
    intro crc s heof h
    simp only [crcLoop, heof, Bool.false_eq_true, if_false]
    have hgot : ((s.data.drop s.readPos).take CRC_BLOCK_SIZE).length =
        min CRC_BLOCK_SIZE (s.data.length - s.readPos) := by simp
    by_cases hshort : s.data.length - s.readPos < CRC_BLOCK_SIZE
    · -- the last block: the end-of-file flag is raised
      have htake : (s.data.drop s.readPos).take CRC_BLOCK_SIZE = s.data.drop s.readPos := by
        apply List.take_of_length_le
        simp; omega
      have heof' : (s.ReadBuffer CRC_BLOCK_SIZE).2.eof = true := by
        simp only [CharStream.ReadBuffer, heof, Bool.false_or, decide_eq_true_eq]
        rw [hgot]; omega
      have hres : crcLoop n (UpdateCrc32 crc (s.ReadBuffer CRC_BLOCK_SIZE).1)
          (s.ReadBuffer CRC_BLOCK_SIZE).2 =
          (UpdateCrc32 crc (s.ReadBuffer CRC_BLOCK_SIZE).1, (s.ReadBuffer CRC_BLOCK_SIZE).2) := by
        cases n with
        | zero => rfl
        | succ m => simp [crcLoop, heof']
      rw [hres]
      simp [CharStream.ReadBuffer, htake]
    · -- a full block
      have hlen : ((s.data.drop s.readPos).take CRC_BLOCK_SIZE).length = CRC_BLOCK_SIZE := by
        rw [hgot]; omega
      have heof' : (s.ReadBuffer CRC_BLOCK_SIZE).2.eof = false := by
        simp only [CharStream.ReadBuffer, heof, Bool.false_or, decide_eq_false_iff_not]
        rw [hlen]; omega
      have hpos : (s.ReadBuffer CRC_BLOCK_SIZE).2.readPos = s.readPos + CRC_BLOCK_SIZE := by
        simp only [CharStream.ReadBuffer]; rw [hlen]
      have hdata : (s.ReadBuffer CRC_BLOCK_SIZE).2.data = s.data := rfl
      obtain ⟨h1, h2, h3, h4⟩ := ih (UpdateCrc32 crc (s.ReadBuffer CRC_BLOCK_SIZE).1)
        (s.ReadBuffer CRC_BLOCK_SIZE).2 heof' (by
          rw [hpos, hdata]
          have : (n + 1) * CRC_BLOCK_SIZE = n * CRC_BLOCK_SIZE + CRC_BLOCK_SIZE := by ring
          omega)
      refine ⟨?_, h2.trans hdata, h3, h4⟩
      rw [h1, hpos, hdata, ← UpdateCrc32_append]
      congr 1
      show (s.data.drop s.readPos).take CRC_BLOCK_SIZE ++ _ = _
      rw [← List.drop_drop, List.take_append_drop]

/-! ## Writing appends the wire layout -/

theorem CharStream.WriteBuffer_atEnd (s : CharStream) (bs : List Nat) (h : s.AtEnd) :
    s.WriteBuffer bs = s.append bs := by
  unfold CharStream.AtEnd at h
  unfold CharStream.WriteBuffer CharStream.append
  rw [h]
  simp

theorem CharStream.Write_atEnd (s : CharStream) (size v : Nat) (h : s.AtEnd) :
    s.Write size v = s.append (toBytes s.m_ByteOrder size v) :=
  s.WriteBuffer_atEnd _ h

theorem CharStream.append_atEnd (s : CharStream) (bs : List Nat) : (s.append bs).AtEnd := by
  simp [CharStream.AtEnd, CharStream.append]

theorem CharStream.append_append (s : CharStream) (b1 b2 : List Nat) :
    (s.append b1).append b2 = s.append (b1 ++ b2) := by
  simp [CharStream.append, Nat.add_assoc]

theorem CharStream.append_nil (s : CharStream) (h : s.AtEnd) : s.append [] = s := by
  unfold CharStream.AtEnd at h
  cases s
  simp_all [CharStream.append]

/-- Writing four bytes over four bytes in the middle of the stream, then
seeking to the end. -/
theorem CharStream.patch (s : CharStream) (front old back : List Nat) (v : Nat)
    (hold : old.length = 4) (hs : s.data = front ++ old ++ back) :
    ((s.SeekWrite front.length).Write 4 v).SeekWriteEnd =
      { s with data := front ++ toBytes s.m_ByteOrder 4 v ++ back,
               writePos := (front ++ toBytes s.m_ByteOrder 4 v ++ back).length } := by
  unfold CharStream.SeekWrite CharStream.Write CharStream.WriteBuffer CharStream.SeekWriteEnd
  simp only [hs, toBytes_length]
  have h1 : (front ++ old ++ back).take front.length = front := by
    rw [List.append_assoc, List.take_left']
    rfl
  have h2 : (front ++ old ++ back).drop (front.length + 4) = back := by
    rw [← hold, ← List.length_append, List.drop_left']
    rfl
  rw [h1, h2]

theorem ArchiveBinary.emit_emit (a : ArchiveBinary) (b1 b2 : List Nat) :
    (a.emit b1).emit b2 = a.emit (b1 ++ b2) := by
  simp [ArchiveBinary.emit, CharStream.append_append]

theorem ArchiveBinary.emit_order (a : ArchiveBinary) (bs : List Nat) :
    (a.emit bs).m_Stream.m_ByteOrder = a.m_Stream.m_ByteOrder := rfl

theorem ArchiveBinary.emit_length (a : ArchiveBinary) (bs : List Nat) :
    (a.emit bs).m_Stream.data.length = a.m_Stream.data.length + bs.length := by
  simp [ArchiveBinary.emit, CharStream.append]

theorem ArchiveBinary.emit_atEnd (a : ArchiveBinary) (bs : List Nat) :
    (a.emit bs).m_Stream.AtEnd :=
  CharStream.append_atEnd _ _

theorem ArchiveBinary.write_atEnd (a : ArchiveBinary) (size v : Nat) (h : a.m_Stream.AtEnd) :
    { a with m_Stream := a.m_Stream.Write size v } =
      a.emit (toBytes a.m_Stream.m_ByteOrder size v) := by
  rw [CharStream.Write_atEnd _ _ _ h]
  rfl

theorem beginElement_atEnd (a : ArchiveBinary) (type : Class) (h : a.m_Stream.AtEnd)
    (hlen : a.m_Stream.data.length + 4 < UINT32) :
    a.beginElement type =
      (a.emit (toBytes a.m_Stream.m_ByteOrder 4 (Crc32 type.m_Name) ++
        toBytes a.m_Stream.m_ByteOrder 4 (a.m_Stream.data.length + 4)),
        a.m_Stream.data.length + 4) := by
  unfold ArchiveBinary.beginElement ArchiveBinary.emit
  simp only [CharStream.Write_atEnd _ _ _ h]
  have hpos : (a.m_Stream.append (toBytes a.m_Stream.m_ByteOrder 4 (Crc32 type.m_Name))).writePos
      = a.m_Stream.data.length + 4 := by
    simp [CharStream.append, toBytes_length]
  rw [hpos, Nat.mod_eq_of_lt hlen,
    CharStream.Write_atEnd _ _ _ (CharStream.append_atEnd _ _), CharStream.append_append]
  rfl

/-- The end of a record: the length, measured from its own first byte, goes
over the placeholder. -/
theorem endElement_emit (a : ArchiveBinary) (front old body : List Nat)
    (h : a.m_Stream.AtEnd) (hold : old.length = 4)
    (hlen : a.m_Stream.data.length + front.length + 4 + body.length < UINT32) :
    (a.emit (front ++ old ++ body)).endElement (a.m_Stream.data.length + front.length) =
      a.emit (front ++ toBytes a.m_Stream.m_ByteOrder 4 (4 + body.length) ++ body) := by
  obtain ⟨s, sp, ver, sz, sk, sc, ab, fs⟩ := a
  obtain ⟨bo, data, rp, wp, eof⟩ := s
  simp only [CharStream.AtEnd] at h
  simp only at hlen
  subst h
  have hv : ((data.length + (front.length + (4 + body.length))) % UINT32 + UINT32 -
      (data.length + front.length)) % UINT32 = 4 + body.length := by
    have hm : (data.length + (front.length + (4 + body.length))) % UINT32 =
        data.length + (front.length + (4 + body.length)) := Nat.mod_eq_of_lt (by omega)
    have : data.length + (front.length + (4 + body.length)) + UINT32 -
        (data.length + front.length) = (4 + body.length) + UINT32 := by omega
    have hb : 4 + body.length < UINT32 := by omega
    rw [hm, this, Nat.add_mod_right, Nat.mod_eq_of_lt hb]
  have h1 : (data ++ (front ++ (old ++ body))).take (data.length + front.length) =
      data ++ front := by
    rw [← List.append_assoc, ← List.length_append, List.take_left']
    rfl
  have h2 : (data ++ (front ++ (old ++ body))).drop (data.length + front.length + 4) =
      body := by
    rw [← List.append_assoc, ← List.append_assoc, ← hold, ← List.length_append,
      ← List.length_append, List.drop_left']
    rfl
  simp only [ArchiveBinary.endElement, ArchiveBinary.emit, CharStream.append,
    CharStream.SeekWrite, CharStream.Write, CharStream.WriteBuffer, CharStream.SeekWriteEnd,
    List.length_append, hold, toBytes_length, List.append_assoc, hv, h1, h2]

theorem SerializeData_eq (a : ArchiveBinary) (c : DataClass) (value : Value)
    (h : a.m_Stream.AtEnd)
    (hlen : a.m_Stream.data.length +
      (dataElementBytes a.m_Stream.m_ByteOrder c value).length < UINT32) :
    a.SerializeData c value = a.emit (dataElementBytes a.m_Stream.m_ByteOrder c value) := by
  have hl : (dataElementBytes a.m_Stream.m_ByteOrder c value).length =
      8 + (dataPayload a.m_Stream.m_ByteOrder c.m_Kind value).length := by
    simp [dataElementBytes, toBytes_length]; omega
  rw [hl] at hlen
  unfold ArchiveBinary.SerializeData
  rw [beginElement_atEnd a (.data c) h (by omega)]
  simp only
  have e1 : ∀ (b : ArchiveBinary) (bs : List Nat), b.m_Stream.AtEnd →
      ({ b with m_Stream := b.m_Stream.WriteBuffer bs } : ArchiveBinary) = b.emit bs := by
    intro b bs hb
    rw [CharStream.WriteBuffer_atEnd _ _ hb]
    rfl
  rw [e1 _ _ (ArchiveBinary.emit_atEnd _ _), ArchiveBinary.emit_emit, ArchiveBinary.emit_order]
  have := endElement_emit a (toBytes a.m_Stream.m_ByteOrder 4 (Crc32 (Class.data c).m_Name))
    (toBytes a.m_Stream.m_ByteOrder 4 (a.m_Stream.data.length + 4))
    (dataPayload a.m_Stream.m_ByteOrder c.m_Kind value) h (toBytes_length _ _ _)
    (by rw [toBytes_length]; omega)
  rw [toBytes_length] at this
  rw [this]
  rfl

theorem bumpTop_zero (stack : List WriteFields) : bumpTop 0 stack = stack := by
  cases stack <;> simp [bumpTop]

theorem bumpTop_bumpTop (n m : Nat) (stack : List WriteFields) :
    bumpTop m (bumpTop n stack) = bumpTop (n + m) stack := by
  cases stack <;> simp [bumpTop, Nat.add_assoc]

theorem ArchiveBinary.wrote_wrote (a : ArchiveBinary) (b1 b2 : List Nat) (n1 n2 : Nat) :
    (a.wrote b1 n1).wrote b2 n2 = a.wrote (b1 ++ b2) (n1 + n2) := by
  simp [ArchiveBinary.wrote, CharStream.append_append, bumpTop_bumpTop]

theorem ArchiveBinary.wrote_nil (a : ArchiveBinary) (h : a.m_Stream.AtEnd) :
    a.wrote [] 0 = a := by
  simp [ArchiveBinary.wrote, CharStream.append_nil _ h, bumpTop_zero]

theorem ArchiveBinary.wrote_atEnd (a : ArchiveBinary) (bs : List Nat) (n : Nat) :
    (a.wrote bs n).m_Stream.AtEnd :=
  CharStream.append_atEnd _ _

theorem serializeLevel_eq (slots : List (Nat × Value)) :
    ∀ (fields : List Field) (a : ArchiveBinary), a.m_Stream.AtEnd → a.m_FieldStack ≠ [] →
      a.m_Stream.data.length +
        (fieldEntriesBytes a.m_Stream.m_ByteOrder slots (levelWritten slots fields).1).length
          < UINT32 →
      ArchiveBinary.serializeLevel slots fields a =
        .ok ((levelWritten slots fields).2,
          a.wrote (fieldEntriesBytes a.m_Stream.m_ByteOrder slots (levelWritten slots fields).1)
            (levelWritten slots fields).1.length) := by
  intro fields
  induction fields with
  | nil =>
    intro a h _ _
    simp [ArchiveBinary.serializeLevel, levelWritten, fieldEntriesBytes,
      ArchiveBinary.wrote_nil a h]
  | cons field rest ih =>
    intro a h hstack hlen
    by_cases hd : field.m_Flags &&& FieldFlags.Discard ≠ 0
    · simp [ArchiveBinary.serializeLevel, levelWritten, hd, fieldEntriesBytes,
        ArchiveBinary.wrote_nil a h]
    · by_cases hs : shouldSerialize field (slotGet slots field.m_Offset) = true
      · -- the field is written
        have hw : (levelWritten slots (field :: rest)).1 =
            field :: (levelWritten slots rest).1 := by
          simp [levelWritten, hd, hs]
        have hw2 : (levelWritten slots (field :: rest)).2 = (levelWritten slots rest).2 := by
          simp [levelWritten, hd]
        rw [hw] at hlen
        have hent : fieldEntriesBytes a.m_Stream.m_ByteOrder slots
            (field :: (levelWritten slots rest).1) =
            fieldEntryBytes a.m_Stream.m_ByteOrder slots field ++
              fieldEntriesBytes a.m_Stream.m_ByteOrder slots (levelWritten slots rest).1 := by
          simp [fieldEntriesBytes]
        rw [hent, List.length_append] at hlen
        have hfl : (fieldEntryBytes a.m_Stream.m_ByteOrder slots field).length =
            4 + (dataElementBytes a.m_Stream.m_ByteOrder field.m_DataClass
              (slotGet slots field.m_Offset)).length := by
          simp [fieldEntryBytes, toBytes_length]
        obtain ⟨top, stack, hts⟩ : ∃ top stack, a.m_FieldStack = top :: stack := by
          cases hfs : a.m_FieldStack with
          | nil => exact absurd hfs hstack
          | cons t st => exact ⟨t, st, rfl⟩
        have step1 : ({ a with m_Stream := a.m_Stream.Write 4 (Crc32 field.m_Name) } :
            ArchiveBinary).SerializeData field.m_DataClass (slotGet slots field.m_Offset) =
            a.emit (fieldEntryBytes a.m_Stream.m_ByteOrder slots field) := by
          rw [ArchiveBinary.write_atEnd a 4 _ h,
            SerializeData_eq _ _ _ (ArchiveBinary.emit_atEnd _ _)
              (by rw [ArchiveBinary.emit_order, ArchiveBinary.emit_length, toBytes_length]; omega),
            ArchiveBinary.emit_emit]
          rfl
        have hstack1 : (a.emit (fieldEntryBytes a.m_Stream.m_ByteOrder slots field)).m_FieldStack =
            top :: stack := hts
        have hnext : ({ a.emit (fieldEntryBytes a.m_Stream.m_ByteOrder slots field) with
            m_FieldStack := { top with m_Count := top.m_Count + 1 } :: stack } : ArchiveBinary) =
            a.wrote (fieldEntryBytes a.m_Stream.m_ByteOrder slots field) 1 := by
          simp [ArchiveBinary.wrote, ArchiveBinary.emit, hts, bumpTop]
        simp only [ArchiveBinary.serializeLevel, hd, if_false, hs, if_true, step1, hstack1,
          hnext]
        rw [ih (a.wrote (fieldEntryBytes a.m_Stream.m_ByteOrder slots field) 1)
          (ArchiveBinary.wrote_atEnd _ _ _) (by simp [ArchiveBinary.wrote, hts, bumpTop])
          (by simp only [ArchiveBinary.wrote, CharStream.append, List.length_append]; omega)]
        rw [ArchiveBinary.wrote_wrote, hw, hw2, hent]
        simp only [ArchiveBinary.wrote, CharStream.append, List.length_cons]
        rw [Nat.add_comm 1]
      · -- the field is elided
        have hw : levelWritten slots (field :: rest) = levelWritten slots rest := by
          simp [levelWritten, hd, hs]
        rw [hw] at hlen ⊢
        simp only [ArchiveBinary.serializeLevel, hd, if_false, hs]
        exact ih a h hstack hlen

theorem levelsWritten_cons (slots : List (Nat × Value)) (current : Composite)
    (bases : List Composite) :
    levelsWritten slots (current :: bases) =
      if (levelWritten slots current.m_Fields).2 then (levelWritten slots current.m_Fields).1
      else (levelWritten slots current.m_Fields).1 ++ levelsWritten slots bases := rfl

theorem fieldEntriesBytes_append (order : ByteOrder) (slots : List (Nat × Value))
    (f1 f2 : List Field) :
    fieldEntriesBytes order slots (f1 ++ f2) =
      fieldEntriesBytes order slots f1 ++ fieldEntriesBytes order slots f2 := by
  simp [fieldEntriesBytes]

theorem serializeLevels_eq (slots : List (Nat × Value)) :
    ∀ (levels : List Composite) (a : ArchiveBinary), a.m_Stream.AtEnd → a.m_FieldStack ≠ [] →
      a.m_Stream.data.length +
        (fieldEntriesBytes a.m_Stream.m_ByteOrder slots (levelsWritten slots levels)).length
          < UINT32 →
      ArchiveBinary.serializeLevels slots levels a =
        .ok (a.wrote (fieldEntriesBytes a.m_Stream.m_ByteOrder slots (levelsWritten slots levels))
          (levelsWritten slots levels).length) := by
  intro levels
  induction levels with
  | nil =>
    intro a h _ _
    simp [ArchiveBinary.serializeLevels, levelsWritten, fieldEntriesBytes,
      ArchiveBinary.wrote_nil a h]
  | cons current bases ih =>
    intro a h hstack hlen
    rw [levelsWritten_cons] at hlen ⊢
    by_cases hr : (levelWritten slots current.m_Fields).2 = true
    · rw [if_pos hr] at hlen ⊢
      simp only [ArchiveBinary.serializeLevels,
        serializeLevel_eq slots current.m_Fields a h hstack hlen, hr]
    · rw [if_neg hr] at hlen ⊢
      rw [fieldEntriesBytes_append, List.length_append] at hlen
      have hr' : (levelWritten slots current.m_Fields).2 = false := by
        simpa using hr
      simp only [ArchiveBinary.serializeLevels,
        serializeLevel_eq slots current.m_Fields a h hstack (by omega), hr']
      have hstack' : (a.wrote (fieldEntriesBytes a.m_Stream.m_ByteOrder slots
          (levelWritten slots current.m_Fields).1)
          (levelWritten slots current.m_Fields).1.length).m_FieldStack ≠ [] := by
        cases hfs : a.m_FieldStack with
        | nil => exact absurd hfs hstack
        | cons t st => simp [ArchiveBinary.wrote, hfs, bumpTop]
      rw [ih _ (ArchiveBinary.wrote_atEnd _ _ _) hstack'
        (by simp only [ArchiveBinary.wrote, CharStream.append, List.length_append]; omega)]
      rw [ArchiveBinary.wrote_wrote]
      simp only [ArchiveBinary.wrote, CharStream.append, fieldEntriesBytes_append,
        List.length_append]

theorem CharStream.patch_append (s : CharStream) (front old back : List Nat) (v : Nat)
    (h : s.AtEnd) (hold : old.length = 4) :
    (((s.append (front ++ old ++ back)).SeekWrite (s.data.length + front.length)).Write 4
        v).SeekWriteEnd =
      s.append (front ++ toBytes s.m_ByteOrder 4 v ++ back) := by
  obtain ⟨bo, data, rp, wp, eof⟩ := s
  simp only [CharStream.AtEnd] at h
  subst h
  have h1 : (data ++ (front ++ (old ++ back))).take (data.length + front.length) =
      data ++ front := by
    rw [← List.append_assoc, ← List.length_append, List.take_left']
    rfl
  have h2 : (data ++ (front ++ (old ++ back))).drop (data.length + front.length + 4) =
      back := by
    rw [← List.append_assoc, ← List.append_assoc, ← hold, ← List.length_append,
      ← List.length_append, List.drop_left']
    rfl
  simp only [CharStream.append, CharStream.SeekWrite, CharStream.Write,
    CharStream.WriteBuffer, CharStream.SeekWriteEnd,
    List.length_append, hold, toBytes_length, List.append_assoc, h1, h2]

theorem CharStream.append_order (s : CharStream) (bs : List Nat) :
    (s.append bs).m_ByteOrder = s.m_ByteOrder := rfl

theorem elementBytes_object_length (order : ByteOrder) (c : ObjectClass)
    (slots : List (Nat × Value)) :
    (elementBytes order (.object c slots)).length =
      16 + (fieldEntriesBytes order slots (writtenFields c slots)).length := by
  simp only [elementBytes, List.length_append, toBytes_length]
  omega

/-- The method `Serialize(element)` appends the wire layout of the record. -/
theorem Serialize_eq (a : ArchiveBinary) (element : Element) (h : a.m_Stream.AtEnd)
    (hlen : a.m_Stream.data.length + (elementBytes a.m_Stream.m_ByteOrder element).length
      < UINT32) :
    a.Serialize (some element) = .ok (a.emit (elementBytes a.m_Stream.m_ByteOrder element)) := by
  cases element with
  | data c value =>
    simp only [ArchiveBinary.Serialize, elementBytes]
    rw [SerializeData_eq a c value h hlen]
  | object c slots =>
    rw [elementBytes_object_length] at hlen
    obtain ⟨s, sp, ver, sz, sk, sc, ab, fs⟩ := a
    simp only at h hlen
    simp only [ArchiveBinary.Serialize]
    rw [beginElement_atEnd _ _ h (by simp only; omega)]
    simp only [ArchiveBinary.emit]
    rw [CharStream.Write_atEnd _ _ _ (CharStream.append_atEnd _ _), CharStream.append_append]
    simp only [ArchiveBinary.SerializeFields]
    have hsl := serializeLevels_eq slots c.m_Composite.bases
      { m_Stream := s.append (toBytes s.m_ByteOrder 4 (Crc32 (Class.object c).m_Name) ++
          toBytes s.m_ByteOrder 4 (s.data.length + 4) ++
          toBytes (s.append (toBytes s.m_ByteOrder 4 (Crc32 (Class.object c).m_Name) ++
            toBytes s.m_ByteOrder 4 (s.data.length + 4))).m_ByteOrder 4 0),
        m_Spool := sp, m_Version := ver, m_Size := sz, m_Skip := sk, m_SearchClass := sc,
        m_Abort := ab,
        m_FieldStack := { m_Count := 0, m_CountOffset :=
          (s.append (toBytes s.m_ByteOrder 4 (Crc32 (Class.object c).m_Name) ++
            toBytes s.m_ByteOrder 4 (s.data.length + 4))).writePos } :: fs }
      (CharStream.append_atEnd _ _) (by simp)
      (by
        simp only [CharStream.append, List.length_append, toBytes_length]
        unfold writtenFields at hlen
        omega)
    rw [hsl]
    simp only [ArchiveBinary.wrote, bumpTop]
    rw [CharStream.Write_atEnd _ _ _ (CharStream.append_atEnd _ _), CharStream.append_append,
      CharStream.append_append]
    simp only [Nat.zero_add]
    have hoff : (s.append (toBytes s.m_ByteOrder 4 (Crc32 (Class.object c).m_Name) ++
        toBytes s.m_ByteOrder 4 (s.data.length + 4))).writePos =
        s.data.length + (toBytes s.m_ByteOrder 4 (Crc32 (Class.object c).m_Name) ++
          toBytes s.m_ByteOrder 4 (s.data.length + 4)).length := rfl
    simp only [hoff]
    simp only [CharStream.append_order]
    rw [CharStream.patch_append s _ _ _ _ h (toBytes_length _ _ _)]
    have hend := endElement_emit
      { m_Stream := s, m_Spool := sp, m_Version := ver, m_Size := sz, m_Skip := sk,
        m_SearchClass := sc, m_Abort := ab, m_FieldStack := fs }
      (toBytes s.m_ByteOrder 4 (Crc32 (Class.object c).m_Name))
      (toBytes s.m_ByteOrder 4 (s.data.length + 4))
      (toBytes s.m_ByteOrder 4 (levelsWritten slots c.m_Composite.bases).length ++
        (fieldEntriesBytes s.m_ByteOrder slots (levelsWritten slots c.m_Composite.bases) ++
          toBytes s.m_ByteOrder 4 TERMINATOR))
      h (toBytes_length _ _ _)
      (by
        simp only [List.length_append, toBytes_length]
        unfold writtenFields at hlen
        omega)
    simp only [ArchiveBinary.emit, toBytes_length, List.length_append] at hend
    simp only [List.append_assoc] at hend ⊢
    rw [hend]
    simp only [elementBytes, writtenFields, Class.m_Name, List.append_assoc, List.length_append,
      toBytes_length]
    have e : ∀ n : Nat, 4 + (4 + (n + 4)) = 12 + n := fun n => by omega
    rw [e]

/-- Layout of the records of a list of elements. -/
theorem serializeEach_eq :
    ∀ (elements : List Element) (a : ArchiveBinary), a.m_Stream.AtEnd →
      a.m_Stream.data.length +
        ((elements.map (elementBytes a.m_Stream.m_ByteOrder)).flatten).length < UINT32 →
      ArchiveBinary.serializeEach (elements.map some) a =
        .ok (a.emit ((elements.map (elementBytes a.m_Stream.m_ByteOrder)).flatten)) := by
  intro elements
  induction elements with
  | nil =>
    intro a h _
    obtain ⟨⟨bo, data, rp, wp, eof⟩, sp, ver, sz, sk, sc, ab, fs⟩ := a
    simp only [CharStream.AtEnd] at h
    subst h
    simp [ArchiveBinary.serializeEach, ArchiveBinary.emit, CharStream.append]
  | cons element rest ih =>
    intro a h hlen
    simp only [List.map_cons, List.flatten_cons, List.length_append] at hlen
    simp only [List.map_cons, ArchiveBinary.serializeEach]
    rw [Serialize_eq a element h (by omega)]
    simp only
    rw [ih _ (ArchiveBinary.emit_atEnd _ _)
      (by simp only [ArchiveBinary.emit, CharStream.append, List.length_append]; omega)]
    rw [ArchiveBinary.emit_emit]
    simp only [ArchiveBinary.emit, CharStream.append, List.flatten_cons]

/-- Layout of the element-array block. -/
theorem SerializeVector_eq (a : ArchiveBinary) (elements : List Element)
    (h : a.m_Stream.AtEnd)
    (hlen : a.m_Stream.data.length +
      (elementArrayBytes a.m_Stream.m_ByteOrder elements).length < UINT32) :
    a.SerializeVector (elements.map some) =
      .ok (a.emit (elementArrayBytes a.m_Stream.m_ByteOrder elements)) := by
  simp only [elementArrayBytes, List.length_append, toBytes_length] at hlen
  simp only [ArchiveBinary.SerializeVector, List.length_map]
  have h1 : ({ a with m_Stream := a.m_Stream.Write 4 elements.length } : ArchiveBinary) =
      a.emit (toBytes a.m_Stream.m_ByteOrder 4 elements.length) := by
    simp only [ArchiveBinary.emit, CharStream.Write_atEnd _ _ _ h]
  rw [h1, serializeEach_eq elements _ (ArchiveBinary.emit_atEnd _ _)
    (by simp only [ArchiveBinary.emit, CharStream.append, List.length_append, toBytes_length]
        omega)]
  simp only
  rw [ArchiveBinary.emit_emit]
  have h2 : ∀ b : ArchiveBinary, b.m_Stream.AtEnd →
      ({ b with m_Stream := b.m_Stream.Write 4 TERMINATOR } : ArchiveBinary) =
        b.emit (toBytes b.m_Stream.m_ByteOrder 4 TERMINATOR) := by
    intro b hb
    simp only [ArchiveBinary.emit, CharStream.Write_atEnd _ _ _ hb]
  rw [h2 _ (ArchiveBinary.emit_atEnd _ _), ArchiveBinary.emit_emit]
  simp only [ArchiveBinary.emit, CharStream.append, elementArrayBytes]

theorem headerBytes_length (UNICODE : Bool) (order : ByteOrder) (crc : Nat) :
    (headerBytes UNICODE order crc).length = 11 := by
  simp only [headerBytes, List.length_append, toBytes_length]

theorem storedCrc_lt (payload : List Nat) : storedCrc payload < UINT32 := by
  unfold storedCrc
  split
  · decide
  · exact UpdateCrc32_lt _ _ (by decide)

theorem storedCrc_ne (payload : List Nat) : storedCrc payload ≠ CRC_INVALID := by
  unfold storedCrc
  split
  · decide
  · assumption

/-- The method `Write` on a fresh archive produces the archive layout. -/
theorem writeSpool_eq (UNICODE : Bool) (order : ByteOrder) (spool : List Element)
    (hsize : 11 + (elementArrayBytes order spool).length < UINT32) :
    ∃ a, writeSpool UNICODE order spool = .ok a ∧
      a.m_Stream.data = archiveBytes UNICODE order spool := by
  have hs4 : ((((CharStream.opened order).Write 2 0xfeff).Write 1
      (if UNICODE then 1 else 0)).Write 4 CURRENT_VERSION).Write 4 CRC_INVALID =
      (CharStream.opened order).append (headerBytes UNICODE order CRC_INVALID) := by
    have h0 : (CharStream.opened order).AtEnd := rfl
    rw [CharStream.Write_atEnd _ _ _ h0,
      CharStream.Write_atEnd _ _ _ (CharStream.append_atEnd _ _),
      CharStream.Write_atEnd _ _ _ (CharStream.append_atEnd _ _),
      CharStream.Write_atEnd _ _ _ (CharStream.append_atEnd _ _),
      CharStream.append_append, CharStream.append_append, CharStream.append_append]
    simp only [CharStream.append_order, headerBytes, List.append_assoc]
    rfl
  have hpos : ((((CharStream.opened order).Write 2 0xfeff).Write 1
      (if UNICODE then 1 else 0)).Write 4 CURRENT_VERSION).writePos = 7 := by
    simp [CharStream.Write, CharStream.WriteBuffer, CharStream.opened, toBytes_length]
  have hvec := SerializeVector_eq
    { m_Stream := (CharStream.opened order).append (headerBytes UNICODE order CRC_INVALID),
      m_Spool := spool.map some, m_Version := CURRENT_VERSION, m_Size := 0, m_Skip := false,
      m_SearchClass := none, m_Abort := false, m_FieldStack := [] }
    spool (CharStream.append_atEnd _ _)
    (by
      simp only [CharStream.append, CharStream.opened, List.nil_append, headerBytes_length]
      exact hsize)
  simp only [writeSpool, ArchiveBinary.Write, ArchiveBinary.opened, ne_eq, not_true_eq_false,
    if_false, hs4, hpos]
  rw [hvec]
  simp only [ArchiveBinary.emit, CharStream.append_append, CharStream.append_order]
  have hcrc := crcLoop_spec
    ((headerBytes UNICODE order CRC_INVALID ++ elementArrayBytes order spool).length + 1)
    BeginCrc32
    (((CharStream.opened order).append
      (headerBytes UNICODE order CRC_INVALID ++ elementArrayBytes order spool)).SeekRead
        (7 % UINT32 + 4)) rfl
    (by
      simp only [CharStream.SeekRead, CharStream.append, CharStream.opened, List.nil_append,
        CRC_BLOCK_SIZE]
      omega)
  obtain ⟨h1, h2, h3, h4⟩ := hcrc
  have hdrop : (headerBytes UNICODE order CRC_INVALID ++ elementArrayBytes order spool).drop 11 =
      elementArrayBytes order spool := by
    rw [← headerBytes_length UNICODE order CRC_INVALID, List.drop_left']
    rfl
  simp only [CharStream.SeekRead, CharStream.append, CharStream.opened, List.nil_append,
    List.length_nil, Nat.zero_add] at h1 h2 h3 h4
  have h7 : 7 % UINT32 + 4 = 11 := by decide
  rw [h7, hdrop] at h1
  rw [h7] at h2 h3 h4
  refine ⟨_, rfl, ?_⟩
  simp only [CharStream.SeekRead, CharStream.append, CharStream.opened, List.nil_append,
    List.length_nil, Nat.zero_add, h7, h1, h2, h3, CharStream.SeekWriteEnd, CharStream.Write,
    CharStream.WriteBuffer, CharStream.SeekWrite, toBytes_length]
  have h77 : 7 % UINT32 = 7 := by decide
  rw [h77]
  have htake : (headerBytes UNICODE order CRC_INVALID ++ elementArrayBytes order spool).take 7 =
      toBytes order 2 0xfeff ++ toBytes order 1 (if UNICODE then 1 else 0) ++
        toBytes order 4 CURRENT_VERSION := by
    rw [show headerBytes UNICODE order CRC_INVALID ++ elementArrayBytes order spool =
        (toBytes order 2 0xfeff ++ toBytes order 1 (if UNICODE then 1 else 0) ++
          toBytes order 4 CURRENT_VERSION) ++
          (toBytes order 4 CRC_INVALID ++ elementArrayBytes order spool) by
      simp only [headerBytes, List.append_assoc]]
    exact List.take_left' (by simp only [List.length_append, toBytes_length])
  rw [htake, hdrop]
  simp only [archiveBytes, headerBytes, storedCrc]

/-! ### Reading -/

theorem CharStream.advance_advance (s : CharStream) (n m : Nat) :
    (s.advance n).advance m = s.advance (n + m) := by
  simp only [CharStream.advance, Nat.add_assoc]

theorem CharStream.advance_at (s : CharStream) (pre bs post : List Nat)
    (h : s.At pre (bs ++ post)) : (s.advance bs.length).At (pre ++ bs) post := by
  obtain ⟨h1, h2⟩ := h
  exact ⟨by simp only [CharStream.advance, h1, List.append_assoc],
    by simp only [CharStream.advance, h2, List.length_append]⟩

theorem CharStream.advance_order (s : CharStream) (n : Nat) :
    (s.advance n).m_ByteOrder = s.m_ByteOrder := rfl

theorem ArchiveBinary.skip_skip (a : ArchiveBinary) (n m : Nat) :
    (a.skip n).skip m = a.skip (n + m) := by
  simp only [ArchiveBinary.skip, CharStream.advance_advance]

theorem CharStream.At.take (s : CharStream) (pre bs post : List Nat)
    (h : s.At pre (bs ++ post)) : (s.data.drop s.readPos).take bs.length = bs := by
  obtain ⟨h1, h2⟩ := h
  rw [h1, h2, List.drop_left', List.take_left']
  · rfl
  · rfl

theorem CharStream.Read_at (s : CharStream) (pre post : List Nat) (size v : Nat)
    (h : s.At pre (toBytes s.m_ByteOrder size v ++ post)) (hv : v < 256 ^ size) :
    s.Read size = .ok (v, s.advance size) := by
  have ht := CharStream.At.take s pre _ post h
  rw [toBytes_length] at ht
  obtain ⟨h1, h2⟩ := h
  have hle : s.readPos + size ≤ s.data.length := by
    rw [h1, h2]
    simp only [List.length_append, toBytes_length]
    omega
  simp only [CharStream.Read, hle, if_true, ht, ofBytes_toBytes_of_lt _ _ _ hv,
    CharStream.advance]

theorem pow_256_4 : (256 : Nat) ^ 4 = UINT32 := by decide

theorem Crc32_lt (name : String) : Crc32 name < 256 ^ 4 := by
  rw [pow_256_4]
  exact UpdateCrc32_lt _ _ (by decide)

theorem readItems_at (size : Nat) (order : ByteOrder) :
    ∀ (items : List Nat) (s : CharStream) (pre post : List Nat),
      s.m_ByteOrder = order →
      s.At pre ((items.map (toBytes order size)).flatten ++ post) →
      (∀ x ∈ items, x < 256 ^ size) →
      readItems size items.length s = .ok (items, s.advance (items.length * size)) := by
  intro items
  induction items with
  | nil =>
    intro s pre post _ _ _
    simp [readItems, CharStream.advance]
  | cons x rest ih =>
    intro s pre post ho h hfit
    simp only [List.map_cons, List.flatten_cons, List.append_assoc] at h
    have hx : x < 256 ^ size := hfit x (List.mem_cons_self _ _)
    subst ho
    have hr := CharStream.Read_at s pre _ size x h hx
    have hat := CharStream.advance_at s pre _ _ h
    rw [toBytes_length] at hat
    simp only [List.length_cons, readItems, hr]
    rw [ih (s.advance size) _ post rfl hat (fun y hy => hfit y (List.mem_cons_of_mem _ hy))]
    simp only [CharStream.advance_advance]
    congr 3
    rw [Nat.add_mul]
    omega

theorem items_length (order : ByteOrder) (size : Nat) (items : List Nat) :
    ((items.map (toBytes order size)).flatten).length = items.length * size := by
  induction items with
  | nil => simp
  | cons x rest ih =>
    simp only [List.map_cons, List.flatten_cons, List.length_append, toBytes_length, ih,
      List.length_cons, Nat.add_mul]
    omega

/-- The converse of `Data::Serialize`. -/
theorem dataDeserialize_at (kind : DataKind) (value : Value) (s : CharStream)
    (pre post : List Nat) (hfit : value.Fits kind)
    (h : s.At pre (dataPayload s.m_ByteOrder kind value ++ post)) :
    dataDeserialize kind s =
      .ok (value, s.advance (dataPayload s.m_ByteOrder kind value).length) := by
  cases kind with
  | simple size =>
    cases value with
    | scalar v =>
      simp only [dataPayload] at h ⊢
      simp only [dataDeserialize, CharStream.Read_at s pre post size v h hfit, toBytes_length]
    | sequence items => exact absurd hfit (by simp [Value.Fits])
  | stlVector size =>
    cases value with
    | scalar v => exact absurd hfit (by simp [Value.Fits])
    | sequence items =>
      obtain ⟨hlen, hitems⟩ := hfit
      simp only [dataPayload, List.append_assoc] at h ⊢
      have hr := CharStream.Read_at s pre _ 4 items.length h (by omega)
      have hat := CharStream.advance_at s pre _ _ h
      rw [toBytes_length] at hat
      simp only [dataDeserialize, hr]
      rw [readItems_at size s.m_ByteOrder items (s.advance 4) _ post rfl hat hitems]
      simp only [CharStream.advance_advance, List.length_append, toBytes_length, items_length]

/-- The method `Allocate` on the header of a record of a registered class that
has a creator. -/
theorem Allocate_at (registry : Registry) (a : ArchiveBinary) (pre post : List Nat)
    (type : Class) (element : Element) (len : Nat)
    (hskip : a.m_Skip = false)
    (hreg : registry.GetClass (Crc32 type.m_Name) = some type)
    (hcreate : CreateInstance (some type) = some element)
    (hlen : len < UINT32)
    (h : a.m_Stream.At pre (toBytes a.m_Stream.m_ByteOrder 4 (Crc32 type.m_Name) ++
      (toBytes a.m_Stream.m_ByteOrder 4 len ++ post))) :
    ArchiveBinary.Allocate registry a = .ok (some element, a.skip 8) := by
  have hr1 := CharStream.Read_at a.m_Stream pre _ 4 _ h (Crc32_lt _)
  have hat := CharStream.advance_at a.m_Stream pre _ _ h
  rw [toBytes_length] at hat
  have hr2 := CharStream.Read_at (a.m_Stream.advance 4) _ post 4 len hat
    (by rw [pow_256_4]; exact hlen)
  simp only [ArchiveBinary.Allocate, hr1, hr2, hskip, hreg, hcreate, Bool.false_eq_true,
    if_false, CharStream.advance_advance, ArchiveBinary.skip]

theorem dataElementBytes_length (order : ByteOrder) (c : DataClass) (value : Value) :
    (dataElementBytes order c value).length = 8 + (dataPayload order c.m_Kind value).length := by
  simp only [dataElementBytes, List.length_append, toBytes_length]

theorem fieldEntryBytes_length (order : ByteOrder) (slots : List (Nat × Value)) (f : Field) :
    (fieldEntryBytes order slots f).length =
      12 + (dataPayload order f.m_DataClass.m_Kind (slotGet slots f.m_Offset)).length := by
  simp only [fieldEntryBytes, dataElementBytes_length, List.length_append, toBytes_length]
  omega

/-- The body of the field loop on the entry of a readable field. -/
theorem deserializeField_at (callbacks : ElementCallbacks) (registry : Registry)
    (c : ObjectClass) (written slots : List (Nat × Value)) (f : Field) (a : ArchiveBinary)
    (pre post : List Nat)
    (hcb : ∀ e, callbacks.PostDeserialize e = true)
    (hskip : a.m_Skip = false)
    (hread : f.Readable registry c written)
    (hlen : (fieldEntryBytes a.m_Stream.m_ByteOrder written f).length < UINT32)
    (h : a.m_Stream.At pre (fieldEntryBytes a.m_Stream.m_ByteOrder written f ++ post)) :
    ArchiveBinary.deserializeField callbacks registry c slots a =
      .ok (slotSet slots f.m_Offset (slotGet written f.m_Offset),
        a.skip (fieldEntryBytes a.m_Stream.m_ByteOrder written f).length) := by
  obtain ⟨hfind, hreg, hfit⟩ := hread
  rw [fieldEntryBytes_length] at hlen
  simp only [fieldEntryBytes, dataElementBytes, List.append_assoc] at h
  have hr1 := CharStream.Read_at a.m_Stream pre _ 4 _ h (Crc32_lt _)
  have hat := CharStream.advance_at a.m_Stream pre _ _ h
  rw [toBytes_length] at hat
  have halloc := Allocate_at registry (a.skip 4) _ _ (.data f.m_DataClass)
    (.data f.m_DataClass f.m_DataClass.m_Kind.initial) _ hskip hreg rfl (by omega) hat
  rw [ArchiveBinary.skip_skip] at halloc
  have hat2 := CharStream.advance_at (a.m_Stream.advance 4) _ _ _ hat
  rw [toBytes_length] at hat2
  have hat3 := CharStream.advance_at ((a.m_Stream.advance 4).advance 4) _ _ _ hat2
  rw [toBytes_length] at hat3
  simp only [CharStream.advance_advance] at hat3
  have hdata := dataDeserialize_at f.m_DataClass.m_Kind (slotGet written f.m_Offset)
    (a.skip (4 + 8)).m_Stream _ post hfit (by
      simp only [ArchiveBinary.skip, CharStream.advance_order, List.append_assoc] at hat3 ⊢
      exact hat3)
  have hstep : ({ a with m_Stream := a.m_Stream.advance 4 } : ArchiveBinary) = a.skip 4 := rfl
  simp only [ArchiveBinary.deserializeField, hr1, hfind, hstep, halloc, hdata, hcb,
    not_true_eq_false, if_false, if_true]
  simp only [ArchiveBinary.skip, CharStream.advance_advance, CharStream.advance_order,
    fieldEntryBytes_length]

theorem fieldEntriesBytes_cons (order : ByteOrder) (slots : List (Nat × Value)) (f : Field)
    (rest : List Field) :
    fieldEntriesBytes order slots (f :: rest) =
      fieldEntryBytes order slots f ++ fieldEntriesBytes order slots rest := by
  simp [fieldEntriesBytes]

/-- The field loop on the entries of readable fields. -/
theorem deserializeFieldLoop_at (callbacks : ElementCallbacks) (registry : Registry)
    (c : ObjectClass) (written : List (Nat × Value))
    (hcb : ∀ e, callbacks.PostDeserialize e = true) :
    ∀ (fields : List Field) (slots : List (Nat × Value)) (a : ArchiveBinary)
      (pre post : List Nat),
      a.m_Skip = false →
      (∀ f ∈ fields, f.Readable registry c written) →
      (fieldEntriesBytes a.m_Stream.m_ByteOrder written fields).length < UINT32 →
      a.m_Stream.At pre (fieldEntriesBytes a.m_Stream.m_ByteOrder written fields ++ post) →
      ArchiveBinary.deserializeFieldLoop callbacks registry c fields.length slots a =
        .ok (slotsRead written fields slots,
          a.skip (fieldEntriesBytes a.m_Stream.m_ByteOrder written fields).length) := by
  intro fields
  induction fields with
  | nil =>
    intro slots a pre post _ _ _ _
    simp [ArchiveBinary.deserializeFieldLoop, slotsRead, fieldEntriesBytes, ArchiveBinary.skip,
      CharStream.advance]
  | cons f rest ih =>
    intro slots a pre post hskip hread hlen h
    rw [fieldEntriesBytes_cons] at hlen h ⊢
    rw [List.length_append] at hlen
    rw [List.append_assoc] at h
    have hf := deserializeField_at callbacks registry c written slots f a pre _ hcb hskip
      (hread f (List.mem_cons_self _ _)) (by omega) h
    have hat := CharStream.advance_at a.m_Stream pre _ _ h
    simp only [List.length_cons, ArchiveBinary.deserializeFieldLoop, hf]
    rw [ih (slotSet slots f.m_Offset (slotGet written f.m_Offset))
      (a.skip (fieldEntryBytes a.m_Stream.m_ByteOrder written f).length) _ post hskip
      (fun g hg => hread g (List.mem_cons_of_mem _ hg))
      (by simp only [ArchiveBinary.skip, CharStream.advance_order]; omega)
      (by simpa only [ArchiveBinary.skip, CharStream.advance_order] using hat)]
    simp only [ArchiveBinary.skip_skip, slotsRead, List.foldl_cons, List.length_append]
    rfl

theorem fieldEntriesBytes_count (order : ByteOrder) (slots : List (Nat × Value))
    (fields : List Field) :
    fields.length * 12 ≤ (fieldEntriesBytes order slots fields).length := by
  induction fields with
  | nil => simp
  | cons f rest ih =>
    rw [fieldEntriesBytes_cons, List.length_append, fieldEntryBytes_length, List.length_cons]
    omega

theorem terminator_lt : TERMINATOR < 256 ^ 4 := by decide

/-- The method `DeserializeFields` on the field block of a record. -/
theorem DeserializeFields_at (callbacks : ElementCallbacks) (registry : Registry)
    (c : ObjectClass) (written slots : List (Nat × Value)) (fields : List Field)
    (a : ArchiveBinary) (pre post : List Nat)
    (hcb : ∀ e, callbacks.PostDeserialize e = true)
    (hskip : a.m_Skip = false)
    (hread : ∀ f ∈ fields, f.Readable registry c written)
    (hlen : (fieldEntriesBytes a.m_Stream.m_ByteOrder written fields).length < UINT32)
    (h : a.m_Stream.At pre (toBytes a.m_Stream.m_ByteOrder 4 fields.length ++
      (fieldEntriesBytes a.m_Stream.m_ByteOrder written fields ++
        (toBytes a.m_Stream.m_ByteOrder 4 TERMINATOR ++ post)))) :
    ArchiveBinary.DeserializeFields callbacks registry a c slots =
      .ok (slotsRead written fields slots,
        a.skip (4 + ((fieldEntriesBytes a.m_Stream.m_ByteOrder written fields).length + 4))) := by
  have hcount := fieldEntriesBytes_count a.m_Stream.m_ByteOrder written fields
  have hn : fields.length < 2147483648 := by
    have : UINT32 = 4294967296 := rfl
    omega
  have hr1 := CharStream.Read_at a.m_Stream pre _ 4 fields.length h (by omega)
  have hat := CharStream.advance_at a.m_Stream pre _ _ h
  rw [toBytes_length] at hat
  have hloop := deserializeFieldLoop_at callbacks registry c written hcb fields slots
    (a.skip 4) _ _ hskip hread hlen hat
  have hat2 := CharStream.advance_at (a.m_Stream.advance 4) _ _ _ hat
  have hr2 := CharStream.Read_at ((a.m_Stream.advance 4).advance
    (fieldEntriesBytes a.m_Stream.m_ByteOrder written fields).length) _ post 4 TERMINATOR hat2
    terminator_lt
  simp only [CharStream.advance_advance] at hr2
  have hstep : ({ a with m_Stream := a.m_Stream.advance 4 } : ArchiveBinary) = a.skip 4 := rfl
  simp only [ArchiveBinary.DeserializeFields, hr1, loopCount, hn, if_true, hstep, hloop]
  simp only [ArchiveBinary.skip, CharStream.advance_order, hr2, ne_eq, not_true_eq_false,
    if_false, CharStream.advance_advance, Nat.add_assoc]

/-- The method `Deserialize(element)` on the bytes of a readable record of a
registered class that has a creator. -/
theorem Deserialize_at (callbacks : ElementCallbacks) (registry : Registry)
    (written created : Element) (a : ArchiveBinary) (pre post : List Nat)
    (hcb : ∀ e, callbacks.PostDeserialize e = true)
    (hskip : a.m_Skip = false)
    (hreg : registry.GetClass (Crc32 written.GetClass.m_Name) = some written.GetClass)
    (hcreate : CreateInstance (some written.GetClass) = some created)
    (hread : written.Readable registry)
    (hlen : (elementBytes a.m_Stream.m_ByteOrder written).length < UINT32)
    (h : a.m_Stream.At pre (elementBytes a.m_Stream.m_ByteOrder written ++ post)) :
    ArchiveBinary.Deserialize callbacks registry a =
      .ok (some (readBack written created),
        a.skip (elementBytes a.m_Stream.m_ByteOrder written).length) := by
  cases written with
  | data c value =>
    simp only [elementBytes, dataElementBytes_length] at hlen
    simp only [elementBytes, dataElementBytes, List.append_assoc] at h
    have halloc := Allocate_at registry a pre _ (.data c) created _ hskip hreg hcreate
      (by omega) h
    have hc : created = .data c c.m_Kind.initial := by
      simp only [Element.GetClass, CreateInstance, Option.some.injEq] at hcreate
      exact hcreate.symm
    subst hc
    have hat := CharStream.advance_at a.m_Stream pre _ _ h
    rw [toBytes_length] at hat
    have hat2 := CharStream.advance_at (a.m_Stream.advance 4) _ _ _ hat
    rw [toBytes_length] at hat2
    simp only [CharStream.advance_advance] at hat2
    have hdata := dataDeserialize_at c.m_Kind value (a.skip 8).m_Stream _ post hread hat2
    simp only [ArchiveBinary.Deserialize, halloc, hdata, hcb, if_true, readBack]
    simp only [ArchiveBinary.skip, CharStream.advance_advance, CharStream.advance_order,
      elementBytes, dataElementBytes_length]
  | object c slots =>
    rw [elementBytes_object_length] at hlen
    simp only [elementBytes, List.append_assoc] at h
    have halloc := Allocate_at registry a pre _ (.object c) created _ hskip hreg hcreate
      (by omega) h
    obtain ⟨cs, hcs⟩ : ∃ cs, created = .object c cs := by
      simp only [Element.GetClass, CreateInstance] at hcreate
      cases hc : c.m_Creator with
      | none => simp [hc] at hcreate
      | some cs => exact ⟨cs, by simpa [hc] using hcreate.symm⟩
    subst hcs
    have hat := CharStream.advance_at a.m_Stream pre _ _ h
    rw [toBytes_length] at hat
    have hat2 := CharStream.advance_at (a.m_Stream.advance 4) _ _ _ hat
    rw [toBytes_length] at hat2
    simp only [CharStream.advance_advance] at hat2
    have hfields := DeserializeFields_at callbacks registry c slots cs (writtenFields c slots)
      (a.skip 8) _ post hcb hskip hread (by
        simp only [ArchiveBinary.skip, CharStream.advance_order]; omega) hat2
    simp only [ArchiveBinary.Deserialize, halloc, hfields, hcb, if_true, readBack]
    simp only [ArchiveBinary.skip, CharStream.advance_advance, CharStream.advance_order,
      elementBytes_object_length]
    congr 4
    omega

/-- The method `Deserialize(elements, flags)` on the element-array block of a
single readable record. -/
theorem DeserializeVector_at (callbacks : ElementCallbacks) (registry : Registry)
    (written created : Element) (a : ArchiveBinary) (pre post : List Nat)
    (hcb : ∀ e, callbacks.PostDeserialize e = true)
    (hskip : a.m_Skip = false) (hsearch : a.m_SearchClass = none) (habort : a.m_Abort = false)
    (hreg : registry.GetClass (Crc32 written.GetClass.m_Name) = some written.GetClass)
    (hcreate : CreateInstance (some written.GetClass) = some created)
    (hread : written.Readable registry)
    (hlen : (elementBytes a.m_Stream.m_ByteOrder written).length < UINT32)
    (h : a.m_Stream.At pre (elementArrayBytes a.m_Stream.m_ByteOrder [written] ++ post)) :
    ArchiveBinary.DeserializeVector callbacks registry a [] ArchiveFlags.Status =
      .ok ([some (readBack written created)],
        a.skip (elementArrayBytes a.m_Stream.m_ByteOrder [written]).length) := by
  simp only [elementArrayBytes, List.map_cons, List.map_nil, List.flatten_cons,
    List.flatten_nil, List.append_nil, List.append_assoc, List.length_singleton] at h
  have hr1 := CharStream.Read_at a.m_Stream pre _ 4 1 h (by decide)
  have hat := CharStream.advance_at a.m_Stream pre _ _ h
  rw [toBytes_length] at hat
  have hdes := Deserialize_at callbacks registry written created (a.skip 4) _ _ hcb hskip hreg
    hcreate hread hlen hat
  have hat2 := CharStream.advance_at (a.m_Stream.advance 4) _ _ _ hat
  have hr2 := CharStream.Read_at ((a.m_Stream.advance 4).advance
    (elementBytes a.m_Stream.m_ByteOrder written).length) _ post 4 TERMINATOR hat2 terminator_lt
  simp only [CharStream.advance_advance] at hr2
  have hstep : ({ a with m_Stream := a.m_Stream.advance 4 } : ArchiveBinary) = a.skip 4 := rfl
  have hone : loopCount 1 = 1 := by decide
  have hsparse : ArchiveFlags.Status &&& ArchiveFlags.Sparse = 0 := by decide
  have hab : (a.skip 4).m_Abort = false := habort
  simp only [ArchiveBinary.DeserializeVector, hr1, hone, hstep, ArchiveBinary.deserializeEach,
    hab, Bool.false_eq_true, if_false, hdes]
  simp only [ArchiveBinary.skip, hsearch, Class.HasType, Bool.false_eq_true, if_false,
    Option.isSome_some, Bool.true_or, if_true, List.nil_append, habort,
    CharStream.advance_advance, CharStream.advance_order, hr2, ne_eq, not_true_eq_false]
  simp only [elementArrayBytes, List.map_cons, List.map_nil, List.flatten_cons,
    List.flatten_nil, List.append_nil, List.length_append, toBytes_length, Nat.add_assoc]

/-- The checksum test of `Read` accepts what `Write` stored. -/
theorem crc_check (g_OverrideCRC : Bool) (s : CharStream) (payload : List Nat)
    (heof : s.eof = false) (hdrop : s.data.drop s.readPos = payload) (hpos : s.readPos < UINT32) :
    (if storedCrc payload ≠ CRC_DEFAULT then
        if (crcLoop (s.data.length + 1) BeginCrc32 s).1 ≠ storedCrc payload ∧ ¬ g_OverrideCRC then
          if storedCrc payload = CRC_INVALID then
            (.error .ChecksumIncomplete : Except ArchiveException CharStream)
          else .error .ChecksumMismatch
        else .ok ({ (crcLoop (s.data.length + 1) BeginCrc32 s).2 with eof := false }.SeekRead
          (s.readPos % UINT32))
      else .ok s) = .ok s := by
  by_cases hd : storedCrc payload = CRC_DEFAULT
  · simp only [hd, ne_eq, not_true_eq_false, if_false]
  · obtain ⟨h1, h2, h3, h4⟩ := crcLoop_spec (s.data.length + 1) BeginCrc32 s heof (by
      simp only [CRC_BLOCK_SIZE]; omega)
    have hstored : storedCrc payload = UpdateCrc32 BeginCrc32 payload := by
      unfold storedCrc at hd ⊢
      split
      · rename_i hi
        rw [if_pos hi] at hd
        exact absurd rfl hd
      · rfl
    rw [hdrop] at h1
    simp only [ne_eq, hd, not_false_eq_true, if_true, h1, hstored, not_true_eq_false, false_and,
      if_false]
    obtain ⟨bo, data, rp, wp, eof⟩ := s
    simp only at heof h2 h3 h4 hpos
    subst heof
    generalize crcLoop (data.length + 1) BeginCrc32
      { m_ByteOrder := bo, data := data, readPos := rp, writePos := wp, eof := false } = r
      at h2 h3 h4
    obtain ⟨c, ⟨bo', data', rp', wp', eof'⟩⟩ := r
    simp only at h2 h3 h4
    subst h2 h3 h4
    simp only [CharStream.SeekRead, Nat.mod_eq_of_lt hpos]
    split <;> rfl

theorem CharStream.ofData_at (order : ByteOrder) (data post : List Nat) (h : data = post) :
    (CharStream.ofData order data).At [] post :=
  ⟨by rw [h]; exact (List.nil_append _).symm, rfl⟩

/-- The method `Read` on the archive of a single readable record. -/
theorem readSpool_eq (UNICODE g_OverrideCRC : Bool) (callbacks : ElementCallbacks)
    (registry : Registry) (order : ByteOrder) (written created : Element)
    (hcb : ∀ e, callbacks.PostDeserialize e = true)
    (hreg : registry.GetClass (Crc32 written.GetClass.m_Name) = some written.GetClass)
    (hcreate : CreateInstance (some written.GetClass) = some created)
    (hread : written.Readable registry)
    (hsize : 11 + (elementArrayBytes order [written]).length < UINT32) :
    readSpool g_OverrideCRC callbacks registry order (archiveBytes UNICODE order [written]) =
      .ok [some (readBack written created)] := by
  have hU : UINT32 = 4294967296 := rfl
  have hdata : archiveBytes UNICODE order [written] =
      toBytes order 2 0xfeff ++ (toBytes order 1 (if UNICODE then 1 else 0) ++
        (toBytes order 4 CURRENT_VERSION ++
          (toBytes order 4 (storedCrc (elementArrayBytes order [written])) ++
            (elementArrayBytes order [written] ++ [])))) := by
    simp only [archiveBytes, headerBytes, List.append_assoc, List.append_nil]
  have h0 := CharStream.ofData_at order _ _ hdata
  have hr1 := CharStream.Read_at _ _ _ 2 0xfeff h0 (by decide)
  have hat1 := CharStream.advance_at _ _ _ _ h0
  rw [toBytes_length] at hat1
  have hr2 := CharStream.Read_at _ _ _ 1 (if UNICODE then 1 else 0) hat1
    (by cases UNICODE <;> decide)
  have hat2 := CharStream.advance_at _ _ _ _ hat1
  rw [toBytes_length] at hat2
  have hr3 := CharStream.Read_at _ _ _ 4 CURRENT_VERSION hat2 (by decide)
  have hat3 := CharStream.advance_at _ _ _ _ hat2
  rw [toBytes_length] at hat3
  have hr4 := CharStream.Read_at _ _ _ 4 (storedCrc (elementArrayBytes order [written])) hat3
    (by rw [pow_256_4]; exact storedCrc_lt _)
  have hat4 := CharStream.advance_at _ _ _ _ hat3
  rw [toBytes_length] at hat4
  simp only [CharStream.advance_advance] at hr2 hr3 hr4 hat4
  have hlen : (archiveBytes UNICODE order [written]).length ≠ 0 := by
    rw [hdata]
    simp only [List.length_append, toBytes_length]
    omega
  have hdrop : ((CharStream.ofData order (archiveBytes UNICODE order [written])).advance
      (2 + 1 + 4 + 4)).data.drop
      ((CharStream.ofData order (archiveBytes UNICODE order [written])).advance
        (2 + 1 + 4 + 4)).readPos = elementArrayBytes order [written] := by
    rw [hat4.1, hat4.2, List.drop_left', List.append_nil]
    rfl
  have hcheck := crc_check g_OverrideCRC
    ((CharStream.ofData order (archiveBytes UNICODE order [written])).advance (2 + 1 + 4 + 4))
    (elementArrayBytes order [written]) rfl hdrop (show 0 + (2 + 1 + 4 + 4) < UINT32 by decide)
  have helem : (elementBytes order written).length < UINT32 := by
    simp only [elementArrayBytes, List.map_cons, List.map_nil, List.flatten_cons,
      List.flatten_nil, List.append_nil, List.length_append] at hsize
    omega
  have hvec := DeserializeVector_at callbacks registry written created
    { m_Stream := (CharStream.ofData order (archiveBytes UNICODE order [written])).advance
        (2 + 1 + 4 + 4),
      m_Spool := [], m_Version := CURRENT_VERSION,
      m_Size := (archiveBytes UNICODE order [written]).length - 11,
      m_Skip := false, m_SearchClass := none, m_Abort := false, m_FieldStack := [] }
    _ [] hcb rfl rfl rfl hreg hcreate hread helem hat4
  simp only [readSpool, ArchiveBinary.Read, ArchiveBinary.opened]
  have hseek : (CharStream.ofData order (archiveBytes UNICODE order [written])).SeekRead 0 =
      CharStream.ofData order (archiveBytes UNICODE order [written]) := rfl
  have hsz : (CharStream.ofData order (archiveBytes UNICODE order [written])).data.length =
      (archiveBytes UNICODE order [written]).length := rfl
  have hbom : ¬ ((65279 : Nat) ≠ 65279 ∧ (65279 : Nat) ≠ 65534) := by decide
  have henc : ¬ ((if UNICODE = true then 1 else 0) ≠ 0 ∧ (if UNICODE = true then 1 else 0) ≠ 1) := by
    cases UNICODE <;> decide
  have hver : ¬ CURRENT_VERSION > CURRENT_VERSION := by decide
  have hstart : ((CharStream.ofData order (archiveBytes UNICODE order [written])).advance
      (2 + 1 + 4 + 4)).readPos % UINT32 = 11 := by
    show (0 + (2 + 1 + 4 + 4)) % UINT32 = 11
    decide
  simp only [hseek, hsz, hlen, if_false, hr1, hbom, hr2, henc, hr3, hver, hr4, hstart] at hcheck ⊢
  rw [hcheck]
  simp only
  rw [hvec]

theorem slotGet_slotSet (offset : Nat) (value : Value) (o : Nat) :
    ∀ slots : List (Nat × Value),
      slotGet (slotSet slots offset value) o = if offset = o then value else slotGet slots o := by
  intro slots
  induction slots with
  | nil => simp only [slotSet, slotGet]
  | cons kv rest ih =>
    obtain ⟨k, v⟩ := kv
    by_cases hk : k = offset
    · subst hk
      simp only [slotSet, if_true, slotGet]
      split <;> simp_all
    · by_cases ho : k = o
      · subst ho
        have hne : ¬ offset = k := fun h => hk h.symm
        simp only [slotSet, hk, if_false, slotGet, if_true, hne]
      · simp only [slotSet, hk, if_false, slotGet, ho, ih]

/-- Storing the values of a record in a record with the same values changes no
slot. -/
theorem slotsRead_get (written : List (Nat × Value)) :
    ∀ (fields : List Field) (slots : List (Nat × Value)),
      (∀ o, slotGet slots o = slotGet written o) →
      ∀ o, slotGet (slotsRead written fields slots) o = slotGet written o := by
  intro fields
  induction fields with
  | nil => intro slots h o; exact h o
  | cons f rest ih =>
    intro slots h o
    simp only [slotsRead, List.foldl_cons]
    apply ih
    intro o'
    rw [slotGet_slotSet]
    split
    · rename_i he
      rw [he]
    · exact h o'

theorem readBack_self (x : Element) : (readBack x x).FieldwiseEq x := by
  cases x with
  | data c v => exact ⟨rfl, rfl⟩
  | object c slots => exact ⟨rfl, slotsRead_get slots _ slots (fun _ => rfl)⟩

theorem getClass_of_create (C : Class) (x : Element) (h : CreateInstance (some C) = some x) :
    x.GetClass = C := by
  cases C with
  | data c =>
    simp only [CreateInstance, Option.some.injEq] at h
    subst h
    rfl
  | object c =>
    simp only [CreateInstance] at h
    cases hc : c.m_Creator with
    | none => simp [hc] at h
    | some cs =>
      simp only [hc, Option.map_some', Option.some.injEq] at h
      subst h
      rfl

theorem elementBytes_length_le (order : ByteOrder) (e : Element) :
    ∀ spool : List Element, e ∈ spool →
      (elementBytes order e).length ≤ ((spool.map (elementBytes order)).flatten).length := by
  intro spool
  induction spool with
  | nil => intro h; cases h
  | cons x rest ih =>
    intro h
    simp only [List.map_cons, List.flatten_cons, List.length_append]
    rcases List.mem_cons.mp h with h | h
    · subst h
      omega
    · have := ih h
      omega

/-! ### What writing keeps, for archives of any size -/

theorem stream_keeps_refl (s : CharStream) : s.Keeps s := ⟨rfl, rfl, Nat.le_refl _⟩

theorem stream_keeps_trans {s1 s2 s3 : CharStream} (h12 : s1.Keeps s2) (h23 : s2.Keeps s3) :
    s1.Keeps s3 :=
  ⟨h23.1.trans h12.1, h23.2.1.trans h12.2.1, Nat.le_trans h12.2.2 h23.2.2⟩

theorem CharStream.WriteBuffer_keeps (s : CharStream) (bs : List Nat) :
    s.Keeps (s.WriteBuffer bs) := by
  refine ⟨rfl, rfl, ?_⟩
  simp only [CharStream.WriteBuffer, List.length_append, List.length_take, List.length_drop]
  omega

theorem CharStream.Write_keeps (s : CharStream) (size v : Nat) : s.Keeps (s.Write size v) :=
  CharStream.WriteBuffer_keeps s _

theorem CharStream.SeekWrite_keeps (s : CharStream) (offset : Nat) :
    s.Keeps (s.SeekWrite offset) := ⟨rfl, rfl, Nat.le_refl _⟩

theorem CharStream.SeekWriteEnd_keeps (s : CharStream) : s.Keeps s.SeekWriteEnd :=
  ⟨rfl, rfl, Nat.le_refl _⟩

theorem archive_keeps_refl (a : ArchiveBinary) : a.Keeps a :=
  ⟨stream_keeps_refl _, rfl⟩

theorem archive_keeps_trans {a1 a2 a3 : ArchiveBinary} (h12 : a1.Keeps a2)
    (h23 : a2.Keeps a3) : a1.Keeps a3 :=
  ⟨stream_keeps_trans h12.1 h23.1, h23.2.trans h12.2⟩

theorem beginElement_keeps (a : ArchiveBinary) (type : Class) :
    a.Keeps (a.beginElement type).1 :=
  ⟨stream_keeps_trans (CharStream.Write_keeps _ _ _) (CharStream.Write_keeps _ _ _), rfl⟩

theorem endElement_keeps (a : ArchiveBinary) (start_offset : Nat) :
    a.Keeps (a.endElement start_offset) :=
  ⟨stream_keeps_trans
    (stream_keeps_trans (CharStream.SeekWrite_keeps _ _) (CharStream.Write_keeps _ _ _))
    (CharStream.SeekWriteEnd_keeps _), rfl⟩

theorem ArchiveBinary.stream_keeps (a : ArchiveBinary) (s : CharStream)
    (h : a.m_Stream.Keeps s) : a.Keeps { a with m_Stream := s } := ⟨h, rfl⟩

theorem SerializeData_keeps (a : ArchiveBinary) (c : DataClass) (value : Value) :
    a.Keeps (a.SerializeData c value) := by
  have h1 := beginElement_keeps a (.data c)
  have h2 := ArchiveBinary.stream_keeps (a.beginElement (.data c)).1
    ((a.beginElement (.data c)).1.m_Stream.WriteBuffer
      (dataPayload (a.beginElement (.data c)).1.m_Stream.m_ByteOrder c.m_Kind value))
    (CharStream.WriteBuffer_keeps _ _)
  exact archive_keeps_trans h1
    (archive_keeps_trans h2 (endElement_keeps _ (a.beginElement (.data c)).2))

theorem serializeField_keeps (a : ArchiveBinary) (field : Field) (data : Value) :
    a.Keeps (({ a with m_Stream := a.m_Stream.Write 4 (Crc32 field.m_Name) } :
      ArchiveBinary).SerializeData field.m_DataClass data) :=
  archive_keeps_trans (ArchiveBinary.stream_keeps a _ (CharStream.Write_keeps _ _ _))
    (SerializeData_keeps _ _ _)

/-- The loop over the fields of one level completes. -/
theorem serializeLevel_keeps (slots : List (Nat × Value)) :
    ∀ (fields : List Field) (a : ArchiveBinary), a.m_FieldStack ≠ [] →
      ∃ r, ArchiveBinary.serializeLevel slots fields a = .ok r ∧ a.Keeps r.2 := by
  intro fields
  induction fields with
  | nil => intro a _; exact ⟨_, rfl, archive_keeps_refl a⟩
  | cons field rest ih =>
    intro a hstack
    rw [ArchiveBinary.serializeLevel]
    by_cases hd : field.m_Flags &&& FieldFlags.Discard ≠ 0
    · rw [if_pos hd]
      exact ⟨(true, a), rfl, archive_keeps_refl a⟩
    · rw [if_neg hd]
      by_cases hs : shouldSerialize field (slotGet slots field.m_Offset) = true
      · have hk := serializeField_keeps a field (slotGet slots field.m_Offset)
        simp only [hs, if_true]
        generalize ({ a with m_Stream := a.m_Stream.Write 4 (Crc32 field.m_Name) } :
            ArchiveBinary).SerializeData field.m_DataClass (slotGet slots field.m_Offset) = a2
          at hk ⊢
        cases hfs : a2.m_FieldStack with
        | nil =>
          have := hk.2
          rw [hfs] at this
          exact absurd (List.length_eq_zero.mp this.symm) hstack
        | cons top stack =>
          simp only
          obtain ⟨r, hr, hkr⟩ := ih
            { a2 with m_FieldStack := { top with m_Count := top.m_Count + 1 } :: stack }
            (by simp)
          refine ⟨r, hr, archive_keeps_trans (archive_keeps_trans hk ?_) hkr⟩
          exact ⟨stream_keeps_refl _, by simp only [hfs, List.length_cons]⟩
      · simp only [hs]
        exact ih a hstack

/-- The loop over the levels completes. -/
theorem serializeLevels_keeps (slots : List (Nat × Value)) :
    ∀ (levels : List Composite) (a : ArchiveBinary), a.m_FieldStack ≠ [] →
      ∃ a', ArchiveBinary.serializeLevels slots levels a = .ok a' ∧ a.Keeps a' := by
  intro levels
  induction levels with
  | nil => intro a _; exact ⟨a, rfl, archive_keeps_refl a⟩
  | cons current bases ih =>
    intro a hstack
    obtain ⟨⟨b, a1⟩, hr, hk⟩ := serializeLevel_keeps slots current.m_Fields a hstack
    rw [ArchiveBinary.serializeLevels, hr]
    cases b with
    | true => exact ⟨a1, rfl, hk⟩
    | false =>
      have hstack1 : a1.m_FieldStack ≠ [] := by
        intro h
        have := hk.2
        rw [h] at this
        exact hstack (List.length_eq_zero.mp this.symm)
      obtain ⟨a', hr', hk'⟩ := ih a1 hstack1
      exact ⟨a', hr', archive_keeps_trans hk hk'⟩

/-- The method `Serialize(element)` completes for a record. -/
theorem Serialize_keeps (a : ArchiveBinary) (element : Element) :
    ∃ a', a.Serialize (some element) = .ok a' ∧ a.Keeps a' := by
  cases element with
  | data c value => exact ⟨_, rfl, SerializeData_keeps a c value⟩
  | object c slots =>
    have h1 := beginElement_keeps a (.object c)
    generalize hb : a.beginElement (.object c) = r at h1
    obtain ⟨a1, start⟩ := r
    simp only at h1
    have h3 : a1.m_Stream.Keeps (a1.m_Stream.Write 4 0) := CharStream.Write_keeps _ _ _
    obtain ⟨a4, hr, hk⟩ := serializeLevels_keeps slots c.m_Composite.bases
      { a1 with
        m_FieldStack := { m_Count := 0, m_CountOffset := a1.m_Stream.writePos } ::
          a1.m_FieldStack,
        m_Stream := a1.m_Stream.Write 4 0 } (by simp)
    simp only [ArchiveBinary.Serialize, hb, ArchiveBinary.SerializeFields, hr]
    obtain ⟨hks, hkl⟩ := hk
    simp only [List.length_cons] at hkl hks
    cases hfs : a4.m_FieldStack with
    | nil => rw [hfs] at hkl; simp at hkl
    | cons top stack =>
      simp only
      refine ⟨_, rfl, ?_⟩
      rw [hfs] at hkl
      simp only [List.length_cons, Nat.add_right_cancel_iff] at hkl
      have h5 : a4.m_Stream.Keeps (a4.m_Stream.Write 4 TERMINATOR) :=
        CharStream.Write_keeps _ _ _
      have h6 : (a4.m_Stream.Write 4 TERMINATOR).Keeps
          (((a4.m_Stream.Write 4 TERMINATOR).SeekWrite top.m_CountOffset).Write 4
            top.m_Count).SeekWriteEnd :=
        stream_keeps_trans
          (stream_keeps_trans (CharStream.SeekWrite_keeps _ _) (CharStream.Write_keeps _ _ _))
          (CharStream.SeekWriteEnd_keeps _)
      refine archive_keeps_trans ?_ (endElement_keeps _ _)
      exact ⟨stream_keeps_trans h1.1 (stream_keeps_trans h3 (stream_keeps_trans hks
        (stream_keeps_trans h5 h6))), by simp only [hkl, h1.2]⟩

/-- The loop over the records completes. -/
theorem serializeEach_keeps :
    ∀ (elements : List Element) (a : ArchiveBinary),
      ∃ a', ArchiveBinary.serializeEach (elements.map some) a = .ok a' ∧ a.Keeps a' := by
  intro elements
  induction elements with
  | nil => intro a; exact ⟨a, rfl, archive_keeps_refl a⟩
  | cons element rest ih =>
    intro a
    obtain ⟨a1, hr, hk⟩ := Serialize_keeps a element
    obtain ⟨a', hr', hk'⟩ := ih a1
    refine ⟨a', ?_, archive_keeps_trans hk hk'⟩
    simp only [List.map_cons, ArchiveBinary.serializeEach, hr, hr']

/-- The method `Serialize(elements, flags)` completes for records. -/
theorem SerializeVector_keeps (a : ArchiveBinary) (elements : List Element) :
    ∃ a', a.SerializeVector (elements.map some) = .ok a' ∧ a.Keeps a' := by
  obtain ⟨a2, hr, hk⟩ := serializeEach_keeps elements
    { a with m_Stream := a.m_Stream.Write 4 (elements.map some).length }
  refine ⟨{ a2 with m_Stream := a2.m_Stream.Write 4 TERMINATOR }, ?_, ?_⟩
  · simp only [ArchiveBinary.SerializeVector, hr]
  · exact archive_keeps_trans (ArchiveBinary.stream_keeps a _ (CharStream.Write_keeps _ _ _))
      (archive_keeps_trans hk
        (ArchiveBinary.stream_keeps a2 _ (CharStream.Write_keeps _ _ _)))

theorem header_written (UNICODE : Bool) (order : ByteOrder) :
    ((((CharStream.opened order).Write 2 0xfeff).Write 1
      (if UNICODE then 1 else 0)).Write 4 CURRENT_VERSION).Write 4 CRC_INVALID =
      (CharStream.opened order).append (headerBytes UNICODE order CRC_INVALID) := by
  have h0 : (CharStream.opened order).AtEnd := rfl
  rw [CharStream.Write_atEnd _ _ _ h0,
    CharStream.Write_atEnd _ _ _ (CharStream.append_atEnd _ _),
    CharStream.Write_atEnd _ _ _ (CharStream.append_atEnd _ _),
    CharStream.Write_atEnd _ _ _ (CharStream.append_atEnd _ _),
    CharStream.append_append, CharStream.append_append, CharStream.append_append]
  simp only [CharStream.append_order, headerBytes, List.append_assoc]
  rfl

theorem header_position (UNICODE : Bool) (order : ByteOrder) :
    ((((CharStream.opened order).Write 2 0xfeff).Write 1
      (if UNICODE then 1 else 0)).Write 4 CURRENT_VERSION).writePos = 7 := by
  simp [CharStream.Write, CharStream.WriteBuffer, CharStream.opened, toBytes_length]

/-- The method `Write` on a fresh archive completes for every spool of records,
and stores the checksum of the bytes that follow the checksum. -/
theorem writeSpool_crc (UNICODE : Bool) (order : ByteOrder) (spool : List Element) :
    ∃ (a : ArchiveBinary) (d : List Nat), writeSpool UNICODE order spool = .ok a ∧
      11 ≤ d.length ∧
      a.m_Stream.data = d.take 7 ++ toBytes order 4 (storedCrc (d.drop 11)) ++ d.drop 11 := by
  obtain ⟨a5, hvec, hk⟩ := SerializeVector_keeps
    { m_Stream := (CharStream.opened order).append (headerBytes UNICODE order CRC_INVALID),
      m_Spool := spool.map some, m_Version := CURRENT_VERSION, m_Size := 0, m_Skip := false,
      m_SearchClass := none, m_Abort := false, m_FieldStack := [] } spool
  obtain ⟨⟨hbo, heof, hlen⟩, _⟩ := hk
  simp only [CharStream.append, CharStream.opened, List.nil_append, headerBytes_length,
    List.length_nil, Nat.zero_add] at hbo heof hlen
  have h7 : 7 % UINT32 = 7 := by decide
  obtain ⟨h1, h2, h3, h4⟩ := crcLoop_spec (a5.m_Stream.data.length + 1) BeginCrc32
    (a5.m_Stream.SeekRead (7 + 4)) heof (by
      simp only [CharStream.SeekRead, CRC_BLOCK_SIZE]
      omega)
  simp only [CharStream.SeekRead, hbo] at h1 h2 h3 h4
  simp only [writeSpool, ArchiveBinary.Write, ArchiveBinary.opened, ne_eq, not_true_eq_false,
    if_false, header_written, header_position, hvec, h7]
  refine ⟨_, a5.m_Stream.data, rfl, hlen, ?_⟩
  simp only [CharStream.SeekRead, CharStream.SeekWriteEnd, CharStream.Write,
    CharStream.WriteBuffer, CharStream.SeekWrite, toBytes_length, h1, h2, h3, hbo, storedCrc]

/-! ## Claims about the binary archive -/

set_option maxRecDepth 100000 in
theorem pt_size (order : ByteOrder) (x y : Nat) (hx : x = 0 ∨ x = 3) (hy : y = 0 ∨ y = 4) :
    11 + (elementArrayBytes order [Pt x y]).length < UINT32 := by
  rcases hx with rfl | rfl <;> rcases hy with rfl | rfl <;> cases order <;> decide

set_option maxRecDepth 100000 in
theorem pt_readable : (Pt 3 4).Readable s1Registry := by
  unfold Element.Readable Pt
  simp only
  decide

set_option maxRecDepth 100000 in
theorem pt_registered : s1Registry.GetClass (Crc32 (Class.object PtClass).m_Name) =
    some (.object PtClass) := by
  decide

set_option maxRecDepth 100000 in
theorem pt_readBack : readBack (Pt 3 4) (Pt 0 0) = Pt 3 4 := by
  decide

/-- C8 (archive round trip): for a registered class `C` whose fields can be
read back and its default-constructed instance `x`, the method `Write` for the
spool `[x]` completes below 4 GiB, and `Read` on the bytes it produced, with
callbacks that accept every record, yields a spool of exactly one record that
equals `x` field by field.  For the class `Pt { i32 x; i32 y; }` the archive
written for `[Pt{3,4}]` reads back as `[Pt{3,4}]`. -/
theorem C8_archive_round_trip (UNICODE g_OverrideCRC : Bool) (callbacks : ElementCallbacks)
    (registry : Registry) (order : ByteOrder) (C : Class) (x : Element)
    (hcb : ∀ e, callbacks.PostDeserialize e = true)
    (hreg : registry.GetClass (Crc32 C.m_Name) = some C)
    (hx : CreateInstance (some C) = some x)
    (hread : x.Readable registry)
    (hsize : 11 + (elementArrayBytes order [x]).length < UINT32) :
    (∃ a x', writeSpool UNICODE order [x] = .ok a ∧
      readSpool g_OverrideCRC callbacks registry order a.m_Stream.data = .ok [some x'] ∧
      x'.FieldwiseEq x) ∧
    (∃ a, writeSpool UNICODE order [Pt 3 4] = .ok a ∧
      readSpool g_OverrideCRC defaultCallbacks s1Registry order a.m_Stream.data =
        .ok [some (Pt 3 4)]) := by
  have hclass := getClass_of_create C x hx
  constructor
  · obtain ⟨a, hw, hd⟩ := writeSpool_eq UNICODE order [x] hsize
    refine ⟨a, readBack x x, hw, ?_, readBack_self x⟩
    rw [hd]
    exact readSpool_eq UNICODE g_OverrideCRC callbacks registry order x x hcb
      (by rw [hclass]; exact hreg) (by rw [hclass]; exact hx) hread hsize
  · obtain ⟨a, hw, hd⟩ := writeSpool_eq UNICODE order [Pt 3 4]
      (pt_size order 3 4 (Or.inr rfl) (Or.inr rfl))
    refine ⟨a, hw, ?_⟩
    rw [hd]
    have h := readSpool_eq UNICODE g_OverrideCRC defaultCallbacks s1Registry order (Pt 3 4)
      (Pt 0 0) (fun _ => rfl) pt_registered rfl pt_readable
      (pt_size order 3 4 (Or.inr rfl) (Or.inr rfl))
    rw [pt_readBack] at h
    exact h

set_option maxRecDepth 100000 in
/-- The round trip of C8 at the class `Pt`, its default instance `Pt{0,0}`,
a little-endian stream and an ASCII build. -/
theorem C8_archive_round_trip_witness :
    (∃ a x', writeSpool false .LittleEndian [Pt 0 0] = .ok a ∧
      readSpool false defaultCallbacks s1Registry .LittleEndian a.m_Stream.data =
        .ok [some x'] ∧
      x'.FieldwiseEq (Pt 0 0)) ∧
    (∃ a, writeSpool false .LittleEndian [Pt 3 4] = .ok a ∧
      readSpool false defaultCallbacks s1Registry .LittleEndian a.m_Stream.data =
        .ok [some (Pt 3 4)]) :=
  C8_archive_round_trip false false defaultCallbacks s1Registry .LittleEndian
    (.object PtClass) (Pt 0 0) (fun _ => rfl) (by decide) (by decide)
    (by unfold Element.Readable Pt; simp only; decide) (by decide)

/-- C9 (archive header layout): for every spool of records whose archive stays
below 4 GiB, `Write` completes and the stream it produced consists, in this
order, of the 16-bit byte-order mark 0xFEFF, the 8-bit encoding (0 for ASCII, 1
for UTF-16), the 32-bit version 7, a 32-bit checksum, and the element-array
block: the 32-bit count of the records, the records in spool order, and the
32-bit terminator -1.  Each record is the bytes `Serialize` appends for it. -/
theorem C9_header_layout (UNICODE : Bool) (order : ByteOrder) (spool : List Element)
    (hsize : 11 + (elementArrayBytes order spool).length < UINT32) :
    ∃ a crc, writeSpool UNICODE order spool = .ok a ∧ crc < UINT32 ∧
      a.m_Stream.data =
        toBytes order 2 0xFEFF ++ toBytes order 1 (if UNICODE then 1 else 0) ++
          toBytes order 4 7 ++ toBytes order 4 crc ++
          (toBytes order 4 spool.length ++ (spool.map (elementBytes order)).flatten ++
            toBytes order 4 0xFFFFFFFF) ∧
      ∀ e ∈ spool, ∃ b,
        (ArchiveBinary.opened (CharStream.opened order)).Serialize (some e) = .ok b ∧
          b.m_Stream.data = elementBytes order e := by
  obtain ⟨a, hw, hd⟩ := writeSpool_eq UNICODE order spool hsize
  refine ⟨a, storedCrc (elementArrayBytes order spool), hw, storedCrc_lt _, ?_, ?_⟩
  · rw [hd]
    rfl
  · intro e he
    have hle := elementBytes_length_le order e spool he
    simp only [elementArrayBytes, List.length_append, toBytes_length] at hsize
    have hs := Serialize_eq (ArchiveBinary.opened (CharStream.opened order)) e rfl
      (by
        show 0 + (elementBytes order e).length < UINT32
        omega)
    exact ⟨_, hs, by
      show [] ++ elementBytes order e = elementBytes order e
      rfl⟩

set_option maxRecDepth 100000 in
/-- The layout of C9 at the spool `[Pt{3,4}]`, a little-endian stream and an
ASCII build. -/
theorem C9_header_layout_witness :
    ∃ a crc, writeSpool false .LittleEndian [Pt 3 4] = .ok a ∧ crc < UINT32 ∧
      a.m_Stream.data =
        toBytes .LittleEndian 2 0xFEFF ++ toBytes .LittleEndian 1 (if false then 1 else 0) ++
          toBytes .LittleEndian 4 7 ++ toBytes .LittleEndian 4 crc ++
          (toBytes .LittleEndian 4 [Pt 3 4].length ++
            ([Pt 3 4].map (elementBytes .LittleEndian)).flatten ++
            toBytes .LittleEndian 4 0xFFFFFFFF) ∧
      ∀ e ∈ [Pt 3 4], ∃ b,
        (ArchiveBinary.opened (CharStream.opened .LittleEndian)).Serialize (some e) = .ok b ∧
          b.m_Stream.data = elementBytes .LittleEndian e :=
  C9_header_layout false .LittleEndian [Pt 3 4] (by decide)

theorem CharStream.Read_fieldAt (s : CharStream) (size : Nat) :
    s.Read size =
      match fieldAt s.m_ByteOrder s.data s.readPos size with
      | some v => .ok (v, s.advance size)
      | none => .error .StreamFailure := by
  unfold CharStream.Read fieldAt
  split <;> rfl

theorem CharStream.Read_ok {s s' : CharStream} {size v : Nat} (h : s.Read size = .ok (v, s')) :
    fieldAt s.m_ByteOrder s.data s.readPos size = some v ∧ s' = s.advance size := by
  rw [CharStream.Read_fieldAt] at h
  cases hf : fieldAt s.m_ByteOrder s.data s.readPos size with
  | none => rw [hf] at h; cases h
  | some w =>
    rw [hf] at h
    simp only [Except.ok.injEq, Prod.mk.injEq] at h
    exact ⟨by rw [h.1], h.2.symm⟩

theorem CharStream.Read_error {s : CharStream} {size : Nat} {e : ArchiveException}
    (h : s.Read size = .error e) : e = .StreamFailure := by
  rw [CharStream.Read_fieldAt] at h
  cases hf : fieldAt s.m_ByteOrder s.data s.readPos size with
  | none => rw [hf] at h; cases h; rfl
  | some w => rw [hf] at h; cases h

/-- The method `Read` is its header followed by the checksum test and the
element array. -/
theorem Read_eq_header (g_OverrideCRC : Bool) (callbacks : ElementCallbacks)
    (registry : Registry) (a : ArchiveBinary) :
    ArchiveBinary.Read g_OverrideCRC callbacks registry a =
      match a.ReadHeader with
      | .error e => .error e
      | .ok (version, s3) =>
        match s3.Read 4 with
        | .error e => .error e
        | .ok (crc, s4) =>
          let start := s4.readPos % UINT32
          let checked : Except ArchiveException CharStream :=
            if crc ≠ CRC_DEFAULT then
              let r := crcLoop (s4.data.length + 1) BeginCrc32 s4
              if r.1 ≠ crc ∧ ¬ g_OverrideCRC then
                if crc = CRC_INVALID then .error .ChecksumIncomplete
                else .error .ChecksumMismatch
              else .ok ({ r.2 with eof := false }.SeekRead start)
            else .ok s4
          match checked with
          | .error e => .error e
          | .ok s5 =>
            let a1 := { a with m_Abort := false, m_Version := version, m_Stream := s5,
                               m_Size := a.m_Stream.data.length - start }
            match ArchiveBinary.DeserializeVector callbacks registry a1 a1.m_Spool
                ArchiveFlags.Status with
            | .error e => .error e
            | .ok (spool, a2) =>
              .ok { a2 with
                m_Spool := spool
                m_Skip := if a2.m_SearchClass.isSome then false else a2.m_Skip } := by
  unfold ArchiveBinary.Read ArchiveBinary.ReadHeader
  simp only
  split
  · rfl
  · split
    · rfl
    · split
      · rfl
      · split
        · rfl
        · split
          · rfl
          · split
            · rfl
            · split
              · rfl
              · rfl

/-- The header in terms of the fields of the stream. -/
theorem readHeader_eq (order : ByteOrder) (data : List Nat) :
    readHeader order data =
      if data.length = 0 then .error .StreamEmpty
      else
        match fieldAt order data 0 2 with
        | none => .error .StreamFailure
        | some byteOrderMarker =>
          if byteOrderMarker ≠ 0xfeff ∧ byteOrderMarker ≠ 0xfffe then .error .UnknownByteOrder
          else
            match fieldAt order data 2 1 with
            | none => .error .StreamFailure
            | some encodingByte =>
              if encodingByte ≠ 0 ∧ encodingByte ≠ 1 then .error .UnknownEncoding
              else
                match fieldAt order data 3 4 with
                | none => .error .StreamFailure
                | some version =>
                  if version > CURRENT_VERSION then .error .VersionTooHigh
                  else .ok (version, (CharStream.ofData order data).advance 7) := by
  unfold readHeader ArchiveBinary.ReadHeader
  simp only [ArchiveBinary.opened, CharStream.SeekRead, CharStream.ofData,
    CharStream.Read_fieldAt, CharStream.advance, Nat.zero_add]
  split
  · rfl
  · cases fieldAt order data 0 2 with
    | none => rfl
    | some bom =>
      simp only
      split
      · rfl
      · cases fieldAt order data 2 1 with
        | none => rfl
        | some enc =>
          simp only
          split
          · rfl
          · cases fieldAt order data (2 + 1) 4 with
            | none => rfl
            | some v => rfl

/-! ### No checksum exception after the checksum test -/

theorem CharStream.Read_noChecksum {s : CharStream} {size : Nat} {e : ArchiveException}
    (h : s.Read size = .error e) : e.isChecksum = false := by
  rw [CharStream.Read_error h]
  rfl

theorem CharStream.SeekReadCur_noChecksum {s : CharStream} {offset : Int}
    {e : ArchiveException} (h : s.SeekReadCur offset = .error e) : e.isChecksum = false := by
  unfold CharStream.SeekReadCur at h
  split at h
  · cases h
  · cases h
    rfl

theorem readItems_noChecksum (size : Nat) :
    ∀ (count : Nat) (s : CharStream) (e : ArchiveException),
      readItems size count s = .error e → e.isChecksum = false := by
  intro count
  induction count with
  | zero => intro s e h; cases h
  | succ n ih =>
    intro s e h
    unfold readItems at h
    split at h
    · cases h
      exact CharStream.Read_noChecksum ‹_›
    · split at h
      · cases h
        exact ih _ _ ‹_›
      · cases h

theorem dataDeserialize_noChecksum {kind : DataKind} {s : CharStream} {e : ArchiveException}
    (h : dataDeserialize kind s = .error e) : e.isChecksum = false := by
  unfold dataDeserialize at h
  split at h
  · split at h
    · cases h
      exact CharStream.Read_noChecksum ‹_›
    · cases h
  · split at h
    · cases h
      exact CharStream.Read_noChecksum ‹_›
    · split at h
      · cases h
        exact readItems_noChecksum _ _ _ _ ‹_›
      · cases h

theorem Allocate_noChecksum {registry : Registry} {a : ArchiveBinary} {e : ArchiveException}
    (h : ArchiveBinary.Allocate registry a = .error e) : e.isChecksum = false := by
  unfold ArchiveBinary.Allocate at h
  split at h
  · cases h
    exact CharStream.Read_noChecksum ‹_›
  · simp only at h
    split at h
    · cases h
      exact CharStream.Read_noChecksum ‹_›
    · split at h
      · split at h
        · cases h
          exact CharStream.SeekReadCur_noChecksum ‹_›
        · cases h
      · split at h
        · cases h
        · split at h
          · cases h
            exact CharStream.SeekReadCur_noChecksum ‹_›
          · split at h
            · cases h
              rfl
            · cases h

theorem deserializeField_noChecksum {callbacks : ElementCallbacks} {registry : Registry}
    {c : ObjectClass} {slots : List (Nat × Value)} {a : ArchiveBinary} {e : ArchiveException}
    (h : ArchiveBinary.deserializeField callbacks registry c slots a = .error e) :
    e.isChecksum = false := by
  unfold ArchiveBinary.deserializeField at h
  split at h
  · cases h
    exact CharStream.Read_noChecksum ‹_›
  · split at h
    · cases h
      rfl
    · split at h
      · cases h
        exact Allocate_noChecksum ‹_›
      · split at h
        · cases h
          exact dataDeserialize_noChecksum ‹_›
        · split at h
          · cases h
            rfl
          · split at h
            · cases h
            · split at h
              · cases h
              · cases h
      · cases h
        rfl

theorem deserializeFieldLoop_noChecksum {callbacks : ElementCallbacks} {registry : Registry}
    {c : ObjectClass} :
    ∀ (count : Nat) (slots : List (Nat × Value)) (a : ArchiveBinary) (e : ArchiveException),
      ArchiveBinary.deserializeFieldLoop callbacks registry c count slots a = .error e →
        e.isChecksum = false := by
  intro count
  induction count with
  | zero => intro slots a e h; cases h
  | succ n ih =>
    intro slots a e h
    unfold ArchiveBinary.deserializeFieldLoop at h
    split at h
    · cases h
      exact deserializeField_noChecksum ‹_›
    · exact ih _ _ _ h

theorem DeserializeFields_noChecksum {callbacks : ElementCallbacks} {registry : Registry}
    {a : ArchiveBinary} {c : ObjectClass} {slots : List (Nat × Value)} {e : ArchiveException}
    (h : ArchiveBinary.DeserializeFields callbacks registry a c slots = .error e) :
    e.isChecksum = false := by
  unfold ArchiveBinary.DeserializeFields at h
  split at h
  · cases h
    exact CharStream.Read_noChecksum ‹_›
  · split at h
    · cases h
      exact deserializeFieldLoop_noChecksum _ _ _ _ ‹_›
    · split at h
      · cases h
        exact CharStream.Read_noChecksum ‹_›
      · split at h
        · cases h
          rfl
        · cases h

theorem Deserialize_noChecksum {callbacks : ElementCallbacks} {registry : Registry}
    {a : ArchiveBinary} {e : ArchiveException}
    (h : ArchiveBinary.Deserialize callbacks registry a = .error e) : e.isChecksum = false := by
  unfold ArchiveBinary.Deserialize at h
  split at h
  · cases h
    exact Allocate_noChecksum ‹_›
  · cases h
  · split at h
    · cases h
      exact dataDeserialize_noChecksum ‹_›
    · cases h
  · split at h
    · cases h
      exact DeserializeFields_noChecksum ‹_›
    · cases h

theorem deserializeEach_noChecksum {callbacks : ElementCallbacks} {registry : Registry}
    {flags : Nat} :
    ∀ (count : Nat) (elements : List (Option Element)) (a : ArchiveBinary)
      (e : ArchiveException),
      ArchiveBinary.deserializeEach callbacks registry flags count elements a = .error e →
        e.isChecksum = false := by
  intro count
  induction count with
  | zero => intro elements a e h; cases h
  | succ n ih =>
    intro elements a e h
    unfold ArchiveBinary.deserializeEach at h
    split at h
    · cases h
    · split at h
      · cases h
        exact Deserialize_noChecksum ‹_›
      · exact ih _ _ _ h

theorem DeserializeVector_noChecksum {callbacks : ElementCallbacks} {registry : Registry}
    {a : ArchiveBinary} {elements : List (Option Element)} {flags : Nat} {e : ArchiveException}
    (h : ArchiveBinary.DeserializeVector callbacks registry a elements flags = .error e) :
    e.isChecksum = false := by
  unfold ArchiveBinary.DeserializeVector at h
  split at h
  · cases h
    exact CharStream.Read_noChecksum ‹_›
  · split at h
    · cases h
      exact deserializeEach_noChecksum _ _ _ _ ‹_›
    · split at h
      · cases h
      · split at h
        · cases h
          exact CharStream.Read_noChecksum ‹_›
        · split at h
          · cases h
            rfl
          · cases h

/-- After the checksum loop the stream is put back where it was. -/
theorem crcLoop_restore (s : CharStream) (heof : s.eof = false) (hpos : s.readPos < UINT32) :
    (crcLoop (s.data.length + 1) BeginCrc32 s).1 =
        UpdateCrc32 BeginCrc32 (s.data.drop s.readPos) ∧
      ({ (crcLoop (s.data.length + 1) BeginCrc32 s).2 with eof := false } : CharStream).SeekRead
        (s.readPos % UINT32) = s := by
  obtain ⟨h1, h2, h3, h4⟩ := crcLoop_spec (s.data.length + 1) BeginCrc32 s heof (by
    simp only [CRC_BLOCK_SIZE]; omega)
  refine ⟨h1, ?_⟩
  obtain ⟨bo, data, rp, wp, eof⟩ := s
  simp only at heof h2 h3 h4 hpos
  subst heof
  generalize crcLoop (data.length + 1) BeginCrc32
    { m_ByteOrder := bo, data := data, readPos := rp, writePos := wp, eof := false } = r
    at h2 h3 h4
  obtain ⟨c, ⟨bo', data', rp', wp', eof'⟩⟩ := r
  simp only at h2 h3 h4
  subst h2 h3 h4
  simp only [CharStream.SeekRead, Nat.mod_eq_of_lt hpos]

theorem readHeader_ok {order : ByteOrder} {data : List Nat} {version : Nat} {s : CharStream}
    (h : readHeader order data = .ok (version, s)) :
    s = (CharStream.ofData order data).advance 7 ∧ fieldAt order data 3 4 = some version ∧
      version ≤ 7 ∧ HeaderAccepted order data := by
  rw [readHeader_eq] at h
  split at h
  · cases h
  · rename_i hne
    cases h0 : fieldAt order data 0 2 with
    | none => rw [h0] at h; cases h
    | some bom =>
      rw [h0] at h
      simp only at h
      split at h
      · cases h
      · rename_i hbom
        cases h2 : fieldAt order data 2 1 with
        | none => rw [h2] at h; cases h
        | some enc =>
          rw [h2] at h
          simp only at h
          split at h
          · cases h
          · rename_i henc
            cases h3 : fieldAt order data 3 4 with
            | none => rw [h3] at h; cases h
            | some v =>
              rw [h3] at h
              simp only at h
              split at h
              · cases h
              · rename_i hv
                simp only [Except.ok.injEq, Prod.mk.injEq] at h
                obtain ⟨rfl, rfl⟩ := h
                have hv' : v ≤ 7 := by
                  simp only [CURRENT_VERSION, gt_iff_lt, not_lt] at hv
                  exact hv
                refine ⟨rfl, rfl, hv', ?_, ?_, ?_, v, h3, hv'⟩
                · intro hnil
                  exact hne (by rw [hnil]; rfl)
                · by_cases hb : bom = 0xfeff
                  · exact Or.inl (by rw [h0, hb])
                  · by_cases hb' : bom = 0xfffe
                    · exact Or.inr (by rw [h0, hb'])
                    · exact absurd ⟨hb, hb'⟩ hbom
                · by_cases he : enc = 0
                  · exact Or.inl (by rw [h2, he])
                  · by_cases he' : enc = 1
                    · exact Or.inr (by rw [h2, he'])
                    · exact absurd ⟨he, he'⟩ henc

theorem readHeader_accepted {order : ByteOrder} {data : List Nat}
    (h : HeaderAccepted order data) :
    ∃ version, fieldAt order data 3 4 = some version ∧ version ≤ 7 ∧
      readHeader order data = .ok (version, (CharStream.ofData order data).advance 7) := by
  obtain ⟨hne, hbom, henc, v, hv, hle⟩ := h
  refine ⟨v, hv, hle, ?_⟩
  rw [readHeader_eq]
  have hlen : ¬ data.length = 0 := fun h0 => hne (List.length_eq_zero.mp h0)
  rw [if_neg hlen]
  have hver : ¬ v > CURRENT_VERSION := by
    simp only [CURRENT_VERSION, gt_iff_lt, not_lt]
    exact hle
  rcases hbom with hb | hb <;> rcases henc with he | he <;>
    simp [hb, he, hv, hver]

theorem ReadHeader_stream (a b : ArchiveBinary) (h : a.m_Stream = b.m_Stream) :
    a.ReadHeader = b.ReadHeader := by
  unfold ArchiveBinary.ReadHeader
  simp only [h]

theorem readSpool_search (g_OverrideCRC : Bool) (callbacks : ElementCallbacks)
    (registry : Registry) (order : ByteOrder) (data : List Nat) :
    readSpool g_OverrideCRC callbacks registry order data =
      readSpoolSearch none g_OverrideCRC callbacks registry order data := rfl

/-- The method `Read` on a stream of bytes, in terms of the fields of the
header, the checksum of the bytes after it, and the element array. -/
theorem readSpoolSearch_eq (searchClass : Option Class) (g_OverrideCRC : Bool)
    (callbacks : ElementCallbacks) (registry : Registry) (order : ByteOrder)
    (data : List Nat) :
    readSpoolSearch searchClass g_OverrideCRC callbacks registry order data =
      match readHeader order data with
      | .error e => .error e
      | .ok (version, _) =>
        match fieldAt order data 7 4 with
        | none => .error .StreamFailure
        | some crc =>
          if crc ≠ CRC_DEFAULT ∧ UpdateCrc32 BeginCrc32 (data.drop 11) ≠ crc ∧
              g_OverrideCRC = false then
            if crc = CRC_INVALID then .error .ChecksumIncomplete else .error .ChecksumMismatch
          else
            match ArchiveBinary.DeserializeVector callbacks registry
                (afterHeader searchClass order data version) [] ArchiveFlags.Status with
            | .error e => .error e
            | .ok (spool, _) => .ok spool := by
  unfold readSpoolSearch
  rw [Read_eq_header]
  simp only [ArchiveBinary.opened]
  have hH : ArchiveBinary.ReadHeader
      ⟨CharStream.ofData order data, [], CURRENT_VERSION, 0, false, searchClass, false, []⟩ =
      readHeader order data := ReadHeader_stream _ _ rfl
  rw [hH]
  cases hh : readHeader order data with
  | error e => rfl
  | ok r =>
    obtain ⟨version, s3⟩ := r
    obtain ⟨rfl, -, -, -⟩ := readHeader_ok hh
    simp only [CharStream.Read_fieldAt]
    have hf : fieldAt ((CharStream.ofData order data).advance 7).m_ByteOrder
        ((CharStream.ofData order data).advance 7).data
        ((CharStream.ofData order data).advance 7).readPos 4 = fieldAt order data 7 4 := rfl
    rw [hf]
    cases hc : fieldAt order data 7 4 with
    | none => rfl
    | some crc =>
      simp only [CharStream.advance_advance]
      obtain ⟨h1, h2⟩ := crcLoop_restore ((CharStream.ofData order data).advance (7 + 4)) rfl
        (show 0 + (7 + 4) < UINT32 by decide)
      have hdrop : ((CharStream.ofData order data).advance (7 + 4)).data.drop
          ((CharStream.ofData order data).advance (7 + 4)).readPos = data.drop 11 := by
        show data.drop (0 + (7 + 4)) = data.drop 11
        rfl
      rw [hdrop] at h1
      have hstart : ((CharStream.ofData order data).advance (7 + 4)).readPos % UINT32 = 11 := by
        show (0 + (7 + 4)) % UINT32 = 11
        decide
      simp only [hstart] at h2
      simp only [h1, h2, hstart]
      have hA : (⟨(CharStream.ofData order data).advance (7 + 4), [], version,
          (CharStream.ofData order data).data.length - 11, false, searchClass, false, []⟩ :
          ArchiveBinary) = afterHeader searchClass order data version := rfl
      by_cases hd : crc = CRC_DEFAULT
      · simp only [hd, ne_eq, not_true_eq_false, false_and, if_false, hA]
        cases ArchiveBinary.DeserializeVector callbacks registry
          (afterHeader searchClass order data version) [] ArchiveFlags.Status <;> rfl
      · by_cases hm : UpdateCrc32 BeginCrc32 (data.drop 11) = crc
        · simp only [hd, hm, ne_eq, not_false_eq_true, not_true_eq_false, false_and, and_false,
            if_false, if_true, hA]
          cases ArchiveBinary.DeserializeVector callbacks registry
            (afterHeader searchClass order data version) [] ArchiveFlags.Status <;> rfl
        · cases g_OverrideCRC
          · simp only [hd, hm, ne_eq, not_false_eq_true, Bool.false_eq_true, and_self, if_true]
            by_cases hi : crc = CRC_INVALID
            · simp only [hi, if_true]
            · simp only [hi, if_false]
          · simp only [hd, hm, ne_eq, not_false_eq_true, not_true_eq_false, and_false,
              if_false, if_true, hA, Bool.true_eq_false]
            cases ArchiveBinary.DeserializeVector callbacks registry
              (afterHeader searchClass order data version) [] ArchiveFlags.Status <;> rfl

theorem readHeader_noChecksum {order : ByteOrder} {data : List Nat} {e : ArchiveException}
    (h : readHeader order data = .error e) : e.isChecksum = false := by
  rw [readHeader_eq] at h
  split at h
  · cases h; rfl
  · split at h
    · cases h; rfl
    · split at h
      · cases h; rfl
      · split at h
        · cases h; rfl
        · split at h
          · cases h; rfl
          · split at h
            · cases h; rfl
            · split at h
              · cases h; rfl
              · cases h

theorem checksumFailure_error {α : Type} (e : ArchiveException) :
    ChecksumFailure (.error e : Except ArchiveException α) ↔ e.isChecksum = true := by
  unfold ChecksumFailure
  cases e <;> simp [ArchiveException.isChecksum]

theorem checksumFailure_ok {α : Type} (x : α) :
    ¬ ChecksumFailure (.ok x : Except ArchiveException α) := by
  unfold ChecksumFailure
  simp

/-- When `Read` stops at the checksum test, and with which exception. -/
theorem readSpoolSearch_checksum (searchClass : Option Class) (g_OverrideCRC : Bool)
    (callbacks : ElementCallbacks) (registry : Registry) (order : ByteOrder)
    (data : List Nat) :
    (ChecksumFailure (readSpoolSearch searchClass g_OverrideCRC callbacks registry order data) ↔
      (∃ version s, readHeader order data = .ok (version, s)) ∧
        ∃ stored, fieldAt order data 7 4 = some stored ∧ stored ≠ CRC_DEFAULT ∧
          UpdateCrc32 BeginCrc32 (data.drop 11) ≠ stored ∧ g_OverrideCRC = false) ∧
    ((∃ version s, readHeader order data = .ok (version, s)) →
      ∀ stored, fieldAt order data 7 4 = some stored → stored ≠ CRC_DEFAULT →
        UpdateCrc32 BeginCrc32 (data.drop 11) ≠ stored → g_OverrideCRC = false →
          readSpoolSearch searchClass g_OverrideCRC callbacks registry order data =
            .error (if stored = CRC_INVALID then .ChecksumIncomplete else .ChecksumMismatch)) := by
  rw [readSpoolSearch_eq]
  cases hh : readHeader order data with
  | error e =>
    simp only [checksumFailure_error, readHeader_noChecksum hh, Bool.false_eq_true]
    constructor
    · simp
    · rintro ⟨version, s, h⟩
      cases h
  | ok r =>
    obtain ⟨version, s3⟩ := r
    simp only
    cases hc : fieldAt order data 7 4 with
    | none =>
      simp only [checksumFailure_error]
      constructor
      · simp [ArchiveException.isChecksum]
      · intro _ stored h
        cases h
    | some crc =>
      simp only
      by_cases hcond : crc ≠ CRC_DEFAULT ∧ UpdateCrc32 BeginCrc32 (data.drop 11) ≠ crc ∧
          g_OverrideCRC = false
      · rw [if_pos hcond]
        constructor
        · constructor
          · intro _
            exact ⟨⟨version, s3, rfl⟩, crc, rfl, hcond⟩
          · intro _
            by_cases hi : crc = CRC_INVALID
            · rw [if_pos hi]; exact Or.inl rfl
            · rw [if_neg hi]; exact Or.inr rfl
        · intro _ stored hs _ _ _
          simp only [Option.some.injEq] at hs
          subst hs
          by_cases hi : crc = CRC_INVALID
          · simp only [hi, if_true]
          · simp only [hi, if_false]
      · rw [if_neg hcond]
        constructor
        · constructor
          · intro hf
            exfalso
            cases hd : ArchiveBinary.DeserializeVector callbacks registry
                (afterHeader searchClass order data version) [] ArchiveFlags.Status with
            | error e =>
              rw [hd] at hf
              have := (checksumFailure_error e).mp hf
              rw [DeserializeVector_noChecksum hd] at this
              cases this
            | ok r =>
              rw [hd] at hf
              exact checksumFailure_ok _ hf
          · rintro ⟨_, stored, hs, h1, h2, h3⟩
            simp only [Option.some.injEq] at hs
            subst hs
            exact absurd ⟨h1, h2, h3⟩ hcond
        · intro _ stored hs h1 h2 h3
          simp only [Option.some.injEq] at hs
          subst hs
          exact absurd ⟨h1, h2, h3⟩ hcond

/-! ### The checksum register tells two streams apart that differ in one byte -/

theorem xor_poly_ge (x : Nat) (h : x < 2147483648) : 2147483648 ≤ x ^^^ 0xEDB88320 := by
  by_contra hlt
  have h1 : (x ^^^ 0xEDB88320).testBit 31 = false := Nat.testBit_lt_two_pow (by omega)
  rw [Nat.testBit_xor, Nat.testBit_lt_two_pow (show x < 2 ^ 31 by omega)] at h1
  revert h1
  decide

theorem crcBit_inj {c c' : Nat} (hc : c < 4294967296) (hc' : c' < 4294967296)
    (h : crcBit c = crcBit c') : c = c' := by
  unfold crcBit at h
  split at h <;> split at h
  · have := Nat.xor_left_injective h
    omega
  · have := xor_poly_ge (c / 2) (by omega)
    omega
  · have := xor_poly_ge (c' / 2) (by omega)
    omega
  · omega

theorem crcByte_eq_iff {c c' b b' : Nat} (hc : c < 4294967296) (hc' : c' < 4294967296)
    (hb : b < 256) (hb' : b' < 256) :
    crcByte c b = crcByte c' b' ↔ c ^^^ b = c' ^^^ b' := by
  have hx : c ^^^ b < 4294967296 :=
    Nat.xor_lt_two_pow (n := 32) (by omega) (by omega)
  have hx' : c' ^^^ b' < 4294967296 :=
    Nat.xor_lt_two_pow (n := 32) (by omega) (by omega)
  unfold crcByte
  rw [Nat.mod_eq_of_lt hb, Nat.mod_eq_of_lt hb', Nat.mod_eq_of_lt hx, Nat.mod_eq_of_lt hx']
  constructor
  · intro h
    have l1 := crcBit_lt hx
    have l2 := crcBit_lt l1
    have l3 := crcBit_lt l2
    have l4 := crcBit_lt l3
    have l5 := crcBit_lt l4
    have l6 := crcBit_lt l5
    have l7 := crcBit_lt l6
    have r1 := crcBit_lt hx'
    have r2 := crcBit_lt r1
    have r3 := crcBit_lt r2
    have r4 := crcBit_lt r3
    have r5 := crcBit_lt r4
    have r6 := crcBit_lt r5
    have r7 := crcBit_lt r6
    exact crcBit_inj hx hx' (crcBit_inj l1 r1 (crcBit_inj l2 r2 (crcBit_inj l3 r3
      (crcBit_inj l4 r4 (crcBit_inj l5 r5 (crcBit_inj l6 r6 (crcBit_inj l7 r7 h)))))))
  · intro h
    rw [h]

theorem crcRegister_ne :
    ∀ (block : List Nat) (c c' : Nat), c < 4294967296 → c' < 4294967296 →
      (∀ b ∈ block, b < 256) → c ≠ c' → crcRegister c block ≠ crcRegister c' block := by
  intro block
  induction block with
  | nil => intro c c' _ _ _ h; exact h
  | cons b rest ih =>
    intro c c' hc hc' hb hne
    have hb0 : b < 256 := hb b (List.mem_cons_self _ _)
    simp only [crcRegister, List.foldl_cons]
    apply ih _ _ (crcByte_lt _ _) (crcByte_lt _ _) (fun x hx => hb x (List.mem_cons_of_mem _ hx))
    intro h
    exact hne (Nat.xor_left_injective ((crcByte_eq_iff hc hc' hb0 hb0).mp h))

theorem UpdateCrc32_register_ne :
    ∀ (block : List Nat) (c c' : Nat), c < 4294967296 → c' < 4294967296 →
      (∀ b ∈ block, b < 256) → c ≠ c' → UpdateCrc32 c block ≠ UpdateCrc32 c' block := by
  intro block c c' hc hc' hb hne h
  unfold UpdateCrc32 at h
  exact crcRegister_ne block _ _ (xor_ones_lt hc) (xor_ones_lt hc') hb
    (fun h' => hne (Nat.xor_left_injective h')) (Nat.xor_left_injective h)

/-- Changing one byte of a block changes the checksum register. -/
theorem UpdateCrc32_byte_ne (c : Nat) (hc : c < 4294967296) (pre post : List Nat) (b b' : Nat)
    (hb : b < 256) (hb' : b' < 256) (hpost : ∀ x ∈ post, x < 256) (hne : b ≠ b') :
    UpdateCrc32 c (pre ++ b :: post) ≠ UpdateCrc32 c (pre ++ b' :: post) := by
  rw [UpdateCrc32_append, UpdateCrc32_append]
  have hpre : UpdateCrc32 c pre ^^^ 0xFFFFFFFF < 4294967296 :=
    xor_ones_lt (UpdateCrc32_lt _ _ hc)
  intro h
  have h1 := Nat.xor_left_injective h
  simp only [crcRegister, List.foldl_cons] at h1
  refine crcRegister_ne post _ _ (crcByte_lt _ _) (crcByte_lt _ _) hpost ?_ h1
  intro h2
  exact hne (Nat.xor_right_injective ((crcByte_eq_iff hpre hpre hb hb').mp h2))

/-! ### The fields of a written header, and the bytes of a written payload -/

theorem fieldAt_split (order : ByteOrder) (pre post : List Nat) (size v : Nat)
    (hv : v < 256 ^ size) :
    fieldAt order (pre ++ (toBytes order size v ++ post)) pre.length size = some v := by
  unfold fieldAt
  have hle : pre.length + size ≤ (pre ++ (toBytes order size v ++ post)).length := by
    simp only [List.length_append, toBytes_length]
    omega
  rw [if_pos hle, List.drop_left]
  have ht : (toBytes order size v ++ post).take size = toBytes order size v :=
    List.take_left' (toBytes_length _ _ _)
  rw [ht, ofBytes_toBytes_of_lt _ _ _ hv]

/-- The fields a reader finds in a stream that starts with a written header. -/
theorem header_fields (UNICODE : Bool) (order : ByteOrder) (crc : Nat) (hcrc : crc < UINT32)
    (rest : List Nat) :
    fieldAt order (headerBytes UNICODE order crc ++ rest) 0 2 = some 0xFEFF ∧
      fieldAt order (headerBytes UNICODE order crc ++ rest) 2 1 =
        some (if UNICODE then 1 else 0) ∧
      fieldAt order (headerBytes UNICODE order crc ++ rest) 3 4 = some 7 ∧
      fieldAt order (headerBytes UNICODE order crc ++ rest) 7 4 = some crc ∧
      (headerBytes UNICODE order crc ++ rest).drop 11 = rest := by
  have e : headerBytes UNICODE order crc ++ rest =
      toBytes order 2 0xfeff ++ (toBytes order 1 (if UNICODE then 1 else 0) ++
        (toBytes order 4 CURRENT_VERSION ++ (toBytes order 4 crc ++ rest))) := by
    simp only [headerBytes, List.append_assoc]
  refine ⟨?_, ?_, ?_, ?_, ?_⟩
  · rw [e]
    have := fieldAt_split order [] (toBytes order 1 (if UNICODE then 1 else 0) ++
      (toBytes order 4 CURRENT_VERSION ++ (toBytes order 4 crc ++ rest))) 2 0xfeff (by decide)
    rw [List.nil_append, List.length_nil] at this
    exact this
  · rw [e]
    have := fieldAt_split order (toBytes order 2 0xfeff)
      (toBytes order 4 CURRENT_VERSION ++ (toBytes order 4 crc ++ rest)) 1
      (if UNICODE then 1 else 0) (by cases UNICODE <;> decide)
    rw [toBytes_length] at this
    exact this
  · rw [e]
    have := fieldAt_split order (toBytes order 2 0xfeff ++
      toBytes order 1 (if UNICODE then 1 else 0)) (toBytes order 4 crc ++ rest) 4
      CURRENT_VERSION (by decide)
    simp only [List.length_append, toBytes_length, List.append_assoc] at this
    exact this
  · rw [e]
    have := fieldAt_split order (toBytes order 2 0xfeff ++
      toBytes order 1 (if UNICODE then 1 else 0) ++ toBytes order 4 CURRENT_VERSION) rest 4
      crc (by rw [pow_256_4]; exact hcrc)
    simp only [List.length_append, toBytes_length, List.append_assoc] at this
    exact this
  · exact List.drop_left' (headerBytes_length _ _ _)

theorem header_accepted (UNICODE : Bool) (order : ByteOrder) (crc : Nat) (hcrc : crc < UINT32)
    (rest : List Nat) : HeaderAccepted order (headerBytes UNICODE order crc ++ rest) := by
  obtain ⟨h0, h2, h3, _, _⟩ := header_fields UNICODE order crc hcrc rest
  refine ⟨?_, Or.inl h0, ?_, 7, h3, Nat.le_refl _⟩
  · intro h
    have := congrArg List.length h
    simp only [List.length_append, headerBytes_length, List.length_nil] at this
    omega
  · cases UNICODE
    · exact Or.inl h2
    · exact Or.inr h2

theorem leBytes_lt : ∀ (size v x : Nat), x ∈ leBytes size v → x < 256 := by
  intro size
  induction size with
  | zero => intro v x h; cases h
  | succ n ih =>
    intro v x h
    rcases List.mem_cons.mp h with h | h
    · rw [h]
      exact Nat.mod_lt _ (by decide)
    · exact ih _ _ h

theorem toBytes_lt (order : ByteOrder) (size v x : Nat) (h : x ∈ toBytes order size v) :
    x < 256 := by
  cases order
  · exact leBytes_lt size v x h
  · exact leBytes_lt size v x (List.mem_reverse.mp h)

theorem dataPayload_lt (order : ByteOrder) (kind : DataKind) (value : Value) (x : Nat)
    (h : x ∈ dataPayload order kind value) : x < 256 := by
  cases kind <;> cases value <;> simp only [dataPayload, List.mem_append, List.mem_flatten,
    List.mem_map] at h
  · exact toBytes_lt _ _ _ _ h
  · exact toBytes_lt _ _ _ _ h
  · exact toBytes_lt _ _ _ _ h
  · rcases h with h | ⟨l, ⟨y, _, rfl⟩, hx⟩
    · exact toBytes_lt _ _ _ _ h
    · exact toBytes_lt _ _ _ _ hx

theorem dataElementBytes_lt (order : ByteOrder) (c : DataClass) (value : Value) (x : Nat)
    (h : x ∈ dataElementBytes order c value) : x < 256 := by
  simp only [dataElementBytes, List.mem_append] at h
  rcases h with (h | h) | h
  · exact toBytes_lt _ _ _ _ h
  · exact toBytes_lt _ _ _ _ h
  · exact dataPayload_lt _ _ _ _ h

theorem fieldEntriesBytes_lt (order : ByteOrder) (slots : List (Nat × Value))
    (fields : List Field) (x : Nat) (h : x ∈ fieldEntriesBytes order slots fields) :
    x < 256 := by
  simp only [fieldEntriesBytes, List.mem_flatten, List.mem_map] at h
  obtain ⟨l, ⟨f, _, rfl⟩, hx⟩ := h
  simp only [fieldEntryBytes, List.mem_append] at hx
  rcases hx with hx | hx
  · exact toBytes_lt _ _ _ _ hx
  · exact dataElementBytes_lt _ _ _ _ hx

theorem elementBytes_lt (order : ByteOrder) (e : Element) (x : Nat)
    (h : x ∈ elementBytes order e) : x < 256 := by
  cases e with
  | data c value => exact dataElementBytes_lt _ _ _ _ h
  | object c slots =>
    simp only [elementBytes, List.mem_append] at h
    rcases h with (((h | h) | h) | h) | h
    · exact toBytes_lt _ _ _ _ h
    · exact toBytes_lt _ _ _ _ h
    · exact toBytes_lt _ _ _ _ h
    · exact fieldEntriesBytes_lt _ _ _ _ h
    · exact toBytes_lt _ _ _ _ h

/-- Every byte of a written element array is a byte. -/
theorem elementArrayBytes_lt (order : ByteOrder) (spool : List Element) (x : Nat)
    (h : x ∈ elementArrayBytes order spool) : x < 256 := by
  simp only [elementArrayBytes, List.mem_append, List.mem_flatten, List.mem_map] at h
  rcases h with (h | ⟨l, ⟨e, _, rfl⟩, hx⟩) | h
  · exact toBytes_lt _ _ _ _ h
  · exact elementBytes_lt _ _ _ hx
  · exact toBytes_lt _ _ _ _ h

/-- Changing one byte of a block of bytes changes the checksum register. -/
theorem UpdateCrc32_set_ne (c : Nat) (hc : c < 4294967296) (block : List Nat)
    (hblock : ∀ x ∈ block, x < 256) (j v : Nat) (hj : j < block.length) (hv : v < 256)
    (hne : block[j]? ≠ some v) :
    UpdateCrc32 c (block.set j v) ≠ UpdateCrc32 c block := by
  have hsplit : block = block.take j ++ block[j] :: block.drop (j + 1) := by
    rw [← List.drop_eq_getElem_cons hj, List.take_append_drop]
  have hset : block.set j v = block.take j ++ v :: block.drop (j + 1) :=
    List.set_eq_take_cons_drop v hj
  rw [hset]
  nth_rewrite 3 [hsplit]
  apply UpdateCrc32_byte_ne c hc _ _ _ _ hv (hblock _ (List.getElem_mem hj))
  · intro x hx
    exact hblock x (List.mem_of_mem_drop hx)
  · intro h
    apply hne
    rw [List.getElem?_eq_getElem hj, h]

/-! ### Skipping a record by its length -/

theorem CharStream.SeekReadCur_at (s : CharStream) (pre body post : List Nat) (n : Nat)
    (h : s.At pre (body ++ post)) (hn : body.length = n) :
    s.SeekReadCur ((n : Int) + 4 - 4) = .ok (s.advance body.length) := by
  obtain ⟨h1, h2⟩ := h
  unfold CharStream.SeekReadCur
  have hc : 0 ≤ (s.readPos : Int) + ((n : Int) + 4 - 4) ∧
      (s.readPos : Int) + ((n : Int) + 4 - 4) ≤ s.data.length := by
    rw [h1, h2]
    simp only [List.length_append]
    omega
  rw [if_pos hc]
  have he : ((s.readPos : Int) + ((n : Int) + 4 - 4)).toNat = s.readPos + body.length := by
    omega
  rw [he]
  rfl

/-- The method `Allocate` in skip mode, on a record whose stored length is
four more than the number of the bytes that follow the length. -/
theorem Allocate_skip_at (registry : Registry) (a : ArchiveBinary) (pre body post : List Nat)
    (hash : Nat) (hskip : a.m_Skip = true) (hhash : hash < UINT32)
    (hlen : body.length + 4 < UINT32)
    (h : a.m_Stream.At pre (toBytes a.m_Stream.m_ByteOrder 4 hash ++
      (toBytes a.m_Stream.m_ByteOrder 4 (body.length + 4) ++ (body ++ post)))) :
    ArchiveBinary.Allocate registry a = .ok (none, a.skip (4 + (4 + body.length))) := by
  have hr1 := CharStream.Read_at a.m_Stream pre _ 4 hash h (by rw [pow_256_4]; exact hhash)
  have hat := CharStream.advance_at a.m_Stream pre _ _ h
  rw [toBytes_length] at hat
  have hr2 := CharStream.Read_at (a.m_Stream.advance 4) _ _ 4 (body.length + 4) hat
    (by rw [pow_256_4]; exact hlen)
  have hat2 := CharStream.advance_at (a.m_Stream.advance 4) _ _ _ hat
  rw [toBytes_length] at hat2
  have hseek := CharStream.SeekReadCur_at ((a.m_Stream.advance 4).advance 4) _ body post
    body.length hat2 rfl
  simp only [ArchiveBinary.Allocate, hr1, hr2, hskip, if_true]
  push_cast
  rw [hseek]
  simp only [ArchiveBinary.skip, CharStream.advance_advance, Nat.add_assoc, hskip]

theorem writtenBytes_eq (UNICODE : Bool) (order : ByteOrder) (spool : List Element)
    (hsize : 11 + (elementArrayBytes order spool).length < UINT32) :
    writtenBytes UNICODE order spool = archiveBytes UNICODE order spool := by
  obtain ⟨a, hw, hd⟩ := writeSpool_eq UNICODE order spool hsize
  unfold writtenBytes
  rw [hw]
  exact hd

/-- The archive of `[Pt{3,4}]` reads back on a stream of the byte order it was
written with. -/
theorem pt_round_trip (UNICODE g_OverrideCRC : Bool) (order : ByteOrder) :
    readSpool g_OverrideCRC defaultCallbacks s1Registry order
      (writtenBytes UNICODE order [Pt 3 4]) = .ok [some (Pt 3 4)] := by
  rw [writtenBytes_eq UNICODE order [Pt 3 4] (pt_size order 3 4 (Or.inr rfl) (Or.inr rfl))]
  have h := readSpool_eq UNICODE g_OverrideCRC defaultCallbacks s1Registry order (Pt 3 4)
    (Pt 0 0) (fun _ => rfl) pt_registered rfl pt_readable
    (pt_size order 3 4 (Or.inr rfl) (Or.inr rfl))
  rw [pt_readBack] at h
  exact h

/-- The method `Allocate` outside skip mode, on a record whose class hash the
registry does not hold: after the seek past the record, line 596 dereferences
the null `type`. -/
theorem Allocate_unknown (registry : Registry) (a : ArchiveBinary) (typeCrc length : Nat)
    (s1 s2 s3 : CharStream) (hskip : a.m_Skip = false)
    (h1 : a.m_Stream.Read 4 = .ok (typeCrc, s1)) (h2 : s1.Read 4 = .ok (length, s2))
    (hclass : registry.GetClass typeCrc = none)
    (h3 : s2.SeekReadCur ((length : Int) - 4) = .ok s3) :
    ArchiveBinary.Allocate registry a = .error .Crash := by
  simp only [ArchiveBinary.Allocate, h1, h2, hskip, hclass, CreateInstance, h3,
    Bool.false_eq_true, if_false]

/-! ### One field of `SerializeFields` -/

/-- A field that is not written leaves the archive as it is. -/
theorem serializeLevel_elided (slots : List (Nat × Value)) (field : Field) (rest : List Field)
    (a : ArchiveBinary) (hs : shouldSerialize field (slotGet slots field.m_Offset) = false) :
    ArchiveBinary.serializeLevel slots (field :: rest) a =
      if field.m_Flags &&& FieldFlags.Discard ≠ 0 then .ok (true, a)
      else ArchiveBinary.serializeLevel slots rest a := by
  rw [ArchiveBinary.serializeLevel]
  split
  · rfl
  · simp only [hs, Bool.false_eq_true, if_false]

/-- A field that is written appends its name hash and its data record, and is
counted. -/
theorem serializeLevel_written (slots : List (Nat × Value)) (field : Field)
    (rest : List Field) (a : ArchiveBinary)
    (hd : field.m_Flags &&& FieldFlags.Discard = 0)
    (hs : shouldSerialize field (slotGet slots field.m_Offset) = true)
    (h : a.m_Stream.AtEnd) (hstack : a.m_FieldStack ≠ [])
    (hlen : a.m_Stream.data.length +
      (fieldEntryBytes a.m_Stream.m_ByteOrder slots field).length < UINT32) :
    ArchiveBinary.serializeLevel slots (field :: rest) a =
      ArchiveBinary.serializeLevel slots rest
        (a.wrote (fieldEntryBytes a.m_Stream.m_ByteOrder slots field) 1) := by
  have hfl : (fieldEntryBytes a.m_Stream.m_ByteOrder slots field).length =
      4 + (dataElementBytes a.m_Stream.m_ByteOrder field.m_DataClass
        (slotGet slots field.m_Offset)).length := by
    simp [fieldEntryBytes, toBytes_length]
  obtain ⟨top, stack, hts⟩ : ∃ top stack, a.m_FieldStack = top :: stack := by
    cases hfs : a.m_FieldStack with
    | nil => exact absurd hfs hstack
    | cons t st => exact ⟨t, st, rfl⟩
  have step1 : ({ a with m_Stream := a.m_Stream.Write 4 (Crc32 field.m_Name) } :
      ArchiveBinary).SerializeData field.m_DataClass (slotGet slots field.m_Offset) =
      a.emit (fieldEntryBytes a.m_Stream.m_ByteOrder slots field) := by
    rw [ArchiveBinary.write_atEnd a 4 _ h,
      SerializeData_eq _ _ _ (ArchiveBinary.emit_atEnd _ _)
        (by rw [ArchiveBinary.emit_order, ArchiveBinary.emit_length, toBytes_length]; omega),
      ArchiveBinary.emit_emit]
    rfl
  have hstack1 : (a.emit (fieldEntryBytes a.m_Stream.m_ByteOrder slots field)).m_FieldStack =
      top :: stack := hts
  have hnext : ({ a.emit (fieldEntryBytes a.m_Stream.m_ByteOrder slots field) with
      m_FieldStack := { top with m_Count := top.m_Count + 1 } :: stack } : ArchiveBinary) =
      a.wrote (fieldEntryBytes a.m_Stream.m_ByteOrder slots field) 1 := by
    simp [ArchiveBinary.wrote, ArchiveBinary.emit, hts, bumpTop]
  have hd' : ¬ (field.m_Flags &&& FieldFlags.Discard ≠ 0) := fun hn => hn hd
  simp only [ArchiveBinary.serializeLevel, hd', if_false, hs, if_true, step1, hstack1, hnext]

/-- Lines 509-531 for a field that has a default and is not a container. -/
theorem shouldSerialize_default (field : Field) (data d : Value)
    (hcontainer : field.m_DataClass.m_Kind.isContainer = false)
    (hdefault : field.m_Default = some d) :
    shouldSerialize field data = true ↔
      (field.m_Flags &&& FieldFlags.Force ≠ 0 ∨ data ≠ d) := by
  unfold shouldSerialize
  simp only [hdefault, hcontainer, Bool.and_false, Bool.false_eq_true, if_false]
  by_cases hf : field.m_Flags &&& FieldFlags.Force ≠ 0
  · simp [hf]
  · by_cases hv : d = data
    · simp [hf, hv]
    · have hv' : data ≠ d := fun h => hv h.symm
      simp [hf, hv, hv']

/-- Lines 533-542 for a container of size zero. -/
theorem shouldSerialize_empty (field : Field) (data : Value)
    (hcontainer : field.m_DataClass.m_Kind.isContainer = true)
    (hempty : containerSize data = 0) : shouldSerialize field data = false := by
  unfold shouldSerialize
  simp only [hcontainer, Bool.and_true, hempty, if_true]
  split
  · rfl
  · rename_i h
    exact (Bool.not_eq_true _).mp h

theorem mem_levelWritten (slots : List (Nat × Value)) :
    ∀ (fields : List Field) (f : Field), f ∈ (levelWritten slots fields).1 →
      f ∈ fields ∧ shouldSerialize f (slotGet slots f.m_Offset) = true := by
  intro fields
  induction fields with
  | nil => intro f h; cases h
  | cons field rest ih =>
    intro f h
    unfold levelWritten at h
    split at h
    · cases h
    · simp only at h
      split at h
      · rename_i hs
        rcases List.mem_cons.mp h with h | h
        · subst h
          exact ⟨List.mem_cons_self _ _, hs⟩
        · exact ⟨List.mem_cons_of_mem _ (ih f h).1, (ih f h).2⟩
      · exact ⟨List.mem_cons_of_mem _ (ih f h).1, (ih f h).2⟩

theorem mem_levelsWritten (slots : List (Nat × Value)) :
    ∀ (levels : List Composite) (f : Field), f ∈ levelsWritten slots levels →
      shouldSerialize f (slotGet slots f.m_Offset) = true := by
  intro levels
  induction levels with
  | nil => intro f h; cases h
  | cons current bases ih =>
    intro f h
    rw [levelsWritten_cons] at h
    split at h
    · exact (mem_levelWritten slots _ f h).2
    · rcases List.mem_append.mp h with h | h
      · exact (mem_levelWritten slots _ f h).2
      · exact ih f h

/-! ### Element arrays of several records, and the search class -/

theorem elementBytes_split (order : ByteOrder) (element : Element) :
    ∃ body, body.length + 4 < (elementBytes order element).length + 1 ∧
      elementBytes order element =
        toBytes order 4 (Crc32 element.GetClass.m_Name) ++
          (toBytes order 4 (body.length + 4) ++ body) := by
  cases element with
  | data c value =>
    refine ⟨dataPayload order c.m_Kind value, ?_, ?_⟩
    · simp only [elementBytes, dataElementBytes_length]
      omega
    · simp only [elementBytes, dataElementBytes, Element.GetClass, Class.m_Name,
        List.append_assoc, Nat.add_comm]
  | object c slots =>
    refine ⟨toBytes order 4 (writtenFields c slots).length ++
      (fieldEntriesBytes order slots (writtenFields c slots) ++ toBytes order 4 TERMINATOR),
      ?_, ?_⟩
    · simp only [elementBytes_object_length, List.length_append, toBytes_length]
      omega
    · simp only [elementBytes, Element.GetClass, Class.m_Name, List.append_assoc,
        List.length_append, toBytes_length]
      congr 3
      omega


theorem readBack_class (e d : Element) : (readBack e d).GetClass = e.GetClass := by
  cases e <;> cases d <;> rfl

theorem decodedRecord_eq {e d : Element} (h : CreateInstance (some e.GetClass) = some d) :
    decodedRecord e = readBack e d := by
  unfold decodedRecord
  rw [h]

theorem ArchiveBinary.skip_order (a : ArchiveBinary) (n : Nat) :
    (a.skip n).m_Stream.m_ByteOrder = a.m_Stream.m_ByteOrder := rfl

theorem status_not_sparse : decide (ArchiveFlags.Status &&& ArchiveFlags.Sparse ≠ 0) = false := by
  decide

theorem recordsLength_cons (order : ByteOrder) (e : Element) (rest : List Element) :
    recordsLength order (e :: rest) =
      (elementBytes order e).length + recordsLength order rest := by
  simp only [recordsLength, List.map_cons, List.flatten_cons, List.length_append]

/-- In skip mode every record of the element array is skipped by its length. -/
theorem deserializeEach_skipped (callbacks : ElementCallbacks) (registry : Registry) :
    ∀ (records : List Element) (a : ArchiveBinary) (acc : List (Option Element))
      (pre post : List Nat),
      a.m_Skip = true → a.m_Abort = false →
      recordsLength a.m_Stream.m_ByteOrder records < UINT32 →
      a.m_Stream.At pre ((records.map (elementBytes a.m_Stream.m_ByteOrder)).flatten ++ post) →
      ArchiveBinary.deserializeEach callbacks registry ArchiveFlags.Status records.length acc a =
        .ok (acc, a.skip (recordsLength a.m_Stream.m_ByteOrder records)) := by
  intro records
  induction records with
  | nil =>
    intro a acc pre post _ _ _ _
    simp [ArchiveBinary.deserializeEach, recordsLength, ArchiveBinary.skip, CharStream.advance]
  | cons e rest ih =>
    intro a acc pre post hskip habort hlen hat
    rw [recordsLength_cons] at hlen ⊢
    simp only [List.map_cons, List.flatten_cons, List.append_assoc] at hat
    obtain ⟨body, hbody, hsplit⟩ := elementBytes_split a.m_Stream.m_ByteOrder e
    have hel : (elementBytes a.m_Stream.m_ByteOrder e).length = 4 + (4 + body.length) := by
      rw [hsplit]
      simp only [List.length_append, toBytes_length]
    have hat' := hat
    rw [hsplit] at hat'
    simp only [List.append_assoc] at hat'
    have halloc := Allocate_skip_at registry a pre body _ _ hskip
      (by have := Crc32_lt e.GetClass.m_Name; rw [pow_256_4] at this; exact this)
      (by omega) hat'
    rw [← hel] at halloc
    have hnext := CharStream.advance_at a.m_Stream pre _ _ hat
    have hrec := ih (a.skip (elementBytes a.m_Stream.m_ByteOrder e).length) acc _ post hskip
      habort (by simp only [ArchiveBinary.skip, CharStream.advance_order]; omega)
      (by simpa only [ArchiveBinary.skip, CharStream.advance_order] using hnext)
    simp only [List.length_cons, ArchiveBinary.deserializeEach, habort, Bool.false_eq_true,
      if_false, ArchiveBinary.Deserialize, halloc, Option.isSome_none, Bool.false_or,
      status_not_sparse]
    rw [hrec, ArchiveBinary.skip_skip, ArchiveBinary.skip_order]

/-- Outside skip mode the records of the element array are decoded up to and
including the first whose class has the type of the search class; the records
after it are skipped. -/
theorem deserializeEach_search (callbacks : ElementCallbacks) (registry : Registry)
    (searchClass : Option Class) (hcb : ∀ e, callbacks.PostDeserialize e = true) :
    ∀ (records : List Element) (a : ArchiveBinary) (acc : List (Option Element))
      (pre post : List Nat),
      a.m_Skip = false → a.m_Abort = false → a.m_SearchClass = searchClass →
      (∀ e ∈ untilFirst (fun e => e.GetClass.HasType searchClass) records,
        e.Known registry) →
      recordsLength a.m_Stream.m_ByteOrder records < UINT32 →
      a.m_Stream.At pre ((records.map (elementBytes a.m_Stream.m_ByteOrder)).flatten ++ post) →
      ArchiveBinary.deserializeEach callbacks registry ArchiveFlags.Status records.length acc a =
        .ok (acc ++ (untilFirst (fun e => e.GetClass.HasType searchClass) records).map
            (fun e => some (decodedRecord e)),
          { a.skip (recordsLength a.m_Stream.m_ByteOrder records) with
            m_Skip := records.any (fun e => e.GetClass.HasType searchClass) }) := by
  intro records
  induction records with
  | nil =>
    intro a acc pre post hskip _ _ _ _ _
    obtain ⟨⟨bo, data, rp, wp, eof⟩, sp, ver, sz, sk, sc, ab, fs⟩ := a
    simp only at hskip
    subst hskip
    simp [ArchiveBinary.deserializeEach, recordsLength, ArchiveBinary.skip, CharStream.advance,
      untilFirst]
  | cons e rest ih =>
    intro a acc pre post hskip habort hsearch hknown hlen hat
    rw [recordsLength_cons] at hlen ⊢
    simp only [List.map_cons, List.flatten_cons, List.append_assoc] at hat
    have hmem : e ∈ untilFirst (fun e => e.GetClass.HasType searchClass) (e :: rest) := by
      unfold untilFirst
      split <;> exact List.mem_cons_self _ _
    obtain ⟨hreg, hcreate, hread⟩ := hknown e hmem
    obtain ⟨d, hd⟩ := Option.isSome_iff_exists.mp hcreate
    have hdes := Deserialize_at callbacks registry e d a pre _ hcb hskip hreg hd hread
      (by omega) hat
    have hnext := CharStream.advance_at a.m_Stream pre _ _ hat
    obtain ⟨s, sp, ver, sz, sk, sc, ab, fs⟩ := a
    simp only at hskip habort hsearch hlen hat hnext
    subst hskip habort hsearch
    simp only [ArchiveBinary.skip] at hdes ⊢
    simp only [List.length_cons, ArchiveBinary.deserializeEach, Bool.false_eq_true,
      if_false, hdes, Option.isSome_some, Bool.true_or, if_true, readBack_class]
    by_cases hm : e.GetClass.HasType sc = true
    · simp only [hm, if_true]
      have hrec := deserializeEach_skipped callbacks registry rest
        ⟨s.advance (elementBytes s.m_ByteOrder e).length, sp, ver, sz, true, sc, false, fs⟩
        (acc ++ [some (readBack e d)]) _ post rfl rfl
        (by simp only [CharStream.advance_order]; omega)
        (by simpa only [CharStream.advance_order] using hnext)
      simp only [ArchiveBinary.skip, CharStream.advance_order, CharStream.advance_advance]
        at hrec
      rw [hrec]
      simp only [untilFirst, hm, if_true, List.map_cons, List.map_nil, List.any_cons,
        Bool.true_or, decodedRecord_eq hd]
    · have hm' : e.GetClass.HasType sc = false := by
        simpa using hm
      simp only [hm', Bool.false_eq_true, if_false]
      have hrec := ih
        ⟨s.advance (elementBytes s.m_ByteOrder e).length, sp, ver, sz, false, sc, false, fs⟩
        (acc ++ [some (readBack e d)]) _ post rfl rfl rfl
        (by
          intro x hx
          apply hknown x
          unfold untilFirst
          simp only [hm', Bool.false_eq_true, if_false]
          exact List.mem_cons_of_mem _ hx)
        (by simp only [CharStream.advance_order]; omega)
        (by simpa only [CharStream.advance_order] using hnext)
      simp only [ArchiveBinary.skip, CharStream.advance_order, CharStream.advance_advance]
        at hrec
      rw [hrec]
      simp only [untilFirst, hm', Bool.false_eq_true, if_false, List.map_cons, List.any_cons,
        Bool.false_or, decodedRecord_eq hd, List.append_assoc, List.singleton_append]

theorem recordsLength_ge (order : ByteOrder) :
    ∀ records : List Element, 8 * records.length ≤ recordsLength order records := by
  intro records
  induction records with
  | nil => simp [recordsLength]
  | cons e rest ih =>
    rw [recordsLength_cons, List.length_cons]
    obtain ⟨body, _, hsplit⟩ := elementBytes_split order e
    have hl := congrArg List.length hsplit
    simp only [List.length_append, toBytes_length] at hl
    omega

/-- The method `Deserialize(elements, flags)` on the element array of a list
of records, with a search class: the records up to and including the first of
the search class are decoded, the records after it are skipped. -/
theorem DeserializeVector_search (callbacks : ElementCallbacks) (registry : Registry)
    (searchClass : Option Class) (hcb : ∀ e, callbacks.PostDeserialize e = true)
    (records : List Element) (a : ArchiveBinary) (pre post : List Nat)
    (hskip : a.m_Skip = false) (habort : a.m_Abort = false)
    (hsearch : a.m_SearchClass = searchClass)
    (hknown : ∀ e ∈ untilFirst (fun e => e.GetClass.HasType searchClass) records,
      e.Known registry)
    (hlen : recordsLength a.m_Stream.m_ByteOrder records < UINT32)
    (h : a.m_Stream.At pre (elementArrayBytes a.m_Stream.m_ByteOrder records ++ post)) :
    ∃ a', ArchiveBinary.DeserializeVector callbacks registry a [] ArchiveFlags.Status =
      .ok ((untilFirst (fun e => e.GetClass.HasType searchClass) records).map
        (fun e => some (decodedRecord e)), a') := by
  have hU : UINT32 = 4294967296 := rfl
  have hge := recordsLength_ge a.m_Stream.m_ByteOrder records
  simp only [elementArrayBytes, List.append_assoc] at h
  have hr1 := CharStream.Read_at a.m_Stream pre _ 4 records.length h (by
    rw [pow_256_4]; omega)
  have hat := CharStream.advance_at a.m_Stream pre _ _ h
  rw [toBytes_length] at hat
  have hloop := deserializeEach_search callbacks registry searchClass hcb records (a.skip 4) []
    _ _ hskip habort hsearch hknown hlen hat
  have hat2 := CharStream.advance_at (a.m_Stream.advance 4) _ _ _ hat
  have hr2 := CharStream.Read_at ((a.m_Stream.advance 4).advance
    ((records.map (elementBytes a.m_Stream.m_ByteOrder)).flatten).length) _ post 4 TERMINATOR
    hat2 terminator_lt
  have hstep : ({ a with m_Stream := a.m_Stream.advance 4 } : ArchiveBinary) = a.skip 4 := rfl
  have hcount : loopCount records.length = records.length := by
    unfold loopCount
    rw [if_pos (by omega)]
  simp only [ArchiveBinary.DeserializeVector, hr1, hcount, hstep, hloop]
  simp only [ArchiveBinary.skip, habort, Bool.false_eq_true, if_false, recordsLength,
    CharStream.advance_order, hr2, ne_eq, not_true_eq_false, List.nil_append]
  exact ⟨_, rfl⟩

/-- The method `Read` with a search class on the archive of a list of records:
the spool holds the records up to and including the first of the search
class. -/
theorem readSpoolSearch_records (searchClass : Option Class) (UNICODE g_OverrideCRC : Bool)
    (callbacks : ElementCallbacks) (registry : Registry) (order : ByteOrder)
    (records : List Element) (hcb : ∀ e, callbacks.PostDeserialize e = true)
    (hknown : ∀ e ∈ untilFirst (fun e => e.GetClass.HasType searchClass) records,
      e.Known registry)
    (hsize : 11 + (elementArrayBytes order records).length < UINT32) :
    readSpoolSearch searchClass g_OverrideCRC callbacks registry order
        (archiveBytes UNICODE order records) =
      .ok ((untilFirst (fun e => e.GetClass.HasType searchClass) records).map
        (fun e => some (decodedRecord e))) := by
  have hU : UINT32 = 4294967296 := rfl
  obtain ⟨_, _, _, hcrc, hdrop⟩ := header_fields UNICODE order
    (storedCrc (elementArrayBytes order records)) (storedCrc_lt _)
    (elementArrayBytes order records)
  obtain ⟨version, _, _, hhead⟩ := readHeader_accepted (header_accepted UNICODE order
    (storedCrc (elementArrayBytes order records)) (storedCrc_lt _)
    (elementArrayBytes order records))
  have hrl : recordsLength order records < UINT32 := by
    have : (elementArrayBytes order records).length = 4 + recordsLength order records + 4 := by
      simp only [elementArrayBytes, recordsLength, List.length_append, toBytes_length]
    omega
  have hat : (afterHeader searchClass order (archiveBytes UNICODE order records)
      version).m_Stream.At (headerBytes UNICODE order
        (storedCrc (elementArrayBytes order records)))
      (elementArrayBytes order records ++ []) := by
    have h0 := CharStream.ofData_at order (archiveBytes UNICODE order records)
      (headerBytes UNICODE order (storedCrc (elementArrayBytes order records)) ++
        (elementArrayBytes order records ++ [])) (by
        simp only [archiveBytes, List.append_nil])
    have h1 := CharStream.advance_at _ _ _ _ h0
    rw [headerBytes_length, List.nil_append] at h1
    exact h1
  obtain ⟨a', hvec⟩ := DeserializeVector_search callbacks registry searchClass hcb records
    (afterHeader searchClass order (archiveBytes UNICODE order records) version) _ []
    rfl rfl rfl hknown hrl hat
  rw [readSpoolSearch_eq]
  simp only [archiveBytes] at hhead hvec ⊢
  rw [hhead]
  simp only [hcrc, hdrop]
  have hcheck : ¬ (storedCrc (elementArrayBytes order records) ≠ CRC_DEFAULT ∧
      UpdateCrc32 BeginCrc32 (elementArrayBytes order records) ≠
        storedCrc (elementArrayBytes order records) ∧ g_OverrideCRC = false) := by
    rintro ⟨hd, hne, _⟩
    unfold storedCrc at hd hne
    split at hne
    · rename_i hi
      rw [if_pos hi] at hd
      exact hd rfl
    · exact hne rfl
  rw [if_neg hcheck, hvec]

set_option maxRecDepth 100000 in
theorem search_size :
    11 + (elementArrayBytes .LittleEndian [Pt 3 4, I32 5, I32 6]).length < UINT32 := by
  decide

set_option maxRecDepth 100000 in
theorem i32_known (v : Nat) (hv : v < 256 ^ 4) : (I32 v).Known s1Registry := by
  refine ⟨?_, rfl, hv⟩
  show s1Registry.GetClass (Crc32 "I32") = some (.data I32Data)
  decide

theorem pt_known : (Pt 3 4).Known s1Registry :=
  ⟨pt_registered, rfl, pt_readable⟩

set_option maxRecDepth 100000 in
theorem search_until :
    untilFirst (fun e => e.GetClass.HasType (some (.data I32Data))) [Pt 3 4, I32 5, I32 6] =
      [Pt 3 4, I32 5] := by
  decide

theorem search_known :
    ∀ e ∈ untilFirst (fun e => e.GetClass.HasType (some (.data I32Data)))
      [Pt 3 4, I32 5, I32 6], e.Known s1Registry := by
  rw [search_until]
  intro e he
  simp only [List.mem_cons, List.mem_singleton, List.mem_nil_iff, or_false] at he
  rcases he with rfl | rfl
  · exact pt_known
  · exact i32_known 5 (by decide)

set_option maxRecDepth 100000 in
theorem search_decoded :
    (untilFirst (fun e => e.GetClass.HasType (some (.data I32Data)))
      [Pt 3 4, I32 5, I32 6]).map (fun e => some (decodedRecord e)) =
      [some (Pt 3 4), some (I32 5)] := by
  decide

/-! ## Claims about the header and the checksum -/

/-- C11 (checksum check): for every stream with a valid header, `Read` raises a
checksum exception if and only if the stored CRC is not 0x10101010, the CRC-32
computed over the bytes after the CRC slot differs from the stored CRC, and the
override flag is not set.  In particular a stream whose stored CRC is 0x10101010
is never rejected for its checksum, and `Read` raises no checksum exception on
any stream that `Write` produced. -/
theorem C11_checksum_check (g_OverrideCRC : Bool) (callbacks : ElementCallbacks)
    (registry : Registry) (order : ByteOrder) (data : List Nat) (stored : Nat)
    (hheader : HeaderAccepted order data) (hstored : fieldAt order data 7 4 = some stored) :
    (ChecksumFailure (readSpool g_OverrideCRC callbacks registry order data) ↔
      stored ≠ 0x10101010 ∧ UpdateCrc32 BeginCrc32 (data.drop 11) ≠ stored ∧
        g_OverrideCRC = false) ∧
    (stored = 0x10101010 →
      ¬ ChecksumFailure (readSpool g_OverrideCRC callbacks registry order data)) ∧
    (∀ (UNICODE : Bool) (spool : List Element) (a : ArchiveBinary),
      writeSpool UNICODE order spool = .ok a →
        ¬ ChecksumFailure (readSpool g_OverrideCRC callbacks registry order a.m_Stream.data)) := by
  have hiff := (readSpoolSearch_checksum none g_OverrideCRC callbacks registry order data).1
  obtain ⟨version, _, _, hh⟩ := readHeader_accepted hheader
  have hmain : ChecksumFailure (readSpool g_OverrideCRC callbacks registry order data) ↔
      stored ≠ 0x10101010 ∧ UpdateCrc32 BeginCrc32 (data.drop 11) ≠ stored ∧
        g_OverrideCRC = false := by
    rw [readSpool_search, hiff]
    constructor
    · rintro ⟨_, s, hs, h⟩
      rw [hstored] at hs
      simp only [Option.some.injEq] at hs
      subst hs
      exact h
    · intro h
      exact ⟨⟨version, _, hh⟩, stored, hstored, h⟩
  refine ⟨hmain, fun hs hf => (hmain.mp hf).1 hs, ?_⟩
  intro UNICODE spool a hw hf
  obtain ⟨a', d, hw', hlen, hd⟩ := writeSpool_crc UNICODE order spool
  rw [hw] at hw'
  simp only [Except.ok.injEq] at hw'
  subst hw'
  rw [readSpool_search] at hf
  obtain ⟨_, s, hs, h1, h2, _⟩ :=
    (readSpoolSearch_checksum none g_OverrideCRC callbacks registry order _).1.mp hf
  have h7 : (d.take 7).length = 7 := by
    rw [List.length_take]
    omega
  have hfield : fieldAt order a.m_Stream.data 7 4 = some (storedCrc (d.drop 11)) := by
    rw [hd, List.append_assoc]
    have := fieldAt_split order (d.take 7) (d.drop 11) 4 (storedCrc (d.drop 11))
      (by rw [pow_256_4]; exact storedCrc_lt _)
    rw [h7] at this
    exact this
  have hrest : a.m_Stream.data.drop 11 = d.drop 11 := by
    rw [hd]
    exact List.drop_left' (by rw [List.length_append, h7, toBytes_length])
  rw [hfield] at hs
  simp only [Option.some.injEq] at hs
  subst hs
  rw [hrest] at h2
  unfold storedCrc at h1 h2
  split at h2
  · rename_i hi
    rw [if_pos hi] at h1
    exact h1 rfl
  · exact h2 rfl

/-- The checksum test of C11 at a little-endian stream that holds a header
with the stored CRC 0x10101010 and an empty element array. -/
theorem C11_checksum_check_witness :
    (ChecksumFailure (readSpool false defaultCallbacks s1Registry .LittleEndian
        [255, 254, 0, 7, 0, 0, 0, 16, 16, 16, 16, 0, 0, 0, 0, 255, 255, 255, 255]) ↔
      (0x10101010 : Nat) ≠ 0x10101010 ∧
        UpdateCrc32 BeginCrc32
          (([255, 254, 0, 7, 0, 0, 0, 16, 16, 16, 16, 0, 0, 0, 0, 255, 255, 255, 255] :
            List Nat).drop 11) ≠ 0x10101010 ∧
        false = false) ∧
    ((0x10101010 : Nat) = 0x10101010 →
      ¬ ChecksumFailure (readSpool false defaultCallbacks s1Registry .LittleEndian
        [255, 254, 0, 7, 0, 0, 0, 16, 16, 16, 16, 0, 0, 0, 0, 255, 255, 255, 255])) ∧
    (∀ (UNICODE : Bool) (spool : List Element) (a : ArchiveBinary),
      writeSpool UNICODE .LittleEndian spool = .ok a →
        ¬ ChecksumFailure (readSpool false defaultCallbacks s1Registry .LittleEndian
          a.m_Stream.data)) :=
  C11_checksum_check false defaultCallbacks s1Registry .LittleEndian
    [255, 254, 0, 7, 0, 0, 0, 16, 16, 16, 16, 0, 0, 0, 0, 255, 255, 255, 255] 0x10101010
    ⟨by decide, Or.inl (by decide), Or.inl (by decide), 7, by decide, by decide⟩ (by decide)

/-- C12 (CRC detects mutation): for every spool of records whose archive stays
below 4 GiB, `Write` completes, and when the CRC it stored is not 0x10101010,
changing any byte after the CRC slot to any other byte value makes `Read`, with
the override flag off, fail with the checksum exception of the mismatch kind
(not the one of an incomplete write). -/
theorem C12_crc_detects_mutation (UNICODE : Bool) (callbacks : ElementCallbacks)
    (registry : Registry) (order : ByteOrder) (spool : List Element)
    (hsize : 11 + (elementArrayBytes order spool).length < UINT32) :
    ∃ a, writeSpool UNICODE order spool = .ok a ∧
      (fieldAt order a.m_Stream.data 7 4 ≠ some 0x10101010 →
        ∀ i v : Nat, 11 ≤ i → i < a.m_Stream.data.length → v < 256 →
          a.m_Stream.data[i]? ≠ some v →
            readSpool false callbacks registry order (a.m_Stream.data.set i v) =
              .error .ChecksumMismatch) := by
  obtain ⟨a, hw, hd⟩ := writeSpool_eq UNICODE order spool hsize
  refine ⟨a, hw, ?_⟩
  intro hskip i v hi hlen hv hne
  rw [hd] at hskip hlen hne ⊢
  unfold archiveBytes at hskip hlen hne ⊢
  have hcrc := storedCrc_lt (elementArrayBytes order spool)
  obtain ⟨_, _, _, h7, _⟩ := header_fields UNICODE order _ hcrc (elementArrayBytes order spool)
  rw [h7] at hskip
  have hdefault : storedCrc (elementArrayBytes order spool) ≠ CRC_DEFAULT :=
    fun h => hskip (by rw [h]; rfl)
  have hstored : storedCrc (elementArrayBytes order spool) =
      UpdateCrc32 BeginCrc32 (elementArrayBytes order spool) := by
    unfold storedCrc at hdefault ⊢
    split
    · rename_i hinv
      rw [if_pos hinv] at hdefault
      exact absurd rfl hdefault
    · rfl
  have hhl := headerBytes_length UNICODE order (storedCrc (elementArrayBytes order spool))
  have hset : (headerBytes UNICODE order (storedCrc (elementArrayBytes order spool)) ++
      elementArrayBytes order spool).set i v =
      headerBytes UNICODE order (storedCrc (elementArrayBytes order spool)) ++
        (elementArrayBytes order spool).set (i - 11) v := by
    rw [List.set_append, if_neg (by omega), hhl]
  rw [List.length_append, hhl] at hlen
  rw [List.getElem?_append_right (by omega), hhl] at hne
  rw [hset, readSpool_search]
  obtain ⟨_, _, _, h7', hdrop⟩ := header_fields UNICODE order _ hcrc
    ((elementArrayBytes order spool).set (i - 11) v)
  have hacc := header_accepted UNICODE order _ hcrc
    ((elementArrayBytes order spool).set (i - 11) v)
  obtain ⟨version, _, _, hh⟩ := readHeader_accepted hacc
  have hkind := (readSpoolSearch_checksum none false callbacks registry order _).2
    ⟨version, _, hh⟩ _ h7' hdefault
    (by
      rw [hdrop, hstored]
      exact UpdateCrc32_set_ne _ (by decide) _ (elementArrayBytes_lt order spool) _ _
        (by omega) hv hne)
    rfl
  rw [hkind, if_neg (storedCrc_ne _)]

set_option maxRecDepth 100000 in
/-- The mutation test of C12 at the spool `[Pt{3,4}]`, a little-endian stream
and an ASCII build. -/
theorem C12_crc_detects_mutation_witness :
    ∃ a, writeSpool false .LittleEndian [Pt 3 4] = .ok a ∧
      (fieldAt .LittleEndian a.m_Stream.data 7 4 ≠ some 0x10101010 →
        ∀ i v : Nat, 11 ≤ i → i < a.m_Stream.data.length → v < 256 →
          a.m_Stream.data[i]? ≠ some v →
            readSpool false defaultCallbacks s1Registry .LittleEndian
              (a.m_Stream.data.set i v) = .error .ChecksumMismatch) :=
  C12_crc_detects_mutation false defaultCallbacks s1Registry .LittleEndian [Pt 3 4]
    (by decide)

set_option maxRecDepth 100000 in
/-- C13 as stated fails.  The stream with a valid header, the stored CRC
0xFFFFFFFF and, as payload, the element array of one `I32` record of value
1757294834 has a payload whose CRC-32 is 0xFFFFFFFF as well: the test
`crc != current_crc` of line 200 is false, `Read` raises no checksum exception
and returns the record. -/
theorem C13_counterexample :
    HeaderAccepted .LittleEndian
        [255, 254, 0, 7, 0, 0, 0, 255, 255, 255, 255, 1, 0, 0, 0, 237, 91, 182, 188, 8, 0, 0, 0,
          242, 48, 190, 104, 255, 255, 255, 255] ∧
      fieldAt .LittleEndian
        [255, 254, 0, 7, 0, 0, 0, 255, 255, 255, 255, 1, 0, 0, 0, 237, 91, 182, 188, 8, 0, 0, 0,
          242, 48, 190, 104, 255, 255, 255, 255] 7 4 = some 0xFFFFFFFF ∧
      UpdateCrc32 BeginCrc32
        [1, 0, 0, 0, 237, 91, 182, 188, 8, 0, 0, 0, 242, 48, 190, 104, 255, 255, 255, 255] =
          0xFFFFFFFF ∧
      readSpool false defaultCallbacks s1Registry .LittleEndian
        [255, 254, 0, 7, 0, 0, 0, 255, 255, 255, 255, 1, 0, 0, 0, 237, 91, 182, 188, 8, 0, 0, 0,
          242, 48, 190, 104, 255, 255, 255, 255] =
        .ok [some (.data I32Data (.scalar 1757294834))] :=
  ⟨⟨by decide, Or.inl (by decide), Or.inl (by decide), 7, by decide, by decide⟩, by decide,
    by decide, by decide⟩

/-- C13 (amended): for every stream with a valid header whose stored CRC is
0xFFFFFFFF and whose payload has a CRC-32 other than 0xFFFFFFFF, `Read` with the
override flag off fails with the checksum exception of the incomplete-write
kind. -/
theorem C13_incomplete_write (callbacks : ElementCallbacks) (registry : Registry)
    (order : ByteOrder) (data : List Nat)
    (hheader : HeaderAccepted order data)
    (hstored : fieldAt order data 7 4 = some 0xFFFFFFFF)
    (hpayload : UpdateCrc32 BeginCrc32 (data.drop 11) ≠ 0xFFFFFFFF) :
    readSpool false callbacks registry order data = .error .ChecksumIncomplete := by
  obtain ⟨version, _, _, hh⟩ := readHeader_accepted hheader
  rw [readSpool_search, (readSpoolSearch_checksum none false callbacks registry order data).2
    ⟨version, _, hh⟩ _ hstored (by decide) hpayload rfl]
  rfl

set_option maxRecDepth 100000 in
/-- The incomplete-write test of C13 at a little-endian stream that holds a
header with the stored CRC 0xFFFFFFFF and an empty element array. -/
theorem C13_incomplete_write_witness :
    readSpool false defaultCallbacks s1Registry .LittleEndian
      [255, 254, 0, 7, 0, 0, 0, 255, 255, 255, 255, 0, 0, 0, 0, 255, 255, 255, 255] =
        .error .ChecksumIncomplete :=
  C13_incomplete_write defaultCallbacks s1Registry .LittleEndian
    [255, 254, 0, 7, 0, 0, 0, 255, 255, 255, 255, 0, 0, 0, 0, 255, 255, 255, 255]
    ⟨by decide, Or.inl (by decide), Or.inl (by decide), 7, by decide, by decide⟩ (by decide)
    (by decide)

/-- C14 (header acceptance): `Read` passes the validation of the header and
reaches the CRC step if and only if the stream is not empty, the byte-order mark
reads as 0xFEFF or 0xFFFE, the encoding byte is 0 or 1, and the version is at
most 7 (so every version 0..7 is accepted).  An empty stream fails with the
stream exception of line 110; where the fields before it pass, any other
encoding byte fails with the unknown-encoding exception of line 143, and every
version greater than 7 with the version exception of line 151.  An exception of
the header is the result of `Read`. -/
theorem C14_header_acceptance (order : ByteOrder) (data : List Nat) :
    ((∃ version s, readHeader order data = .ok (version, s)) ↔ HeaderAccepted order data) ∧
    (data = [] → readHeader order data = .error .StreamEmpty) ∧
    (∀ encodingByte : Nat, data ≠ [] →
      (fieldAt order data 0 2 = some 0xFEFF ∨ fieldAt order data 0 2 = some 0xFFFE) →
      fieldAt order data 2 1 = some encodingByte → encodingByte ≠ 0 → encodingByte ≠ 1 →
        readHeader order data = .error .UnknownEncoding) ∧
    (∀ version : Nat, data ≠ [] →
      (fieldAt order data 0 2 = some 0xFEFF ∨ fieldAt order data 0 2 = some 0xFFFE) →
      (fieldAt order data 2 1 = some 0 ∨ fieldAt order data 2 1 = some 1) →
      fieldAt order data 3 4 = some version → 7 < version →
        readHeader order data = .error .VersionTooHigh) ∧
    (∀ (g_OverrideCRC : Bool) (callbacks : ElementCallbacks) (registry : Registry)
      (e : ArchiveException), readHeader order data = .error e →
        readSpool g_OverrideCRC callbacks registry order data = .error e) := by
  refine ⟨⟨?_, ?_⟩, ?_, ?_, ?_, ?_⟩
  · rintro ⟨version, s, h⟩
    exact (readHeader_ok h).2.2.2
  · intro h
    obtain ⟨version, _, _, hh⟩ := readHeader_accepted h
    exact ⟨version, _, hh⟩
  · intro h
    rw [readHeader_eq, h]
    rfl
  · intro enc hne hbom henc h0 h1
    have hlen : ¬ data.length = 0 := fun h => hne (List.length_eq_zero.mp h)
    rw [readHeader_eq, if_neg hlen]
    rcases hbom with hb | hb <;> simp [hb, henc, h0, h1]
  · intro version hne hbom henc hv hgt
    have hlen : ¬ data.length = 0 := fun h => hne (List.length_eq_zero.mp h)
    have hver : version > CURRENT_VERSION := hgt
    rw [readHeader_eq, if_neg hlen]
    rcases hbom with hb | hb <;> rcases henc with he | he <;> simp [hb, he, hv, hver]
  · intro g callbacks registry e h
    rw [readSpool_search, readSpoolSearch_eq, h]

/-! ## Claims about records -/

set_option maxRecDepth 100000 in
/-- C15: the byte order that `Read` derives from the byte-order mark is not
applied to the stream.  The archive written for `[Pt{3,4}]` on a big-endian
stream reads back on a big-endian stream; on a little-endian stream its
byte-order mark reads as 0xFFFE, the version is still decoded little-endian,
and `Read` fails with the version exception. -/
theorem C15_reversed_bom_not_applied :
    readSpool false defaultCallbacks s1Registry .BigEndian
        (writtenBytes false .BigEndian [Pt 3 4]) = .ok [some (Pt 3 4)] ∧
      fieldAt .LittleEndian (writtenBytes false .BigEndian [Pt 3 4]) 0 2 = some 0xFFFE ∧
      fieldAt .LittleEndian (writtenBytes false .BigEndian [Pt 3 4]) 3 4 = some 0x07000000 ∧
      readSpool false defaultCallbacks s1Registry .LittleEndian
        (writtenBytes false .BigEndian [Pt 3 4]) = .error .VersionTooHigh :=
  ⟨pt_round_trip false false .BigEndian, by decide, by decide, by decide⟩

/-- C16 (record length and skipping agree): the record `Serialize(element)`
appends to a stream that stays below 4 GiB stores, after its class hash, the
number of bytes from the first byte of the length field to the last byte of the
record; and `Allocate` in skip mode, which reads the class hash and the length
and seeks forward by the length minus four, leaves the read position on the
first byte after the record. -/
theorem C16_record_length (a : ArchiveBinary) (element : Element) (hend : a.m_Stream.AtEnd)
    (hsize : a.m_Stream.data.length + (elementBytes a.m_Stream.m_ByteOrder element).length
      < UINT32) :
    ∃ record : List Nat, a.Serialize (some element) = .ok (a.emit record) ∧
      8 ≤ record.length ∧
      ofBytes a.m_Stream.m_ByteOrder ((record.drop 4).take 4) = record.length - 4 ∧
      ∀ (registry : Registry) (b : ArchiveBinary) (pre post : List Nat),
        b.m_Stream.m_ByteOrder = a.m_Stream.m_ByteOrder → b.m_Skip = true →
        b.m_Stream.At pre (record ++ post) →
          ArchiveBinary.Allocate registry b = .ok (none, b.skip record.length) ∧
            (b.skip record.length).m_Stream.At (pre ++ record) post := by
  obtain ⟨body, hbody, hsplit⟩ := elementBytes_split a.m_Stream.m_ByteOrder element
  have hlen : (elementBytes a.m_Stream.m_ByteOrder element).length = 8 + body.length := by
    rw [hsplit]
    simp only [List.length_append, toBytes_length]
    omega
  refine ⟨elementBytes a.m_Stream.m_ByteOrder element, Serialize_eq a element hend hsize,
    by omega, ?_, ?_⟩
  · rw [hlen, hsplit, List.drop_left' (toBytes_length _ _ _),
      List.take_left' (toBytes_length _ _ _),
      ofBytes_toBytes_of_lt _ _ _ (by rw [pow_256_4]; omega)]
    omega
  · intro registry b pre post hbo hskip hat
    constructor
    · rw [hlen]
      rw [hsplit, ← hbo] at hat
      simp only [List.append_assoc] at hat
      have := Allocate_skip_at registry b pre body post _ hskip
        (by have := Crc32_lt element.GetClass.m_Name; rw [pow_256_4] at this; exact this)
        (by omega) hat
      rw [this]
      congr 3
      omega
    · exact CharStream.advance_at b.m_Stream pre _ post hat

set_option maxRecDepth 100000 in
/-- The record of C16 for `Pt{3,4}` on a fresh little-endian archive. -/
theorem C16_record_length_witness :
    ∃ record : List Nat,
      (ArchiveBinary.opened (CharStream.opened .LittleEndian)).Serialize (some (Pt 3 4)) =
        .ok ((ArchiveBinary.opened (CharStream.opened .LittleEndian)).emit record) ∧
      8 ≤ record.length ∧
      ofBytes (ArchiveBinary.opened (CharStream.opened .LittleEndian)).m_Stream.m_ByteOrder
        ((record.drop 4).take 4) = record.length - 4 ∧
      ∀ (registry : Registry) (b : ArchiveBinary) (pre post : List Nat),
        b.m_Stream.m_ByteOrder =
          (ArchiveBinary.opened (CharStream.opened .LittleEndian)).m_Stream.m_ByteOrder →
        b.m_Skip = true →
        b.m_Stream.At pre (record ++ post) →
          ArchiveBinary.Allocate registry b = .ok (none, b.skip record.length) ∧
            (b.skip record.length).m_Stream.At (pre ++ record) post :=
  C16_record_length (ArchiveBinary.opened (CharStream.opened .LittleEndian)) (Pt 3 4) rfl
    (by decide)

/-- C17: outside skip mode, for every record whose class-name hash the
registry does not hold, `Allocate` reads the hash and the length, seeks past the
record, and then stops abnormally: line 596 dereferences the null `type`.  No
element array that holds such a record is decoded. -/
theorem C17_unknown_class_stops (callbacks : ElementCallbacks) (registry : Registry) (a : ArchiveBinary)
    (typeCrc length : Nat) (s1 s2 s3 : CharStream) (hskip : a.m_Skip = false)
    (h1 : a.m_Stream.Read 4 = .ok (typeCrc, s1)) (h2 : s1.Read 4 = .ok (length, s2))
    (hclass : registry.GetClass typeCrc = none)
    (h3 : s2.SeekReadCur ((length : Int) - 4) = .ok s3) :
    ArchiveBinary.Allocate registry a = .error .Crash ∧
      ArchiveBinary.Deserialize callbacks registry a = .error .Crash ∧
      ∀ (count : Nat) (elements : List (Option Element)), a.m_Abort = false →
        ArchiveBinary.deserializeEach callbacks registry ArchiveFlags.Status (count + 1)
          elements a = .error .Crash := by
  have h := Allocate_unknown registry a typeCrc length s1 s2 s3 hskip h1 h2 hclass h3
  refine ⟨h, ?_, ?_⟩
  · simp only [ArchiveBinary.Deserialize, h]
  · intro count elements habort
    simp only [ArchiveBinary.deserializeEach, habort, Bool.false_eq_true, if_false,
      ArchiveBinary.Deserialize, h]

set_option maxRecDepth 100000 in
/-- The stop of C17 at the record `Pt{0,0}` followed by other bytes, with a
registry that holds `I32` and does not know `Pt`. -/
theorem C17_unknown_class_stops_witness :
    ArchiveBinary.Allocate i32Registry (ArchiveBinary.opened (CharStream.ofData .LittleEndian
        [142, 250, 10, 172, 12, 0, 0, 0, 0, 0, 0, 0, 255, 255, 255, 255, 9, 9])) =
        .error .Crash ∧
      ArchiveBinary.Deserialize defaultCallbacks i32Registry
        (ArchiveBinary.opened (CharStream.ofData .LittleEndian
          [142, 250, 10, 172, 12, 0, 0, 0, 0, 0, 0, 0, 255, 255, 255, 255, 9, 9])) =
        .error .Crash ∧
      ∀ (count : Nat) (elements : List (Option Element)),
        (ArchiveBinary.opened (CharStream.ofData .LittleEndian
          [142, 250, 10, 172, 12, 0, 0, 0, 0, 0, 0, 0, 255, 255, 255, 255, 9, 9])).m_Abort =
          false →
        ArchiveBinary.deserializeEach defaultCallbacks i32Registry ArchiveFlags.Status
          (count + 1) elements (ArchiveBinary.opened (CharStream.ofData .LittleEndian
            [142, 250, 10, 172, 12, 0, 0, 0, 0, 0, 0, 0, 255, 255, 255, 255, 9, 9])) =
          .error .Crash :=
  C17_unknown_class_stops defaultCallbacks i32Registry (ArchiveBinary.opened (CharStream.ofData .LittleEndian
      [142, 250, 10, 172, 12, 0, 0, 0, 0, 0, 0, 0, 255, 255, 255, 255, 9, 9]))
    2886400654 12
    ((CharStream.ofData .LittleEndian
      [142, 250, 10, 172, 12, 0, 0, 0, 0, 0, 0, 0, 255, 255, 255, 255, 9, 9]).advance 4)
    ((CharStream.ofData .LittleEndian
      [142, 250, 10, 172, 12, 0, 0, 0, 0, 0, 0, 0, 255, 255, 255, 255, 9, 9]).advance 8)
    ((CharStream.ofData .LittleEndian
      [142, 250, 10, 172, 12, 0, 0, 0, 0, 0, 0, 0, 255, 255, 255, 255, 9, 9]).advance 16)
    rfl (by decide) (by decide) (by decide) (by decide)

set_option maxRecDepth 100000 in
/-- C18, counterexample: the archive written for `[Pt{3,4}, I32 5, I32 6]`,
read with the search class `I32`.  The record `Pt{3,4}` is not of the search
class and is decoded; the record `I32 6` is of the search class and is
skipped. -/
theorem C18_counterexample :
    (Pt 3 4).GetClass.HasType (some (.data I32Data)) = false ∧
      (I32 6).GetClass.HasType (some (.data I32Data)) = true ∧
      readSpoolSearch (some (.data I32Data)) false defaultCallbacks s1Registry .LittleEndian
          (writtenBytes false .LittleEndian [Pt 3 4, I32 5, I32 6]) =
        .ok [some (Pt 3 4), some (I32 5)] := by
  refine ⟨by decide, by decide, ?_⟩
  rw [writtenBytes_eq false .LittleEndian _ search_size,
    readSpoolSearch_records (some (.data I32Data)) false false defaultCallbacks s1Registry
      .LittleEndian _ (fun _ => rfl) search_known search_size,
    search_decoded]

/-- C18 (search mode, as the code has it): when a search class is set, for
every element array whose records up to the first of the search class are
known to the registry, the reader decodes the records up to and including the
first whose class `HasType(searchClass)`, in their order, and then stays in
skip mode: every record after it is skipped by its length without being
decoded, whatever its class.  The loop leaves the stream after the last
record; `Read` on the archive that `Write` produced yields these records. -/
theorem C18_search_mode (searchClass : Class) (UNICODE g_OverrideCRC : Bool)
    (callbacks : ElementCallbacks) (registry : Registry) (order : ByteOrder)
    (records : List Element) (hcb : ∀ e, callbacks.PostDeserialize e = true)
    (hknown : ∀ e ∈ untilFirst (fun e => e.GetClass.HasType (some searchClass)) records,
      e.Known registry)
    (hsize : 11 + (elementArrayBytes order records).length < UINT32) :
    (∀ (a : ArchiveBinary) (acc : List (Option Element)) (pre post : List Nat),
      a.m_Skip = false → a.m_Abort = false → a.m_SearchClass = some searchClass →
      a.m_Stream.m_ByteOrder = order →
      a.m_Stream.At pre ((records.map (elementBytes order)).flatten ++ post) →
      ArchiveBinary.deserializeEach callbacks registry ArchiveFlags.Status records.length acc a =
        .ok (acc ++ (untilFirst (fun e => e.GetClass.HasType (some searchClass)) records).map
            (fun e => some (decodedRecord e)),
          { a.skip (recordsLength order records) with
            m_Skip := records.any (fun e => e.GetClass.HasType (some searchClass)) })) ∧
    (∀ (a : ArchiveBinary) (acc : List (Option Element)) (pre post : List Nat),
      a.m_Skip = true → a.m_Abort = false → a.m_Stream.m_ByteOrder = order →
      a.m_Stream.At pre ((records.map (elementBytes order)).flatten ++ post) →
      ArchiveBinary.deserializeEach callbacks registry ArchiveFlags.Status records.length acc a =
        .ok (acc, a.skip (recordsLength order records))) ∧
    readSpoolSearch (some searchClass) g_OverrideCRC callbacks registry order
        (writtenBytes UNICODE order records) =
      .ok ((untilFirst (fun e => e.GetClass.HasType (some searchClass)) records).map
        (fun e => some (decodedRecord e))) := by
  have hU : UINT32 = 4294967296 := rfl
  have hrl : recordsLength order records < UINT32 := by
    have : (elementArrayBytes order records).length = 4 + recordsLength order records + 4 := by
      simp only [elementArrayBytes, recordsLength, List.length_append, toBytes_length]
    omega
  refine ⟨?_, ?_, ?_⟩
  · intro a acc pre post hskip habort hsearch horder hat
    subst horder
    exact deserializeEach_search callbacks registry (some searchClass) hcb records a acc pre
      post hskip habort hsearch hknown hrl hat
  · intro a acc pre post hskip habort horder hat
    subst horder
    exact deserializeEach_skipped callbacks registry records a acc pre post hskip habort hrl hat
  · rw [writtenBytes_eq UNICODE order records hsize]
    exact readSpoolSearch_records (some searchClass) UNICODE g_OverrideCRC callbacks registry
      order records hcb hknown hsize

/-- The search of C18 for the class `Pt` in the little-endian archive written
for `[Pt{3,4}]`. -/
theorem C18_search_mode_witness :
    readSpoolSearch (some (.object PtClass)) false defaultCallbacks s1Registry .LittleEndian
        (writtenBytes false .LittleEndian [Pt 3 4]) =
      .ok ((untilFirst (fun e => e.GetClass.HasType (some (.object PtClass))) [Pt 3 4]).map
        (fun e => some (decodedRecord e))) :=
  (C18_search_mode (.object PtClass) false false defaultCallbacks s1Registry .LittleEndian
    [Pt 3 4] (fun _ => rfl)
    (by
      intro e he
      have hmem : e ∈ [Pt 3 4] := by
        unfold untilFirst at he
        split at he
        · exact he
        · simpa [untilFirst] using he
      rw [List.mem_singleton.mp hmem]
      exact pt_known)
    (pt_size .LittleEndian 3 4 (Or.inr rfl) (Or.inr rfl))).2.2

/-! ## Claims about the fields that are written -/

set_option maxRecDepth 100000 in
/-- C19 (default elision and Force): for a field that is not `Discard`, is not
a container and has a default, at the point where `SerializeFields` reaches it:
when the field has the `Force` flag or its live value differs from the default,
its name hash and its data record are appended and the field is counted;
otherwise the archive is left as it is and the loop goes on.  The record
`Pt{0,0}` with defaults `{0,0}` is written with a field count of 0; with `x`
marked `Force` it is written with a field count of 1 and the entry of `x`
alone. -/
theorem C19_default_elision (slots : List (Nat × Value)) (field : Field) (rest : List Field)
    (a : ArchiveBinary) (d : Value)
    (hdiscard : field.m_Flags &&& FieldFlags.Discard = 0)
    (hcontainer : field.m_DataClass.m_Kind.isContainer = false)
    (hdefault : field.m_Default = some d) :
    ((field.m_Flags &&& FieldFlags.Force ≠ 0 ∨ slotGet slots field.m_Offset ≠ d) →
      a.m_Stream.AtEnd → a.m_FieldStack ≠ [] →
      a.m_Stream.data.length +
        (fieldEntryBytes a.m_Stream.m_ByteOrder slots field).length < UINT32 →
      ArchiveBinary.serializeLevel slots (field :: rest) a =
        ArchiveBinary.serializeLevel slots rest
          (a.wrote (toBytes a.m_Stream.m_ByteOrder 4 (Crc32 field.m_Name) ++
            dataElementBytes a.m_Stream.m_ByteOrder field.m_DataClass
              (slotGet slots field.m_Offset)) 1)) ∧
    (¬ (field.m_Flags &&& FieldFlags.Force ≠ 0 ∨ slotGet slots field.m_Offset ≠ d) →
      ArchiveBinary.serializeLevel slots (field :: rest) a =
        ArchiveBinary.serializeLevel slots rest a) ∧
    (∀ order : ByteOrder,
      (ArchiveBinary.opened (CharStream.opened order)).Serialize (some (Pt 0 0)) =
        .ok ((ArchiveBinary.opened (CharStream.opened order)).emit
          (toBytes order 4 (Crc32 "Pt") ++ toBytes order 4 12 ++ toBytes order 4 0 ++
            toBytes order 4 0xFFFFFFFF))) ∧
    (∀ order : ByteOrder,
      (ArchiveBinary.opened (CharStream.opened order)).Serialize
          (some (.object PtForceClass [(0, .scalar 0), (4, .scalar 0)])) =
        .ok ((ArchiveBinary.opened (CharStream.opened order)).emit
          (toBytes order 4 (Crc32 "Pt") ++ toBytes order 4 28 ++ toBytes order 4 1 ++
            (toBytes order 4 (Crc32 "x") ++ toBytes order 4 (Crc32 "I32") ++
              toBytes order 4 8 ++ toBytes order 4 0) ++
            toBytes order 4 0xFFFFFFFF))) := by
  have hiff := shouldSerialize_default field (slotGet slots field.m_Offset) d hcontainer
    hdefault
  refine ⟨?_, ?_, ?_, ?_⟩
  · intro hcond hend hstack hsize
    exact serializeLevel_written slots field rest a hdiscard (hiff.mpr hcond) hend hstack hsize
  · intro hcond
    have hs : shouldSerialize field (slotGet slots field.m_Offset) = false := by
      cases h : shouldSerialize field (slotGet slots field.m_Offset) with
      | false => rfl
      | true => exact absurd (hiff.mp h) hcond
    rw [serializeLevel_elided slots field rest a hs, if_neg (fun hn => hn hdiscard)]
  · intro order
    cases order <;> decide
  · intro order
    cases order <;> decide

set_option maxRecDepth 100000 in
/-- The step of C19 at the field `x` of `Pt` in the record `Pt{3,4}`, whose
value differs from the default: the field is written and counted. -/
theorem C19_default_elision_witness :
    ArchiveBinary.serializeLevel [(0, .scalar 3), (4, .scalar 4)]
        ((⟨"x", 0, 0, I32Data, some (.scalar 0)⟩ : Field) :: [])
        ⟨CharStream.opened .LittleEndian, [], CURRENT_VERSION, 0, false, none, false,
          [⟨0, 0⟩]⟩ =
      ArchiveBinary.serializeLevel [(0, .scalar 3), (4, .scalar 4)] []
        ((⟨CharStream.opened .LittleEndian, [], CURRENT_VERSION, 0, false, none, false,
          [⟨0, 0⟩]⟩ : ArchiveBinary).wrote
          (toBytes .LittleEndian 4 (Crc32 "x") ++
            dataElementBytes .LittleEndian I32Data
              (slotGet [(0, .scalar 3), (4, .scalar 4)] 0)) 1) :=
  (C19_default_elision [(0, .scalar 3), (4, .scalar 4)]
    ⟨"x", 0, 0, I32Data, some (.scalar 0)⟩ []
    ⟨CharStream.opened .LittleEndian, [], CURRENT_VERSION, 0, false, none, false, [⟨0, 0⟩]⟩
    (.scalar 0) (by decide) (by decide) rfl).1 (Or.inr (by decide)) rfl (by decide)
    (by decide)

/-- C20 (empty-container elision): for a field whose data object is a container
of size zero, whatever its flags and whether or not it has a default,
`SerializeFields` leaves the archive as it is (no name hash is written, the
field count is not incremented): it returns at a `Discard` field and goes on to
the next field otherwise.  The field is not among the written fields of any
record. -/
theorem C20_empty_container (slots : List (Nat × Value)) (field : Field) (rest : List Field)
    (a : ArchiveBinary)
    (hcontainer : field.m_DataClass.m_Kind.isContainer = true)
    (hempty : containerSize (slotGet slots field.m_Offset) = 0) :
    ArchiveBinary.serializeLevel slots (field :: rest) a =
        (if field.m_Flags &&& FieldFlags.Discard ≠ 0 then .ok (true, a)
          else ArchiveBinary.serializeLevel slots rest a) ∧
      ∀ c : ObjectClass, field ∉ writtenFields c slots := by
  have hs := shouldSerialize_empty field (slotGet slots field.m_Offset) hcontainer hempty
  refine ⟨serializeLevel_elided slots field rest a hs, ?_⟩
  intro c hmem
  have := mem_levelsWritten slots _ field hmem
  rw [hs] at this
  cases this

/-- The elision of C20 at the container field `points`, marked `Force` and
without a default, holding the empty sequence. -/
theorem C20_empty_container_witness :
    ArchiveBinary.serializeLevel [(0, .sequence [])] (pointsField :: [])
        (ArchiveBinary.opened (CharStream.opened .LittleEndian)) =
        (if pointsField.m_Flags &&& FieldFlags.Discard ≠ 0 then
            .ok (true, ArchiveBinary.opened (CharStream.opened .LittleEndian))
          else ArchiveBinary.serializeLevel [(0, .sequence [])] []
            (ArchiveBinary.opened (CharStream.opened .LittleEndian))) ∧
      ∀ c : ObjectClass, pointsField ∉ writtenFields c [(0, .sequence [])] :=
  C20_empty_container [(0, .sequence [])] pointsField []
    (ArchiveBinary.opened (CharStream.opened .LittleEndian)) (by decide) (by decide)

/-! ## Claims about the registry -/

theorem Registry.GetType_eq (r : Registry) (crc : Nat) :
    r.GetType crc = (r.m_TypesByHash.find? (fun kv => decide (kv.1 = crc))).map (·.2) := by
  unfold Registry.GetType
  cases r.m_TypesByHash.find? (fun kv => decide (kv.1 = crc)) <;> rfl

theorem Registry.Insert_present (r : Registry) (crc : Nat) (type : ReflectType)
    (h : r.GetType crc ≠ none) : r.Insert crc type = (false, r) := by
  rw [Registry.GetType_eq] at h
  unfold Registry.Insert
  cases hf : r.m_TypesByHash.find? (fun kv => decide (kv.1 = crc)) with
  | none => rw [hf] at h; exact absurd rfl h
  | some kv => rfl

theorem Registry.Insert_absent (r : Registry) (crc : Nat) (type : ReflectType)
    (h : r.GetType crc = none) :
    r.Insert crc type = (true, { m_TypesByHash := r.m_TypesByHash ++ [(crc, type)] }) := by
  rw [Registry.GetType_eq] at h
  unfold Registry.Insert
  cases hf : r.m_TypesByHash.find? (fun kv => decide (kv.1 = crc)) with
  | none => rfl
  | some kv => rw [hf] at h; cases h

theorem Registry.GetType_added_self (r : Registry) (crc : Nat) (type : ReflectType)
    (h : r.GetType crc = none) :
    ({ m_TypesByHash := r.m_TypesByHash ++ [(crc, type)] } : Registry).GetType crc =
      some type := by
  rw [Registry.GetType_eq] at h ⊢
  cases hf : r.m_TypesByHash.find? (fun kv => decide (kv.1 = crc)) with
  | none => simp [List.find?_append, hf]
  | some kv => rw [hf] at h; cases h

theorem Registry.GetType_added_other (r : Registry) (crc other : Nat) (type : ReflectType)
    (hne : other ≠ crc) :
    ({ m_TypesByHash := r.m_TypesByHash ++ [(crc, type)] } : Registry).GetType other =
      r.GetType other := by
  rw [Registry.GetType_eq, Registry.GetType_eq]
  have hc : ¬ crc = other := fun e => hne e.symm
  cases hf : r.m_TypesByHash.find? (fun kv => decide (kv.1 = other)) with
  | none => simp [List.find?_append, hf, hc]
  | some kv => simp [List.find?_append, hf]

/-- C23 (RegisterType rejects a duplicate hash): for every registry and type,
when the CRC-32 of the name of the type is a key of the registry, `RegisterType`
returns false and leaves the registry as it is, so every hash maps to what it
mapped to before; otherwise it returns true, `GetType` of that hash returns the
new type, and every other hash maps to what it mapped to before. -/
theorem C23_register_type (r : Registry) (type : ReflectType) :
    (r.GetType (Crc32 type.m_Name) ≠ none →
      (r.RegisterType type).1 = false ∧ (r.RegisterType type).2 = r ∧
        ∀ crc, (r.RegisterType type).2.GetType crc = r.GetType crc) ∧
    (r.GetType (Crc32 type.m_Name) = none →
      (r.RegisterType type).1 = true ∧
        (r.RegisterType type).2.GetType (Crc32 type.m_Name) = some type ∧
        ∀ crc, crc ≠ Crc32 type.m_Name →
          (r.RegisterType type).2.GetType crc = r.GetType crc) := by
  constructor
  · intro h
    have hi := Registry.Insert_present r _ type h
    have hr : r.RegisterType type = (false, r) := by
      simp only [Registry.RegisterType, hi, Bool.not_false, if_true]
    rw [hr]
    exact ⟨rfl, rfl, fun _ => rfl⟩
  · intro h
    have hi := Registry.Insert_absent r _ type h
    have hr : r.RegisterType type =
        (true, { m_TypesByHash := r.m_TypesByHash ++ [(Crc32 type.m_Name, type)] }) := by
      simp only [Registry.RegisterType, hi, Bool.not_true, Bool.false_eq_true, if_false]
    rw [hr]
    exact ⟨rfl, Registry.GetType_added_self r _ type h,
      fun crc hne => Registry.GetType_added_other r _ crc type hne⟩

set_option maxRecDepth 100000 in
/-- C24, counterexample: in a registry that holds `I32` and `Pt`, the call
`AliasType(Pt, "I32")` leaves the hash of "I32" resolving to `I32`, not to
`Pt`. -/
theorem C24_counterexample :
    (s1Registry.AliasType (.class_ (.object PtClass)) "I32").GetType (Crc32 "I32") =
        some (.class_ (.data I32Data)) ∧
      (s1Registry.AliasType (.class_ (.object PtClass)) "I32").GetType (Crc32 "I32") ≠
        some (.class_ (.object PtClass)) := by
  decide

/-- C24 (AliasType, as the code has it): for every registry, type and alias
name whose CRC-32 is not yet a key of the registry, after `AliasType(type,
alias)` the lookup `GetType(Crc32(alias))` returns that type, every other hash
resolves as before, and in particular a type registered under the hash of its
own name still resolves under it. -/
theorem C24_alias_type (r : Registry) (type : ReflectType) (aliasName : String)
    (h : r.GetType (Crc32 aliasName) = none) :
    (r.AliasType type aliasName).GetType (Crc32 aliasName) = some type ∧
      (∀ crc, crc ≠ Crc32 aliasName →
        (r.AliasType type aliasName).GetType crc = r.GetType crc) ∧
      (r.GetType (Crc32 type.m_Name) = some type →
        (r.AliasType type aliasName).GetType (Crc32 type.m_Name) = some type) := by
  have hr : r.AliasType type aliasName =
      { m_TypesByHash := r.m_TypesByHash ++ [(Crc32 aliasName, type)] } := by
    simp only [Registry.AliasType, Registry.Insert_absent r _ type h]
  rw [hr]
  refine ⟨Registry.GetType_added_self r _ type h,
    fun crc hne => Registry.GetType_added_other r _ crc type hne, ?_⟩
  intro hown
  by_cases he : Crc32 type.m_Name = Crc32 aliasName
  · rw [he] at hown
    rw [h] at hown
    cases hown
  · rw [Registry.GetType_added_other r _ _ type he]
    exact hown

set_option maxRecDepth 100000 in
/-- The alias of C24 at the registry that holds `I32` and `Pt`, the class `Pt`
and the new name "Point". -/
theorem C24_alias_type_witness :
    (s1Registry.AliasType (.class_ (.object PtClass)) "Point").GetType (Crc32 "Point") =
        some (.class_ (.object PtClass)) ∧
      (∀ crc, crc ≠ Crc32 "Point" →
        (s1Registry.AliasType (.class_ (.object PtClass)) "Point").GetType crc =
          s1Registry.GetType crc) ∧
      (s1Registry.GetType (Crc32 (ReflectType.class_ (.object PtClass)).m_Name) =
          some (.class_ (.object PtClass)) →
        (s1Registry.AliasType (.class_ (.object PtClass)) "Point").GetType
            (Crc32 (ReflectType.class_ (.object PtClass)).m_Name) =
          some (.class_ (.object PtClass))) :=
  C24_alias_type s1Registry (.class_ (.object PtClass)) "Point" (by decide)

/-- C26 (CreateInstance): `CreateInstance(class)` returns what the creator
thunk of the class yields when the class is not null and has a creator, and a
null reference otherwise; `CreateInstance(hash)` equals
`CreateInstance(GetClass(hash))`, so it is null when the hash is not registered
or names a type that is not a class. -/
theorem C26_create_instance (r : Registry) :
    (∀ (type : Class) (created : Element), type.m_Creator = some created →
      r.CreateInstance (some type) = some created) ∧
    (∀ type : Class, type.m_Creator = none → r.CreateInstance (some type) = none) ∧
    r.CreateInstance none = none ∧
    (∀ crc, r.CreateInstanceByHash crc = r.CreateInstance (r.GetClass crc)) ∧
    (∀ crc, r.GetType crc = none → r.CreateInstanceByHash crc = none) ∧
    (∀ crc name, r.GetType crc = some (.enumeration name) →
      r.CreateInstanceByHash crc = none) ∧
    (∀ type, r.CreateInstance type = CreateInstance type) := by
  have hhash : ∀ crc, r.CreateInstanceByHash crc = r.CreateInstance (r.GetClass crc) := by
    intro crc
    unfold Registry.CreateInstanceByHash Registry.GetClass Registry.GetType
    cases hf : r.m_TypesByHash.find? (fun kv => decide (kv.1 = crc)) with
    | none => rfl
    | some found =>
      obtain ⟨k, t⟩ := found
      cases t <;> rfl
  refine ⟨?_, ?_, rfl, hhash, ?_, ?_, ?_⟩
  · intro type created h
    simp only [Registry.CreateInstance, h]
  · intro type h
    simp only [Registry.CreateInstance, h]
  · intro crc h
    rw [hhash]
    simp only [Registry.GetClass, h]
    rfl
  · intro crc name h
    rw [hhash]
    simp only [Registry.GetClass, h]
    rfl
  · intro type
    cases type with
    | none => rfl
    | some t =>
      cases t with
      | data c => rfl
      | object c =>
        simp only [Registry.CreateInstance, CreateInstance, Class.m_Creator]
        cases c.m_Creator <;> rfl

/-! ## Claims about initialization and clean-up -/

theorem int32_eq (n : Int) (h1 : -2147483648 ≤ n) (h2 : n < 2147483648) : int32 n = n := by
  unfold int32
  omega

theorem Initialize_count (types : List ReflectType) (g : ReflectGlobals) :
    (Reflect.Initialize types g).g_InitCount = int32 (g.g_InitCount + 1) := by
  unfold Reflect.Initialize
  simp only
  split <;> rfl

theorem Cleanup_count (g : ReflectGlobals) :
    (Reflect.Cleanup g).g_InitCount = int32 (g.g_InitCount - 1) := by
  unfold Reflect.Cleanup
  simp only
  split <;> rfl

theorem Initialize_first (types : List ReflectType) (g : ReflectGlobals)
    (h : g.g_InitCount = 0) :
    (Reflect.Initialize types g).g_Registry = some (seededRegistry types) := by
  unfold Reflect.Initialize
  rw [h]
  rfl

theorem Initialize_nested (types : List ReflectType) (g : ReflectGlobals)
    (h1 : 1 ≤ g.g_InitCount) (h2 : g.g_InitCount < 2147483647) :
    (Reflect.Initialize types g).g_Registry = g.g_Registry := by
  unfold Reflect.Initialize
  simp only
  rw [int32_eq _ (by omega) (by omega), if_neg (by omega)]

theorem Cleanup_last (g : ReflectGlobals) (h : g.g_InitCount = 1) :
    (Reflect.Cleanup g).g_Registry = none := by
  unfold Reflect.Cleanup
  rw [h]
  rfl

theorem Cleanup_nested (g : ReflectGlobals)
    (h1 : 2 ≤ g.g_InitCount) (h2 : g.g_InitCount ≤ 2147483647) :
    (Reflect.Cleanup g).g_Registry = g.g_Registry := by
  unfold Reflect.Cleanup
  simp only
  rw [int32_eq _ (by omega) (by omega), if_neg (by omega)]

theorem take_succ_count (calls : List ReflectCall) (c : ReflectCall) (rest : List ReflectCall)
    (x : ReflectCall) (n : Nat) (h : calls = c :: rest) :
    (calls.take (n + 1)).count x = (if c = x then 1 else 0) + (rest.take n).count x := by
  subst h
  rw [List.take_succ_cons, List.count_cons]
  by_cases hc : c = x
  · simp [hc]; omega
  · simp [hc]

/-- The state after a sequence of calls, started on globals whose registry
exists exactly when the counter is positive. -/
theorem runCalls_spec (types : List ReflectType) :
    ∀ (calls : List ReflectCall) (g : ReflectGlobals),
      0 ≤ g.g_InitCount → g.g_InitCount + calls.length < 2147483648 →
      (g.g_Registry.isSome = true ↔ 0 < g.g_InitCount) →
      (g.g_Registry.isSome = true → g.g_Registry = some (seededRegistry types)) →
      (∀ n, n ≤ calls.length →
        ((calls.take n).count .Cleanup : Int) ≤
          g.g_InitCount + (calls.take n).count .Initialize) →
      (runCalls types calls g).g_InitCount =
          g.g_InitCount + calls.count .Initialize - calls.count .Cleanup ∧
        ((runCalls types calls g).g_Registry.isSome = true ↔
          0 < (runCalls types calls g).g_InitCount) ∧
        ((runCalls types calls g).g_Registry.isSome = true →
          (runCalls types calls g).g_Registry = some (seededRegistry types)) := by
  intro calls
  induction calls with
  | nil =>
    intro g _ _ hiff hseed _
    simp only [runCalls, List.foldl_nil, List.count_nil, Nat.cast_zero, add_zero, sub_zero]
    exact ⟨trivial, hiff, hseed⟩
  | cons c rest ih =>
    intro g h0 hlen hiff hseed hbal
    simp only [List.length_cons, Nat.cast_add, Nat.cast_one] at hlen
    have hrun : runCalls types (c :: rest) g = runCalls types rest (c.apply types g) := rfl
    rw [hrun]
    cases c with
    | Initialize =>
      have hc : (Reflect.Initialize types g).g_InitCount = g.g_InitCount + 1 := by
        rw [Initialize_count, int32_eq _ (by omega) (by omega)]
      have hreg : (Reflect.Initialize types g).g_Registry = some (seededRegistry types) := by
        by_cases hz : g.g_InitCount = 0
        · exact Initialize_first types g hz
        · rw [Initialize_nested types g (by omega) (by omega)]
          exact hseed (hiff.mpr (by omega))
      obtain ⟨h1, h2, h3⟩ := ih (Reflect.Initialize types g) (by rw [hc]; omega)
        (by rw [hc]; omega)
        (by rw [hc, hreg]; simp; omega)
        (fun _ => hreg)
        (by
          intro n hn
          have := hbal (n + 1) (by simp only [List.length_cons]; omega)
          rw [take_succ_count _ _ _ _ n rfl, take_succ_count _ _ _ _ n rfl] at this
          simp only [if_true, reduceCtorEq, if_false, Nat.cast_add, Nat.cast_one,
            Nat.cast_zero, zero_add] at this
          rw [hc]
          omega)
      refine ⟨?_, h2, h3⟩
      show (runCalls types rest (Reflect.Initialize types g)).g_InitCount = _
      rw [h1, hc, List.count_cons, List.count_cons]
      simp only [beq_self_eq_true, if_true, Nat.cast_add, Nat.cast_one]
      have : ((ReflectCall.Initialize == ReflectCall.Cleanup) = true) = False := by simp
      simp only [this, if_false, add_zero]
      omega
    | Cleanup =>
      have hpos : 1 ≤ g.g_InitCount := by
        have := hbal 1 (by simp only [List.length_cons]; omega)
        rw [take_succ_count _ _ _ _ 0 rfl, take_succ_count _ _ _ _ 0 rfl] at this
        simp only [if_true, reduceCtorEq, if_false, List.take_zero, List.count_nil,
          Nat.cast_add, Nat.cast_one, Nat.cast_zero, add_zero] at this
        omega
      have hc : (Reflect.Cleanup g).g_InitCount = g.g_InitCount - 1 := by
        rw [Cleanup_count, int32_eq _ (by omega) (by omega)]
      have hreg : (Reflect.Cleanup g).g_Registry =
          if g.g_InitCount = 1 then none else some (seededRegistry types) := by
        by_cases hz : g.g_InitCount = 1
        · rw [if_pos hz]
          exact Cleanup_last g hz
        · rw [if_neg hz, Cleanup_nested g (by omega) (by omega)]
          exact hseed (hiff.mpr (by omega))
      obtain ⟨h1, h2, h3⟩ := ih (Reflect.Cleanup g) (by rw [hc]; omega)
        (by rw [hc]; omega)
        (by
          rw [hc, hreg]
          by_cases hz : g.g_InitCount = 1
          · simp [hz]
          · simp [hz]; omega)
        (by
          rw [hreg]
          by_cases hz : g.g_InitCount = 1
          · simp [hz]
          · simp [hz])
        (by
          intro n hn
          have := hbal (n + 1) (by simp only [List.length_cons]; omega)
          rw [take_succ_count _ _ _ _ n rfl, take_succ_count _ _ _ _ n rfl] at this
          simp only [if_true, reduceCtorEq, if_false, Nat.cast_add, Nat.cast_one,
            Nat.cast_zero, zero_add] at this
          rw [hc]
          omega)
      refine ⟨?_, h2, h3⟩
      show (runCalls types rest (Reflect.Cleanup g)).g_InitCount = _
      rw [h1, hc, List.count_cons, List.count_cons]
      simp only [beq_self_eq_true, if_true, Nat.cast_add, Nat.cast_one]
      have : ((ReflectCall.Cleanup == ReflectCall.Initialize) = true) = False := by simp
      simp only [this, if_false, add_zero]
      omega

theorem balanced_take {calls : List ReflectCall} (h : Balanced calls) (n : Nat) :
    Balanced (calls.take n) := by
  intro m hm
  rw [List.take_take]
  apply h
  have : min m n ≤ calls.length := by
    rw [List.length_take] at hm
    omega
  exact this

/-- C25 (registry lifetime): for every sequence of fewer than 2^31 calls of
`Initialize` and `Cleanup`, started from the uninitialized state, in which no
prefix holds more `Cleanup` than `Initialize` calls: after every prefix the
counter is the number of `Initialize` calls minus the number of `Cleanup`
calls, `IsInitialized()` is true exactly when the first number exceeds the
second, and the registry is then the seeded one.  The registry is created and
seeded on the transition of the counter from 0 to 1 and torn down on the
transition from 1 to 0; a nested call leaves `g_Registry`, whatever it holds,
as it is. -/
theorem C25_reference_counted (types : List ReflectType) (calls : List ReflectCall)
    (hbal : Balanced calls) (hlen : calls.length < 2147483648) :
    (∀ n, n ≤ calls.length →
      (runCalls types (calls.take n) .start).g_InitCount =
          ((calls.take n).count .Initialize : Int) - (calls.take n).count .Cleanup ∧
        (Reflect.IsInitialized (runCalls types (calls.take n) .start) = true ↔
          (calls.take n).count .Cleanup < (calls.take n).count .Initialize) ∧
        (Reflect.IsInitialized (runCalls types (calls.take n) .start) = true →
          (runCalls types (calls.take n) .start).g_Registry =
            some (seededRegistry types))) ∧
    (∀ g : ReflectGlobals, g.g_InitCount = 0 →
      (Reflect.Initialize types g).g_Registry = some (seededRegistry types)) ∧
    (∀ g : ReflectGlobals, 1 ≤ g.g_InitCount → g.g_InitCount < 2147483647 →
      (Reflect.Initialize types g).g_Registry = g.g_Registry) ∧
    (∀ g : ReflectGlobals, g.g_InitCount = 1 → (Reflect.Cleanup g).g_Registry = none) ∧
    (∀ g : ReflectGlobals, 2 ≤ g.g_InitCount → g.g_InitCount ≤ 2147483647 →
      (Reflect.Cleanup g).g_Registry = g.g_Registry) := by
  refine ⟨?_, Initialize_first types, Initialize_nested types, Cleanup_last, Cleanup_nested⟩
  intro n hn
  have hb := balanced_take hbal n
  have hl : (calls.take n).length ≤ calls.length := by
    rw [List.length_take]
    omega
  obtain ⟨h1, h2, h3⟩ := runCalls_spec types (calls.take n) .start (le_refl _)
    (by show (0 : Int) + _ < _; omega)
    (by show (none : Option Registry).isSome = true ↔ (0 : Int) < 0; simp)
    (by intro h; cases h)
    (by
      intro m hm
      have := hb m hm
      show _ ≤ (0 : Int) + _
      omega)
  have h0 : (ReflectGlobals.start).g_InitCount = 0 := rfl
  rw [h0, zero_add] at h1
  refine ⟨h1, ?_, ?_⟩
  · unfold Reflect.IsInitialized
    rw [h2, h1]
    omega
  · unfold Reflect.IsInitialized
    exact h3

/-- The lifetime of C25 on the calls `Initialize, Initialize, Cleanup,
Cleanup`, with `I32` as the only seeded type, after three and after four
calls. -/
theorem C25_reference_counted_witness :
    ((runCalls [.class_ (.data I32Data)]
        (([.Initialize, .Initialize, .Cleanup, .Cleanup] : List ReflectCall).take 3)
        .start).g_InitCount =
        ((([.Initialize, .Initialize, .Cleanup, .Cleanup] : List ReflectCall).take 3).count
          .Initialize : Int) -
          (([.Initialize, .Initialize, .Cleanup, .Cleanup] : List ReflectCall).take 3).count
            .Cleanup ∧
      (Reflect.IsInitialized (runCalls [.class_ (.data I32Data)]
        (([.Initialize, .Initialize, .Cleanup, .Cleanup] : List ReflectCall).take 3)
        .start) = true ↔
        (([.Initialize, .Initialize, .Cleanup, .Cleanup] : List ReflectCall).take 3).count
            .Cleanup <
          (([.Initialize, .Initialize, .Cleanup, .Cleanup] : List ReflectCall).take 3).count
            .Initialize) ∧
      (Reflect.IsInitialized (runCalls [.class_ (.data I32Data)]
        (([.Initialize, .Initialize, .Cleanup, .Cleanup] : List ReflectCall).take 3)
        .start) = true →
        (runCalls [.class_ (.data I32Data)]
          (([.Initialize, .Initialize, .Cleanup, .Cleanup] : List ReflectCall).take 3)
          .start).g_Registry = some (seededRegistry [.class_ (.data I32Data)]))) ∧
    (Reflect.IsInitialized (runCalls [.class_ (.data I32Data)]
        (([.Initialize, .Initialize, .Cleanup, .Cleanup] : List ReflectCall).take 4)
        .start) = true ↔
      (([.Initialize, .Initialize, .Cleanup, .Cleanup] : List ReflectCall).take 4).count
          .Cleanup <
        (([.Initialize, .Initialize, .Cleanup, .Cleanup] : List ReflectCall).take 4).count
          .Initialize) :=
  ⟨(C25_reference_counted [.class_ (.data I32Data)]
      [.Initialize, .Initialize, .Cleanup, .Cleanup] (by decide) (by decide)).1 3 (by decide),
    ((C25_reference_counted [.class_ (.data I32Data)]
      [.Initialize, .Initialize, .Cleanup, .Cleanup] (by decide) (by decide)).1 4
        (by decide)).2.1⟩

/-! ## Claims about discarded, removed and mismatched fields -/

theorem levelWritten_eq (slots : List (Nat × Value)) :
    ∀ fields : List Field,
      levelWritten slots fields =
        ((beforeDiscard fields).filter (fun f => shouldSerialize f (slotGet slots f.m_Offset)),
          fields.any (fun f => decide (f.m_Flags &&& FieldFlags.Discard ≠ 0))) := by
  intro fields
  induction fields with
  | nil => rfl
  | cons field rest ih =>
    by_cases hd : field.m_Flags &&& FieldFlags.Discard ≠ 0
    · simp [levelWritten, beforeDiscard, hd]
    · have hd0 : field.m_Flags &&& FieldFlags.Discard = 0 := not_not.mp hd
      simp only [levelWritten, beforeDiscard, hd0, ne_eq, not_true_eq_false, if_false, ih,
        List.any_cons, decide_False, Bool.false_or, List.filter_cons]

theorem beforeDiscard_append (l1 l2 : List Field) :
    beforeDiscard (l1 ++ l2) =
      if l1.any (fun f => decide (f.m_Flags &&& FieldFlags.Discard ≠ 0)) then beforeDiscard l1
      else l1 ++ beforeDiscard l2 := by
  induction l1 with
  | nil => simp [beforeDiscard]
  | cons f rest ih =>
    by_cases hd : f.m_Flags &&& FieldFlags.Discard ≠ 0
    · simp [beforeDiscard, hd]
    · have hd0 : f.m_Flags &&& FieldFlags.Discard = 0 := not_not.mp hd
      rw [List.cons_append]
      simp only [beforeDiscard, hd0, ne_eq, not_true_eq_false, if_false, ih, List.any_cons,
        decide_False, Bool.false_or]
      split <;> rfl

theorem levelsWritten_eq (slots : List (Nat × Value)) :
    ∀ levels : List Composite,
      levelsWritten slots levels =
        (beforeDiscard (levels.map Composite.m_Fields).flatten).filter
          (fun f => shouldSerialize f (slotGet slots f.m_Offset)) := by
  intro levels
  induction levels with
  | nil => rfl
  | cons current bases ih =>
    simp only [levelsWritten, levelWritten_eq, List.map_cons, List.flatten_cons,
      beforeDiscard_append, ih]
    split
    · rfl
    · rw [List.filter_append]
      congr 1
      rename_i h
      have hall : ∀ f ∈ current.m_Fields, ¬ f.m_Flags &&& FieldFlags.Discard ≠ 0 := by
        intro f hf hd
        exact h (List.any_eq_true.mpr ⟨f, hf, by simpa using hd⟩)
      have hb : ∀ l : List Field, (∀ f ∈ l, ¬ f.m_Flags &&& FieldFlags.Discard ≠ 0) →
          beforeDiscard l = l := by
        intro l
        induction l with
        | nil => intro _; rfl
        | cons f rest ihl =>
          intro hl
          have h0 : f.m_Flags &&& FieldFlags.Discard = 0 :=
            not_not.mp (hl f (List.mem_cons_self _ _))
          simp only [beforeDiscard, h0, ne_eq, not_true_eq_false, if_false,
            ihl (fun g hg => hl g (List.mem_cons_of_mem _ hg))]
      rw [hb _ hall]

theorem writtenFields_eq (c : ObjectClass) (slots : List (Nat × Value)) :
    writtenFields c slots =
      (beforeDiscard c.allFields).filter
        (fun f => shouldSerialize f (slotGet slots f.m_Offset)) :=
  levelsWritten_eq slots c.m_Composite.bases

theorem beforeDiscard_not_discard :
    ∀ (fields : List Field) (f : Field), f ∈ beforeDiscard fields →
      f.m_Flags &&& FieldFlags.Discard = 0 := by
  intro fields
  induction fields with
  | nil => intro f hf; cases hf
  | cons g rest ih =>
    intro f hf
    by_cases hd : g.m_Flags &&& FieldFlags.Discard ≠ 0
    · simp [beforeDiscard, hd] at hf
    · have hd0 : g.m_Flags &&& FieldFlags.Discard = 0 := not_not.mp hd
      simp only [beforeDiscard, hd0, ne_eq, not_true_eq_false, if_false] at hf
      rcases List.mem_cons.mp hf with rfl | hf
      · exact hd0
      · exact ih f hf

theorem beforeDiscard_split (pre post : List Field) (d : Field)
    (hd : d.m_Flags &&& FieldFlags.Discard ≠ 0)
    (hpre : ∀ f ∈ pre, f.m_Flags &&& FieldFlags.Discard = 0) :
    beforeDiscard (pre ++ d :: post) = pre := by
  induction pre with
  | nil => simp [beforeDiscard, hd]
  | cons f rest ih =>
    have hf : f.m_Flags &&& FieldFlags.Discard = 0 := hpre f (List.mem_cons_self _ _)
    rw [List.cons_append]
    simp only [beforeDiscard, hf, ne_eq, not_true_eq_false, if_false,
      ih (fun g hg => hpre g (List.mem_cons_of_mem _ hg))]

set_option maxRecDepth 100000 in
/-- C21: `SerializeFields` returns at the first `Discard` field (line 488).  No
`Discard` field is written, but neither is any field that follows a `Discard`
field in the base-first order, at the same level or at a later one: the written
fields are those that stand before the first `Discard` field of the chain and
pass the tests of lines 509-531.  The record `Pt{3,4}` of the class whose field
`x` is `Discard` is written with a field count of 0, although `y` differs from
its default. -/
theorem C21_discard_returns :
    (∀ (c : ObjectClass) (slots : List (Nat × Value)) (f : Field),
      f ∈ writtenFields c slots → f.m_Flags &&& FieldFlags.Discard = 0) ∧
    (∀ (c : ObjectClass) (slots : List (Nat × Value)),
      writtenFields c slots =
        (beforeDiscard c.allFields).filter
          (fun f => shouldSerialize f (slotGet slots f.m_Offset))) ∧
    (∀ (c : ObjectClass) (slots : List (Nat × Value)) (pre post : List Field) (d f : Field),
      c.allFields = pre ++ d :: post → d.m_Flags &&& FieldFlags.Discard ≠ 0 →
      (∀ g ∈ pre, g.m_Flags &&& FieldFlags.Discard = 0) → f ∉ pre →
        f ∉ writtenFields c slots) ∧
    (∀ (a : ArchiveBinary) (c : ObjectClass) (slots : List (Nat × Value)),
      a.m_Stream.AtEnd →
      a.m_Stream.data.length +
        (elementBytes a.m_Stream.m_ByteOrder (.object c slots)).length < UINT32 →
      a.Serialize (some (.object c slots)) =
        .ok (a.emit (toBytes a.m_Stream.m_ByteOrder 4 (Crc32 c.m_Composite.m_Name) ++
          toBytes a.m_Stream.m_ByteOrder 4
            (12 + (fieldEntriesBytes a.m_Stream.m_ByteOrder slots
              (writtenFields c slots)).length) ++
          toBytes a.m_Stream.m_ByteOrder 4 (writtenFields c slots).length ++
          fieldEntriesBytes a.m_Stream.m_ByteOrder slots (writtenFields c slots) ++
          toBytes a.m_Stream.m_ByteOrder 4 TERMINATOR))) ∧
    (∀ order : ByteOrder,
      shouldSerialize ⟨"y", 0, 4, I32Data, some (.scalar 0)⟩ (.scalar 4) = true ∧
      (ArchiveBinary.opened (CharStream.opened order)).Serialize
          (some (.object PtDiscardClass [(0, .scalar 3), (4, .scalar 4)])) =
        .ok ((ArchiveBinary.opened (CharStream.opened order)).emit
          (toBytes order 4 (Crc32 "Pt") ++ toBytes order 4 12 ++ toBytes order 4 0 ++
            toBytes order 4 0xFFFFFFFF))) := by
  refine ⟨?_, writtenFields_eq, ?_, ?_, ?_⟩
  · intro c slots f hf
    rw [writtenFields_eq] at hf
    exact beforeDiscard_not_discard _ f (List.mem_filter.mp hf).1
  · intro c slots pre post d f hall hd hpre hf hmem
    rw [writtenFields_eq, hall, beforeDiscard_split pre post d hd hpre] at hmem
    exact hf (List.mem_filter.mp hmem).1
  · intro a c slots hend hsize
    exact Serialize_eq a (.object c slots) hend hsize
  · intro order
    cases order <;> decide

/-- The body of the field loop on the entry of a field the class declares,
whose data element is of any registered data class `latent`: the value is
stored in the slot of the field. -/
theorem deserializeField_latent (callbacks : ElementCallbacks) (registry : Registry)
    (c : ObjectClass) (slots : List (Nat × Value)) (f : Field) (latent : DataClass)
    (value : Value) (a : ArchiveBinary) (pre post : List Nat)
    (hcb : ∀ e, callbacks.PostDeserialize e = true)
    (hskip : a.m_Skip = false)
    (hfind : c.m_Composite.FindFieldByName (Crc32 f.m_Name) = some f)
    (hreg : registry.GetClass (Crc32 latent.m_Name) = some (.data latent))
    (hfit : value.Fits latent.m_Kind)
    (hlen : (dataElementBytes a.m_Stream.m_ByteOrder latent value).length < UINT32)
    (h : a.m_Stream.At pre (toBytes a.m_Stream.m_ByteOrder 4 (Crc32 f.m_Name) ++
      (dataElementBytes a.m_Stream.m_ByteOrder latent value ++ post))) :
    ArchiveBinary.deserializeField callbacks registry c slots a =
      .ok (slotSet slots f.m_Offset value,
        a.skip (4 + (dataElementBytes a.m_Stream.m_ByteOrder latent value).length)) := by
  rw [dataElementBytes_length] at hlen
  simp only [dataElementBytes, List.append_assoc] at h
  have hr1 := CharStream.Read_at a.m_Stream pre _ 4 _ h (Crc32_lt _)
  have hat := CharStream.advance_at a.m_Stream pre _ _ h
  rw [toBytes_length] at hat
  have halloc := Allocate_at registry (a.skip 4) _ _ (.data latent)
    (.data latent latent.m_Kind.initial) _ hskip hreg rfl (by omega) hat
  rw [ArchiveBinary.skip_skip] at halloc
  have hat2 := CharStream.advance_at (a.m_Stream.advance 4) _ _ _ hat
  rw [toBytes_length] at hat2
  have hat3 := CharStream.advance_at ((a.m_Stream.advance 4).advance 4) _ _ _ hat2
  rw [toBytes_length] at hat3
  simp only [CharStream.advance_advance] at hat3
  have hdata := dataDeserialize_at latent.m_Kind value
    (a.skip (4 + 8)).m_Stream _ post hfit (by
      simp only [ArchiveBinary.skip, CharStream.advance_order, List.append_assoc] at hat3 ⊢
      exact hat3)
  have hstep : ({ a with m_Stream := a.m_Stream.advance 4 } : ArchiveBinary) = a.skip 4 := rfl
  simp only [ArchiveBinary.deserializeField, hr1, hfind, hstep, halloc, hdata, hcb,
    not_true_eq_false, if_false, if_true]
  simp only [ArchiveBinary.skip, CharStream.advance_advance, CharStream.advance_order,
    dataElementBytes_length]
  congr 4
  omega

/-- C22: on a field-name hash that the class of the record does not declare,
`FindFieldByName` returns null and the loop of `DeserializeFields` stops
abnormally at `HELIUM_ASSERT( field )` (line 738); so does `DeserializeFields`
when the removed field comes first.  With the assertion compiled out the element
is decoded, and as soon as there is a component to offer, the call of
`ProcessComponent` evaluates `field->m_Name` on the null `field` (line 828): the
loop goes on only when no component was decoded. -/
theorem C22_removed_field_stops (isLogistic : ArchiveException → Bool)
    (callbacks : ElementCallbacks) (registry : Registry) (c : ObjectClass)
    (slots : List (Nat × Value)) (a : ArchiveBinary) (fieldNameCrc : Nat) (s1 : CharStream)
    (h1 : a.m_Stream.Read 4 = .ok (fieldNameCrc, s1))
    (hfind : c.m_Composite.FindFieldByName fieldNameCrc = none) :
    ArchiveBinary.deserializeField callbacks registry c slots a = .error .Crash ∧
    (∀ count : Nat,
      ArchiveBinary.deserializeFieldLoop callbacks registry c (count + 1) slots a =
        .error .Crash) ∧
    (∀ (b : ArchiveBinary) (fieldCount : Nat),
      b.m_Stream.Read 4 = .ok (fieldCount, a.m_Stream) → a = { b with m_Stream := a.m_Stream } →
      0 < fieldCount → fieldCount < 2147483648 →
        ArchiveBinary.DeserializeFields callbacks registry b c slots = .error .Crash) ∧
    (∀ (component : Element) (a1 : ArchiveBinary),
      ArchiveBinary.Deserialize callbacks registry { a with m_Stream := s1 } =
          .ok (some component, a1) →
        ArchiveBinary.deserializeComponent isLogistic callbacks registry slots
          { a with m_Stream := s1 } = .error .Crash) ∧
    (∀ result : List (Nat × Value) × ArchiveBinary,
      ArchiveBinary.deserializeComponent isLogistic callbacks registry slots
          { a with m_Stream := s1 } = .ok result →
        ArchiveBinary.Deserialize callbacks registry { a with m_Stream := s1 } =
            .ok (none, result.2) ∧ result.1 = slots) := by
  have hfield : ArchiveBinary.deserializeField callbacks registry c slots a = .error .Crash := by
    simp only [ArchiveBinary.deserializeField, h1, hfind]
  refine ⟨hfield, ?_, ?_, ?_, ?_⟩
  · intro count
    simp only [ArchiveBinary.deserializeFieldLoop, hfield]
  · intro b fieldCount h0 hb hpos hlt
    obtain ⟨n, hn⟩ : ∃ n, loopCount fieldCount = n + 1 := by
      unfold loopCount
      rw [if_pos hlt]
      exact ⟨fieldCount - 1, by omega⟩
    simp only [ArchiveBinary.DeserializeFields, h0, hn, ← hb,
      ArchiveBinary.deserializeFieldLoop, hfield]
  · intro component a1 hdes
    simp only [ArchiveBinary.deserializeComponent, hdes]
  · intro result hres
    unfold ArchiveBinary.deserializeComponent at hres
    cases hdes : ArchiveBinary.Deserialize callbacks registry { a with m_Stream := s1 } with
    | error e =>
      rw [hdes] at hres
      simp only at hres
      split at hres <;> cases hres
    | ok r =>
      obtain ⟨element, a1⟩ := r
      rw [hdes] at hres
      cases element with
      | none =>
        simp only [Except.ok.injEq] at hres
        subst hres
        exact ⟨rfl, rfl⟩
      | some component => cases hres

set_option maxRecDepth 100000 in
/-- The stop of C22 at a field block of the class `Pt` that holds one entry,
under the name "z" that `Pt` does not declare, with an `I32` element. -/
theorem C22_removed_field_stops_witness :
    ArchiveBinary.DeserializeFields defaultCallbacks s1Registry
        (ArchiveBinary.opened (CharStream.ofData .LittleEndian
          (toBytes .LittleEndian 4 1 ++ toBytes .LittleEndian 4 (Crc32 "z") ++
            dataElementBytes .LittleEndian I32Data (.scalar 5) ++
            toBytes .LittleEndian 4 TERMINATOR)))
        PtClass [(0, .scalar 0), (4, .scalar 0)] = .error .Crash :=
  (C22_removed_field_stops (fun _ => false) defaultCallbacks s1Registry PtClass
    [(0, .scalar 0), (4, .scalar 0)]
    ((ArchiveBinary.opened (CharStream.ofData .LittleEndian
      (toBytes .LittleEndian 4 1 ++ toBytes .LittleEndian 4 (Crc32 "z") ++
        dataElementBytes .LittleEndian I32Data (.scalar 5) ++
        toBytes .LittleEndian 4 TERMINATOR))).skip 4)
    (Crc32 "z")
    ((CharStream.ofData .LittleEndian
      (toBytes .LittleEndian 4 1 ++ toBytes .LittleEndian 4 (Crc32 "z") ++
        dataElementBytes .LittleEndian I32Data (.scalar 5) ++
        toBytes .LittleEndian 4 TERMINATOR)).advance 8)
    (by decide) (by decide)).2.2.1
    (ArchiveBinary.opened (CharStream.ofData .LittleEndian
      (toBytes .LittleEndian 4 1 ++ toBytes .LittleEndian 4 (Crc32 "z") ++
        dataElementBytes .LittleEndian I32Data (.scalar 5) ++
        toBytes .LittleEndian 4 TERMINATOR)))
    1 (by decide) rfl (by decide) (by decide)

/-- C27: line 761 compares `field->m_DataClass` with itself, so the branch of
lines 775-811 is never taken.  For a field the class declares and a data element
of any registered data class `latent` in the stream, the class of the field or
another one, `DeserializeFields` connects the data object of the stream to the
field and decodes into it: the decoded value is stored in the slot of the field,
also when a shallow cast from `latent` to the class of the field fails; nothing
is offered to `ProcessComponent`. -/
theorem C27_mismatch_binds_directly (callbacks : ElementCallbacks) (registry : Registry)
    (c : ObjectClass) (slots : List (Nat × Value)) (f : Field) (latent : DataClass)
    (value : Value) (a : ArchiveBinary) (pre post : List Nat)
    (hcb : ∀ e, callbacks.PostDeserialize e = true)
    (hskip : a.m_Skip = false)
    (hfind : c.m_Composite.FindFieldByName (Crc32 f.m_Name) = some f)
    (hreg : registry.GetClass (Crc32 latent.m_Name) = some (.data latent))
    (hfit : value.Fits latent.m_Kind)
    (hlen : (dataElementBytes a.m_Stream.m_ByteOrder latent value).length < UINT32)
    (h : a.m_Stream.At pre (toBytes a.m_Stream.m_ByteOrder 4 (Crc32 f.m_Name) ++
      (dataElementBytes a.m_Stream.m_ByteOrder latent value ++ post))) :
    ArchiveBinary.deserializeField callbacks registry c slots a =
      .ok (slotSet slots f.m_Offset value,
        a.skip (4 + (dataElementBytes a.m_Stream.m_ByteOrder latent value).length)) ∧
    (∀ ProcessComponent : Element → Element → String → Bool,
      ArchiveBinary.deserializeField ⟨callbacks.PostDeserialize, ProcessComponent⟩ registry
          c slots a =
        ArchiveBinary.deserializeField callbacks registry c slots a) ∧
    (castValueShallow latent f.m_DataClass value = none →
      ∃ a1, ArchiveBinary.deserializeField callbacks registry c slots a =
        .ok (slotSet slots f.m_Offset value, a1)) := by
  have hmain := deserializeField_latent callbacks registry c slots f latent value a pre post
    hcb hskip hfind hreg hfit hlen h
  refine ⟨hmain, ?_, fun _ => ⟨_, hmain⟩⟩
  intro pc
  rw [hmain]
  exact deserializeField_latent ⟨callbacks.PostDeserialize, pc⟩ registry c slots f latent value
    a pre post hcb hskip hfind hreg hfit hlen h

set_option maxRecDepth 100000 in
/-- The binding of C27 at the field `x` of `Pt`, declared with the data class
`I32`, and an entry of the stream that holds an `I32StlVector` with the item 7:
the sequence is stored in the slot of `x`. -/
theorem C27_mismatch_binds_directly_witness :
    ArchiveBinary.deserializeField defaultCallbacks vectorRegistry PtClass
        [(0, .scalar 0), (4, .scalar 0)]
        (ArchiveBinary.opened (CharStream.ofData .LittleEndian
          (toBytes .LittleEndian 4 (Crc32 "x") ++
            (dataElementBytes .LittleEndian I32StlVectorData (.sequence [7]) ++ [])))) =
      .ok (slotSet [(0, .scalar 0), (4, .scalar 0)] 0 (.sequence [7]),
        (ArchiveBinary.opened (CharStream.ofData .LittleEndian
          (toBytes .LittleEndian 4 (Crc32 "x") ++
            (dataElementBytes .LittleEndian I32StlVectorData (.sequence [7]) ++ [])))).skip
          (4 + (dataElementBytes .LittleEndian I32StlVectorData (.sequence [7])).length)) :=
  (C27_mismatch_binds_directly defaultCallbacks vectorRegistry PtClass
    [(0, .scalar 0), (4, .scalar 0)] ⟨"x", 0, 0, I32Data, some (.scalar 0)⟩ I32StlVectorData
    (.sequence [7])
    (ArchiveBinary.opened (CharStream.ofData .LittleEndian
      (toBytes .LittleEndian 4 (Crc32 "x") ++
        (dataElementBytes .LittleEndian I32StlVectorData (.sequence [7]) ++ []))))
    [] [] (fun _ => rfl) rfl (by decide) (by decide) (by decide) (by decide)
    (CharStream.ofData_at _ _ _ rfl)).1

/-- C28 (field-count framing): the record that `Serialize(element)` appends
for an instance of a class that is not a data class, on a stream that stays
below 4 GiB, holds after the class hash and the length the 32-bit field count,
then exactly that many field entries (a field-name hash followed by one data
element each), then the terminator -1.  So `DeserializeFields`, on a stream
that stands at the count, reads as many entries as the count says, finds the
terminator and returns without the unterminated-field-array exception, when the
written fields are readable. -/
theorem C28_field_count_framing (callbacks : ElementCallbacks) (registry : Registry)
    (a : ArchiveBinary) (c : ObjectClass) (slots : List (Nat × Value))
    (hend : a.m_Stream.AtEnd)
    (hsize : a.m_Stream.data.length +
      (elementBytes a.m_Stream.m_ByteOrder (.object c slots)).length < UINT32) :
    ∃ entries : List (List Nat),
      entries = (writtenFields c slots).map (fun f =>
        toBytes a.m_Stream.m_ByteOrder 4 (Crc32 f.m_Name) ++
          dataElementBytes a.m_Stream.m_ByteOrder f.m_DataClass (slotGet slots f.m_Offset)) ∧
      a.Serialize (some (.object c slots)) =
        .ok (a.emit (toBytes a.m_Stream.m_ByteOrder 4 (Crc32 c.m_Composite.m_Name) ++
          toBytes a.m_Stream.m_ByteOrder 4 (12 + entries.flatten.length) ++
          toBytes a.m_Stream.m_ByteOrder 4 entries.length ++ entries.flatten ++
          toBytes a.m_Stream.m_ByteOrder 4 TERMINATOR)) ∧
      entries.length < 2147483648 ∧
      ∀ (b : ArchiveBinary) (created : List (Nat × Value)) (pre post : List Nat),
        b.m_Stream.m_ByteOrder = a.m_Stream.m_ByteOrder → b.m_Skip = false →
        (∀ e, callbacks.PostDeserialize e = true) →
        (∀ f ∈ writtenFields c slots, f.Readable registry c slots) →
        b.m_Stream.At pre (toBytes a.m_Stream.m_ByteOrder 4 entries.length ++
          (entries.flatten ++ (toBytes a.m_Stream.m_ByteOrder 4 TERMINATOR ++ post))) →
          ArchiveBinary.DeserializeFields callbacks registry b c created =
            .ok (slotsRead slots (writtenFields c slots) created,
              b.skip (4 + (entries.flatten.length + 4))) := by
  have hU : UINT32 = 4294967296 := rfl
  have hflat : ((writtenFields c slots).map (fun f =>
      toBytes a.m_Stream.m_ByteOrder 4 (Crc32 f.m_Name) ++
        dataElementBytes a.m_Stream.m_ByteOrder f.m_DataClass
          (slotGet slots f.m_Offset))).flatten =
      fieldEntriesBytes a.m_Stream.m_ByteOrder slots (writtenFields c slots) := rfl
  have hcount := fieldEntriesBytes_count a.m_Stream.m_ByteOrder slots (writtenFields c slots)
  have hlen := elementBytes_object_length a.m_Stream.m_ByteOrder c slots
  refine ⟨_, rfl, ?_, ?_, ?_⟩
  · rw [hflat, List.length_map]
    exact Serialize_eq a (.object c slots) hend hsize
  · rw [List.length_map]
    omega
  · intro b created pre post hbo hskip hcb hread hat
    rw [hflat, List.length_map] at hat
    rw [hflat]
    rw [← hbo] at hat ⊢
    exact DeserializeFields_at callbacks registry c slots created (writtenFields c slots) b pre
      post hcb hskip hread (by rw [hbo]; omega) hat

set_option maxRecDepth 100000 in
/-- The framing of C28 for the record `Pt{3,4}` on a fresh little-endian
archive. -/
theorem C28_field_count_framing_witness :
    ∃ entries : List (List Nat),
      entries = (writtenFields PtClass [(0, .scalar 3), (4, .scalar 4)]).map (fun f =>
        toBytes (ArchiveBinary.opened (CharStream.opened .LittleEndian)).m_Stream.m_ByteOrder 4
            (Crc32 f.m_Name) ++
          dataElementBytes
            (ArchiveBinary.opened (CharStream.opened .LittleEndian)).m_Stream.m_ByteOrder
            f.m_DataClass (slotGet [(0, .scalar 3), (4, .scalar 4)] f.m_Offset)) ∧
      (ArchiveBinary.opened (CharStream.opened .LittleEndian)).Serialize
          (some (.object PtClass [(0, .scalar 3), (4, .scalar 4)])) =
        .ok ((ArchiveBinary.opened (CharStream.opened .LittleEndian)).emit
          (toBytes (ArchiveBinary.opened (CharStream.opened .LittleEndian)).m_Stream.m_ByteOrder
              4 (Crc32 PtClass.m_Composite.m_Name) ++
            toBytes (ArchiveBinary.opened (CharStream.opened .LittleEndian)).m_Stream.m_ByteOrder
              4 (12 + entries.flatten.length) ++
            toBytes (ArchiveBinary.opened (CharStream.opened .LittleEndian)).m_Stream.m_ByteOrder
              4 entries.length ++ entries.flatten ++
            toBytes (ArchiveBinary.opened (CharStream.opened .LittleEndian)).m_Stream.m_ByteOrder
              4 TERMINATOR)) ∧
      entries.length < 2147483648 ∧
      ∀ (b : ArchiveBinary) (created : List (Nat × Value)) (pre post : List Nat),
        b.m_Stream.m_ByteOrder =
          (ArchiveBinary.opened (CharStream.opened .LittleEndian)).m_Stream.m_ByteOrder →
        b.m_Skip = false →
        (∀ e, defaultCallbacks.PostDeserialize e = true) →
        (∀ f ∈ writtenFields PtClass [(0, .scalar 3), (4, .scalar 4)],
          f.Readable s1Registry PtClass [(0, .scalar 3), (4, .scalar 4)]) →
        b.m_Stream.At pre
          (toBytes (ArchiveBinary.opened (CharStream.opened .LittleEndian)).m_Stream.m_ByteOrder
              4 entries.length ++
            (entries.flatten ++
              (toBytes
                (ArchiveBinary.opened (CharStream.opened .LittleEndian)).m_Stream.m_ByteOrder
                4 TERMINATOR ++ post))) →
          ArchiveBinary.DeserializeFields defaultCallbacks s1Registry b PtClass created =
            .ok (slotsRead [(0, .scalar 3), (4, .scalar 4)]
                (writtenFields PtClass [(0, .scalar 3), (4, .scalar 4)]) created,
              b.skip (4 + (entries.flatten.length + 4))) :=
  C28_field_count_framing defaultCallbacks s1Registry
    (ArchiveBinary.opened (CharStream.opened .LittleEndian)) PtClass
    [(0, .scalar 3), (4, .scalar 4)] rfl (by decide)

/-! ## Claims about the cached schedule -/

theorem keptFuncs_all_some : ∀ f : List (Option Nat), none ∉ f → keptFuncs f = f := by
  intro f
  induction f with
  | nil => intro _; rfl
  | cons x rest ih =>
    intro h
    cases x with
    | none => exact absurd (List.mem_cons_self _ _) h
    | some v =>
      rw [keptFuncs_cons_some, ih (fun hn => h (List.mem_cons_of_mem _ hn))]

theorem keptInfos_all_some :
    ∀ (f : List (Option Nat)) (i : List Nat), f.length = i.length → none ∉ f →
      keptInfos f i = i := by
  intro f
  induction f with
  | nil =>
    intro i hl _
    cases i with
    | nil => rfl
    | cons a rest => simp at hl
  | cons x rest ih =>
    intro i hl h
    cases i with
    | nil => simp at hl
    | cons a is =>
      cases x with
      | none => exact absurd (List.mem_cons_self _ _) h
      | some v =>
        simp only [List.length_cons, Nat.add_right_cancel_iff] at hl
        simp only [keptInfos, ih is hl (fun hn => h (List.mem_cons_of_mem _ hn))]

theorem emitted_not_mem {ts : List TaskDefinition} :
    ∀ (added base : List Nat), Emitted ts base added → ∀ x ∈ added, x ∉ base := by
  intro added
  induction added with
  | nil => intro base _ x hx; cases hx
  | cons y rest ih =>
    intro base h x hx
    simp only [Emitted] at h
    rcases List.mem_cons.mp hx with rfl | hx
    · exact h.1
    · intro hb
      exact ih _ h.2.2.2 x hx (List.mem_append_left _ hb)

/-- What a successful call leaves of the two arrays, from arrays of equal
length: the arrays have equal length and no function is null. -/
theorem CalculateSchedule_parallel {tools : Bool} {D : TaskDefinition → TaskContract}
    {mask : Nat} {s s' : TaskScheduler}
    (hpar : s.m_ScheduleFunc.length = s.m_ScheduleInfo.length)
    (h : CalculateSchedule tools D mask s = some (true, s')) :
    s'.m_ScheduleFunc.length = s'.m_ScheduleInfo.length ∧ none ∉ s'.m_ScheduleFunc := by
  obtain ⟨ts, added, _, _, _, hi, hf, _⟩ := CalculateSchedule_true hpar h
  constructor
  · rw [hi, hf]
    exact (keptInfos_length _ _ (by simp [hpar])).symm
  · rw [hf]
    exact not_mem_keptFuncs_none _

theorem executeLoop_spec (tasks : List TaskDefinition) (infos : List Nat) :
    ∀ (rest : List Nat) (i : Nat), infos.drop i = rest →
      (∀ p ∈ rest, (funcOf tasks p).isSome = true) →
      ∃ called, executeLoop tasks infos i (rest.map (funcOf tasks)) = some called ∧
        called.map some = rest.map (funcOf tasks) := by
  intro rest
  induction rest with
  | nil =>
    intro i _ _
    exact ⟨[], rfl, rfl⟩
  | cons p rest ih =>
    intro i hdrop hsome
    obtain ⟨func, hfunc⟩ := Option.isSome_iff_exists.mp (hsome p (List.mem_cons_self _ _))
    have hget : infos[i]? = some p := by
      have := List.head?_drop infos i
      rw [hdrop] at this
      simpa using this.symm
    have hnext : infos.drop (i + 1) = rest := by
      have := List.drop_drop 1 i infos
      rw [hdrop] at this
      simpa [Nat.add_comm] using this.symm
    obtain ⟨called, hc, hm⟩ := ih (i + 1) hnext
      (fun q hq => hsome q (List.mem_cons_of_mem _ hq))
    refine ⟨func :: called, ?_, ?_⟩
    · simp only [List.map_cons, hfunc, executeLoop, hget, if_true, hc, Option.map_some']
    · simp only [List.map_cons, hfunc, hm]

/-- C29 (schedule arrays stay parallel): starting from an empty cached
schedule, after `CalculateSchedule` returns true the arrays `m_ScheduleFunc`
and `m_ScheduleInfo` have the same length, no entry of `m_ScheduleFunc` is
null, and at every index the function is the `m_Func` of the task at that
index; `ExecuteSchedule` then calls every function of the schedule, in order,
with its assertion holding.  The compaction keeps the entries with a non-null
function in their relative order. -/
theorem C29_schedule_parallel (tools : Bool) (D : TaskDefinition → TaskContract) (mask : Nat)
    (s s' : TaskScheduler)
    (hI : s.m_ScheduleInfo = []) (hF : s.m_ScheduleFunc = [])
    (h : CalculateSchedule tools D mask s = some (true, s')) :
    s'.m_ScheduleFunc.length = s'.m_ScheduleInfo.length ∧
    none ∉ s'.m_ScheduleFunc ∧
    s'.m_ScheduleFunc = s'.m_ScheduleInfo.map (funcOf s'.tasks) ∧
    (∃ called, ExecuteSchedule s' = some called ∧ called.map some = s'.m_ScheduleFunc) ∧
    (∃ l : TaskLists,
      compactSchedule l.rTaskFuncList l.rTaskInfoList =
        some (s'.m_ScheduleFunc, s'.m_ScheduleInfo) ∧
      s'.m_ScheduleFunc.Sublist l.rTaskFuncList ∧
      s'.m_ScheduleInfo.Sublist l.rTaskInfoList) ∧
    (∀ (funcs : List (Option Nat)) (infos : List Nat), funcs.length = infos.length →
      compactSchedule funcs infos = some (keptFuncs funcs, keptInfos funcs infos) ∧
        (keptFuncs funcs).Sublist funcs ∧ (keptInfos funcs infos).Sublist infos) := by
  obtain ⟨hlen, hnone⟩ := CalculateSchedule_parallel (by simp [hI, hF]) h
  obtain ⟨ts, added, hres, hem, hall, hi, hf, ht⟩ := CalculateSchedule_true_empty hI hF h
  have hmap : s'.m_ScheduleFunc = s'.m_ScheduleInfo.map (funcOf s'.tasks) := by
    rw [hf, hi, ht]
    apply List.map_congr_left
    intro p _
    exact (funcOf_map_clearTask ts p).symm
  have hsome : ∀ p ∈ s'.m_ScheduleInfo, (funcOf s'.tasks p).isSome = true := by
    intro p hp
    rw [hi] at hp
    rw [ht, funcOf_map_clearTask]
    exact (List.mem_filter.mp hp).2
  have hcompact : ∀ (funcs : List (Option Nat)) (infos : List Nat),
      funcs.length = infos.length →
      compactSchedule funcs infos = some (keptFuncs funcs, keptInfos funcs infos) ∧
        (keptFuncs funcs).Sublist funcs ∧ (keptInfos funcs infos).Sublist infos :=
    fun funcs infos hl => ⟨compactSchedule_eq funcs infos hl, List.filter_sublist _,
      keptInfos_sublist funcs infos⟩
  refine ⟨hlen, hnone, hmap, ?_, ?_, hcompact⟩
  · obtain ⟨called, hc, hm⟩ := executeLoop_spec s'.tasks s'.m_ScheduleInfo s'.m_ScheduleInfo 0
      rfl hsome
    refine ⟨called, ?_, by rw [hm, ← hmap]⟩
    unfold ExecuteSchedule
    rw [hmap]
    exact hc
  · refine ⟨⟨added, added.map (funcOf ts), []⟩, ?_, ?_, ?_⟩
    · rw [compactSchedule_eq _ _ (by simp), hf, hi, keptFuncs_map, keptInfos_map]
    · rw [hf]
      exact List.Sublist.map _ (List.filter_sublist _)
    · rw [hi]
      exact List.filter_sublist _

set_option maxRecDepth 100000 in
/-- The arrays of C29 after the call on the three chained tasks with the
mask 1. -/
theorem C29_schedule_parallel_witness :
    chainResult.m_ScheduleFunc.length = chainResult.m_ScheduleInfo.length ∧
      none ∉ chainResult.m_ScheduleFunc ∧
      chainResult.m_ScheduleFunc = chainResult.m_ScheduleInfo.map (funcOf chainResult.tasks) ∧
      ∃ called, ExecuteSchedule chainResult = some called ∧
        called.map some = chainResult.m_ScheduleFunc :=
  ⟨(C29_schedule_parallel true chainContract 1
      { tasks := chainTasks, m_ScheduleInfo := [], m_ScheduleFunc := [] } chainResult
      rfl rfl (by decide)).1,
    (C29_schedule_parallel true chainContract 1
      { tasks := chainTasks, m_ScheduleInfo := [], m_ScheduleFunc := [] } chainResult
      rfl rfl (by decide)).2.1,
    (C29_schedule_parallel true chainContract 1
      { tasks := chainTasks, m_ScheduleInfo := [], m_ScheduleFunc := [] } chainResult
      rfl rfl (by decide)).2.2.1,
    (C29_schedule_parallel true chainContract 1
      { tasks := chainTasks, m_ScheduleInfo := [], m_ScheduleFunc := [] } chainResult
      rfl rfl (by decide)).2.2.2.1⟩

/-- A depth-first pass from an empty list that emitted every task walked a
graph without a cycle. -/
theorem no_cycle_of_emitted {ts : List TaskDefinition} {added : List Nat}
    (hem : Emitted ts [] added) (hall : ∀ p ∈ ts.map (·.m_Addr), p ∈ added) :
    ∀ x, ¬ Relation.TransGen (Requires ts) x x := by
  intro x hx
  obtain ⟨y, hxy, _⟩ := Relation.TransGen.head'_iff.mp hx
  obtain ⟨t, ht, _⟩ := hxy
  have hmem : x ∈ added := hall x (mem_addrs_of_findTask ht)
  obtain ⟨pre, post, e⟩ := List.append_of_mem hmem
  have hout : Relation.TransGen (RequiresOutside ts []) x x :=
    Relation.TransGen.mono (fun a b hab => ⟨hab, List.not_mem_nil _, List.not_mem_nil _⟩) hx
  have hpre := emitted_transGen hem hout pre post e
  have hnd : added.Nodup := by simpa using emitted_nodup added [] hem List.nodup_nil
  rw [e] at hnd
  have := (List.nodup_append.mp hnd).2.2 hpre (List.mem_cons_self _ _)
  exact this

/-- The first loop of a second call finds the tasks as the first loop of the
first call left them, when the contract of a task depends on the task alone and
the arrays `m_RequiredTasks` were empty before the first call. -/
theorem definedTasks_recalc {D : TaskDefinition → TaskContract} {mask : Nat}
    {tasks ts : List TaskDefinition}
    (hD : ∀ t t' : TaskDefinition, t.m_Addr = t'.m_Addr → D t = D t')
    (hreq : ∀ t ∈ tasks, t.m_RequiredTasks = [])
    (hres : resolveEdges D mask tasks = some ts) :
    definedTasks D mask (ts.map clearTask) = definedTasks D mask tasks := by
  obtain ⟨g, e, hg⟩ := resolveEdges_grown hres
  rw [e]
  unfold definedTasks
  rw [List.map_map, List.map_map, List.map_map]
  apply List.map_congr_left
  intro t ht
  simp only [Function.comp_apply]
  obtain ⟨h1, h2, h3, h4, _⟩ := hg (definePass D mask t)
  have hr := hreq t ht
  generalize g (definePass D mask t) = u at h1 h2 h3 h4
  obtain ⟨ua, uf, ul, uc, ur⟩ := u
  obtain ⟨ta, tf, tl, tc, tr⟩ := t
  simp only [definePass] at h1 h2 h3 h4
  simp only at hr
  subst h1 h2 h3 h4 hr
  obtain ⟨d, hd⟩ : ∃ d, d = D ⟨ua, tf, ul, tc, []⟩ := ⟨_, rfl⟩
  have hc : ∀ (f : Option Nat) (c : TaskContract) (r : List Nat),
      D ⟨ua, f, ul, c, r⟩ = d := by
    intro f c r
    rw [hd]
    exact hD _ _ rfl
  simp only [definePass, clearTask, hc]
  by_cases hm : d.m_TickType &&& mask = 0
  · simp only [hm, if_true]
  · simp only [hm, if_false]

/-- C30 (recalculation keeps the cached entries): let `s1` be the state a
successful call of `CalculateSchedule` left, from arrays of equal length.  When
a later call, whatever its mask, contracts and task list, returns true from the
cache of `s1`, the new `m_ScheduleInfo` and `m_ScheduleFunc` are those of `s1`
followed by appended entries, none of which is a task of the cached schedule.
And when the first call started from an empty cache with empty
`m_RequiredTasks` arrays, and the contract of a task depends on the task alone,
a second call with the same mask and contracts returns true and leaves the
state as it is: the same schedule, in which no task stands twice. -/
theorem C30_recalculation (tools : Bool) (D : TaskDefinition → TaskContract) (mask : Nat)
    (s0 s1 : TaskScheduler)
    (hpar : s0.m_ScheduleFunc.length = s0.m_ScheduleInfo.length)
    (h1 : CalculateSchedule tools D mask s0 = some (true, s1)) :
    (∀ (tools' : Bool) (D' : TaskDefinition → TaskContract) (mask' : Nat)
      (tasks' : List TaskDefinition) (s2 : TaskScheduler),
      CalculateSchedule tools' D' mask' { s1 with tasks := tasks' } = some (true, s2) →
      ∃ extra : List Nat,
        s2.m_ScheduleInfo = s1.m_ScheduleInfo ++ extra ∧
        s2.m_ScheduleFunc = s1.m_ScheduleFunc ++ extra.map (funcOf s2.tasks) ∧
        (∀ x ∈ extra, x ∉ s1.m_ScheduleInfo) ∧
        ∀ x ∈ extra, ∃ t ∈ tasks', t.m_Addr = x) ∧
    (s0.m_ScheduleInfo = [] → (∀ t ∈ s0.tasks, t.m_RequiredTasks = []) →
      (∀ t t' : TaskDefinition, t.m_Addr = t'.m_Addr → D t = D t') →
      CalculateSchedule tools D mask s1 = some (true, s1) ∧ s1.m_ScheduleInfo.Nodup) := by
  obtain ⟨hlen1, hnone1⟩ := CalculateSchedule_parallel hpar h1
  have key : ∀ (tools' : Bool) (D' : TaskDefinition → TaskContract) (mask' : Nat)
      (tasks' : List TaskDefinition) (s2 : TaskScheduler),
      CalculateSchedule tools' D' mask' { s1 with tasks := tasks' } = some (true, s2) →
      ∃ ts2 added2, resolveEdges D' mask' tasks' = some ts2 ∧
        Emitted ts2 s1.m_ScheduleInfo added2 ∧
        (∀ p ∈ tasks'.map (·.m_Addr), p ∈ s1.m_ScheduleInfo ++ added2) ∧
        s2.m_ScheduleInfo =
          s1.m_ScheduleInfo ++ added2.filter (fun x => (funcOf ts2 x).isSome) ∧
        s2.m_ScheduleFunc =
          s1.m_ScheduleFunc ++ (added2.filter (fun x => (funcOf ts2 x).isSome)).map
            (funcOf ts2) ∧
        s2.tasks = ts2.map clearTask := by
    intro tools' D' mask' tasks' s2 h2
    obtain ⟨ts2, added2, hres2, hem2, hall2, hi2, hf2, ht2⟩ :=
      @CalculateSchedule_true tools' D' mask' { s1 with tasks := tasks' } s2 hlen1 h2
    simp only at hres2 hem2 hall2 hi2 hf2
    refine ⟨ts2, added2, hres2, hem2, hall2, ?_, ?_, ht2⟩
    · rw [hi2, keptInfos_append _ _ _ _ hlen1, keptInfos_all_some _ _ hlen1 hnone1,
        keptInfos_map]
    · rw [hf2, keptFuncs_append, keptFuncs_all_some _ hnone1, keptFuncs_map]
  constructor
  · intro tools' D' mask' tasks' s2 h2
    obtain ⟨ts2, added2, hres2, hem2, _, hi2, hf2, ht2⟩ := key tools' D' mask' tasks' s2 h2
    refine ⟨added2.filter (fun x => (funcOf ts2 x).isSome), hi2, ?_, ?_, ?_⟩
    · rw [hf2, ht2]
      congr 1
      apply List.map_congr_left
      intro p _
      exact (funcOf_map_clearTask ts2 p).symm
    · intro x hx
      exact emitted_not_mem added2 _ hem2 x (List.mem_filter.mp hx).1
    · intro x hx
      obtain ⟨t, ht⟩ := emitted_valid added2 _ hem2 x (List.mem_filter.mp hx).1
      have hmem := mem_addrs_of_findTask ht
      rw [resolveEdges_addrs hres2] at hmem
      obtain ⟨t', ht', hta⟩ := List.mem_map.mp hmem
      exact ⟨t', ht', hta⟩
  · intro hI0 hreq hD
    have hF0 : s0.m_ScheduleFunc = [] := by
      apply List.eq_nil_of_length_eq_zero
      rw [hpar, hI0]
      rfl
    obtain ⟨ts, added, hres, hem, hall, hi, hf, ht⟩ := CalculateSchedule_true_empty hI0 hF0 h1
    have hnd : s1.m_ScheduleInfo.Nodup := by
      rw [hi]
      exact (by simpa using emitted_nodup added [] hem List.nodup_nil : added.Nodup).filter _
    have hres1 : resolveEdges D mask s1.tasks = some ts := by
      rw [ht, resolveEdges_eq, definedTasks_recalc hD hreq hres, ← resolveEdges_eq]
      exact hres
    have hv1 : RequiredValid s1.tasks := by
      apply requiredValid_of_empty
      intro t htm
      rw [ht] at htm
      obtain ⟨t0, _, rfl⟩ := List.mem_map.mp htm
      rfl
    have hall' : ∀ p ∈ ts.map (·.m_Addr), p ∈ added := by
      intro p hp
      rw [resolveEdges_addrs hres] at hp
      exact hall p hp
    refine ⟨?_, hnd⟩
    rcases @CalculateSchedule_cases tools D mask s1 ts hres1 hv1 hlen1 with ⟨s2, h2⟩ | ⟨_, x, hx⟩
    · rw [h2]
      have h2' : CalculateSchedule tools D mask { s1 with tasks := s1.tasks } =
          some (true, s2) := h2
      obtain ⟨ts2, added2, hres2, hem2, hall2, hi2, hf2, ht2⟩ :=
        key tools D mask s1.tasks s2 h2'
      rw [hres1] at hres2
      cases hres2
      have hnil : added2.filter (fun x => (funcOf ts x).isSome) = [] := by
        apply List.filter_eq_nil_iff.mpr
        intro x hx hs
        have hnot := emitted_not_mem added2 _ hem2 x hx
        obtain ⟨t, htx⟩ := emitted_valid added2 _ hem2 x hx
        have hin : x ∈ added := hall' x (mem_addrs_of_findTask htx)
        exact hnot (by rw [hi]; exact List.mem_filter.mpr ⟨hin, hs⟩)
      rw [hnil, List.append_nil] at hi2
      rw [hnil, List.map_nil, List.append_nil] at hf2
      obtain ⟨t2, i2, f2⟩ := s2
      obtain ⟨t1, i1, f1⟩ := s1
      simp only at hi2 hf2 ht2 ht
      subst hi2 hf2
      rw [ht2, ← ht]
    · exact absurd hx (no_cycle_of_emitted hem hall' x)

set_option maxRecDepth 100000 in
/-- The recalculation of C30 on the three chained tasks with the mask 1: the
second call returns true and leaves the schedule `[1, 3]` as it is. -/
theorem C30_recalculation_witness :
    CalculateSchedule true chainContract 1 chainResult = some (true, chainResult) ∧
      chainResult.m_ScheduleInfo.Nodup :=
  (C30_recalculation true chainContract 1
    { tasks := chainTasks, m_ScheduleInfo := [], m_ScheduleFunc := [] } chainResult
    rfl (by decide)).2 rfl (by decide) (by
      intro t t' h
      unfold chainContract
      rw [h])

/-! ## Runs of several calls

The task list is fixed when the program starts, and a contract is a function
of the task that declares it.  A call can only null functions and, when it
fails, leave prerequisite edges behind; the lemmas below compare the edges
two calls resolve. -/

theorem addRequired_under (target value : Nat) {A B : List TaskDefinition}
    (h : List.Forall₂ Under A B) :
    List.Forall₂ Under (addRequired target value A) (addRequired target value B) := by
  unfold addRequired
  rw [List.forall₂_map_left_iff, List.forall₂_map_right_iff]
  refine h.imp ?_
  intro a b hab
  obtain ⟨haddr, hsub⟩ := hab
  by_cases ha : a.m_Addr = target
  · have hb : b.m_Addr = target := haddr ▸ ha
    rw [if_pos ha, if_pos hb]
    refine ⟨haddr, ?_⟩
    intro x hx
    rcases List.mem_append.mp hx with hx | hx
    · exact List.mem_append_left _ (hsub x hx)
    · exact List.mem_append_right _ hx
  · have hb : ¬ b.m_Addr = target := haddr ▸ ha
    rw [if_neg ha, if_neg hb]
    exact ⟨haddr, hsub⟩

theorem applyPair_under (ty : OrderRequirementType) (outer inner : Nat)
    {A B : List TaskDefinition} (h : List.Forall₂ Under A B) :
    List.Forall₂ Under (applyPair ty outer inner A) (applyPair ty outer inner B) := by
  cases ty
  · exact addRequired_under inner outer h
  · exact addRequired_under outer inner h

theorem applyInner_under (ty : OrderRequirementType) (outer : Nat) :
    ∀ (inners : List Nat) {A B : List TaskDefinition}, List.Forall₂ Under A B →
      List.Forall₂ Under (applyInner ty outer inners A) (applyInner ty outer inners B) := by
  intro inners
  induction inners with
  | nil => intro A B h; exact h
  | cons i rest ih =>
    intro A B h
    exact ih (applyPair_under ty outer i h)

theorem applyOuter_under (ty : OrderRequirementType) (inners : List Nat) :
    ∀ (outers : List Nat) {A B : List TaskDefinition}, List.Forall₂ Under A B →
      List.Forall₂ Under (applyOuter ty outers inners A) (applyOuter ty outers inners B) := by
  intro outers
  induction outers with
  | nil => intro A B h; exact h
  | cons o rest ih =>
    intro A B h
    exact ih (applyInner_under ty o inners h)

theorem applyRequirements_under (m : List (Nat × List Nat)) (outers : List Nat) :
    ∀ (reqs : List OrderRequirement) {A B A' B' : List TaskDefinition},
      List.Forall₂ Under A B → applyRequirements m outers reqs A = some A' →
        applyRequirements m outers reqs B = some B' → List.Forall₂ Under A' B' := by
  intro reqs
  induction reqs with
  | nil =>
    intro A B A' B' h hA hB
    simp only [applyRequirements, Option.some.injEq] at hA hB
    subst hA; subst hB
    exact h
  | cons r rs ih =>
    intro A B A' B' h hA hB
    cases hm : mapFind r.m_Dependency m with
    | none => simp [applyRequirements, hm] at hA
    | some inners =>
      simp only [applyRequirements, hm] at hA hB
      exact ih (applyOuter_under r.m_Type inners outers h) hA hB

theorem materializeEdges_under (m : List (Nat × List Nat)) {travA travB : List TaskDefinition}
    (ht : List.Forall₂ Declared travA travB) :
    ∀ {A B A' B' : List TaskDefinition}, List.Forall₂ Under A B →
      materializeEdges m travA A = some A' → materializeEdges m travB B = some B' →
        List.Forall₂ Under A' B' := by
  induction ht with
  | nil =>
    intro A B A' B' h hA hB
    simp only [materializeEdges, Option.some.injEq] at hA hB
    subst hA; subst hB
    exact h
  | @cons a b la lb hab _ ih =>
    intro A B A' B' h hA hB
    obtain ⟨_, hl, hc⟩ := hab
    simp only [materializeEdges] at hA hB
    rw [← hl, ← hc] at hB
    cases hm : mapFind a.m_DependencyReverseLookup m with
    | none => simp [hm] at hA
    | some outers =>
      simp only [hm] at hA hB
      cases hA1 : applyRequirements m outers a.m_Contract.m_OrderRequirements A with
      | none => simp [hA1] at hA
      | some A1 =>
        cases hB1 : applyRequirements m outers a.m_Contract.m_OrderRequirements B with
        | none => simp [hB1] at hB
        | some B1 =>
          simp only [hA1] at hA
          simp only [hB1] at hB
          exact ih (applyRequirements_under m outers _ h hA1 hB1) hA hB

theorem buildContributionMap_declared {A B : List TaskDefinition}
    (h : List.Forall₂ Declared A B) : buildContributionMap A = buildContributionMap B := by
  unfold buildContributionMap
  generalize ([] : List (Nat × List Nat)) = m
  induction h generalizing m with
  | nil => rfl
  | @cons a b la lb hab _ ih =>
    have hstep : contributeTask m a = contributeTask m b := by
      unfold contributeTask
      rw [hab.1, hab.2.2]
    simp only [List.foldl_cons, hstep]
    exact ih _

theorem findTask_under {A B : List TaskDefinition} (h : List.Forall₂ Under A B) (p : Nat) :
    ∀ a, findTask A p = some a → ∃ b, findTask B p = some b ∧ Under a b := by
  induction h with
  | nil => intro a ha; simp [findTask] at ha
  | @cons x y la lb hxy _ ih =>
    intro a ha
    by_cases hx : x.m_Addr = p
    · have hy : y.m_Addr = p := hxy.1 ▸ hx
      simp only [findTask, List.find?_cons, hx, decide_True, Option.some.injEq] at ha
      subst ha
      exact ⟨y, by simp [findTask, List.find?_cons, hy], hxy⟩
    · have hy : ¬ y.m_Addr = p := hxy.1 ▸ hx
      simp only [findTask, List.find?_cons, hx, decide_False] at ha
      obtain ⟨b, hb, hab⟩ := ih a ha
      exact ⟨b, by simpa [findTask, List.find?_cons, hy] using hb, hab⟩

/-- Prerequisite edges pass from a task list to one that holds them all. -/
theorem requires_under {A B : List TaskDefinition} (h : List.Forall₂ Under A B) {x y : Nat}
    (hxy : Requires A x y) : Requires B x y := by
  obtain ⟨a, ha, hy⟩ := hxy
  obtain ⟨b, hb, hab⟩ := findTask_under h x a ha
  exact ⟨b, hb, hab.2 y hy⟩

theorem definedTasks_earlier {D : TaskDefinition → TaskContract}
    (hD : ∀ t t' : TaskDefinition, t.m_Addr = t'.m_Addr → D t = D t') (mA mB : Nat)
    {A B : List TaskDefinition} (h : List.Forall₂ Earlier A B) :
    List.Forall₂ (fun a b => Declared a b ∧ Under a b)
      (definedTasks D mA A) (definedTasks D mB B) := by
  unfold definedTasks
  rw [List.forall₂_map_left_iff, List.forall₂_map_right_iff]
  refine h.imp ?_
  intro a b hab
  obtain ⟨hl, haddr, hsub⟩ := hab
  exact ⟨⟨haddr, hl, hD a b haddr⟩, haddr, hsub⟩

/-- The edges a call resolves from a task list are among the edges a call,
with any tick type, resolves from a list of the same tasks that holds at
least the same edges on entry. -/
theorem resolveEdges_under {D : TaskDefinition → TaskContract}
    (hD : ∀ t t' : TaskDefinition, t.m_Addr = t'.m_Addr → D t = D t') {mA mB : Nat}
    {A B tsA tsB : List TaskDefinition} (h : List.Forall₂ Earlier A B)
    (hA : resolveEdges D mA A = some tsA) (hB : resolveEdges D mB B = some tsB) :
    List.Forall₂ Under tsA tsB := by
  rw [resolveEdges_eq] at hA hB
  have hdef := definedTasks_earlier hD mA mB h
  rw [buildContributionMap_declared (hdef.imp (fun _ _ hab => hab.1))] at hA
  exact materializeEdges_under _ (hdef.imp (fun _ _ hab => hab.1))
    (hdef.imp (fun _ _ hab => hab.2)) hA hB

/-- The task list a successful call leaves holds the tasks it found, without
prerequisite edges. -/
theorem cleared_earlier {D : TaskDefinition → TaskContract} {mask : Nat}
    {tasks ts : List TaskDefinition} (hres : resolveEdges D mask tasks = some ts) :
    List.Forall₂ Earlier (ts.map clearTask) tasks := by
  obtain ⟨g, hts, hg⟩ := resolveEdges_grown hres
  subst hts
  unfold definedTasks
  rw [List.map_map, List.map_map, List.forall₂_map_left_iff, List.forall₂_same]
  intro t _
  obtain ⟨haddr, _, hl, _, _⟩ := hg (definePass D mask t)
  refine ⟨?_, ?_, ?_⟩
  · show (g (definePass D mask t)).m_DependencyReverseLookup = t.m_DependencyReverseLookup
    rw [hl]; rfl
  · show (g (definePass D mask t)).m_Addr = t.m_Addr
    rw [haddr]; rfl
  · intro x hx
    simp [clearTask] at hx

/-- The state a failed call leaves. -/
theorem CalculateSchedule_false {tools : Bool} {D : TaskDefinition → TaskContract}
    {mask : Nat} {s s' : TaskScheduler}
    (h : CalculateSchedule tools D mask s = some (false, s')) :
    ∃ ts, resolveEdges D mask s.tasks = some ts ∧
      s' = { tasks := ts, m_ScheduleInfo := [], m_ScheduleFunc := [] } := by
  unfold CalculateSchedule at h
  cases hres : resolveEdges D mask s.tasks with
  | none => simp [hres] at h
  | some ts =>
    refine ⟨ts, rfl, ?_⟩
    simp only [hres] at h
    cases hins : insertAll tools ts (ts.length + 1) (ts.map (·.m_Addr))
        { rTaskInfoList := s.m_ScheduleInfo, rTaskFuncList := s.m_ScheduleFunc,
          rTaskStack := [] } with
    | none => simp [hins] at h
    | some res =>
      obtain ⟨b, l⟩ := res
      cases b with
      | false =>
        simp only [hins, Option.some.injEq, Prod.mk.injEq, true_and] at h
        exact h.symm
      | true =>
        simp only [hins] at h
        cases hc : compactSchedule l.rTaskFuncList l.rTaskInfoList with
        | none => simp [hc] at h
        | some r =>
          obtain ⟨f, i⟩ := r
          simp [hc] at h

/-- The tasks a successful call leaves with a function are the tasks that had
one and were in phase. -/
theorem cleared_func {D : TaskDefinition → TaskContract} {mask : Nat}
    {tasks ts : List TaskDefinition} (hres : resolveEdges D mask tasks = some ts)
    {u : TaskDefinition} (hu : u ∈ ts.map clearTask) (hf : u.m_Func ≠ none) :
    ∃ t ∈ tasks, t.m_Addr = u.m_Addr ∧ t.m_Func ≠ none ∧ (D t).m_TickType &&& mask ≠ 0 := by
  obtain ⟨g, hts, hg⟩ := resolveEdges_grown hres
  subst hts
  unfold definedTasks at hu
  rw [List.map_map, List.map_map] at hu
  obtain ⟨t, ht, rfl⟩ := List.mem_map.mp hu
  obtain ⟨haddr, hfunc, _, _, _⟩ := hg (definePass D mask t)
  refine ⟨t, ht, ?_, ?_⟩
  · show t.m_Addr = (g (definePass D mask t)).m_Addr
    rw [haddr]; rfl
  · have hf' : (definePass D mask t).m_Func ≠ none := by
      rw [← hfunc]; exact hf
    by_cases hm : (D t).m_TickType &&& mask = 0
    · exact absurd (by simp [definePass, hm]) hf'
    · refine ⟨?_, hm⟩
      simpa [definePass, hm] using hf'

/-- What a successful call from a state of a run leaves: every task with a
function that is in phase is in the schedule, and the schedule follows the
prerequisite edges the call resolved. -/
theorem success_ordered {tools : Bool} {D : TaskDefinition → TaskContract} {mask : Nat}
    {s s' : TaskScheduler} {ts : List TaskDefinition}
    (hpar : s.m_ScheduleFunc.length = s.m_ScheduleInfo.length)
    (hnone : none ∉ s.m_ScheduleFunc) (hnd : (s.tasks.map (·.m_Addr)).Nodup)
    (hcache : s.m_ScheduleInfo = [] ∨
      ((∀ t ∈ s.tasks, t.m_Func ≠ none → t.m_Addr ∈ s.m_ScheduleInfo) ∧
        ∀ m r, resolveEdges D m s.tasks = some r → ∀ a b, Relation.TransGen (Requires r) b a →
          a ∈ s.m_ScheduleInfo → b ∈ s.m_ScheduleInfo →
            s.m_ScheduleInfo.indexOf a < s.m_ScheduleInfo.indexOf b))
    (h : CalculateSchedule tools D mask s = some (true, s'))
    (hres : resolveEdges D mask s.tasks = some ts) :
    (∀ t ∈ s.tasks, t.m_Func ≠ none → (D t).m_TickType &&& mask ≠ 0 →
        t.m_Addr ∈ s'.m_ScheduleInfo) ∧
      ∀ a b, Relation.TransGen (Requires ts) b a →
        a ∈ s'.m_ScheduleInfo → b ∈ s'.m_ScheduleInfo →
          s'.m_ScheduleInfo.indexOf a < s'.m_ScheduleInfo.indexOf b := by
  rcases hcache with hI | ⟨hmem, hord⟩
  · have hF : s.m_ScheduleFunc = [] := by
      apply List.eq_nil_of_length_eq_zero
      rw [hpar, hI]; rfl
    obtain ⟨ts0, added, hres0, _, hall, hi, _, _⟩ := CalculateSchedule_true_empty hI hF h
    rw [hres] at hres0
    cases hres0
    refine ⟨?_, ?_⟩
    · intro t ht hf hm
      rw [hi]
      refine List.mem_filter.mpr ⟨hall _ (List.mem_map.mpr ⟨t, ht, rfl⟩), ?_⟩
      rw [funcOf_resolved hres hnd ht, if_neg hm]
      cases hf' : t.m_Func with
      | none => exact absurd hf' hf
      | some f => rfl
    · intro a b hba ha hb
      exact schedule_order hI hF h hres hba ha hb
  · obtain ⟨ts0, added, hres0, hem, _, hi, _, _⟩ := CalculateSchedule_true hpar h
    rw [hres] at hres0
    cases hres0
    have hkeep : s'.m_ScheduleInfo = s.m_ScheduleInfo := by
      rw [hi, keptInfos_append _ _ _ _ hpar, keptInfos_all_some _ _ hpar hnone, keptInfos_map]
      have hnil : added.filter (fun x => (funcOf ts x).isSome) = [] := by
        rw [List.filter_eq_nil_iff]
        intro x hx
        obtain ⟨u, hu⟩ := emitted_valid added _ hem x hx
        have hxin := mem_addrs_of_findTask hu
        rw [resolveEdges_addrs hres] at hxin
        obtain ⟨t, ht, hta⟩ := List.mem_map.mp hxin
        have hnot : t.m_Addr ∉ s.m_ScheduleInfo := by
          rw [hta]; exact emitted_not_mem added _ hem x hx
        have hfn : t.m_Func = none := by
          by_contra hne
          exact hnot (hmem t ht hne)
        have hfo := funcOf_resolved hres hnd ht
        rw [hta, hfn] at hfo
        rw [hfo]
        simp
      rw [hnil, List.append_nil]
    rw [hkeep]
    exact ⟨fun t ht hf _ => hmem t ht hf, hord mask ts hres⟩

/-- In every state a run reaches, the two arrays are parallel without a null
function and, when the cached schedule is not empty, it holds every task that
still has a function and follows the prerequisite edges any call resolves. -/
theorem reachable_ordered {tools : Bool} {D : TaskDefinition → TaskContract}
    {tasks : List TaskDefinition}
    (hD : ∀ t t' : TaskDefinition, t.m_Addr = t'.m_Addr → D t = D t')
    (hnd : (tasks.map (·.m_Addr)).Nodup) {s : TaskScheduler}
    (hreach : Reachable tools D tasks s) :
    s.m_ScheduleFunc.length = s.m_ScheduleInfo.length ∧ none ∉ s.m_ScheduleFunc ∧
      (s.tasks.map (·.m_Addr)).Nodup ∧
      (s.m_ScheduleInfo = [] ∨
        ((∀ t ∈ s.tasks, t.m_Func ≠ none → t.m_Addr ∈ s.m_ScheduleInfo) ∧
          ∀ m r, resolveEdges D m s.tasks = some r → ∀ a b,
            Relation.TransGen (Requires r) b a →
              a ∈ s.m_ScheduleInfo → b ∈ s.m_ScheduleInfo →
                s.m_ScheduleInfo.indexOf a < s.m_ScheduleInfo.indexOf b)) := by
  induction hreach with
  | start => exact ⟨rfl, List.not_mem_nil _, hnd, Or.inl rfl⟩
  | @call s s' mask result _ hcall ih =>
    obtain ⟨hpar, hnone, hnds, hcache⟩ := ih
    cases result with
    | false =>
      obtain ⟨ts, hres, hs'⟩ := CalculateSchedule_false hcall
      subst hs'
      refine ⟨rfl, List.not_mem_nil _, ?_, Or.inl rfl⟩
      show (ts.map (·.m_Addr)).Nodup
      rw [resolveEdges_addrs hres]
      exact hnds
    | true =>
      obtain ⟨ts, _, hres, _, _, _, _, htasks⟩ := CalculateSchedule_true hpar hcall
      obtain ⟨hin, hord⟩ := success_ordered hpar hnone hnds hcache hcall hres
      obtain ⟨hpar', hnone'⟩ := CalculateSchedule_parallel hpar hcall
      refine ⟨hpar', hnone', ?_, Or.inr ⟨?_, ?_⟩⟩
      · rw [htasks, List.map_map]
        have : ((fun t : TaskDefinition => t.m_Addr) ∘ clearTask) = (·.m_Addr) := rfl
        rw [this, resolveEdges_addrs hres]
        exact hnds
      · intro u hu hf
        rw [htasks] at hu
        obtain ⟨t, ht, hta, htf, htm⟩ := cleared_func hres hu hf
        rw [← hta]
        exact hin t ht htf htm
      · intro m r hr a b hba ha hb
        rw [htasks] at hr
        have hsub := resolveEdges_under hD (cleared_earlier hres) hr hres
        exact hord a b (hba.mono (fun _ _ hab => requires_under hsub hab)) ha hb

/-- C7. Standard backbone: for tasks at different addresses and contracts
that depend on the task only, in every state a run of calls reaches from the
start (both cached arrays empty), with the contracts the six standard
abstract tasks declare, when `CalculateSchedule` returns true every two tasks
P and Q that have a function, are in phase, and contribute to standard
dependencies at positions `i < j` of the chain are both in the emitted
schedule, P before Q. -/
theorem C7_standard_backbone (tools : Bool) (D : TaskDefinition → TaskContract)
    (tasks : List TaskDefinition)
    (hD : ∀ t t' : TaskDefinition, t.m_Addr = t'.m_Addr → D t = D t')
    (hnd : (tasks.map (·.m_Addr)).Nodup) (s : TaskScheduler)
    (hreach : Reachable tools D tasks s) (mask : Nat) (s' : TaskScheduler)
    (h : CalculateSchedule tools D mask s = some (true, s')) (tags : StandardTags)
    (hback : StandardBackbone D s.tasks tags)
    (P Q : TaskDefinition) (hP : P ∈ s.tasks) (hQ : Q ∈ s.tasks)
    (hPf : P.m_Func ≠ none) (hPm : (D P).m_TickType &&& mask ≠ 0)
    (hQf : Q.m_Func ≠ none) (hQm : (D Q).m_TickType &&& mask ≠ 0)
    (i j : Nat) (hij : i < j) (hj : j < 6)
    (hPc : tags.tagAt i ∈ (D P).m_ContributedDependencies)
    (hQc : tags.tagAt j ∈ (D Q).m_ContributedDependencies) :
    P.m_Addr ∈ s'.m_ScheduleInfo ∧ Q.m_Addr ∈ s'.m_ScheduleInfo ∧
      s'.m_ScheduleInfo.indexOf P.m_Addr < s'.m_ScheduleInfo.indexOf Q.m_Addr := by
  obtain ⟨hpar, hnone, hnds, hcache⟩ := reachable_ordered hD hnd hreach
  obtain ⟨ts, _, hres, _, _, _, _, _⟩ := CalculateSchedule_true hpar h
  obtain ⟨hin, hord⟩ := success_ordered hpar hnone hnds hcache h hres
  have hPin := hin P hP hPf hPm
  have hQin := hin Q hQ hQf hQm
  exact ⟨hPin, hQin, hord _ _
    (backbone_path hres hback hP i hPc (j - (i + 1)) j (by omega) hj Q hQ hQc) hPin hQin⟩

theorem backboneContract_addr (t t' : TaskDefinition) (h : t.m_Addr = t'.m_Addr) :
    backboneContract t = backboneContract t' := by
  unfold backboneContract
  rw [h]

theorem C7_standard_backbone_witness :
    (1 : Nat) ∈ backboneResult.m_ScheduleInfo ∧ 2 ∈ backboneResult.m_ScheduleInfo ∧
      backboneResult.m_ScheduleInfo.indexOf 1 < backboneResult.m_ScheduleInfo.indexOf 2 :=
  C7_standard_backbone true backboneContract backboneTasks backboneContract_addr (by decide)
    backboneResult (Reachable.call 1 true Reachable.start (by decide)) 1 backboneResult
    (by decide) backboneTags
    (fun k hk => ⟨clearTask (definePass backboneContract 1 (scenarioTask (100 + k) none)), by
      have hlo : k = 0 ∨ k = 1 ∨ k = 2 ∨ k = 3 ∨ k = 4 ∨ k = 5 := by omega
      rcases hlo with rfl | rfl | rfl | rfl | rfl | rfl <;> decide, by
      have hlo : k = 0 ∨ k = 1 ∨ k = 2 ∨ k = 3 ∨ k = 4 ∨ k = 5 := by omega
      rcases hlo with rfl | rfl | rfl | rfl | rfl | rfl <;> decide,
      { m_TickType := 1, m_ContributedDependencies := [200 + k], m_OrderRequirements := [] }, by
      have hlo : k = 0 ∨ k = 1 ∨ k = 2 ∨ k = 3 ∨ k = 4 ∨ k = 5 := by omega
      rcases hlo with rfl | rfl | rfl | rfl | rfl | rfl <;> decide, by
      have hlo : k = 0 ∨ k = 1 ∨ k = 2 ∨ k = 3 ∨ k = 4 ∨ k = 5 := by omega
      rcases hlo with rfl | rfl | rfl | rfl | rfl | rfl <;> decide⟩)
    (clearTask (definePass backboneContract 1 (scenarioTask 1 (some 11))))
    (clearTask (definePass backboneContract 1 (scenarioTask 2 (some 12))))
    (by decide) (by decide) (by decide) (by decide) (by decide) (by decide)
    0 5 (by decide) (by decide) (by decide) (by decide)

/-- C3. A run on which phase filtering fails, against the scheduler's own
assertion: for a single task A of tick type 1, `CalculateSchedule(1)` from
empty arrays caches A with its function 11; `CalculateSchedule(2)` then
returns true, its first loop nulls the function of A, out of phase, and the
emitted schedule still holds A with the function 11, so that the assertion of
`ExecuteSchedule` on the two arrays fails. -/
theorem C3_stale_entry :
    CalculateSchedule true plainContract 1
        { tasks := [scenarioTask 1 (some 11)], m_ScheduleInfo := [], m_ScheduleFunc := [] } =
      some (true, staleFirst) ∧
      (∀ t ∈ staleFirst.tasks, (plainContract t).m_TickType &&& 2 = 0) ∧
      CalculateSchedule true plainContract 2 staleFirst = some (true, staleSecond) ∧
      1 ∈ staleSecond.m_ScheduleInfo ∧ some 11 ∈ staleSecond.m_ScheduleFunc ∧
      funcOf staleSecond.tasks 1 = none ∧ ExecuteSchedule staleSecond = none := by
  refine ⟨by decide, by decide, by decide, by decide, by decide, by decide, by decide⟩

end Helium
